import Mathlib

/-!
# c-doku: digit evaluation and solving assistants

A shallow embedding of `sudoku_test_digits.c` and `sudoku_assistant.c`.

* A board is `contents[row][column]`, read only at indices `0..8`.
* Bit fields (`SudokuDigitTestField`, a C `int` that only ever holds values in
  `0..511`) are natural numbers with the bitwise operations of `Nat`.
* C loops are left folds over the list of values taken by the loop variable; a
  loop whose condition also tests a flag skips its body once the flag is set.
-/

namespace CDoku

/-! ## Data model -/

/-- The matrix `contents[SUDOKU_ROW_COUNT][SUDOKU_COL_COUNT]` of `struct SudokuBoard`,
indexed by row and then column. A cell is a C `char` widened to `int`. -/
abbrev Board := Nat → Nat → Int

/-- The C `struct Coord2D` (both members are `size_t`). -/
structure Coord2D where
  col : Nat
  row : Nat
deriving DecidableEq, Repr

/-- The C `struct HistoryStep`. -/
structure HistoryStep where
  location : Coord2D
  newValue : Int
  oldValue : Int
deriving DecidableEq, Repr

/-- The enum `SUDOKU_COLLECTION_TYPE` of `sudoku_test_digits.c`. -/
inductive SUDOKU_COLLECTION_TYPE where
  | SUDOKU_IS_rows
  | SUDOKU_IS_columns
  | SUDOKU_IS_blocks
deriving DecidableEq, Repr

open SUDOKU_COLLECTION_TYPE

/-- The value `SUDOKU_TEST_ALLDIGITS` of the enum `DigitTestFlags`. -/
abbrev SUDOKU_TEST_ALLDIGITS : Nat := 511

/-- The C `#define SUDOKU_TEST_FLAG_SHIFT(number) (1 << ((number) - 1))`,
used only with `number` in `1..9`. -/
def SUDOKU_TEST_FLAG_SHIFT (number : Nat) : Nat := 1 <<< (number - 1)

/-- The C `#define SUDOKU_BLOCK_FROM_INTERSECTION(row, column) ((row) / 3) * 3 + (column) / 3`. -/
def SUDOKU_BLOCK_FROM_INTERSECTION (row column : Nat) : Nat := (row / 3) * 3 + column / 3

/-- The C expression `x & ~flags` on non-negative `int`s: the bits of `flags` are cleared
in `x` (in two's complement `x & ~f` and `x ^ (x & f)` are the same number). -/
def clearFlags (x flags : Nat) : Nat := x ^^^ (x &&& flags)

/-- The C `validateSudokuDigit(size_t digit)`: `digit >= 0 && digit <= SUDOKU_DIGIT_MAX`.
The argument is an `int` converted to `size_t`, so a negative value becomes a huge
unsigned one and fails the upper bound. When it returns false the function also prints
a line; that line is `Diagnostic.invalidSudokuDigit`, added by the callers below. -/
def validateSudokuDigit (digit : Int) : Bool := decide (0 ≤ digit ∧ digit ≤ 9)

/-- The C `struct DigitsPresent`. -/
structure DigitsPresent where
  columns : Nat → Nat
  rows : Nat → Nat
  blocks : Nat → Nat
  squaresIllegalOrBlank : Nat → Nat → Bool

/-- The result of `memset(digitsPresent, 0, sizeof(DigitsPresent))`. -/
def DigitsPresent.zero : DigitsPresent :=
  { columns := fun _ => 0, rows := fun _ => 0, blocks := fun _ => 0,
    squaresIllegalOrBlank := fun _ _ => false }

/-- The member `digitsPresent->type[collectionNumber]` selected by the macro argument `type`. -/
def DigitsPresent.field (dp : DigitsPresent) : SUDOKU_COLLECTION_TYPE → Nat → Nat
  | SUDOKU_IS_rows => dp.rows
  | SUDOKU_IS_columns => dp.columns
  | SUDOKU_IS_blocks => dp.blocks

/-- The assignment `digitsPresent->type[collectionNumber] |= flag`. -/
def DigitsPresent.orField (dp : DigitsPresent) (type : SUDOKU_COLLECTION_TYPE)
    (collectionNumber flag : Nat) : DigitsPresent :=
  match type with
  | SUDOKU_IS_rows =>
      { dp with rows := fun n => if n = collectionNumber then dp.rows n ||| flag else dp.rows n }
  | SUDOKU_IS_columns =>
      { dp with columns := fun n =>
          if n = collectionNumber then dp.columns n ||| flag else dp.columns n }
  | SUDOKU_IS_blocks =>
      { dp with blocks := fun n =>
          if n = collectionNumber then dp.blocks n ||| flag else dp.blocks n }

/-- The assignment `digitsPresent->squaresIllegalOrBlank[i][j] = true`. -/
def DigitsPresent.markIllegalOrBlank (dp : DigitsPresent) (i j : Nat) : DigitsPresent :=
  { dp with squaresIllegalOrBlank := fun r c =>
      if r = i ∧ c = j then true else dp.squaresIllegalOrBlank r c }

/-- One line printed by `evaluateDigitsPresent` or by the `validateSudokuDigit` it calls
(the arguments of the `printf`). -/
inductive Diagnostic where
  | invalidSudokuDigit (value : Int)
  | illegalDigit (row col : Nat) (value : Int)
  | repeatedDigit (type : SUDOKU_COLLECTION_TYPE) (row col block : Nat) (value : Int)
  | blankSquare (row col : Nat)
  | missingDigits (type : SUDOKU_COLLECTION_TYPE) (index : Nat)
  | solutionValid
deriving DecidableEq, Repr

/-- The variables `evaluateDigitsPresent` updates: the struct it fills, its local
`sudokuValid`, and the text written to standard output so far. -/
structure EvalState where
  digitsPresent : DigitsPresent
  sudokuValid : Bool
  output : List Diagnostic

/-! ## `evaluateDigitsPresent` -/

/-- The macro `EVALUATE_DIGIT(type, collectionNumber)` at square `(i, j)`, with the
current values of `k`, `value` and `verbose`. In the last branch the first line of output
is the one `validateSudokuDigit` prints itself, whatever `verbose` is, before it returns
false. -/
def EVALUATE_DIGIT (type : SUDOKU_COLLECTION_TYPE) (collectionNumber : Nat) (verbose : Bool)
    (i j k : Nat) (value : Int) (s : EvalState) : EvalState :=
  if validateSudokuDigit value then
    if value = 0 then
      { digitsPresent := s.digitsPresent.markIllegalOrBlank i j
        sudokuValid := false
        output :=
          if verbose && !s.digitsPresent.squaresIllegalOrBlank i j then
            s.output ++ [Diagnostic.blankSquare i j]
          else s.output }
    else
      let currentTestFlag := SUDOKU_TEST_FLAG_SHIFT value.toNat
      if s.digitsPresent.field type collectionNumber &&& currentTestFlag ≠ 0 then
        { s with
          sudokuValid := false
          output :=
            if verbose then s.output ++ [Diagnostic.repeatedDigit type i j k value]
            else s.output }
      else
        { s with
          digitsPresent := s.digitsPresent.orField type collectionNumber currentTestFlag }
  else
    { digitsPresent := s.digitsPresent.markIllegalOrBlank i j
      sudokuValid := false
      output :=
        if verbose && !s.digitsPresent.squaresIllegalOrBlank i j then
          s.output ++ [Diagnostic.invalidSudokuDigit value] ++ [Diagnostic.illegalDigit i j value]
        else s.output ++ [Diagnostic.invalidSudokuDigit value] }

/-- The `printf` after a row, column or block has been scanned: emitted when `verbose`
and the collection's field differs from `SUDOKU_TEST_ALLDIGITS`. -/
def reportMissing (type : SUDOKU_COLLECTION_TYPE) (n : Nat) (verbose : Bool)
    (s : EvalState) : EvalState :=
  if verbose && s.digitsPresent.field type n != SUDOKU_TEST_ALLDIGITS then
    { s with output := s.output ++ [Diagnostic.missingDigits type n] }
  else s

/-- The loop `// rows` of `evaluateDigitsPresent` (`k` is still `0`). -/
def evaluateRows (board : Board) (verbose : Bool) (s : EvalState) : EvalState :=
  (List.range 9).foldl (fun s i =>
    reportMissing SUDOKU_IS_rows i verbose
      ((List.range 9).foldl (fun s j =>
        EVALUATE_DIGIT SUDOKU_IS_rows i verbose i j 0 (board i j) s) s)) s

/-- The loop `// columns` of `evaluateDigitsPresent` (`k` is still `0`). -/
def evaluateColumns (board : Board) (verbose : Bool) (s : EvalState) : EvalState :=
  (List.range 9).foldl (fun s j =>
    reportMissing SUDOKU_IS_columns j verbose
      ((List.range 9).foldl (fun s i =>
        EVALUATE_DIGIT SUDOKU_IS_columns j verbose i j 0 (board i j) s) s)) s

/-- The loop `// Blocks` of `evaluateDigitsPresent`. -/
def evaluateBlocks (board : Board) (verbose : Bool) (s : EvalState) : EvalState :=
  (List.range 9).foldl (fun s k =>
    reportMissing SUDOKU_IS_blocks k verbose
      ((List.range' ((k / 3) * 3) 3).foldl (fun s i =>
        (List.range' ((k % 3) * 3) 3).foldl (fun s j =>
          EVALUATE_DIGIT SUDOKU_IS_blocks k verbose i j k (board i j) s) s) s)) s

/-- The C `evaluateDigitsPresent(board, digitsPresent, verbose)`: the filled struct, the
final value of the local `sudokuValid` and the printed text. -/
def evaluateDigitsPresent (board : Board) (verbose : Bool) : EvalState :=
  let s := evaluateBlocks board verbose
    (evaluateColumns board verbose
      (evaluateRows board verbose
        { digitsPresent := DigitsPresent.zero, sudokuValid := true, output := [] }))
  if verbose && s.sudokuValid then
    { s with output := s.output ++ [Diagnostic.solutionValid] }
  else s

/-! ## `assistantCrosshatch`

The assistants are modelled by the `HistoryStep` they return. Their `verbose` argument
only selects whether that suggestion (or the no-suggestion message) is also printed; it
is never read by the search itself. -/

/-- The value `{ 0 }` a suggestion starts from. -/
def noSuggestion : HistoryStep := { location := { col := 0, row := 0 }, newValue := 0, oldValue := 0 }

/-- The two loops of `assistantCrosshatch` over the squares of `block`: the squares
written to `candidates[]`, in the order written (`candidateCount` is the length). -/
def crosshatchCandidates (board : Board) (digitsPresent : DigitsPresent)
    (row column block testFlag : Nat) : List Coord2D :=
  (List.range' ((block / 3) * 3) 3).foldl (fun candidates blockRow =>
    (List.range' ((block % 3) * 3) 3).foldl (fun candidates blockColumn =>
      if board blockRow blockColumn = 0 ∧ blockRow ≠ row ∧ blockColumn ≠ column ∧
          digitsPresent.rows blockRow &&& testFlag = 0 ∧
          digitsPresent.columns blockColumn &&& testFlag = 0 then
        candidates ++ [{ col := blockColumn, row := blockRow }]
      else candidates) candidates) []

/-- The body of the `column` loop of `assistantCrosshatch`, with the loop test
`!suggestion.newValue` in front. -/
def crosshatchColumn (board : Board) (digitsPresent : DigitsPresent) (row digit : Nat)
    (suggestion : HistoryStep) (column : Nat) : HistoryStep :=
  if suggestion.newValue ≠ 0 then suggestion
  else
    let testFlag := SUDOKU_TEST_FLAG_SHIFT digit
    if digitsPresent.columns column &&& testFlag ≠ 0 then
      let block := SUDOKU_BLOCK_FROM_INTERSECTION row column
      if digitsPresent.blocks block &&& testFlag = 0 then
        let candidates := crosshatchCandidates board digitsPresent row column block testFlag
        if candidates.length = 1 then
          { suggestion with
            location := candidates.headD { col := 0, row := 0 }
            newValue := (digit : Int) }
        else suggestion
      else suggestion
    else suggestion

/-- The body of the `digit` loop of `assistantCrosshatch`, with the loop test
`!suggestion.newValue` in front. -/
def crosshatchDigit (board : Board) (digitsPresent : DigitsPresent) (row : Nat)
    (suggestion : HistoryStep) (digit : Nat) : HistoryStep :=
  if suggestion.newValue ≠ 0 then suggestion
  else if digitsPresent.rows row &&& SUDOKU_TEST_FLAG_SHIFT digit ≠ 0 then
    (List.range 9).foldl (crosshatchColumn board digitsPresent row digit) suggestion
  else suggestion

/-- The body of the `row` loop of `assistantCrosshatch`, with the loop test
`!suggestion.newValue` in front. -/
def crosshatchRow (board : Board) (digitsPresent : DigitsPresent)
    (suggestion : HistoryStep) (row : Nat) : HistoryStep :=
  if suggestion.newValue ≠ 0 then suggestion
  else (List.range' 1 9).foldl (crosshatchDigit board digitsPresent row) suggestion

/-- The C `assistantCrosshatch(board, verbose)`: the returned suggestion. -/
def assistantCrosshatch (board : Board) : HistoryStep :=
  (List.range 9).foldl
    (crosshatchRow board (evaluateDigitsPresent board false).digitsPresent) noSuggestion

/-! ## `assistantLocked` and `scanForSingleCandidate` -/

/-- The local `digitsPossible[SUDOKU_ROW_COUNT][SUDOKU_COL_COUNT]` of `assistantLocked`. -/
abbrev CandidateGrid := Nat → Nat → Nat

/-- The assignment `digitsPossible[row][column] = value`. -/
def setSquare (g : CandidateGrid) (row column value : Nat) : CandidateGrid :=
  fun r c => if r = row ∧ c = column then value else g r c

/-- The first loop of `assistantLocked` ("initial analysis of possible digits"), starting
from the array initialised with `{ 0 }`. -/
def initialDigitsPossible (board : Board) (digitsPresent : DigitsPresent) : CandidateGrid :=
  (List.range 9).foldl (fun g row =>
    (List.range 9).foldl (fun g column =>
      if board row column = 0 then
        let block := SUDOKU_BLOCK_FROM_INTERSECTION row column
        setSquare g row column
          (clearFlags (clearFlags (clearFlags SUDOKU_TEST_ALLDIGITS (digitsPresent.rows row))
            (digitsPresent.columns column)) (digitsPresent.blocks block))
      else g) g) (fun _ _ => 0)

/-- The assignment `digitPossibleInBlock[n] = true`. -/
def setFlag (flags : Nat → Bool) (n : Nat) : Nat → Bool :=
  fun i => if i = n then true else flags i

/-- Row pass, the loop over `column`: the array `digitPossibleInBlock[3]`. -/
def rowBlocksPossible (g : CandidateGrid) (row testFlag : Nat) : Nat → Bool :=
  (List.range 9).foldl (fun digitPossibleInBlock column =>
    if g row column &&& testFlag ≠ 0 then
      setFlag digitPossibleInBlock (SUDOKU_BLOCK_FROM_INTERSECTION row column % 3)
    else digitPossibleInBlock) (fun _ => false)

/-- Row pass, the loop over `i`: the pair `(possibleBlockCount, block)`; `block` enters
with the value left by the loop over `column`. -/
def rowBlockCount (digitPossibleInBlock : Nat → Bool) (row : Nat) : Nat × Nat :=
  (List.range 3).foldl (fun (cb : Nat × Nat) i =>
    if digitPossibleInBlock i then (cb.1 + 1, i + (row / 3) * 3) else cb)
    (0, SUDOKU_BLOCK_FROM_INTERSECTION row 8)

/-- Row pass, the loops under `possibleBlockCount == 1`: the digit is removed from the
squares of `block` outside `row`. -/
def clearOutsideRow (g : CandidateGrid) (block row testFlag : Nat) : CandidateGrid :=
  (List.range' ((block / 3) * 3) 3).foldl (fun g blockRow =>
    (List.range' ((block % 3) * 3) 3).foldl (fun g blockColumn =>
      if blockRow ≠ row then
        setSquare g blockRow blockColumn (clearFlags (g blockRow blockColumn) testFlag)
      else g) g) g

/-- Row pass, the body of the loop over `digit`. -/
def lockRowDigit (row : Nat) (g : CandidateGrid) (digit : Nat) : CandidateGrid :=
  let testFlag := SUDOKU_TEST_FLAG_SHIFT digit
  let cb := rowBlockCount (rowBlocksPossible g row testFlag) row
  if cb.1 = 1 then clearOutsideRow g cb.2 row testFlag else g

/-- The loop `"lock" candidates by block, processing rows` of `assistantLocked`. -/
def lockRows (g : CandidateGrid) : CandidateGrid :=
  (List.range 9).foldl (fun g row => (List.range' 1 9).foldl (lockRowDigit row) g) g

/-- Column pass, the loop over `row`: the array `digitPossibleInBlock[3]`. -/
def columnBlocksPossible (g : CandidateGrid) (column testFlag : Nat) : Nat → Bool :=
  (List.range 9).foldl (fun digitPossibleInBlock row =>
    if g row column &&& testFlag ≠ 0 then
      setFlag digitPossibleInBlock (SUDOKU_BLOCK_FROM_INTERSECTION row column / 3)
    else digitPossibleInBlock) (fun _ => false)

/-- Column pass, the loop over `i`: the pair `(possibleBlockCount, block)`; `block` enters
with the value left by the loop over `row`. -/
def columnBlockCount (digitPossibleInBlock : Nat → Bool) (column : Nat) : Nat × Nat :=
  (List.range 3).foldl (fun (cb : Nat × Nat) i =>
    if digitPossibleInBlock i then (cb.1 + 1, i * 3 + column / 3) else cb)
    (0, SUDOKU_BLOCK_FROM_INTERSECTION 8 column)

/-- Column pass, the loops under `possibleBlockCount == 1`: the digit is removed from the
squares of `block` outside `column`. -/
def clearOutsideColumn (g : CandidateGrid) (block column testFlag : Nat) : CandidateGrid :=
  (List.range' ((block / 3) * 3) 3).foldl (fun g blockRow =>
    (List.range' ((block % 3) * 3) 3).foldl (fun g blockColumn =>
      if blockColumn ≠ column then
        setSquare g blockRow blockColumn (clearFlags (g blockRow blockColumn) testFlag)
      else g) g) g

/-- Column pass, the body of the loop over `digit`. -/
def lockColumnDigit (column : Nat) (g : CandidateGrid) (digit : Nat) : CandidateGrid :=
  let testFlag := SUDOKU_TEST_FLAG_SHIFT digit
  let cb := columnBlockCount (columnBlocksPossible g column testFlag) column
  if cb.1 = 1 then clearOutsideColumn g cb.2 column testFlag else g

/-- The loop `"lock" candidates by block, processing columns` of `assistantLocked`. -/
def lockColumns (g : CandidateGrid) : CandidateGrid :=
  (List.range 9).foldl (fun g column => (List.range' 1 9).foldl (lockColumnDigit column) g) g

/-- The variables of `scanForSingleCandidate` that outlive one loop iteration. -/
structure ScanState where
  suggestionValue : Int
  suggestionFound : Bool
  suggestedSquare : Coord2D
deriving DecidableEq, Repr

/-- The loop over `bit` in `scanForSingleCandidate`: the pair `(numberFound, bitFlagged)`.
`bitFlagged` has no initial value in C; it is read only when `numberFound` is 1, that is
after this loop has assigned it. -/
def countFlaggedBits (field : Nat) : Nat × Nat :=
  (List.range 9).foldl (fun (nb : Nat × Nat) bit =>
    if (field >>> bit) &&& 1 ≠ 0 then (nb.1 + 1, bit) else nb) (0, 0)

/-- The first pair of loops of `scanForSingleCandidate` ("check all squares to see if only
one candidate is possible"), each with the loop test `!suggestionFound` in front. -/
def scanSquares (digitsPossible : CandidateGrid) (s : ScanState) : ScanState :=
  (List.range 9).foldl (fun s row =>
    if s.suggestionFound then s
    else (List.range 9).foldl (fun s column =>
      if s.suggestionFound then s
      else
        let nb := countFlaggedBits (digitsPossible row column)
        if nb.1 = 1 then
          { suggestionFound := true
            suggestedSquare := { col := column, row := row }
            suggestionValue := ((nb.2 + 1 : Nat) : Int) }
        else s) s) s

/-- The loops over the squares of `block` in the second part of `scanForSingleCandidate`:
the pair `(numberFound, *suggestedSquare)`. Their loop tests also read `suggestionFound`,
which cannot change inside them. -/
def countInBlock (digitsPossible : CandidateGrid) (block bit : Nat)
    (suggestedSquare : Coord2D) : Nat × Coord2D :=
  (List.range' ((block / 3) * 3) 3).foldl (fun ns row =>
    (List.range' ((block % 3) * 3) 3).foldl (fun (ns : Nat × Coord2D) column =>
      if digitsPossible row column &&& bit ≠ 0 then
        (ns.1 + 1, { col := column, row := row })
      else ns) ns) (0, suggestedSquare)

/-- The second group of loops of `scanForSingleCandidate` ("check if any block has only one
square possible for a candidate"), each with the loop test `!suggestionFound` in front. -/
def scanBlocks (digitsPossible : CandidateGrid) (s : ScanState) : ScanState :=
  (List.range' 1 9).foldl (fun s digit =>
    if s.suggestionFound then s
    else (List.range 9).foldl (fun s block =>
      if s.suggestionFound then s
      else
        let ns := countInBlock digitsPossible block (SUDOKU_TEST_FLAG_SHIFT digit)
          s.suggestedSquare
        if ns.1 = 1 then
          { suggestionFound := true, suggestedSquare := ns.2, suggestionValue := (digit : Int) }
        else { s with suggestedSquare := ns.2 }) s) s

/-- The C `scanForSingleCandidate(digitsPossible, suggestedSquare)`: the returned value
and the final contents of `*suggestedSquare`. -/
def scanForSingleCandidate (digitsPossible : CandidateGrid) (suggestedSquare : Coord2D) :
    Int × Coord2D :=
  let s := scanBlocks digitsPossible
    (scanSquares digitsPossible
      { suggestionValue := 0, suggestionFound := false, suggestedSquare := suggestedSquare })
  (s.suggestionValue, s.suggestedSquare)

/-- The C `assistantLocked(board, verbose)`: the returned suggestion. -/
def assistantLocked (board : Board) : HistoryStep :=
  let digitsPossible :=
    initialDigitsPossible board (evaluateDigitsPresent board false).digitsPresent
  let first := scanForSingleCandidate digitsPossible noSuggestion.location
  let suggestion : HistoryStep :=
    { noSuggestion with newValue := first.1, location := first.2 }
  if suggestion.newValue = 0 then
    let second := scanForSingleCandidate (lockColumns (lockRows digitsPossible))
      suggestion.location
    { suggestion with newValue := second.1, location := second.2 }
  else suggestion

/-- A board written as a list of rows; squares outside the lists are blank. -/
def boardOfRows (rows : List (List Int)) : Board :=
  fun i j => (rows.getD i []).getD j 0

/-! ## Proof-side vocabulary

The definitions below belong to the statements of the theorems, not to the program. -/

/-- The squares of row `i`, in the order the row loop visits them. -/
def rowCells (i : Nat) : List (Nat × Nat) := (List.range 9).map (fun j => (i, j))

/-- The squares of column `j`, in the order the column loop visits them. -/
def columnCells (j : Nat) : List (Nat × Nat) := (List.range 9).map (fun i => (i, j))

/-- The squares of block `k`, in the order the block loops visit them. -/
def blockCells (k : Nat) : List (Nat × Nat) :=
  (List.range' ((k / 3) * 3) 3).flatMap (fun i =>
    (List.range' ((k % 3) * 3) 3).map (fun j => (i, j)))

/-- A run of `EVALUATE_DIGIT(type, collectionNumber)` over a list of squares. -/
def scanCells (board : Board) (type : SUDOKU_COLLECTION_TYPE) (collectionNumber : Nat)
    (verbose : Bool) (k : Nat) (cells : List (Nat × Nat)) (s : EvalState) : EvalState :=
  cells.foldl (fun s c =>
    EVALUATE_DIGIT type collectionNumber verbose c.1 c.2 k (board c.1 c.2) s) s

/-- A whole pass of `evaluateDigitsPresent` over the collections `idxs` of one kind. -/
def scanPass (board : Board) (type : SUDOKU_COLLECTION_TYPE) (verbose : Bool)
    (kOf : Nat → Nat) (cellsOf : Nat → List (Nat × Nat)) (idxs : List Nat)
    (s : EvalState) : EvalState :=
  idxs.foldl (fun s n =>
    reportMissing type n verbose (scanCells board type n verbose (kOf n) (cellsOf n) s)) s

/-- The start state of `evaluateDigitsPresent`, after the `memset`. -/
def evalStart : EvalState :=
  { digitsPresent := DigitsPresent.zero, sudokuValid := true, output := [] }

/-- The digits a solved row, column or block is a rearrangement of. -/
def allDigits : List Int := [1, 2, 3, 4, 5, 6, 7, 8, 9]

/-- Every row, every column and every 3x3 block of the board is a permutation of 1..9. -/
def IsSolved (board : Board) : Prop :=
  ∀ i < 9,
    ((rowCells i).map (fun c => board c.1 c.2)).Perm allDigits ∧
    ((columnCells i).map (fun c => board c.1 c.2)).Perm allDigits ∧
    ((blockCells i).map (fun c => board c.1 c.2)).Perm allDigits

instance (board : Board) : Decidable (IsSolved board) := by
  unfold IsSolved; infer_instance

/-- A completed puzzle, used to instantiate the theorems. -/
def solvedExample : Board := boardOfRows [
  [5, 3, 4, 6, 7, 8, 9, 1, 2],
  [6, 7, 2, 1, 9, 5, 3, 4, 8],
  [1, 9, 8, 3, 4, 2, 5, 6, 7],
  [8, 5, 9, 7, 6, 1, 4, 2, 3],
  [4, 2, 6, 8, 5, 3, 7, 9, 1],
  [7, 1, 3, 9, 2, 4, 8, 5, 6],
  [9, 6, 1, 5, 3, 7, 2, 8, 4],
  [2, 8, 7, 4, 1, 9, 6, 3, 5],
  [3, 4, 5, 2, 8, 6, 1, 7, 9]]

/-- The puzzle `solvedExample` completes. -/
def puzzleExample : Board := boardOfRows [
  [5, 3, 0, 0, 7, 0, 0, 0, 0],
  [6, 0, 0, 1, 9, 5, 0, 0, 0],
  [0, 9, 8, 0, 0, 0, 0, 6, 0],
  [8, 0, 0, 0, 6, 0, 0, 0, 3],
  [4, 0, 0, 8, 0, 3, 0, 0, 1],
  [7, 0, 0, 0, 2, 0, 0, 0, 6],
  [0, 6, 0, 0, 0, 0, 2, 8, 0],
  [0, 0, 0, 4, 1, 9, 0, 0, 5],
  [0, 0, 0, 0, 8, 0, 0, 7, 9]]

/-- The test `assistantCrosshatch` applies to a square of the block under scan. -/
def CrosshatchEligible (board : Board) (digitsPresent : DigitsPresent)
    (row column testFlag : Nat) (c : Nat × Nat) : Prop :=
  board c.1 c.2 = 0 ∧ c.1 ≠ row ∧ c.2 ≠ column ∧
    digitsPresent.rows c.1 &&& testFlag = 0 ∧ digitsPresent.columns c.2 &&& testFlag = 0

instance (board : Board) (digitsPresent : DigitsPresent) (row column testFlag : Nat)
    (c : Nat × Nat) : Decidable (CrosshatchEligible board digitsPresent row column testFlag c) := by
  unfold CrosshatchEligible; infer_instance

/-- What one iteration of the `column` loop of `assistantCrosshatch` finds, if anything. -/
def crosshatchHit (board : Board) (digitsPresent : DigitsPresent) (row digit column : Nat) :
    Option HistoryStep :=
  if digitsPresent.columns column &&& SUDOKU_TEST_FLAG_SHIFT digit ≠ 0 ∧
      digitsPresent.blocks (SUDOKU_BLOCK_FROM_INTERSECTION row column) &&&
        SUDOKU_TEST_FLAG_SHIFT digit = 0 ∧
      (crosshatchCandidates board digitsPresent row column
        (SUDOKU_BLOCK_FROM_INTERSECTION row column) (SUDOKU_TEST_FLAG_SHIFT digit)).length = 1 then
    some
      { location := (crosshatchCandidates board digitsPresent row column
          (SUDOKU_BLOCK_FROM_INTERSECTION row column)
          (SUDOKU_TEST_FLAG_SHIFT digit)).headD { col := 0, row := 0 }
        newValue := (digit : Int)
        oldValue := 0 }
  else none

/-- What one iteration of the `digit` loop of `assistantCrosshatch` finds, if anything. -/
def crosshatchDigitHit (board : Board) (digitsPresent : DigitsPresent) (row digit : Nat) :
    Option HistoryStep :=
  if digitsPresent.rows row &&& SUDOKU_TEST_FLAG_SHIFT digit ≠ 0 then
    (List.range 9).findSome? (crosshatchHit board digitsPresent row digit)
  else none

/-- What one iteration of the `row` loop of `assistantCrosshatch` finds, if anything. -/
def crosshatchRowHit (board : Board) (digitsPresent : DigitsPresent) (row : Nat) :
    Option HistoryStep :=
  (List.range' 1 9).findSome? (crosshatchDigitHit board digitsPresent row)

/-- Digit `d` occurs in row `r` of the board. -/
def InRow (board : Board) (r : Nat) (d : Int) : Prop := ∃ c < 9, board r c = d

/-- Digit `d` occurs in column `c` of the board. -/
def InColumn (board : Board) (c : Nat) (d : Int) : Prop := ∃ r < 9, board r c = d

/-- Digit `d` occurs in block `k` of the board. -/
def InBlock (board : Board) (k : Nat) (d : Int) : Prop := ∃ c ∈ blockCells k, board c.1 c.2 = d

instance (board : Board) (r : Nat) (d : Int) : Decidable (InRow board r d) := by
  unfold InRow; infer_instance

instance (board : Board) (c : Nat) (d : Int) : Decidable (InColumn board c d) := by
  unfold InColumn; infer_instance

instance (board : Board) (k : Nat) (d : Int) : Decidable (InBlock board k d) := by
  unfold InBlock; infer_instance

/-- The squares still eligible for `digit` at the crossing of `row` and `column`: the
blank squares of the crossing's block outside that row and that column whose own row and
column do not contain the digit, in row-major order. -/
def eligibleCells (board : Board) (row digit column : Nat) : List (Nat × Nat) :=
  (blockCells (SUDOKU_BLOCK_FROM_INTERSECTION row column)).filter (fun c =>
    decide (board c.1 c.2 = 0 ∧ c.1 ≠ row ∧ c.2 ≠ column ∧
      ¬ InRow board c.1 (digit : Int) ∧ ¬ InColumn board c.2 (digit : Int)))

/-- A square as the `Coord2D` the program stores. -/
def toCoord (c : Nat × Nat) : Coord2D := { col := c.2, row := c.1 }

/-- The triple `(row, digit, column)` qualifies: the digit is present in that row and in
that column, the block at their crossing does not contain it, and exactly one square of
that block is eligible. -/
def Qualifies (board : Board) (t : Nat × Nat × Nat) : Prop :=
  InRow board t.1 (t.2.1 : Int) ∧ InColumn board t.2.2 (t.2.1 : Int) ∧
    ¬ InBlock board (SUDOKU_BLOCK_FROM_INTERSECTION t.1 t.2.2) (t.2.1 : Int) ∧
    (eligibleCells board t.1 t.2.1 t.2.2).length = 1

instance (board : Board) (t : Nat × Nat × Nat) : Decidable (Qualifies board t) := by
  unfold Qualifies; infer_instance

/-- All triples `(row, digit, column)`, ordered by row, then digit, then column. -/
def crosshatchTriples : List (Nat × Nat × Nat) :=
  (List.range 9).flatMap (fun row =>
    (List.range' 1 9).flatMap (fun digit =>
      (List.range 9).map (fun column => (row, digit, column))))

/-- The suggestion a qualifying triple stands for: its eligible square and its digit. -/
def suggestionOfTriple (board : Board) (t : Nat × Nat × Nat) : HistoryStep :=
  { location := toCoord ((eligibleCells board t.1 t.2.1 t.2.2).headD (0, 0))
    newValue := (t.2.1 : Int)
    oldValue := 0 }

/-- The reference definition of the cross-hatch assistant: the suggestion of the least
qualifying triple, and the no-suggestion value when no triple qualifies. -/
def crosshatchReference (board : Board) : HistoryStep :=
  match crosshatchTriples.find? (fun t => decide (Qualifies board t)) with
  | some t => suggestionOfTriple board t
  | none => noSuggestion

/-- The board `S` completes the board `G`: it agrees with `G` on every square of `G` that
is not blank. -/
def Completes (S G : Board) : Prop := ∀ r < 9, ∀ c < 9, G r c ≠ 0 → S r c = G r c

instance (S G : Board) : Decidable (Completes S G) := by
  unfold Completes; infer_instance

/-- All squares of the board in row-major order. -/
def allSquares : List (Nat × Nat) :=
  (List.range 9).flatMap (fun r => (List.range 9).map (fun c => (r, c)))

/-- The bits `0..8` set in a candidate field, in ascending order. -/
def candidateBits (m : Nat) : List Nat := (List.range 9).filter (fun b => m.testBit b)

/-- The candidate field has exactly one of the bits `0..8` set. -/
def HasOneBit (m : Nat) : Prop := (candidateBits m).length = 1

instance (m : Nat) : Decidable (HasOneBit m) := by
  unfold HasOneBit; infer_instance

/-- All pairs `(digit, block)`, ordered by digit and then by block. -/
def digitBlockPairs : List (Nat × Nat) :=
  (List.range' 1 9).flatMap (fun d => (List.range 9).map (fun b => (d, b)))

/-- The squares of `block` whose candidate field still holds `digit`, in row-major order. -/
def holders (g : CandidateGrid) (digit block : Nat) : List (Nat × Nat) :=
  (blockCells block).filter (fun c => (g c.1 c.2).testBit (digit - 1))

/-- The first square, in row-major order, with exactly one candidate bit, together with
the digit (bit index + 1) of that bit. -/
def nakedSingle (g : CandidateGrid) : Option (Coord2D × Int) :=
  (allSquares.find? (fun c => decide (HasOneBit (g c.1 c.2)))).map (fun c =>
    (toCoord c, (((candidateBits (g c.1 c.2)).headD 0 + 1 : Nat) : Int)))

/-- The first pair (digit ascending, then block ascending) for which exactly one square of
the block holds the digit, as that square and the digit. -/
def blockSingle (g : CandidateGrid) : Option (Coord2D × Int) :=
  (digitBlockPairs.find? (fun p => decide ((holders g p.1 p.2).length = 1))).map (fun p =>
    (toCoord ((holders g p.1 p.2).headD (0, 0)), (p.1 : Int)))

/-- A returned `HistoryStep` read as a suggestion: nothing when the digit is 0, else the
square and the digit. -/
def suggestionOf (h : HistoryStep) : Option (Coord2D × Int) :=
  if h.newValue = 0 then none else some (h.location, h.newValue)

/-- The body of the square loops of `scanForSingleCandidate`, without the loop test. -/
def scanSquareBody (g : CandidateGrid) (s : ScanState) (c : Nat × Nat) : ScanState :=
  if (countFlaggedBits (g c.1 c.2)).1 = 1 then
    { suggestionFound := true
      suggestedSquare := { col := c.2, row := c.1 }
      suggestionValue := (((countFlaggedBits (g c.1 c.2)).2 + 1 : Nat) : Int) }
  else s

/-- The body of the `(digit, block)` loops of `scanForSingleCandidate`, without the loop
test. -/
def scanBlockBody (g : CandidateGrid) (s : ScanState) (p : Nat × Nat) : ScanState :=
  if (countInBlock g p.2 (SUDOKU_TEST_FLAG_SHIFT p.1) s.suggestedSquare).1 = 1 then
    { suggestionFound := true
      suggestedSquare := (countInBlock g p.2 (SUDOKU_TEST_FLAG_SHIFT p.1) s.suggestedSquare).2
      suggestionValue := (p.1 : Int) }
  else
    { s with
      suggestedSquare := (countInBlock g p.2 (SUDOKU_TEST_FLAG_SHIFT p.1) s.suggestedSquare).2 }

/-- Step 1 of the locked-candidate assistant: the candidate grid `assistantLocked` builds
from a fresh `evaluateDigitsPresent` pass. -/
def candidateGrid (board : Board) : CandidateGrid :=
  initialDigitsPossible board (evaluateDigitsPresent board false).digitsPresent

/-- Step 3 of the locked-candidate assistant: the candidate grid after the row pass and the
column pass of the elimination. -/
def reducedGrid (board : Board) : CandidateGrid :=
  lockColumns (lockRows (candidateGrid board))

/-- Every blank square of `G` still allows the digit the solved board `S` puts there. -/
def SoundFor (G S : Board) (g : CandidateGrid) : Prop :=
  ∀ r < 9, ∀ c < 9, G r c = 0 → (g r c).testBit ((S r c).toNat - 1) = true

/-- The sparse board on which `assistantLocked` and the five-step procedure disagree. -/
def lockedExample : Board := boardOfRows [
  [0, 0, 0, 0, 0, 0, 0, 0, 0],
  [0, 0, 0, 0, 0, 0, 0, 0, 0],
  [0, 0, 0, 0, 0, 0, 4, 0, 0],
  [0, 0, 0, 0, 0, 0, 0, 0, 4],
  [0, 0, 0, 0, 0, 0, 0, 6, 0],
  [0, 0, 0, 0, 0, 0, 0, 0, 0],
  [0, 0, 0, 0, 0, 0, 0, 0, 0],
  [0, 4, 0, 0, 0, 0, 0, 0, 0],
  [0, 0, 0, 3, 8, 0, 0, 2, 1]]

/-- The suggestion is a legal move on the board: a blank square of the grid and a digit
of 1..9 that occurs neither in the square's row, nor in its column, nor in its block. -/
def LegalMove (board : Board) (h : HistoryStep) : Prop :=
  h.location.row < 9 ∧ h.location.col < 9 ∧ 1 ≤ h.newValue ∧ h.newValue ≤ 9 ∧
    board h.location.row h.location.col = 0 ∧
    ¬ InRow board h.location.row h.newValue ∧
    ¬ InColumn board h.location.col h.newValue ∧
    ¬ InBlock board (SUDOKU_BLOCK_FROM_INTERSECTION h.location.row h.location.col) h.newValue

instance (board : Board) (h : HistoryStep) : Decidable (LegalMove board h) := by
  unfold LegalMove; infer_instance

/-- Row-major order on squares: earlier row, or same row and earlier column. -/
def RowMajorLt (a b : Nat × Nat) : Prop := a.1 < b.1 ∨ (a.1 = b.1 ∧ a.2 < b.2)

instance (a b : Nat × Nat) : Decidable (RowMajorLt a b) := by
  unfold RowMajorLt; infer_instance

/-- The board `S` with the single square `(r, c)` blanked. -/
def blankAt (S : Board) (r c : Nat) : Board :=
  fun i j => if i = r ∧ j = c then 0 else S i j

/-- A board with one out-of-range square: square (0, 0) holds 10, the rest is blank. -/
def illegalExample : Board := boardOfRows [[10]]

/-- In the candidate grid `g`, the squares of row `r` that still allow digit `d` all lie in
exactly one of the row's three blocks, block `k`: some square of the row inside block `k`
allows the digit and none outside does. -/
def ConfinedToBlock (g : CandidateGrid) (r d k : Nat) : Prop :=
  k / 3 = r / 3 ∧ k < 9 ∧
    (∃ c < 9, (g r c).testBit (d - 1) = true ∧ c / 3 = k % 3) ∧
    ∀ c < 9, (g r c).testBit (d - 1) = true → c / 3 = k % 3

instance (g : CandidateGrid) (r d k : Nat) : Decidable (ConfinedToBlock g r d k) := by
  unfold ConfinedToBlock; infer_instance

/-- The working candidate grid at the moment the row pass reaches row `r` and digit `d`:
the grid `g` with the steps of all earlier rows, and of the smaller digits of row `r`,
applied. -/
def rowPassBefore (g : CandidateGrid) (r d : Nat) : CandidateGrid :=
  (List.range' 1 (d - 1)).foldl (lockRowDigit r)
    ((List.range r).foldl (fun g row => (List.range' 1 9).foldl (lockRowDigit row) g) g)

/-! ### The locked-candidate procedure in the words of the specification

The definitions of this part follow section 4.3 of the specification and are not taken
from the loops of `assistantLocked`. A candidate mask is the set of the digits of 1..9 a
square still allows, bit `d - 1` standing for digit `d`. Step 3 works on one grid: each row
and digit, and then each column and digit, is judged on the grid as the earlier ones left
it ("still have that digit possible"). -/

/-- The mask of the digits `d` of 1..9 with `p d`. -/
def digitMask (p : Nat → Bool) : Nat :=
  ((List.range' 1 9).filter p).foldl (fun m d => m ||| 2 ^ (d - 1)) 0

/-- Step 1 in the words of the specification: the mask of a blank square is all digits
minus those present in its row, its column or its block; no other square has a candidate. -/
def specCandidateGrid (board : Board) : CandidateGrid := fun r c =>
  if r < 9 ∧ c < 9 ∧ board r c = 0 then
    digitMask (fun d => decide (¬ InRow board r (d : Int) ∧ ¬ InColumn board c (d : Int) ∧
      ¬ InBlock board (SUDOKU_BLOCK_FROM_INTERSECTION r c) (d : Int)))
  else 0

/-- In the candidate grid `g`, the squares of column `c` that still allow digit `d` all lie
in exactly one of the column's three blocks, block `k`: some square of the column inside
block `k` allows the digit and none outside does. -/
def ConfinedToBlockInColumn (g : CandidateGrid) (c d k : Nat) : Prop :=
  k % 3 = c / 3 ∧ k < 9 ∧
    (∃ r < 9, (g r c).testBit (d - 1) = true ∧ r / 3 = k / 3) ∧
    ∀ r < 9, (g r c).testBit (d - 1) = true → r / 3 = k / 3

instance (g : CandidateGrid) (c d k : Nat) : Decidable (ConfinedToBlockInColumn g c d k) := by
  unfold ConfinedToBlockInColumn; infer_instance

/-- Step 3 in the words of the specification, for row `r` and digit `d`: when the digit's
possibility within the row is confined to exactly one block, the digit is cleared from
every square of that block outside the row; otherwise nothing changes. -/
def eliminateFromRow (g : CandidateGrid) (r d : Nat) : CandidateGrid := fun i j =>
  if ∃ k < 9, ConfinedToBlock g r d k ∧ (i, j) ∈ blockCells k ∧ i ≠ r then
    digitMask (fun e => (g i j).testBit (e - 1) && decide (e ≠ d))
  else g i j

/-- Step 3 in the words of the specification, for column `c` and digit `d`: the same rule
with the column in the place of the row. -/
def eliminateFromColumn (g : CandidateGrid) (c d : Nat) : CandidateGrid := fun i j =>
  if ∃ k < 9, ConfinedToBlockInColumn g c d k ∧ (i, j) ∈ blockCells k ∧ j ≠ c then
    digitMask (fun e => (g i j).testBit (e - 1) && decide (e ≠ d))
  else g i j

/-- Step 3 in the words of the specification: the rule for each row and each digit, and
then for each column and each digit. -/
def specElimination (g : CandidateGrid) : CandidateGrid :=
  (List.range 9).foldl
    (fun g c => (List.range' 1 9).foldl (fun g d => eliminateFromColumn g c d) g)
    ((List.range 9).foldl
      (fun g r => (List.range' 1 9).foldl (fun g d => eliminateFromRow g r d) g) g)

/-- The candidate grid after step 3, in the words of the specification. -/
def specReducedGrid (board : Board) : CandidateGrid :=
  specElimination (specCandidateGrid board)

/-- The five-step procedure of the specification: the naked-single scan on the candidate
grid, then the elimination, then the naked-single scan on the reduced grid, and only then
the `(digit, block)` scan on the reduced grid. -/
def lockedFiveSteps (board : Board) : Option (Coord2D × Int) :=
  match nakedSingle (specCandidateGrid board) with
  | some s => some s
  | none =>
    match nakedSingle (specReducedGrid board) with
    | some s => some s
    | none => blockSingle (specReducedGrid board)

/-- The procedure with both scans before and after the elimination: the naked-single scan
and the `(digit, block)` scan on the candidate grid, then the elimination, then the two
scans again on the reduced grid. -/
def lockedTwoScans (board : Board) : Option (Coord2D × Int) :=
  match nakedSingle (specCandidateGrid board) with
  | some s => some s
  | none =>
    match blockSingle (specCandidateGrid board) with
    | some s => some s
    | none =>
      match nakedSingle (specReducedGrid board) with
      | some s => some s
      | none => blockSingle (specReducedGrid board)

/-- The candidate masks hold no bit beyond the nine digits. -/
def NineBits (g : CandidateGrid) : Prop := ∀ r c t, (g r c).testBit t = true → t < 9

/-- A board whose column 0 leaves digit 1 to block 0 only: the squares of the column below
row 2 are filled. -/
def columnPassExample : Board := boardOfRows [
  [0, 0], [0, 0], [0, 0], [2, 5], [3, 6], [4, 7], [5, 2], [6, 3], [7, 4]]

/-- A board whose rows 0 and 1 both leave the digits 1, 8 and 9 to block 0 only. -/
def twoLockedRowsExample : Board := boardOfRows [
  [0, 0, 0, 2, 3, 4, 5, 6, 7],
  [0, 0, 0, 5, 6, 7, 2, 3, 4]]

/-! ## The edit history (`sudoku_undo.c`)

The history functions print what they do (`puts`, `printf`); that text is not part of the
model, which keeps the state they leave and the value they return. A call that ends in
`terminate` is an `Except.error` carrying the message; for `addUndoStep` the error also
carries the program state at the moment of the call of `terminate`. -/

/-- The C `struct HistoryStruct`. `steps` holds the contents of the allocated array by
index (the allocation covers the indices below `capacity`), and `currentStep` is the index
`currentStep - steps`. The member `owner` is not stored: the owner of a history is the
`SudokuBoard` that holds it. Allocation is taken to succeed, so `steps` and `currentStep`
are never NULL, and sizes are taken to stay below `2 ^ 64`. -/
structure HistoryStruct where
  steps : Nat → HistoryStep
  currentStep : Nat
  length : Nat
  capacity : Nat

/-- The C `struct SudokuBoard`. The member `history` is the pointer `History`, `none` when
it is NULL. -/
structure SudokuBoard where
  contents : Board
  history : Option HistoryStruct

/-- The C `validateRowIndex(size_t row)`: `row >= 0 && row < SUDOKU_ROW_COUNT`. -/
def validateRowIndex (row : Nat) : Bool := decide (row < 9)

/-- The C `validateColIndex(size_t column)`: `column >= 0 && column < SUDOKU_COL_COUNT`. -/
def validateColIndex (column : Nat) : Bool := decide (column < 9)

/-- The C `validateSudokuCoord2D(coord)`. -/
def validateSudokuCoord2D (coord : Coord2D) : Bool :=
  validateColIndex coord.col && validateRowIndex coord.row

/-- The assignment `steps[index] = step`. -/
def setStep (steps : Nat → HistoryStep) (index : Nat) (step : HistoryStep) : Nat → HistoryStep :=
  fun i => if i = index then step else steps i

/-- The assignment `contents[row][col] = value`. The C array has 9 rows of 9 squares, and
an index of 9 or more is outside it; the function is total, and `readsFault` is the test
that a step read from the history names a square of the array. -/
def setContents (contents : Board) (row col : Nat) (value : Int) : Board :=
  fun r c => if r = row ∧ c = col then value else contents r c

/-- The C `createHistory(owner)`: capacity 1, length 0, `currentStep` at the start of the
array. The fresh array is uninitialised in C; here it holds zeroed steps, and
`TrackedBoard` further down records which cells have been assigned since. -/
def createHistory : HistoryStruct :=
  { steps := fun _ => noSuggestion, currentStep := 0, length := 0, capacity := 1 }

/-- The C `growHistory(history, stepsToAdd)`. The test compares `stepsToAdd` with the
`size_t` difference `capacity - length`, which wraps around when `length > capacity`;
`realloc` keeps the contents and `currentStep` keeps its index. -/
def growHistory (history : Option HistoryStruct) (stepsToAdd : Nat) :
    Except String HistoryStruct :=
  match history with
  | some h =>
    if stepsToAdd > (h.capacity + 2 ^ 64 - h.length) % 2 ^ 64 then
      Except.ok { h with capacity := h.capacity * 2 }
    else Except.ok h
  | none => Except.error "ERROR: tried to grow a null History"

/-- The C `addUndoStep(history, square, value)`, with `history == board.history` and
`history->owner == board`. -/
def addUndoStep (board : SudokuBoard) (square : Coord2D) (value : Int) :
    Except (String × SudokuBoard) SudokuBoard :=
  match board.history with
  | some history =>
    if validateSudokuCoord2D square then
      if validateSudokuDigit value then
        match growHistory
          (some
            { history with
              steps := setStep history.steps history.currentStep
                { location := square
                  newValue := value
                  oldValue := board.contents square.row square.col }
              currentStep := history.currentStep + 1
              length := history.length + 1 }) 1 with
        | Except.ok grown => Except.ok { board with history := some grown }
        | Except.error e =>
          Except.error (e,
            { board with
              history := some
                { history with
                  steps := setStep history.steps history.currentStep
                    { location := square
                      newValue := value
                      oldValue := board.contents square.row square.col }
                  currentStep := history.currentStep + 1
                  length := history.length + 1 } })
      else Except.error ("ERROR: tried to add undo step with invalid sudoku digit", board)
    else Except.error ("ERROR: tried to add undo step with invalid square address", board)
  | none => Except.error ("ERROR: tried to add undo step to null History", board)

/-- One round of the `for` loop of `undoStep`, with the part
`history->currentStep != history->steps` of the loop test in front: the board contents
and the history after it. -/
def undoLoopBody (s : Board × HistoryStruct) : Board × HistoryStruct :=
  if s.2.currentStep = 0 then s
  else
    let history := { s.2 with currentStep := s.2.currentStep - 1 }
    let currentSquare := (history.steps history.currentStep).location
    (setContents s.1 currentSquare.row currentSquare.col
      (history.steps history.currentStep).oldValue, history)

/-- The `for` loop of `undoStep`: `i` runs over `0 .. stepsToUndo - 1`. -/
def undoLoop (stepsToUndo : Nat) (s : Board × HistoryStruct) : Board × HistoryStruct :=
  (List.range stepsToUndo).foldl (fun s _ => undoLoopBody s) s

/-- The C `undoStep(history, stepsToUndo)`, with `history == board.history` and
`history->owner == board`: the board afterwards and the returned `status`. -/
def undoStep (board : SudokuBoard) (stepsToUndo : Nat) : Except String (SudokuBoard × Bool) :=
  match board.history with
  | some history =>
    if stepsToUndo ≠ 0 then
      if history.currentStep = 0 then Except.ok (board, false)
      else
        Except.ok
          ({ contents := (undoLoop stepsToUndo (board.contents, history)).1
             history := some (undoLoop stepsToUndo (board.contents, history)).2 }, true)
    else Except.ok (board, true)
  | none => Except.error "ERROR: tried to restore undo step from a null History"

/-- One round of the `for` loop of `redoStep`, with the part
`history->currentStep != history->steps + history->length` of the loop test in front. -/
def redoLoopBody (s : Board × HistoryStruct) : Board × HistoryStruct :=
  if s.2.currentStep = s.2.length then s
  else
    let currentSquare := (s.2.steps s.2.currentStep).location
    (setContents s.1 currentSquare.row currentSquare.col
      (s.2.steps s.2.currentStep).newValue,
      { s.2 with currentStep := s.2.currentStep + 1 })

/-- The `for` loop of `redoStep`: `i` runs over `0 .. stepsToRedo - 1`. -/
def redoLoop (stepsToRedo : Nat) (s : Board × HistoryStruct) : Board × HistoryStruct :=
  (List.range stepsToRedo).foldl (fun s _ => redoLoopBody s) s

/-- The C `redoStep(history, stepsToRedo)`, with `history == board.history` and
`history->owner == board`: the board afterwards and the returned `status`. -/
def redoStep (board : SudokuBoard) (stepsToRedo : Nat) : Except String (SudokuBoard × Bool) :=
  match board.history with
  | some history =>
    if stepsToRedo ≠ 0 then
      if history.currentStep = history.length then Except.ok (board, false)
      else
        Except.ok
          ({ contents := (redoLoop stepsToRedo (board.contents, history)).1
             history := some (redoLoop stepsToRedo (board.contents, history)).2 }, true)
    else Except.ok (board, true)
  | none => Except.error "ERROR: tried to restore undo step from a null History"

/-- The C `invalidateSubsequentRedoSteps(history)`: `length = currentStep - steps`. The C
function dereferences the pointer without a test; a NULL history is left as it is here. -/
def invalidateSubsequentRedoSteps (board : SudokuBoard) : SudokuBoard :=
  match board.history with
  | some history => { board with history := some { history with length := history.currentStep } }
  | none => board

/-! ### The assistants on the program state

The definitions of the assistants further up give the returned suggestion as a function of
the board contents. Here the same C functions are written once more with the memory they
can reach passed through every statement: the `SudokuBoard` behind the pointer `board`
(contents and history) and the locals of the function that outlive a statement. Loops that
assign only to variables declared inside them (`candidates`, `candidateCount`,
`digitPossibleInBlock`, `possibleBlockCount`, `block`) are the functions of further up,
applied to what they read. `scanForSingleCandidate` receives the local `digitsPossible` and
a pointer into the local `suggestion`, and no pointer to the board. -/

/-- The memory `evaluateDigitsPresent` works on: the board behind its first argument, and
in `eval` the struct behind its second argument, its local `sudokuValid` and the text
printed. -/
structure EvalMemory where
  board : SudokuBoard
  eval : EvalState

/-- The statement `value = CURRENT_ITEM;` (a read of `board->contents[i][j]`) followed by
the macro `EVALUATE_DIGIT(type, collectionNumber)`, whose assignments go to members of
`*digitsPresent` and to `sudokuValid`. -/
def evaluateSquare (type : SUDOKU_COLLECTION_TYPE) (collectionNumber : Nat) (verbose : Bool)
    (i j k : Nat) (m : EvalMemory) : EvalMemory :=
  { m with
    eval := EVALUATE_DIGIT type collectionNumber verbose i j k (m.board.contents i j) m.eval }

/-- The loop `// rows` of `evaluateDigitsPresent` on the memory. -/
def evaluateRowsOn (verbose : Bool) (m : EvalMemory) : EvalMemory :=
  (List.range 9).foldl (fun m i =>
    (fun m : EvalMemory => { m with eval := reportMissing SUDOKU_IS_rows i verbose m.eval })
      ((List.range 9).foldl (fun m j => evaluateSquare SUDOKU_IS_rows i verbose i j 0 m) m)) m

/-- The loop `// columns` of `evaluateDigitsPresent` on the memory. -/
def evaluateColumnsOn (verbose : Bool) (m : EvalMemory) : EvalMemory :=
  (List.range 9).foldl (fun m j =>
    (fun m : EvalMemory => { m with eval := reportMissing SUDOKU_IS_columns j verbose m.eval })
      ((List.range 9).foldl (fun m i => evaluateSquare SUDOKU_IS_columns j verbose i j 0 m)
        m)) m

/-- The loop `// Blocks` of `evaluateDigitsPresent` on the memory. -/
def evaluateBlocksOn (verbose : Bool) (m : EvalMemory) : EvalMemory :=
  (List.range 9).foldl (fun m k =>
    (fun m : EvalMemory => { m with eval := reportMissing SUDOKU_IS_blocks k verbose m.eval })
      ((List.range' ((k / 3) * 3) 3).foldl (fun m i =>
        (List.range' ((k % 3) * 3) 3).foldl (fun m j =>
          evaluateSquare SUDOKU_IS_blocks k verbose i j k m) m) m)) m

/-- The C `evaluateDigitsPresent(board, digitsPresent, verbose)` on the memory: the struct
is reset by `memset`, the three loops run, and the closing line is printed. -/
def evaluateDigitsPresentOn (board : SudokuBoard) (verbose : Bool) : EvalMemory :=
  let m := evaluateBlocksOn verbose
    (evaluateColumnsOn verbose
      (evaluateRowsOn verbose
        { board := board
          eval := { digitsPresent := DigitsPresent.zero, sudokuValid := true, output := [] } }))
  if verbose && m.eval.sudokuValid then
    { m with eval := { m.eval with output := m.eval.output ++ [Diagnostic.solutionValid] } }
  else m

/-- The memory `assistantCrosshatch` works on: the board behind its argument and its locals
`suggestion` and `digitsPresent`. -/
structure CrosshatchMemory where
  board : SudokuBoard
  suggestion : HistoryStep
  digitsPresent : DigitsPresent

/-- The body of the `column` loop of `assistantCrosshatch` on the memory, with the loop
test `!suggestion.newValue` in front. -/
def crosshatchColumnOn (row digit : Nat) (m : CrosshatchMemory) (column : Nat) :
    CrosshatchMemory :=
  if m.suggestion.newValue ≠ 0 then m
  else
    let testFlag := SUDOKU_TEST_FLAG_SHIFT digit
    if m.digitsPresent.columns column &&& testFlag ≠ 0 then
      let block := SUDOKU_BLOCK_FROM_INTERSECTION row column
      if m.digitsPresent.blocks block &&& testFlag = 0 then
        let candidates :=
          crosshatchCandidates m.board.contents m.digitsPresent row column block testFlag
        if candidates.length = 1 then
          { m with
            suggestion :=
              { m.suggestion with
                location := candidates.headD { col := 0, row := 0 }
                newValue := (digit : Int) } }
        else m
      else m
    else m

/-- The body of the `digit` loop of `assistantCrosshatch` on the memory, with the loop test
`!suggestion.newValue` in front. -/
def crosshatchDigitOn (row : Nat) (m : CrosshatchMemory) (digit : Nat) : CrosshatchMemory :=
  if m.suggestion.newValue ≠ 0 then m
  else if m.digitsPresent.rows row &&& SUDOKU_TEST_FLAG_SHIFT digit ≠ 0 then
    (List.range 9).foldl (crosshatchColumnOn row digit) m
  else m

/-- The body of the `row` loop of `assistantCrosshatch` on the memory, with the loop test
`!suggestion.newValue` in front. -/
def crosshatchRowOn (m : CrosshatchMemory) (row : Nat) : CrosshatchMemory :=
  if m.suggestion.newValue ≠ 0 then m
  else (List.range' 1 9).foldl (crosshatchDigitOn row) m

/-- The C `assistantCrosshatch(board, verbose)` on the memory: `suggestion` starts as
`{ 0 }`, `evaluateDigitsPresent(board, &digitsPresent, false)` is called on the board and
fills the local, and the loops run. -/
def assistantCrosshatchOn (board : SudokuBoard) : CrosshatchMemory :=
  (List.range 9).foldl crosshatchRowOn
    { board := (evaluateDigitsPresentOn board false).board
      suggestion := noSuggestion
      digitsPresent := (evaluateDigitsPresentOn board false).eval.digitsPresent }

/-- The memory `assistantLocked` works on: the board behind its argument and its locals
`suggestion`, `digitsPresent` and `digitsPossible`. -/
structure LockedMemory where
  board : SudokuBoard
  suggestion : HistoryStep
  digitsPresent : DigitsPresent
  digitsPossible : CandidateGrid

/-- The first loop of `assistantLocked` ("initial analysis of possible digits") on the
memory. -/
def initialDigitsPossibleOn (m : LockedMemory) : LockedMemory :=
  (List.range 9).foldl (fun m row =>
    (List.range 9).foldl (fun (m : LockedMemory) column =>
      if m.board.contents row column = 0 then
        let block := SUDOKU_BLOCK_FROM_INTERSECTION row column
        { m with
          digitsPossible := setSquare m.digitsPossible row column
            (clearFlags
              (clearFlags (clearFlags SUDOKU_TEST_ALLDIGITS (m.digitsPresent.rows row))
                (m.digitsPresent.columns column))
              (m.digitsPresent.blocks block)) }
      else m) m) m

/-- Row pass, the loops under `possibleBlockCount == 1`, on the memory. -/
def clearOutsideRowOn (block row testFlag : Nat) (m : LockedMemory) : LockedMemory :=
  (List.range' ((block / 3) * 3) 3).foldl (fun m blockRow =>
    (List.range' ((block % 3) * 3) 3).foldl (fun (m : LockedMemory) blockColumn =>
      if blockRow ≠ row then
        { m with
          digitsPossible := setSquare m.digitsPossible blockRow blockColumn
            (clearFlags (m.digitsPossible blockRow blockColumn) testFlag) }
      else m) m) m

/-- Row pass, the body of the loop over `digit`, on the memory. -/
def lockRowDigitOn (row : Nat) (m : LockedMemory) (digit : Nat) : LockedMemory :=
  let testFlag := SUDOKU_TEST_FLAG_SHIFT digit
  let cb := rowBlockCount (rowBlocksPossible m.digitsPossible row testFlag) row
  if cb.1 = 1 then clearOutsideRowOn cb.2 row testFlag m else m

/-- The loop `"lock" candidates by block, processing rows` on the memory. -/
def lockRowsOn (m : LockedMemory) : LockedMemory :=
  (List.range 9).foldl (fun m row => (List.range' 1 9).foldl (lockRowDigitOn row) m) m

/-- Column pass, the loops under `possibleBlockCount == 1`, on the memory. -/
def clearOutsideColumnOn (block column testFlag : Nat) (m : LockedMemory) : LockedMemory :=
  (List.range' ((block / 3) * 3) 3).foldl (fun m blockRow =>
    (List.range' ((block % 3) * 3) 3).foldl (fun (m : LockedMemory) blockColumn =>
      if blockColumn ≠ column then
        { m with
          digitsPossible := setSquare m.digitsPossible blockRow blockColumn
            (clearFlags (m.digitsPossible blockRow blockColumn) testFlag) }
      else m) m) m

/-- Column pass, the body of the loop over `digit`, on the memory. -/
def lockColumnDigitOn (column : Nat) (m : LockedMemory) (digit : Nat) : LockedMemory :=
  let testFlag := SUDOKU_TEST_FLAG_SHIFT digit
  let cb := columnBlockCount (columnBlocksPossible m.digitsPossible column testFlag) column
  if cb.1 = 1 then clearOutsideColumnOn cb.2 column testFlag m else m

/-- The loop `"lock" candidates by block, processing columns` on the memory. -/
def lockColumnsOn (m : LockedMemory) : LockedMemory :=
  (List.range 9).foldl (fun m column => (List.range' 1 9).foldl (lockColumnDigitOn column) m) m

/-- The statement
`suggestion.newValue = scanForSingleCandidate(digitsPossible, &suggestion.location);`. -/
def scanOn (m : LockedMemory) : LockedMemory :=
  { m with
    suggestion :=
      { m.suggestion with
        newValue := (scanForSingleCandidate m.digitsPossible m.suggestion.location).1
        location := (scanForSingleCandidate m.digitsPossible m.suggestion.location).2 } }

/-- The C `assistantLocked(board, verbose)` on the memory: `suggestion` and
`digitsPossible` start as `{ 0 }`, `evaluateDigitsPresent(board, &digitsPresent, false)` is
called on the board and fills the local, then the analysis, the scan, and, when the scan
found nothing, the two passes and the second scan. -/
def assistantLockedOn (board : SudokuBoard) : LockedMemory :=
  let m := scanOn
    (initialDigitsPossibleOn
      { board := (evaluateDigitsPresentOn board false).board
        suggestion := noSuggestion
        digitsPresent := (evaluateDigitsPresentOn board false).eval.digitsPresent
        digitsPossible := fun _ _ => 0 })
  if m.suggestion.newValue = 0 then scanOn (lockColumnsOn (lockRowsOn m)) else m

/-- A call `assistantCrosshatch(board, verbose)` on the program state: the board the call
leaves and the returned suggestion. -/
def assistantCrosshatchCall (board : SudokuBoard) : SudokuBoard × HistoryStep :=
  ((assistantCrosshatchOn board).board, (assistantCrosshatchOn board).suggestion)

/-- A call `assistantLocked(board, verbose)` on the program state: the board the call
leaves and the returned suggestion. -/
def assistantLockedCall (board : SudokuBoard) : SudokuBoard × HistoryStep :=
  ((assistantLockedOn board).board, (assistantLockedOn board).suggestion)

/-- The values of the steps `f 0, f 1, ..., f (k - 1)` written to the board in that order:
`value` picks the old or the new value of a step. -/
def writeSteps (contents : Board) (value : HistoryStep → Int) (f : Nat → HistoryStep)
    (k : Nat) : Board :=
  ((List.range k).map f).foldl
    (fun b st => setContents b st.location.row st.location.col (value st)) contents

/-- A history of two steps with the cursor after the first: square (0, 0) went from 0 to 5,
and the change of square (1, 2) from 0 to 7 has been undone. The capacity is the one two
calls of `addUndoStep` on a fresh history leave. -/
def exampleHistory : HistoryStruct :=
  { steps := setStep
      (setStep (fun _ => noSuggestion) 0
        { location := { col := 0, row := 0 }, newValue := 5, oldValue := 0 })
      1 { location := { col := 2, row := 1 }, newValue := 7, oldValue := 0 }
    currentStep := 1
    length := 2
    capacity := 4 }

/-- The board that goes with `exampleHistory`: 5 at square (0, 0), blank elsewhere. -/
def exampleBoard : SudokuBoard :=
  { contents := boardOfRows [[5]], history := some exampleHistory }

/-! ## The board and the commands (`sudoku_board.c`, `sudoku_commands.c`)

The command functions are modelled by the state they leave and the result they return; what
they print is left out. Where a command reads its arguments from the input line before it
touches the board, the arguments are parameters of the model; `commandUndo` and
`commandRedo` are modelled with their argument reader, and `commandNewOnInput` and
`commandChangeOnInput` further down put the argument readers in front of `commandNew` and
`commandChange`. -/

/-- The C `enum SudokuCommandResult`. -/
inductive SudokuCommandResult where
  | SUDOKU_COMMAND_SUCCESS
  | SUDOKU_COMMAND_USAGE
  | SUDOKU_COMMAND_FAILURE
  | SUDOKU_COMMAND_EXIT
  deriving DecidableEq

/-- The conversion of a signed value to `size_t`, as it happens when a `char` or an `int` is
passed to `validateRowIndex(size_t)` or `validateColIndex(size_t)`. -/
def toSizeT (x : Int) : Nat := (x % 2 ^ 64).toNat

/-- The C `initializeSudokuBoard(board)`: an existing history is freed, a fresh one is
created, and `memset` zeroes the contents. -/
def initializeSudokuBoard (_board : SudokuBoard) : SudokuBoard :=
  { contents := fun _ _ => 0, history := some createHistory }

/-- The C `copySudokuBoardContents(source, destination)`: the 81 squares are copied. -/
def copySudokuBoardContents (source destination : Board) : Board :=
  fun r c => if r < 9 ∧ c < 9 then source r c else destination r c

/-- The C `struct SudokuBoardPreset`. -/
structure SudokuBoardPreset where
  name : String
  board : Board

/-- The C array `boardPresets`. -/
def boardPresets : List SudokuBoardPreset :=
  [ { name := "blank", board := boardOfRows [] },
    { name := "easy", board := boardOfRows [
        [0, 0, 3, 0, 4, 2, 0, 9, 0],
        [0, 9, 0, 0, 6, 0, 5, 0, 0],
        [5, 0, 0, 0, 0, 0, 0, 1, 0],
        [0, 0, 1, 7, 0, 0, 2, 8, 5],
        [0, 0, 8, 0, 0, 0, 1, 0, 0],
        [3, 2, 9, 0, 0, 8, 7, 0, 0],
        [0, 3, 0, 0, 0, 0, 0, 0, 1],
        [0, 0, 5, 0, 9, 0, 0, 2, 0],
        [0, 8, 0, 2, 1, 0, 6, 0, 0]] },
    { name := "supereasy", board := boardOfRows [
        [7, 0, 5, 1, 0, 4, 8, 0, 6],
        [1, 0, 8, 0, 5, 0, 4, 9, 0],
        [4, 0, 3, 6, 2, 0, 0, 5, 7],
        [0, 7, 0, 0, 4, 2, 3, 8, 0],
        [0, 3, 0, 0, 1, 7, 6, 2, 9],
        [2, 5, 9, 3, 0, 0, 0, 0, 1],
        [3, 0, 0, 0, 0, 9, 5, 1, 8],
        [9, 1, 6, 8, 0, 5, 0, 0, 0],
        [0, 8, 2, 4, 7, 0, 9, 0, 3]] },
    { name := "moderate", board := boardOfRows [
        [4, 0, 0, 9, 0, 3, 5, 0, 6],
        [2, 9, 1, 0, 4, 0, 0, 0, 0],
        [0, 0, 6, 0, 0, 1, 0, 0, 0],
        [0, 0, 0, 0, 0, 6, 3, 0, 7],
        [0, 0, 0, 0, 0, 0, 0, 0, 0],
        [6, 0, 2, 5, 0, 0, 0, 0, 0],
        [0, 0, 0, 7, 0, 0, 8, 0, 0],
        [0, 0, 0, 0, 6, 0, 9, 7, 1],
        [9, 0, 8, 1, 0, 4, 0, 0, 2]] } ]

/-- The C `commandNew(board, input)`. The parameter `presetName` is what
`getStringArgument` delivers: `none` when it returns false, in which case the name
defaults to "blank". The loop over `boardPresets` keeps the first preset of that name. -/
def commandNew (board : SudokuBoard) (presetName : Option String) :
    SudokuBoard × SudokuCommandResult :=
  match boardPresets.find? (fun preset => preset.name == presetName.getD "blank") with
  | some preset =>
    ({ initializeSudokuBoard board with
        contents := copySudokuBoardContents preset.board (initializeSudokuBoard board).contents },
      SudokuCommandResult.SUDOKU_COMMAND_SUCCESS)
  | none => (board, SudokuCommandResult.SUDOKU_COMMAND_FAILURE)

/-- One character of the file in `loadSudokuBoard`: a digit is stored in the next square (in
row-major order) as long as squares are left; every other character is skipped. The state
is the board contents and the index `currentSquare - board->contents[0]`. -/
def loadChar (s : Board × Nat) (input : Char) : Board × Nat :=
  if s.2 < 81 ∧ input.isDigit then
    (setContents s.1 (s.2 / 9) (s.2 % 9) ((input.toNat : Int) - 48), s.2 + 1)
  else s

/-- The C `loadSudokuBoard(fileName, board)`. The parameter `file` is the text of the file
of that name, `none` when `fopen` fails. -/
def loadSudokuBoard (file : Option (List Char)) (board : SudokuBoard) : SudokuBoard × Bool :=
  match file with
  | some text =>
    ({ initializeSudokuBoard board with
        contents := (text.foldl loadChar ((initializeSudokuBoard board).contents, 0)).1 }, true)
  | none => (board, false)

/-- The C `commandLoad(board, input)`. The parameter `file` is `none` when
`getStringArgument` finds no file name, and else the result of opening the named file. -/
def commandLoad (board : SudokuBoard) (file : Option (Option (List Char))) :
    SudokuBoard × SudokuCommandResult :=
  match file with
  | some opened =>
    if (loadSudokuBoard opened board).2 then
      ((loadSudokuBoard opened board).1, SudokuCommandResult.SUDOKU_COMMAND_SUCCESS)
    else ((loadSudokuBoard opened board).1, SudokuCommandResult.SUDOKU_COMMAND_FAILURE)
  | none => (board, SudokuCommandResult.SUDOKU_COMMAND_USAGE)

/-- The C `commandChange(board, input)`. The parameters are the `char` values the argument
readers (`getColumnArgument`, `getRowArgument`, `getSudokuDigitArgument`) or the prompts
deliver: the column letter minus `'A'`, the row character minus `'0'` minus 1, the digit
character minus `'0'`. A reader returns false for a value that fails its validation, which
gives `SUDOKU_COMMAND_USAGE`; a prompt repeats until the value is valid. -/
def commandChange (board : SudokuBoard) (column row value : Int) :
    Except (String × SudokuBoard) (SudokuBoard × SudokuCommandResult) :=
  if validateColIndex (toSizeT column) && validateRowIndex (toSizeT row) &&
      validateSudokuDigit value then
    match addUndoStep board { col := toSizeT column, row := toSizeT row } value with
    | Except.ok recorded =>
      Except.ok
        (invalidateSubsequentRedoSteps
          { recorded with
            contents := setContents recorded.contents (toSizeT row) (toSizeT column) value },
          SudokuCommandResult.SUDOKU_COMMAND_SUCCESS)
    | Except.error e => Except.error e
  else Except.ok (board, SudokuCommandResult.SUDOKU_COMMAND_USAGE)

/-- The C `struct SudokuAssistant`, without the description. -/
structure SudokuAssistant where
  name : String
  assistantFunction : Board → HistoryStep

/-- The C array `assistants`. -/
def assistants : List SudokuAssistant :=
  [ { name := "crosshatch", assistantFunction := assistantCrosshatch },
    { name := "locked", assistantFunction := assistantLocked } ]

/-- The C `matchAssistant(name)`: the first assistant of that name. -/
def matchAssistant (name : String) : Option SudokuAssistant :=
  assistants.find? (fun assistant => assistant.name == name)

/-- The `for` loop of `commandSolve`, with `currentChange` computed at the head of each
round: as long as the assistant returns a suggestion, the step is recorded and the square
is written. The C loop has no bound; here `fuel` bounds the number of rounds, and `none`
says that the loop was still running when the fuel ran out. -/
def solveLoop (assistantFunction : Board → HistoryStep) :
    Nat → SudokuBoard → Option (Except (String × SudokuBoard) SudokuBoard)
  | 0, _ => none
  | fuel + 1, board =>
    if (assistantFunction board.contents).newValue ≠ 0 then
      match addUndoStep board (assistantFunction board.contents).location
          (assistantFunction board.contents).newValue with
      | Except.ok recorded =>
        solveLoop assistantFunction fuel
          { recorded with
            contents := setContents recorded.contents
              (assistantFunction board.contents).location.row
              (assistantFunction board.contents).location.col
              (assistantFunction board.contents).newValue }
      | Except.error e => some (Except.error e)
    else some (Except.ok board)

/-- The C `commandSolve(board, input)`. The parameter `assistantName` is what
`getStringArgument` delivers (`none` when it returns false); `fuel` bounds the loop. -/
def commandSolve (board : SudokuBoard) (assistantName : Option String) (fuel : Nat) :
    Option (Except (String × SudokuBoard) (SudokuBoard × SudokuCommandResult)) :=
  match assistantName with
  | some name =>
    match matchAssistant name with
    | some assistant =>
      match solveLoop assistant.assistantFunction fuel
          (if (assistant.assistantFunction board.contents).newValue ≠ 0 then
            invalidateSubsequentRedoSteps board
          else board) with
      | some (Except.ok solved) =>
        some (Except.ok (solved, SudokuCommandResult.SUDOKU_COMMAND_SUCCESS))
      | some (Except.error e) => some (Except.error e)
      | none => none
    | none => some (Except.ok (board, SudokuCommandResult.SUDOKU_COMMAND_FAILURE))
  | none => some (Except.ok (board, SudokuCommandResult.SUDOKU_COMMAND_USAGE))

/-! ## The input line (`sudoku_utility.c`, `sudoku_commands.c`)

Characters are their codes, taken to be ASCII. -/

/-- The C `struct String`: `array` holds the `capacity` allocated characters, `length`
counts the characters in use, the null terminator included. Allocation is taken to succeed
and fresh cells hold 0. -/
structure StringADT where
  array : List Nat
  length : Nat
  capacity : Nat

/-- The C `struct SudokuCommandInput`. -/
structure SudokuCommandInput where
  string : StringADT
  currentIndex : Nat

/-- The C `isspace` in the "C" locale. -/
def isspace (ch : Nat) : Bool := ch == 32 || (9 ≤ ch && ch ≤ 13)

/-- The C `isdigit`. -/
def isdigit (ch : Nat) : Bool := 48 ≤ ch && ch ≤ 57

/-- The C `initializeString(string)`: one zeroed character, length 1, capacity 1. -/
def initializeString : StringADT := { array := [0], length := 1, capacity := 1 }

/-- The C `growString(string, charsToAdd)`, on a string whose array is not NULL. -/
def growString (string : StringADT) (charsToAdd : Nat) : StringADT :=
  if charsToAdd > (string.capacity + 2 ^ 64 - string.length) % 2 ^ 64 then
    { string with
      capacity := string.capacity * 2
      array := string.array ++ List.replicate string.capacity 0 }
  else string

/-- The C `addCharToString(string, ch)`, on a string whose array is not NULL. -/
def addCharToString (string : StringADT) (ch : Nat) : StringADT :=
  { growString string 1 with
    array := ((growString string 1).array.set ((growString string 1).length - 1) ch).set
      (growString string 1).length 0
    length := (growString string 1).length + 1 }

/-- The C `clearString(string)`, on a string whose array is not NULL. -/
def clearString (string : StringADT) : StringADT :=
  { string with array := string.array.set 0 0, length := 1 }

/-- The C `readString(string)`: `stdin` is the text still to be read from standard input,
its end standing for EOF. Leading newlines are skipped, the characters up to the next
newline are added, and then a null character is added. The result is the string, the
number of characters added and the text left in standard input. -/
def readString (string : StringADT) (stdin : List Nat) : StringADT × Nat × List Nat :=
  (addCharToString
      (((stdin.dropWhile (fun ch => ch == 10)).takeWhile (fun ch => ch != 10)).foldl
        addCharToString string) 0,
    ((stdin.dropWhile (fun ch => ch == 10)).takeWhile (fun ch => ch != 10)).length,
    (stdin.dropWhile (fun ch => ch == 10)).dropWhile (fun ch => ch != 10))

/-- The C macro `IS_ANY_INPUT_REMAINING(inputPtr)`. -/
def IS_ANY_INPUT_REMAINING (input : SudokuCommandInput) : Bool :=
  decide (input.currentIndex + 1 < input.string.length)

/-- The C macro `GET_CHAR_FROM_INPUT_STRING(inputPtr, loopVar)`. -/
def GET_CHAR_FROM_INPUT_STRING (input : SudokuCommandInput) (loopVar : Nat) : Nat :=
  input.string.array.getD (loopVar + input.currentIndex) 0

/-- The characters of the current argument: those from `currentIndex` on, up to the first
null or whitespace character. The loops of the argument readers run over them. -/
def currentArgument (input : SudokuCommandInput) : List Nat :=
  (input.string.array.drop input.currentIndex).takeWhile (fun ch => ch != 0 && !isspace ch)

/-- The value of `i` after the loop `while (isspace(ch)) { ++i; ch = array[i +
currentIndex]; }` started with `i` at the end of the current argument. -/
def skipWhitespace (input : SudokuCommandInput) : Nat :=
  (currentArgument input).length +
    ((input.string.array.drop (input.currentIndex + (currentArgument input).length)).takeWhile
      isspace).length

/-- The C `getStringArgument(input, argument, maxLength)`: the status, the characters
stored in `argument` before its null terminator, and the input afterwards. -/
def getStringArgument (input : SudokuCommandInput) (maxLength : Nat) :
    Except String (Bool × List Nat × SudokuCommandInput) :=
  if input.string.length > 0 then
    if maxLength > 0 then
      if IS_ANY_INPUT_REMAINING input then
        Except.ok (true, (currentArgument input).take (maxLength - 1),
          { input with currentIndex := input.currentIndex + skipWhitespace input })
      else Except.ok (false, [], input)
    else Except.error "ERROR: tried to get string argument with a maxLength of 0"
  else Except.error "ERROR: tried to get string argument from an invalid String"

/-- The C `atoi` on a string of digits. A value beyond `int` is undefined in C (the C
library may saturate it); here it is the decimal value, and the theorems use it on the
empty string only. -/
def atoi (digits : List Nat) : Nat := digits.foldl (fun n ch => 10 * n + (ch - 48)) 0

/-- The C `getUnsignedArgument(input, argument)`: the status, the value stored in
`*argument` (0 when nothing is stored), and the input afterwards. The digits of the current
argument are collected and converted with `atoi`, then cast to `unsigned`. -/
def getUnsignedArgument (input : SudokuCommandInput) :
    Except String (Bool × Nat × SudokuCommandInput) :=
  if input.string.length > 0 then
    if IS_ANY_INPUT_REMAINING input then
      Except.ok (true, atoi ((currentArgument input).filter isdigit) % 2 ^ 32,
        { input with currentIndex := input.currentIndex + skipWhitespace input })
    else Except.ok (false, 0, input)
  else Except.error "ERROR: tried to get unsigned argument from an invalid String"

/-- The C `commandUndo(board, input)`: the board and the input afterwards, and the
result. -/
def commandUndo (board : SudokuBoard) (input : SudokuCommandInput) :
    Except String (SudokuBoard × SudokuCommandInput × SudokuCommandResult) :=
  match getUnsignedArgument input with
  | Except.ok (status, argument, rest) =>
    match undoStep board (if status then argument else 1) with
    | Except.ok (undone, true) =>
      Except.ok (undone, rest, SudokuCommandResult.SUDOKU_COMMAND_SUCCESS)
    | Except.ok (undone, false) =>
      Except.ok (undone, rest, SudokuCommandResult.SUDOKU_COMMAND_FAILURE)
    | Except.error e => Except.error e
  | Except.error e => Except.error e

/-- The C `commandRedo(board, input)`: the board and the input afterwards, and the
result. -/
def commandRedo (board : SudokuBoard) (input : SudokuCommandInput) :
    Except String (SudokuBoard × SudokuCommandInput × SudokuCommandResult) :=
  match getUnsignedArgument input with
  | Except.ok (status, argument, rest) =>
    match redoStep board (if status then argument else 1) with
    | Except.ok (redone, true) =>
      Except.ok (redone, rest, SudokuCommandResult.SUDOKU_COMMAND_SUCCESS)
    | Except.ok (redone, false) =>
      Except.ok (redone, rest, SudokuCommandResult.SUDOKU_COMMAND_FAILURE)
    | Except.error e => Except.error e
  | Except.error e => Except.error e

/-- The input as `getCommand` hands it to a command function after reading the line
`stdin`: the string is cleared, the line is read with `readString`, and
`getStringArgument` consumes the command name (`SUDOKU_COMMAND_NAME_LENGTH_MAX` is 16).
The result is the command name and the input. -/
def getCommandInput (input : SudokuCommandInput) (stdin : List Nat) :
    Except String (List Nat × SudokuCommandInput) :=
  match getStringArgument
      { string := (readString (clearString input.string) stdin).1, currentIndex := 0 } 16 with
  | Except.ok (_, commandName, rest) => Except.ok (commandName, rest)
  | Except.error e => Except.error e

/-! ## Proof-side vocabulary for the history and the commands -/

/-- The input of `main` before the first command: `commandInput` is zeroed and its string
initialised. -/
def initialInput : SudokuCommandInput := { string := initializeString, currentIndex := 0 }

/-- The characters of the line `undo`, with the newline that ends it. -/
def undoLine : List Nat := [117, 110, 100, 111, 10]

/-- The board after a sequence of `redoStep` calls with the given step counts. -/
def redoSequence : SudokuBoard → List Nat → Except String SudokuBoard
  | board, [] => Except.ok board
  | board, n :: rest =>
    match redoStep board n with
    | Except.ok (redone, _) => redoSequence redone rest
    | Except.error e => Except.error e

/-- The history of the board is empty: cursor and length are 0, and `undoStep` and
`redoStep` with a step count of at least 1 return false and leave the board as it is. -/
def HistoryEmptied (board : SudokuBoard) : Prop :=
  (∃ history, board.history = some history ∧ history.currentStep = 0 ∧ history.length = 0) ∧
    ∀ n, 1 ≤ n →
      undoStep board n = Except.ok (board, false) ∧ redoStep board n = Except.ok (board, false)

/-- The board of `main` before the first command when no file is named: zeroed, then
initialised. -/
def initialBoard : SudokuBoard :=
  initializeSudokuBoard { contents := fun _ _ => 0, history := none }

/-- Cursor and length of the history of a board. -/
def cursorAndLength (board : SudokuBoard) : Option (Nat × Nat) :=
  board.history.map (fun history => (history.currentStep, history.length))

/-- The 81 squares of the board, row by row. -/
def rowsOfBoard (contents : Board) : List (List Int) :=
  (List.range 9).map (fun r => (List.range 9).map (fun c => contents r c))

/-- A command of the program that can change the board, with the arguments as the command
function receives them: the preset or assistant name read by `getStringArgument` (`none`
when it returns false), the file opened by `commandLoad` (`none` for a missing file name,
`some none` for a file that cannot be opened), the converted column, row and digit of
`change`, and the step count that `commandUndo` and `commandRedo` pass on. -/
inductive Command where
  | new (presetName : Option String)
  | load (file : Option (Option (List Char)))
  | change (column row value : Int)
  | solve (assistantName : Option String)
  | undo (stepsToUndo : Nat)
  | redo (stepsToRedo : Nat)

/-- The board after one command; `none` when the command ends in `terminate` or, for
`solve`, when its loop is still running after 82 rounds. -/
def runCommand (board : SudokuBoard) : Command → Option SudokuBoard
  | Command.new presetName => some (commandNew board presetName).1
  | Command.load file => some (commandLoad board file).1
  | Command.change column row value =>
    match commandChange board column row value with
    | Except.ok (after, _) => some after
    | Except.error _ => none
  | Command.solve assistantName =>
    match commandSolve board assistantName 82 with
    | some (Except.ok (after, _)) => some after
    | _ => none
  | Command.undo stepsToUndo =>
    match undoStep board stepsToUndo with
    | Except.ok (after, _) => some after
    | Except.error _ => none
  | Command.redo stepsToRedo =>
    match redoStep board stepsToRedo with
    | Except.ok (after, _) => some after
    | Except.error _ => none

/-- The board after a sequence of commands, the loop of `main`. -/
def runCommands : SudokuBoard → List Command → Option SudokuBoard
  | board, [] => some board
  | board, command :: rest =>
    match runCommand board command with
    | some after => runCommands after rest
    | none => none

/-- Three edits on a fresh board: 5, 6 and 7 into the first three squares of row 0. -/
def threeEdits : List Command :=
  [Command.change 0 0 5, Command.change 1 0 6, Command.change 2 0 7]

/-- The board after `threeEdits`, two steps undone and one redone. -/
def scenarioBoard : SudokuBoard :=
  (runCommands initialBoard (threeEdits ++ [Command.undo 2, Command.redo 1])).getD initialBoard

/-- The history of `scenarioBoard`. -/
def scenarioHistory : HistoryStruct := scenarioBoard.history.getD createHistory

/-- A call of one of the four functions that change a history. -/
inductive HistoryCall where
  | addUndoStep (square : Coord2D) (value : Int)
  | undoStep (stepsToUndo : Nat)
  | redoStep (stepsToRedo : Nat)
  | invalidateSubsequentRedoSteps

/-- The arguments of the call are valid: for `addUndoStep`, a square of the board and a
value that passes `validateSudokuDigit`. -/
def HistoryCall.Valid : HistoryCall → Prop
  | HistoryCall.addUndoStep square value =>
    validateSudokuCoord2D square = true ∧ validateSudokuDigit value = true
  | _ => True

instance (call : HistoryCall) : Decidable call.Valid := by
  cases call <;> unfold HistoryCall.Valid <;> infer_instance

/-- How a run of history calls can end without leaving a state: a call of `terminate`, a
read of a cell of the `steps` array that was never assigned, or a write outside
`contents[9][9]`. The last two are undefined in C. -/
inductive HistoryFault where
  | terminated
  | unassignedStep
  | outsideBoard
deriving DecidableEq, Repr

/-- A program state together with the cells of the `steps` array that have been assigned
since `malloc` or `realloc` handed them out. C leaves the other cells indeterminate; in
`HistoryStruct.steps` they hold zeroed steps, and a run that reads one of them is cut off
by `applyHistoryCall`. -/
structure TrackedBoard where
  board : SudokuBoard
  assigned : Nat → Bool

/-- The board with the history `createHistory` returns: no cell of the fresh array has
been assigned. -/
def freshTracked (contents : Board) : TrackedBoard :=
  { board := { contents := contents, history := some createHistory }
    assigned := fun _ => false }

/-- The indices of the steps that the loop of `undoStep` reads, in the order read:
`min stepsToUndo cursor` steps downwards from the one below the cursor. -/
def undoReads (history : HistoryStruct) (stepsToUndo : Nat) : List Nat :=
  (List.range (min stepsToUndo history.currentStep)).map
    (fun i => history.currentStep - 1 - i)

/-- The indices of the steps that the loop of `redoStep` reads, in the order read. The
loop stops when the cursor equals the length, so with the cursor beyond the length it
would make all `stepsToRedo` rounds. -/
def redoReads (history : HistoryStruct) (stepsToRedo : Nat) : List Nat :=
  List.range' history.currentStep
    (if history.currentStep ≤ history.length then
      min stepsToRedo (history.length - history.currentStep)
    else stepsToRedo)

/-- What goes wrong when the steps at the indices `reads` are read and their squares
written: nothing, when each step was assigned and names a square of `contents[9][9]`. -/
def readsFault (t : TrackedBoard) (history : HistoryStruct) (reads : List Nat) :
    Option HistoryFault :=
  if reads.all (fun i => t.assigned i) then
    if reads.all (fun i => validateSudokuCoord2D (history.steps i).location) then none
    else some HistoryFault.outsideBoard
  else some HistoryFault.unassignedStep

/-- The state after one call. `addUndoStep` assigns the cell at the cursor; `undoStep` and
`redoStep` first have their reads of the array checked. -/
def applyHistoryCall (t : TrackedBoard) : HistoryCall → Except HistoryFault TrackedBoard
  | HistoryCall.addUndoStep square value =>
    match addUndoStep t.board square value with
    | Except.ok after =>
      Except.ok
        { board := after
          assigned := fun i =>
            decide (t.board.history.map (fun history => history.currentStep) = some i) ||
              t.assigned i }
    | Except.error _ => Except.error HistoryFault.terminated
  | HistoryCall.undoStep stepsToUndo =>
    match t.board.history.bind
        (fun history => readsFault t history (undoReads history stepsToUndo)) with
    | some fault => Except.error fault
    | none =>
      match undoStep t.board stepsToUndo with
      | Except.ok (after, _) => Except.ok { t with board := after }
      | Except.error _ => Except.error HistoryFault.terminated
  | HistoryCall.redoStep stepsToRedo =>
    match t.board.history.bind
        (fun history => readsFault t history (redoReads history stepsToRedo)) with
    | some fault => Except.error fault
    | none =>
      match redoStep t.board stepsToRedo with
      | Except.ok (after, _) => Except.ok { t with board := after }
      | Except.error _ => Except.error HistoryFault.terminated
  | HistoryCall.invalidateSubsequentRedoSteps =>
    Except.ok { t with board := invalidateSubsequentRedoSteps t.board }

/-- The state after a sequence of calls; the run ends at the first fault. -/
def applyHistoryCalls : TrackedBoard → List HistoryCall → Except HistoryFault TrackedBoard
  | t, [] => Except.ok t
  | t, call :: rest =>
    match applyHistoryCall t call with
    | Except.ok after => applyHistoryCalls after rest
    | Except.error fault => Except.error fault

/-- Cursor, length and capacity of the history a run ends with. -/
def boundsOfRun : Except HistoryFault TrackedBoard → Option (Nat × Nat × Nat)
  | Except.ok t =>
    t.board.history.map
      (fun history => (history.currentStep, history.length, history.capacity))
  | Except.error _ => none

/-- The fault a run ends with. -/
def faultOfRun : Except HistoryFault TrackedBoard → Option HistoryFault
  | Except.ok _ => none
  | Except.error fault => some fault

/-- A sequence of calls: two steps recorded, one undone, a third recorded on top, the
invalidation, and a redo of five steps. -/
def exampleCalls : List HistoryCall :=
  [HistoryCall.addUndoStep { col := 0, row := 0 } 5,
    HistoryCall.addUndoStep { col := 2, row := 1 } 7,
    HistoryCall.undoStep 1,
    HistoryCall.addUndoStep { col := 3, row := 3 } 1,
    HistoryCall.invalidateSubsequentRedoSteps,
    HistoryCall.redoStep 5]

/-- The calls of `exampleCalls` with the redo before the invalidation: the third
`addUndoStep` leaves cursor 2 and length 3, and the cell of index 2 was never assigned. -/
def holeCalls : List HistoryCall :=
  [HistoryCall.addUndoStep { col := 0, row := 0 } 5,
    HistoryCall.addUndoStep { col := 2, row := 1 } 7,
    HistoryCall.undoStep 1,
    HistoryCall.addUndoStep { col := 3, row := 3 } 1,
    HistoryCall.redoStep 5,
    HistoryCall.invalidateSubsequentRedoSteps]

/-- The board contents right after the most recent reinitialisation, updated by one
command: a `new` that finds its preset and a `load` whose file opens replace them, every
other command keeps them. -/
def baseAfter (base : Board) : Command → Board
  | Command.new presetName =>
    if (commandNew initialBoard presetName).2 = SudokuCommandResult.SUDOKU_COMMAND_SUCCESS then
      (commandNew initialBoard presetName).1.contents
    else base
  | Command.load (some (some text)) => (loadSudokuBoard (some text) initialBoard).1.contents
  | _ => base

/-- The history is a replayable log of the contents over `base`: the cursor is not beyond
the length, writing the new values of the steps below the cursor onto `base`, in order,
gives the contents, and every step within the length holds as old value what the replay of
the steps before it shows in its square. -/
def ReplayableWith (base contents : Board) (history : HistoryStruct) : Prop :=
  history.currentStep ≤ history.length ∧
    contents = writeSteps base HistoryStep.newValue history.steps history.currentStep ∧
    ∀ i < history.length,
      (history.steps i).oldValue =
        writeSteps base HistoryStep.newValue history.steps i (history.steps i).location.row
          (history.steps i).location.col

/-- The board has a history, and it is a replayable log of the contents over `base`. -/
def Replayable (base : Board) (board : SudokuBoard) : Prop :=
  ∃ history, board.history = some history ∧ ReplayableWith base board.contents history

/-- The number of blank squares of the board. -/
def blankCount (contents : Board) : Nat :=
  allSquares.countP (fun p => decide (contents p.1 p.2 = 0))

/-- The order of calls the specification asks for when an edit is committed: the redo tail
is invalidated first, then the step is recorded and the square written. The function is
`commandChange` with `invalidateSubsequentRedoSteps` moved in front of `addUndoStep`. -/
def commandChangeInvalidateFirst (board : SudokuBoard) (column row value : Int) :
    Except (String × SudokuBoard) (SudokuBoard × SudokuCommandResult) :=
  if validateColIndex (toSizeT column) && validateRowIndex (toSizeT row) &&
      validateSudokuDigit value then
    match addUndoStep (invalidateSubsequentRedoSteps board)
        { col := toSizeT column, row := toSizeT row } value with
    | Except.ok recorded =>
      Except.ok
        ({ recorded with
            contents := setContents recorded.contents (toSizeT row) (toSizeT column) value },
          SudokuCommandResult.SUDOKU_COMMAND_SUCCESS)
    | Except.error e => Except.error e
  else Except.ok (board, SudokuCommandResult.SUDOKU_COMMAND_USAGE)

/-- The board after `threeEdits` and two steps undone: cursor 1, length 3, capacity 4. -/
def undoneBoard : SudokuBoard :=
  (runCommands initialBoard (threeEdits ++ [Command.undo 2])).getD initialBoard

/-- The history of `undoneBoard`. -/
def undoneHistory : HistoryStruct := undoneBoard.history.getD createHistory

/-- The capacity of the history of a board, 0 when there is none. -/
def capacityOf (board : SudokuBoard) : Nat := (board.history.map (fun h => h.capacity)).getD 0

/-- The value of the `k`-th digit character of a text, 0 when the text has no more than `k`
digit characters. -/
def digitAt (text : List Char) (k : Nat) : Int :=
  match (text.filter Char.isDigit)[k]? with
  | some ch => (ch.toNat : Int) - 48
  | none => 0

/-- A file text with 83 digit characters and other characters between them. -/
def exampleFile : List Char :=
  "5,3 x\n4".toList ++ List.replicate 80 '7'

/-- The command is an edit of the current puzzle: `change`, `solve`, `undo` or `redo`, as
opposed to the commands `new` and `load`, which start from a fresh board. -/
def Command.isEdit : Command → Bool
  | Command.new _ => false
  | Command.load _ => false
  | _ => true

/-- The step lies in the domain of the grid: old and new value in 0..9, row and column of
the location in 0..8. -/
def StepInDomain (step : HistoryStep) : Prop :=
  (0 ≤ step.oldValue ∧ step.oldValue ≤ 9) ∧ (0 ≤ step.newValue ∧ step.newValue ≤ 9) ∧
    step.location.row < 9 ∧ step.location.col < 9

/-- The board lies in the domain of the grid: every square holds a value in 0..9, the
history exists with its cursor not beyond its length, and every step within the length
lies in the domain. -/
def InDomain (board : SudokuBoard) : Prop :=
  (∀ r < 9, ∀ c < 9, 0 ≤ board.contents r c ∧ board.contents r c ≤ 9) ∧
    ∃ history, board.history = some history ∧ history.currentStep ≤ history.length ∧
      ∀ i < history.length, StepInDomain (history.steps i)

/-- A sequence of edits that writes the same square twice and then lets the cross-hatch
assistant fill what it can. -/
def exampleEdits : List Command :=
  [Command.change 0 0 5, Command.change 0 0 6, Command.solve (some "crosshatch"),
    Command.undo 1, Command.redo 1]

/-- The board `puzzleExample` with a fresh history. -/
def puzzleBoard : SudokuBoard := { contents := puzzleExample, history := some createHistory }

/-! ## The argument readers of `commandNew` and `commandChange` -/

/-- The C `toupper` in the "C" locale. -/
def toupper (ch : Nat) : Nat := if 97 ≤ ch ∧ ch ≤ 122 then ch - 32 else ch

/-- The value of `i` after the loop `while (isspace(GET_CHAR_FROM_INPUT_STRING(input, i)))
++i;` of the one-character argument readers, which starts with `i` at 1. -/
def skipWhitespaceAfterCharacter (input : SudokuCommandInput) : Nat :=
  1 + ((input.string.array.drop (1 + input.currentIndex)).takeWhile isspace).length

/-- The C `getColumnArgument(input, argument)`: the status, the `char` stored in
`*argument` (the letter, in upper case, minus `'A'`; 0 when nothing is stored) and the
input afterwards. For an ASCII character the `char` does not wrap. -/
def getColumnArgument (input : SudokuCommandInput) :
    Except String (Bool × Int × SudokuCommandInput) :=
  if input.string.length > 0 then
    if IS_ANY_INPUT_REMAINING input then
      Except.ok
        (validateColIndex (toSizeT ((toupper (GET_CHAR_FROM_INPUT_STRING input 0) : Int) - 65)),
          (toupper (GET_CHAR_FROM_INPUT_STRING input 0) : Int) - 65,
          { input with currentIndex := input.currentIndex + skipWhitespaceAfterCharacter input })
    else Except.ok (false, 0, input)
  else Except.error "ERROR: tried to get column argument from an invalid String"

/-- The C `getRowArgument(input, argument)`: the status, the `char` stored in `*argument`
(the character minus `'0'` minus 1; 0 when nothing is stored) and the input afterwards. -/
def getRowArgument (input : SudokuCommandInput) :
    Except String (Bool × Int × SudokuCommandInput) :=
  if input.string.length > 0 then
    if IS_ANY_INPUT_REMAINING input then
      Except.ok
        (validateRowIndex (toSizeT ((GET_CHAR_FROM_INPUT_STRING input 0 : Int) - 48 - 1)),
          (GET_CHAR_FROM_INPUT_STRING input 0 : Int) - 48 - 1,
          { input with currentIndex := input.currentIndex + skipWhitespaceAfterCharacter input })
    else Except.ok (false, 0, input)
  else Except.error "ERROR: tried to get row argument from an invalid String"

/-- The C `getSudokuDigitArgument(input, argument)`: the status, the `char` stored in
`*argument` (the character minus `'0'`; 0 when nothing is stored) and the input
afterwards. -/
def getSudokuDigitArgument (input : SudokuCommandInput) :
    Except String (Bool × Int × SudokuCommandInput) :=
  if input.string.length > 0 then
    if IS_ANY_INPUT_REMAINING input then
      Except.ok
        (validateSudokuDigit ((GET_CHAR_FROM_INPUT_STRING input 0 : Int) - 48),
          (GET_CHAR_FROM_INPUT_STRING input 0 : Int) - 48,
          { input with currentIndex := input.currentIndex + skipWhitespaceAfterCharacter input })
    else Except.ok (false, 0, input)
  else Except.error "ERROR: tried to get sudoku digit argument from an invalid String"

/-- The C `commandChange(board, input)` with its argument readers: when input remains, the
three readers are called in turn and the first that returns false gives
`SUDOKU_COMMAND_USAGE`; when none remains, the three prompts deliver `prompted` (column,
row, digit). The rest of the function is `commandChange` above. -/
def commandChangeOnInput (board : SudokuBoard) (input : SudokuCommandInput)
    (prompted : Int × Int × Int) :
    Except (String × SudokuBoard) (SudokuBoard × SudokuCommandInput × SudokuCommandResult) :=
  if IS_ANY_INPUT_REMAINING input then
    match getColumnArgument input with
    | Except.ok (true, column, afterColumn) =>
      match getRowArgument afterColumn with
      | Except.ok (true, row, afterRow) =>
        match getSudokuDigitArgument afterRow with
        | Except.ok (true, value, afterValue) =>
          match commandChange board column row value with
          | Except.ok (after, result) => Except.ok (after, afterValue, result)
          | Except.error e => Except.error e
        | Except.ok (false, _, afterValue) =>
          Except.ok (board, afterValue, SudokuCommandResult.SUDOKU_COMMAND_USAGE)
        | Except.error e => Except.error (e, board)
      | Except.ok (false, _, afterRow) =>
        Except.ok (board, afterRow, SudokuCommandResult.SUDOKU_COMMAND_USAGE)
      | Except.error e => Except.error (e, board)
    | Except.ok (false, _, afterColumn) =>
      Except.ok (board, afterColumn, SudokuCommandResult.SUDOKU_COMMAND_USAGE)
    | Except.error e => Except.error (e, board)
  else
    match commandChange board prompted.1 prompted.2.1 prompted.2.2 with
    | Except.ok (after, result) => Except.ok (after, input, result)
    | Except.error e => Except.error e

/-- The C `commandNew(board, input)` with its argument reader: `getStringArgument` reads
the preset name into a buffer of `SUDOKU_BOARDPRESET_NAME_LENGTH_MAX` (16) characters. The
rest of the function is `commandNew` above. -/
def commandNewOnInput (board : SudokuBoard) (input : SudokuCommandInput) :
    Except String (SudokuBoard × SudokuCommandInput × SudokuCommandResult) :=
  match getStringArgument input 16 with
  | Except.ok (status, presetName, rest) =>
    Except.ok
      ((commandNew board
          (if status then some (String.mk (presetName.map Char.ofNat)) else none)).1,
        rest,
        (commandNew board
          (if status then some (String.mk (presetName.map Char.ofNat)) else none)).2)
  | Except.error e => Except.error e

/-- The characters of the line `new`, with the newline that ends it. -/
def newLine : List Nat := [110, 101, 119, 10]

/-- The characters of the command name `change`. -/
def changeWord : List Nat := [99, 104, 97, 110, 103, 101]

/-- The string holds `content` followed by a null character, and its array fills its
capacity. -/
def Terminated (s : StringADT) (content : List Nat) : Prop :=
  s.length = content.length + 1 ∧ s.array.length = s.capacity ∧
    ∃ tail, s.array = content ++ 0 :: tail

/-- From `currentIndex` on the input holds `rest`, followed by the two null characters that
`readString` leaves at the end of a line, and the length of the string ends after them. -/
def Remaining (input : SudokuCommandInput) (rest : List Nat) : Prop :=
  ∃ before tail, input.string.array = before ++ (rest ++ 0 :: 0 :: tail) ∧
    before.length = input.currentIndex ∧
    input.string.length = before.length + rest.length + 2

/-! ## Bit-field lemmas -/

theorem and_flag_ne_zero_iff (x n : Nat) :
    x &&& SUDOKU_TEST_FLAG_SHIFT n ≠ 0 ↔ x.testBit (n - 1) = true := by
  unfold SUDOKU_TEST_FLAG_SHIFT
  rw [Nat.one_shiftLeft]
  constructor
  · intro h
    obtain ⟨i, hi⟩ := Nat.ne_zero_implies_bit_true h
    rw [Nat.testBit_and, Nat.testBit_two_pow, Bool.and_eq_true, decide_eq_true_eq] at hi
    obtain ⟨h1, h2⟩ := hi
    rw [h2]; exact h1
  · intro h h0
    have h1 : (x &&& 2 ^ (n - 1)).testBit (n - 1) = true := by
      rw [Nat.testBit_and, Nat.testBit_two_pow_self, h]; rfl
    rw [h0] at h1
    simp at h1

theorem and_flag_eq_zero_iff (x n : Nat) :
    x &&& SUDOKU_TEST_FLAG_SHIFT n = 0 ↔ x.testBit (n - 1) = false := by
  have h := and_flag_ne_zero_iff x n
  constructor
  · intro h0
    cases hb : x.testBit (n - 1)
    · rfl
    · exact absurd h0 (h.mpr hb)
  · intro hb
    by_contra h0
    rw [h.mp h0] at hb
    exact Bool.noConfusion hb

theorem testBit_or_flag (x n t : Nat) :
    (x ||| SUDOKU_TEST_FLAG_SHIFT n).testBit t = (x.testBit t || decide (n - 1 = t)) := by
  unfold SUDOKU_TEST_FLAG_SHIFT
  rw [Nat.one_shiftLeft, Nat.testBit_or, Nat.testBit_two_pow]

theorem testBit_clearFlags (x f t : Nat) :
    (clearFlags x f).testBit t = (x.testBit t && !f.testBit t) := by
  unfold clearFlags
  rw [Nat.testBit_xor, Nat.testBit_and]
  cases x.testBit t <;> cases f.testBit t <;> rfl

theorem testBit_allDigits (t : Nat) : SUDOKU_TEST_ALLDIGITS.testBit t = decide (t < 9) := by
  have h : SUDOKU_TEST_ALLDIGITS = 2 ^ 9 - 1 := by decide
  rw [h, Nat.testBit_two_pow_sub_one]

/-! ## One application of `EVALUATE_DIGIT` -/

theorem field_orField (dp : DigitsPresent) (type type2 : SUDOKU_COLLECTION_TYPE)
    (n n2 flag : Nat) :
    (dp.orField type n flag).field type2 n2 =
      if type2 = type ∧ n2 = n then dp.field type n ||| flag else dp.field type2 n2 := by
  cases type <;> cases type2 <;>
    simp [DigitsPresent.orField, DigitsPresent.field] <;>
    (split <;> simp_all)

theorem field_markIllegalOrBlank (dp : DigitsPresent) (type : SUDOKU_COLLECTION_TYPE)
    (i j : Nat) : (dp.markIllegalOrBlank i j).field type = dp.field type := by
  cases type <;> rfl

theorem validateSudokuDigit_iff (v : Int) :
    validateSudokuDigit v = true ↔ 0 ≤ v ∧ v ≤ 9 := by
  simp [validateSudokuDigit]

/-- The bit field of any collection after one `EVALUATE_DIGIT`: the bit of the digit is
added to the collection under evaluation, nothing else changes. -/
theorem EVALUATE_DIGIT_testBit (type type2 : SUDOKU_COLLECTION_TYPE) (cn cn2 : Nat)
    (verbose : Bool) (i j k : Nat) (v : Int) (s : EvalState) (t : Nat) :
    ((EVALUATE_DIGIT type cn verbose i j k v s).digitsPresent.field type2 cn2).testBit t = true ↔
      (s.digitsPresent.field type2 cn2).testBit t = true ∨
        (type2 = type ∧ cn2 = cn ∧ 1 ≤ v ∧ v ≤ 9 ∧ v.toNat - 1 = t) := by
  unfold EVALUATE_DIGIT
  by_cases hv : validateSudokuDigit v = true
  · rw [if_pos hv]
    have hv2 := (validateSudokuDigit_iff v).mp hv
    by_cases h0 : v = 0
    · rw [if_pos h0]
      simp only [field_markIllegalOrBlank]
      constructor
      · intro h; exact Or.inl h
      · rintro (h | ⟨_, _, h1, _⟩)
        · exact h
        · omega
    · rw [if_neg h0]
      by_cases hb : s.digitsPresent.field type cn &&& SUDOKU_TEST_FLAG_SHIFT v.toNat ≠ 0
      · simp only [hb, if_true, ne_eq, not_false_eq_true]
        have hb2 := (and_flag_ne_zero_iff _ _).mp hb
        constructor
        · intro h; exact Or.inl h
        · rintro (h | ⟨h1, h2, _, _, h5⟩)
          · exact h
          · rw [h1, h2, ← h5]; exact hb2
      · simp only [hb, if_false, ne_eq, not_true_eq_false]
        rw [field_orField]
        by_cases hc : type2 = type ∧ cn2 = cn
        · rw [if_pos hc, testBit_or_flag, Bool.or_eq_true, decide_eq_true_eq]
          obtain ⟨hc1, hc2⟩ := hc
          subst hc1; subst hc2
          constructor
          · rintro (h | h)
            · exact Or.inl h
            · exact Or.inr ⟨rfl, rfl, by omega, hv2.2, h⟩
          · rintro (h | ⟨_, _, _, _, h⟩)
            · exact Or.inl h
            · exact Or.inr h
        · rw [if_neg hc]
          constructor
          · intro h; exact Or.inl h
          · rintro (h | ⟨h1, h2, _⟩)
            · exact h
            · exact absurd ⟨h1, h2⟩ hc
  · rw [if_neg hv]
    simp only [field_markIllegalOrBlank]
    have hv2 : ¬ (0 ≤ v ∧ v ≤ 9) := fun h => hv ((validateSudokuDigit_iff v).mpr h)
    constructor
    · intro h; exact Or.inl h
    · rintro (h | ⟨_, _, h1, h2, _⟩)
      · exact h
      · exact absurd ⟨by omega, h2⟩ hv2

/-- The flag `sudokuValid` after one `EVALUATE_DIGIT`: it survives exactly when the square
holds a digit of `1..9` whose bit was not yet set in the collection under evaluation. -/
theorem EVALUATE_DIGIT_valid (type : SUDOKU_COLLECTION_TYPE) (cn : Nat)
    (verbose : Bool) (i j k : Nat) (v : Int) (s : EvalState) :
    (EVALUATE_DIGIT type cn verbose i j k v s).sudokuValid = true ↔
      s.sudokuValid = true ∧ 1 ≤ v ∧ v ≤ 9 ∧
        (s.digitsPresent.field type cn).testBit (v.toNat - 1) = false := by
  unfold EVALUATE_DIGIT
  by_cases hv : validateSudokuDigit v = true
  · rw [if_pos hv]
    have hv2 := (validateSudokuDigit_iff v).mp hv
    by_cases h0 : v = 0
    · rw [if_pos h0]
      constructor
      · intro h; exact Bool.noConfusion h
      · rintro ⟨_, h1, _⟩; omega
    · rw [if_neg h0]
      by_cases hb : s.digitsPresent.field type cn &&& SUDOKU_TEST_FLAG_SHIFT v.toNat ≠ 0
      · simp only [hb, if_true, ne_eq, not_false_eq_true]
        have hb2 := (and_flag_ne_zero_iff _ _).mp hb
        constructor
        · intro h; exact Bool.noConfusion h
        · rintro ⟨_, _, _, h⟩
          rw [hb2] at h; exact Bool.noConfusion h
      · simp only [hb, if_false, ne_eq, not_true_eq_false]
        have hb2 := (and_flag_eq_zero_iff _ _).mp (not_not.mp hb)
        constructor
        · intro h; exact ⟨h, by omega, hv2.2, hb2⟩
        · rintro ⟨h, _⟩; exact h
  · rw [if_neg hv]
    have hv2 : ¬ (0 ≤ v ∧ v ≤ 9) := fun h => hv ((validateSudokuDigit_iff v).mpr h)
    constructor
    · intro h; exact Bool.noConfusion h
    · rintro ⟨_, h1, h2, _⟩
      exact absurd ⟨by omega, h2⟩ hv2

/-! ## Scanning one collection, and a whole pass -/

theorem scanCells_cons (board : Board) (type : SUDOKU_COLLECTION_TYPE) (cn : Nat)
    (verbose : Bool) (k : Nat) (c : Nat × Nat) (cells : List (Nat × Nat)) (s : EvalState) :
    scanCells board type cn verbose k (c :: cells) s =
      scanCells board type cn verbose k cells
        (EVALUATE_DIGIT type cn verbose c.1 c.2 k (board c.1 c.2) s) := rfl

theorem scanCells_testBit (board : Board) (type type2 : SUDOKU_COLLECTION_TYPE) (cn cn2 : Nat)
    (verbose : Bool) (k : Nat) (cells : List (Nat × Nat)) (s : EvalState) (t : Nat) :
    ((scanCells board type cn verbose k cells s).digitsPresent.field type2 cn2).testBit t = true ↔
      (s.digitsPresent.field type2 cn2).testBit t = true ∨
        (type2 = type ∧ cn2 = cn ∧
          ∃ c ∈ cells, 1 ≤ board c.1 c.2 ∧ board c.1 c.2 ≤ 9 ∧ (board c.1 c.2).toNat - 1 = t) := by
  induction cells generalizing s with
  | nil => simp [scanCells]
  | cons c rest ih =>
    rw [scanCells_cons, ih, EVALUATE_DIGIT_testBit]
    constructor
    · rintro ((h | ⟨h1, h2, h3⟩) | ⟨h1, h2, c2, hc2, h3⟩)
      · exact Or.inl h
      · exact Or.inr ⟨h1, h2, c, List.mem_cons_self _ _, h3⟩
      · exact Or.inr ⟨h1, h2, c2, List.mem_cons_of_mem _ hc2, h3⟩
    · rintro (h | ⟨h1, h2, c2, hc2, h3⟩)
      · exact Or.inl (Or.inl h)
      · rcases List.mem_cons.mp hc2 with rfl | hc2
        · exact Or.inl (Or.inr ⟨h1, h2, h3⟩)
        · exact Or.inr ⟨h1, h2, c2, hc2, h3⟩

theorem scanCells_valid (board : Board) (type : SUDOKU_COLLECTION_TYPE) (cn : Nat)
    (verbose : Bool) (k : Nat) (cells : List (Nat × Nat)) (s : EvalState) :
    (scanCells board type cn verbose k cells s).sudokuValid = true ↔
      s.sudokuValid = true ∧
      (∀ c ∈ cells, 1 ≤ board c.1 c.2 ∧ board c.1 c.2 ≤ 9 ∧
        (s.digitsPresent.field type cn).testBit ((board c.1 c.2).toNat - 1) = false) ∧
      (cells.map (fun c => board c.1 c.2)).Nodup := by
  induction cells generalizing s with
  | nil => simp [scanCells]
  | cons c rest ih =>
    rw [scanCells_cons, ih, EVALUATE_DIGIT_valid, List.map_cons, List.nodup_cons]
    constructor
    · rintro ⟨⟨hs, hc1, hc2, hc3⟩, hrest, hnd⟩
      refine ⟨hs, ?_, ?_, hnd⟩
      · intro c2 hc2mem
        rcases List.mem_cons.mp hc2mem with rfl | hmem
        · exact ⟨hc1, hc2, hc3⟩
        · obtain ⟨h1, h2, h3⟩ := hrest c2 hmem
          refine ⟨h1, h2, ?_⟩
          rw [Bool.eq_false_iff] at h3 ⊢
          intro hb
          exact h3 ((EVALUATE_DIGIT_testBit type type cn cn verbose c.1 c.2 k _ s _).mpr
            (Or.inl hb))
      · intro hmem
        obtain ⟨c2, hc2mem, heq⟩ := List.mem_map.mp hmem
        obtain ⟨_, _, h3⟩ := hrest c2 hc2mem
        rw [Bool.eq_false_iff] at h3
        apply h3
        apply (EVALUATE_DIGIT_testBit type type cn cn verbose c.1 c.2 k _ s _).mpr
        refine Or.inr ⟨rfl, rfl, hc1, hc2, ?_⟩
        rw [heq]
    · rintro ⟨hs, hall, hnotin, hnd⟩
      obtain ⟨hc1, hc2, hc3⟩ := hall c (List.mem_cons_self _ _)
      refine ⟨⟨hs, hc1, hc2, hc3⟩, ?_, hnd⟩
      intro c2 hc2mem
      obtain ⟨h1, h2, h3⟩ := hall c2 (List.mem_cons_of_mem _ hc2mem)
      refine ⟨h1, h2, ?_⟩
      rw [Bool.eq_false_iff] at h3 ⊢
      intro hb
      rcases (EVALUATE_DIGIT_testBit type type cn cn verbose c.1 c.2 k _ s _).mp hb with
        hb | ⟨_, _, _, _, heq⟩
      · exact h3 hb
      · apply hnotin
        have : board c2.1 c2.2 = board c.1 c.2 := by omega
        exact List.mem_map.mpr ⟨c2, hc2mem, this⟩

theorem reportMissing_digitsPresent (type : SUDOKU_COLLECTION_TYPE) (n : Nat) (verbose : Bool)
    (s : EvalState) : (reportMissing type n verbose s).digitsPresent = s.digitsPresent := by
  unfold reportMissing
  split <;> rfl

theorem reportMissing_valid (type : SUDOKU_COLLECTION_TYPE) (n : Nat) (verbose : Bool)
    (s : EvalState) : (reportMissing type n verbose s).sudokuValid = s.sudokuValid := by
  unfold reportMissing
  split <;> rfl

theorem scanPass_cons (board : Board) (type : SUDOKU_COLLECTION_TYPE) (verbose : Bool)
    (kOf : Nat → Nat) (cellsOf : Nat → List (Nat × Nat)) (n : Nat) (idxs : List Nat)
    (s : EvalState) :
    scanPass board type verbose kOf cellsOf (n :: idxs) s =
      scanPass board type verbose kOf cellsOf idxs
        (reportMissing type n verbose
          (scanCells board type n verbose (kOf n) (cellsOf n) s)) := rfl

theorem scanPass_testBit (board : Board) (type type2 : SUDOKU_COLLECTION_TYPE) (verbose : Bool)
    (kOf : Nat → Nat) (cellsOf : Nat → List (Nat × Nat)) (idxs : List Nat) (n2 : Nat)
    (s : EvalState) (t : Nat) :
    ((scanPass board type verbose kOf cellsOf idxs s).digitsPresent.field type2 n2).testBit t
        = true ↔
      (s.digitsPresent.field type2 n2).testBit t = true ∨
        (type2 = type ∧ n2 ∈ idxs ∧
          ∃ c ∈ cellsOf n2, 1 ≤ board c.1 c.2 ∧ board c.1 c.2 ≤ 9 ∧
            (board c.1 c.2).toNat - 1 = t) := by
  induction idxs generalizing s with
  | nil => simp [scanPass]
  | cons n rest ih =>
    rw [scanPass_cons, ih, reportMissing_digitsPresent, scanCells_testBit]
    constructor
    · rintro ((h | ⟨h1, h2, h3⟩) | ⟨h1, h2, h3⟩)
      · exact Or.inl h
      · exact Or.inr ⟨h1, h2 ▸ List.mem_cons_self _ _, h2 ▸ h3⟩
      · exact Or.inr ⟨h1, List.mem_cons_of_mem _ h2, h3⟩
    · rintro (h | ⟨h1, h2, h3⟩)
      · exact Or.inl (Or.inl h)
      · rcases List.mem_cons.mp h2 with rfl | h2
        · exact Or.inl (Or.inr ⟨h1, rfl, h3⟩)
        · exact Or.inr ⟨h1, h2, h3⟩

theorem scanPass_valid (board : Board) (type : SUDOKU_COLLECTION_TYPE) (verbose : Bool)
    (kOf : Nat → Nat) (cellsOf : Nat → List (Nat × Nat)) (idxs : List Nat)
    (s : EvalState) (hnd : idxs.Nodup)
    (hz : ∀ n ∈ idxs, ∀ t, (s.digitsPresent.field type n).testBit t = false) :
    (scanPass board type verbose kOf cellsOf idxs s).sudokuValid = true ↔
      s.sudokuValid = true ∧
      ∀ n ∈ idxs, (∀ c ∈ cellsOf n, 1 ≤ board c.1 c.2 ∧ board c.1 c.2 ≤ 9) ∧
        ((cellsOf n).map (fun c => board c.1 c.2)).Nodup := by
  induction idxs generalizing s with
  | nil => simp [scanPass]
  | cons n rest ih =>
    obtain ⟨hn, hrest⟩ := List.nodup_cons.mp hnd
    rw [scanPass_cons, ih _ hrest, reportMissing_valid, scanCells_valid]
    · constructor
      · rintro ⟨⟨hs, hall, hnodup⟩, hothers⟩
        refine ⟨hs, ?_⟩
        intro m hm
        rcases List.mem_cons.mp hm with rfl | hm
        · exact ⟨fun c hc => ⟨(hall c hc).1, (hall c hc).2.1⟩, hnodup⟩
        · exact hothers m hm
      · rintro ⟨hs, hall⟩
        refine ⟨⟨hs, ?_, (hall n (List.mem_cons_self _ _)).2⟩, ?_⟩
        · intro c hc
          obtain ⟨h1, h2⟩ := (hall n (List.mem_cons_self _ _)).1 c hc
          exact ⟨h1, h2, hz n (List.mem_cons_self _ _) _⟩
        · intro m hm
          exact hall m (List.mem_cons_of_mem _ hm)
    · intro m hm t
      rw [reportMissing_digitsPresent, Bool.eq_false_iff]
      intro hb
      rcases (scanCells_testBit board type type n m verbose (kOf n) (cellsOf n) s t).mp hb with
        hb | ⟨_, h2, _⟩
      · rw [hz m (List.mem_cons_of_mem _ hm) t] at hb
        exact Bool.noConfusion hb
      · exact hn (h2 ▸ hm)

/-! ## The three passes of `evaluateDigitsPresent` -/

theorem foldl_flatMap_eq {α β γ : Type} (f : α → List β) (g : γ → β → γ) (l : List α) (init : γ) :
    (l.flatMap f).foldl g init = l.foldl (fun acc x => (f x).foldl g acc) init := by
  induction l generalizing init with
  | nil => rfl
  | cons a rest ih => rw [List.flatMap_cons, List.foldl_append, ih, List.foldl_cons]

theorem evaluateRows_eq (board : Board) (verbose : Bool) (s : EvalState) :
    evaluateRows board verbose s =
      scanPass board SUDOKU_IS_rows verbose (fun _ => 0) rowCells (List.range 9) s := by
  simp only [evaluateRows, scanPass, scanCells, rowCells, List.foldl_map]

theorem evaluateColumns_eq (board : Board) (verbose : Bool) (s : EvalState) :
    evaluateColumns board verbose s =
      scanPass board SUDOKU_IS_columns verbose (fun _ => 0) columnCells (List.range 9) s := by
  simp only [evaluateColumns, scanPass, scanCells, columnCells, List.foldl_map]

theorem evaluateBlocks_eq (board : Board) (verbose : Bool) (s : EvalState) :
    evaluateBlocks board verbose s =
      scanPass board SUDOKU_IS_blocks verbose (fun k => k) blockCells (List.range 9) s := by
  simp only [evaluateBlocks, scanPass, scanCells, blockCells, foldl_flatMap_eq, List.foldl_map]

theorem evaluateDigitsPresent_digitsPresent (board : Board) (verbose : Bool) :
    (evaluateDigitsPresent board verbose).digitsPresent =
      (evaluateBlocks board verbose (evaluateColumns board verbose
        (evaluateRows board verbose evalStart))).digitsPresent := by
  unfold evaluateDigitsPresent evalStart
  simp only
  split <;> rfl

theorem evaluateDigitsPresent_valid (board : Board) (verbose : Bool) :
    (evaluateDigitsPresent board verbose).sudokuValid =
      (evaluateBlocks board verbose (evaluateColumns board verbose
        (evaluateRows board verbose evalStart))).sudokuValid := by
  unfold evaluateDigitsPresent evalStart
  simp only
  split <;> rfl

theorem field_zero_testBit (type : SUDOKU_COLLECTION_TYPE) (n t : Nat) :
    (evalStart.digitsPresent.field type n).testBit t = false := by
  cases type <;> simp [evalStart, DigitsPresent.zero, DigitsPresent.field]

theorem mem_rowCells (i : Nat) (c : Nat × Nat) : c ∈ rowCells i ↔ c.1 = i ∧ c.2 < 9 := by
  obtain ⟨a, b⟩ := c
  simp only [rowCells, List.mem_map, List.mem_range, Prod.mk.injEq]
  constructor
  · rintro ⟨j, hj, rfl, rfl⟩; exact ⟨rfl, hj⟩
  · rintro ⟨rfl, hb⟩; exact ⟨b, hb, rfl, rfl⟩

theorem mem_columnCells (j : Nat) (c : Nat × Nat) : c ∈ columnCells j ↔ c.1 < 9 ∧ c.2 = j := by
  obtain ⟨a, b⟩ := c
  simp only [columnCells, List.mem_map, List.mem_range, Prod.mk.injEq]
  constructor
  · rintro ⟨i, hi, rfl, rfl⟩; exact ⟨hi, rfl⟩
  · rintro ⟨ha, rfl⟩; exact ⟨a, ha, rfl, rfl⟩

theorem mem_blockCells (k : Nat) (c : Nat × Nat) :
    c ∈ blockCells k ↔
      ((k / 3) * 3 ≤ c.1 ∧ c.1 < (k / 3) * 3 + 3) ∧ ((k % 3) * 3 ≤ c.2 ∧ c.2 < (k % 3) * 3 + 3) := by
  obtain ⟨a, b⟩ := c
  simp only [blockCells, List.mem_flatMap, List.mem_map, List.mem_range'_1, Prod.mk.injEq]
  constructor
  · rintro ⟨i, hi, j, hj, rfl, rfl⟩; exact ⟨hi, hj⟩
  · rintro ⟨ha, hb⟩; exact ⟨a, ha, b, hb, rfl, rfl⟩

/-- Bit `t` of `rows[i]` after `evaluateDigitsPresent`. -/
theorem rows_testBit (board : Board) (verbose : Bool) (i t : Nat) (hi : i < 9) :
    ((evaluateDigitsPresent board verbose).digitsPresent.rows i).testBit t = true ↔
      ∃ j < 9, 1 ≤ board i j ∧ board i j ≤ 9 ∧ (board i j).toNat - 1 = t := by
  have h := scanPass_testBit board SUDOKU_IS_blocks SUDOKU_IS_rows verbose (fun k => k)
    blockCells (List.range 9) i (evaluateColumns board verbose
      (evaluateRows board verbose evalStart)) t
  rw [← evaluateBlocks_eq] at h
  have h2 := scanPass_testBit board SUDOKU_IS_columns SUDOKU_IS_rows verbose (fun _ => 0)
    columnCells (List.range 9) i (evaluateRows board verbose evalStart) t
  rw [← evaluateColumns_eq] at h2
  have h3 := scanPass_testBit board SUDOKU_IS_rows SUDOKU_IS_rows verbose (fun _ => 0)
    rowCells (List.range 9) i evalStart t
  rw [← evaluateRows_eq] at h3
  rw [evaluateDigitsPresent_digitsPresent]
  change ((evaluateBlocks board verbose (evaluateColumns board verbose
    (evaluateRows board verbose evalStart))).digitsPresent.field SUDOKU_IS_rows i).testBit t
      = true ↔ _
  rw [h, h2, h3, field_zero_testBit]
  constructor
  · rintro (((h | ⟨_, _, c, hc, hd⟩) | ⟨h, _⟩) | ⟨h, _⟩)
    · exact Bool.noConfusion h
    · obtain ⟨hc1, hc2⟩ := (mem_rowCells i c).mp hc
      rw [hc1] at hd
      exact ⟨c.2, hc2, hd⟩
    · exact SUDOKU_COLLECTION_TYPE.noConfusion h
    · exact SUDOKU_COLLECTION_TYPE.noConfusion h
  · rintro ⟨j, hj, hd⟩
    exact Or.inl (Or.inl (Or.inr ⟨rfl, List.mem_range.mpr hi, (i, j),
      (mem_rowCells i (i, j)).mpr ⟨rfl, hj⟩, hd⟩))

/-- Bit `t` of `columns[j]` after `evaluateDigitsPresent`. -/
theorem columns_testBit (board : Board) (verbose : Bool) (j t : Nat) (hj : j < 9) :
    ((evaluateDigitsPresent board verbose).digitsPresent.columns j).testBit t = true ↔
      ∃ i < 9, 1 ≤ board i j ∧ board i j ≤ 9 ∧ (board i j).toNat - 1 = t := by
  have h := scanPass_testBit board SUDOKU_IS_blocks SUDOKU_IS_columns verbose (fun k => k)
    blockCells (List.range 9) j (evaluateColumns board verbose
      (evaluateRows board verbose evalStart)) t
  rw [← evaluateBlocks_eq] at h
  have h2 := scanPass_testBit board SUDOKU_IS_columns SUDOKU_IS_columns verbose (fun _ => 0)
    columnCells (List.range 9) j (evaluateRows board verbose evalStart) t
  rw [← evaluateColumns_eq] at h2
  have h3 := scanPass_testBit board SUDOKU_IS_rows SUDOKU_IS_columns verbose (fun _ => 0)
    rowCells (List.range 9) j evalStart t
  rw [← evaluateRows_eq] at h3
  rw [evaluateDigitsPresent_digitsPresent]
  change ((evaluateBlocks board verbose (evaluateColumns board verbose
    (evaluateRows board verbose evalStart))).digitsPresent.field SUDOKU_IS_columns j).testBit t
      = true ↔ _
  rw [h, h2, h3, field_zero_testBit]
  constructor
  · rintro (((h | ⟨h, _⟩) | ⟨_, _, c, hc, hd⟩) | ⟨h, _⟩)
    · exact Bool.noConfusion h
    · exact SUDOKU_COLLECTION_TYPE.noConfusion h
    · obtain ⟨hc1, hc2⟩ := (mem_columnCells j c).mp hc
      rw [hc2] at hd
      exact ⟨c.1, hc1, hd⟩
    · exact SUDOKU_COLLECTION_TYPE.noConfusion h
  · rintro ⟨i, hi, hd⟩
    exact Or.inl (Or.inr ⟨rfl, List.mem_range.mpr hj, (i, j),
      (mem_columnCells j (i, j)).mpr ⟨hi, rfl⟩, hd⟩)

/-- Bit `t` of `blocks[k]` after `evaluateDigitsPresent`. -/
theorem blocks_testBit (board : Board) (verbose : Bool) (k t : Nat) (hk : k < 9) :
    ((evaluateDigitsPresent board verbose).digitsPresent.blocks k).testBit t = true ↔
      ∃ c ∈ blockCells k, 1 ≤ board c.1 c.2 ∧ board c.1 c.2 ≤ 9 ∧
        (board c.1 c.2).toNat - 1 = t := by
  have h := scanPass_testBit board SUDOKU_IS_blocks SUDOKU_IS_blocks verbose (fun k => k)
    blockCells (List.range 9) k (evaluateColumns board verbose
      (evaluateRows board verbose evalStart)) t
  rw [← evaluateBlocks_eq] at h
  have h2 := scanPass_testBit board SUDOKU_IS_columns SUDOKU_IS_blocks verbose (fun _ => 0)
    columnCells (List.range 9) k (evaluateRows board verbose evalStart) t
  rw [← evaluateColumns_eq] at h2
  have h3 := scanPass_testBit board SUDOKU_IS_rows SUDOKU_IS_blocks verbose (fun _ => 0)
    rowCells (List.range 9) k evalStart t
  rw [← evaluateRows_eq] at h3
  rw [evaluateDigitsPresent_digitsPresent]
  change ((evaluateBlocks board verbose (evaluateColumns board verbose
    (evaluateRows board verbose evalStart))).digitsPresent.field SUDOKU_IS_blocks k).testBit t
      = true ↔ _
  rw [h, h2, h3, field_zero_testBit]
  constructor
  · rintro (((h | ⟨h, _⟩) | ⟨h, _⟩) | ⟨_, _, hc⟩)
    · exact Bool.noConfusion h
    · exact SUDOKU_COLLECTION_TYPE.noConfusion h
    · exact SUDOKU_COLLECTION_TYPE.noConfusion h
    · exact hc
  · intro hc
    exact Or.inr ⟨rfl, List.mem_range.mpr hk, hc⟩

theorem scanPass_other (board : Board) (type type2 : SUDOKU_COLLECTION_TYPE) (verbose : Bool)
    (kOf : Nat → Nat) (cellsOf : Nat → List (Nat × Nat)) (idxs : List Nat) (n t : Nat)
    (s : EvalState) (hne : type2 ≠ type)
    (hz : (s.digitsPresent.field type2 n).testBit t = false) :
    ((scanPass board type verbose kOf cellsOf idxs s).digitsPresent.field type2 n).testBit t
      = false := by
  rw [Bool.eq_false_iff]
  intro hb
  rcases (scanPass_testBit board type type2 verbose kOf cellsOf idxs n s t).mp hb with
    hb | ⟨h, _⟩
  · rw [hz] at hb; exact Bool.noConfusion hb
  · exact hne h

/-- The flag `sudokuValid` of `evaluateDigitsPresent`, in terms of the lists of squares the
three passes scan. -/
theorem valid_iff_cells (board : Board) (verbose : Bool) :
    (evaluateDigitsPresent board verbose).sudokuValid = true ↔
      (∀ i ∈ List.range 9, (∀ c ∈ rowCells i, 1 ≤ board c.1 c.2 ∧ board c.1 c.2 ≤ 9) ∧
        ((rowCells i).map (fun c => board c.1 c.2)).Nodup) ∧
      (∀ j ∈ List.range 9, (∀ c ∈ columnCells j, 1 ≤ board c.1 c.2 ∧ board c.1 c.2 ≤ 9) ∧
        ((columnCells j).map (fun c => board c.1 c.2)).Nodup) ∧
      (∀ k ∈ List.range 9, (∀ c ∈ blockCells k, 1 ≤ board c.1 c.2 ∧ board c.1 c.2 ≤ 9) ∧
        ((blockCells k).map (fun c => board c.1 c.2)).Nodup) := by
  rw [evaluateDigitsPresent_valid, evaluateBlocks_eq, evaluateColumns_eq, evaluateRows_eq]
  rw [scanPass_valid _ _ _ _ _ _ _ (List.nodup_range 9), scanPass_valid _ _ _ _ _ _ _
    (List.nodup_range 9), scanPass_valid _ _ _ _ _ _ _ (List.nodup_range 9)]
  · constructor
    · rintro ⟨⟨⟨_, h1⟩, h2⟩, h3⟩; exact ⟨h1, h2, h3⟩
    · rintro ⟨h1, h2, h3⟩; exact ⟨⟨⟨rfl, h1⟩, h2⟩, h3⟩
  · intro n _ t; exact field_zero_testBit _ n t
  · intro n _ t
    exact scanPass_other _ _ _ _ _ _ _ _ _ _ (by decide) (field_zero_testBit _ n t)
  · intro n _ t
    exact scanPass_other _ _ _ _ _ _ _ _ _ _ (by decide)
      (scanPass_other _ _ _ _ _ _ _ _ _ _ (by decide) (field_zero_testBit _ n t))

theorem nodup_rowCells (i : Nat) : (rowCells i).Nodup :=
  (List.nodup_range 9).map (fun _ _ h => (Prod.mk.inj h).2)

theorem nodup_columnCells (j : Nat) : (columnCells j).Nodup :=
  (List.nodup_range 9).map (fun _ _ h => (Prod.mk.inj h).1)

theorem nodup_blockCells (k : Nat) (hk : k < 9) : (blockCells k).Nodup := by
  have h : ∀ k < 9, (blockCells k).Nodup := by decide
  exact h k hk

/-- Every square of the board lies in the block `SUDOKU_BLOCK_FROM_INTERSECTION` gives. -/
theorem mem_blockCells_of_lt (r c : Nat) (hr : r < 9) (hc : c < 9) :
    (r, c) ∈ blockCells (SUDOKU_BLOCK_FROM_INTERSECTION r c) ∧
      SUDOKU_BLOCK_FROM_INTERSECTION r c < 9 := by
  rw [mem_blockCells]
  unfold SUDOKU_BLOCK_FROM_INTERSECTION
  simp only
  omega

theorem mem_blockCells_lt (k : Nat) (hk : k < 9) (c : Nat × Nat) (hc : c ∈ blockCells k) :
    c.1 < 9 ∧ c.2 < 9 ∧ c.1 / 3 = k / 3 ∧ c.2 / 3 = k % 3 := by
  rw [mem_blockCells] at hc
  omega

theorem mem_blockCells_iff (k : Nat) (hk : k < 9) (c : Nat × Nat) :
    c ∈ blockCells k ↔ c.1 < 9 ∧ c.2 < 9 ∧ SUDOKU_BLOCK_FROM_INTERSECTION c.1 c.2 = k := by
  rw [mem_blockCells]
  unfold SUDOKU_BLOCK_FROM_INTERSECTION
  omega

/-! ## Claims about `evaluateDigitsPresent` -/

/-- C1. The validity flag computed by `evaluateDigitsPresent` is true exactly when every
square holds a digit of 1..9 and no digit occurs twice in a row, in a column or in a 3x3
block; whether a collection misses a digit plays no part. -/
theorem C1_valid_iff_complete_and_no_repeat (board : Board) (verbose : Bool) :
    (evaluateDigitsPresent board verbose).sudokuValid = true ↔
      (∀ r < 9, ∀ c < 9, 1 ≤ board r c ∧ board r c ≤ 9) ∧
      (∀ d : Int, 1 ≤ d → d ≤ 9 →
        (∀ r < 9, ∀ c1 < 9, ∀ c2 < 9, board r c1 = d → board r c2 = d → c1 = c2) ∧
        (∀ c < 9, ∀ r1 < 9, ∀ r2 < 9, board r1 c = d → board r2 c = d → r1 = r2) ∧
        (∀ r1 < 9, ∀ c1 < 9, ∀ r2 < 9, ∀ c2 < 9, r1 / 3 = r2 / 3 → c1 / 3 = c2 / 3 →
          board r1 c1 = d → board r2 c2 = d → r1 = r2 ∧ c1 = c2)) := by
  rw [valid_iff_cells]
  constructor
  · rintro ⟨hrows, hcols, hblocks⟩
    have hdig : ∀ r < 9, ∀ c < 9, 1 ≤ board r c ∧ board r c ≤ 9 := fun r hr c hc =>
      (hrows r (List.mem_range.mpr hr)).1 (r, c) ((mem_rowCells r (r, c)).mpr ⟨rfl, hc⟩)
    refine ⟨hdig, fun d _ _ => ⟨?_, ?_, ?_⟩⟩
    · intro r hr c1 hc1 c2 hc2 h1 h2
      have hinj := (List.nodup_map_iff_inj_on (nodup_rowCells r)).mp
        (hrows r (List.mem_range.mpr hr)).2
      have := hinj (r, c1) ((mem_rowCells r _).mpr ⟨rfl, hc1⟩) (r, c2)
        ((mem_rowCells r _).mpr ⟨rfl, hc2⟩) (by rw [h1, h2])
      exact (Prod.mk.inj this).2
    · intro c hc r1 hr1 r2 hr2 h1 h2
      have hinj := (List.nodup_map_iff_inj_on (nodup_columnCells c)).mp
        (hcols c (List.mem_range.mpr hc)).2
      have := hinj (r1, c) ((mem_columnCells c _).mpr ⟨hr1, rfl⟩) (r2, c)
        ((mem_columnCells c _).mpr ⟨hr2, rfl⟩) (by rw [h1, h2])
      exact (Prod.mk.inj this).1
    · intro r1 hr1 c1 hc1 r2 hr2 c2 hc2 hr hc h1 h2
      obtain ⟨hmem, hk⟩ := mem_blockCells_of_lt r1 c1 hr1 hc1
      have hmem2 : (r2, c2) ∈ blockCells (SUDOKU_BLOCK_FROM_INTERSECTION r1 c1) := by
        rw [mem_blockCells_iff _ hk]
        refine ⟨hr2, hc2, ?_⟩
        unfold SUDOKU_BLOCK_FROM_INTERSECTION
        rw [hr, hc]
      have hinj := (List.nodup_map_iff_inj_on (nodup_blockCells _ hk)).mp
        (hblocks _ (List.mem_range.mpr hk)).2
      have := hinj (r1, c1) hmem (r2, c2) hmem2 (by rw [h1, h2])
      exact Prod.mk.inj this
  · rintro ⟨hdig, hrep⟩
    refine ⟨?_, ?_, ?_⟩
    · intro i hi
      have hi9 := List.mem_range.mp hi
      refine ⟨?_, (List.nodup_map_iff_inj_on (nodup_rowCells i)).mpr ?_⟩
      · intro c hc
        obtain ⟨h1, h2⟩ := (mem_rowCells i c).mp hc
        exact hdig c.1 (h1 ▸ hi9) c.2 h2
      · rintro ⟨a1, b1⟩ hc1 ⟨a2, b2⟩ hc2 heq
        obtain ⟨h1, h2⟩ := (mem_rowCells i _).mp hc1
        obtain ⟨h3, h4⟩ := (mem_rowCells i _).mp hc2
        simp only at h1 h2 h3 h4 heq
        have ha : a2 = a1 := h3.trans h1.symm
        rw [ha] at heq ⊢
        obtain ⟨hd1, hd2⟩ := hdig a1 (by omega) b1 h2
        rw [(hrep _ hd1 hd2).1 a1 (by omega) b1 h2 b2 h4 rfl heq.symm]
    · intro j hj
      have hj9 := List.mem_range.mp hj
      refine ⟨?_, (List.nodup_map_iff_inj_on (nodup_columnCells j)).mpr ?_⟩
      · intro c hc
        obtain ⟨h1, h2⟩ := (mem_columnCells j c).mp hc
        exact hdig c.1 h1 c.2 (h2 ▸ hj9)
      · rintro ⟨a1, b1⟩ hc1 ⟨a2, b2⟩ hc2 heq
        obtain ⟨h1, h2⟩ := (mem_columnCells j _).mp hc1
        obtain ⟨h3, h4⟩ := (mem_columnCells j _).mp hc2
        simp only at h1 h2 h3 h4 heq
        have hb : b2 = b1 := h4.trans h2.symm
        rw [hb] at heq ⊢
        obtain ⟨hd1, hd2⟩ := hdig a1 h1 b1 (by omega)
        rw [(hrep _ hd1 hd2).2.1 b1 (by omega) a1 h1 a2 h3 rfl heq.symm]
    · intro k hk
      have hk9 := List.mem_range.mp hk
      refine ⟨?_, (List.nodup_map_iff_inj_on (nodup_blockCells k hk9)).mpr ?_⟩
      · intro c hc
        obtain ⟨h1, h2, _⟩ := mem_blockCells_lt k hk9 c hc
        exact hdig c.1 h1 c.2 h2
      · rintro ⟨a1, b1⟩ hc1 ⟨a2, b2⟩ hc2 heq
        obtain ⟨h1, h2, h3, h4⟩ := mem_blockCells_lt k hk9 _ hc1
        obtain ⟨h5, h6, h7, h8⟩ := mem_blockCells_lt k hk9 _ hc2
        simp only at h1 h2 h3 h4 h5 h6 h7 h8 heq
        obtain ⟨hd1, hd2⟩ := hdig a1 h1 b1 h2
        obtain ⟨e1, e2⟩ := (hrep _ hd1 hd2).2.2 a1 h1 b1 h2 a2 h5 b2 h6 (by omega) (by omega)
          rfl heq.symm
        rw [e1, e2]

theorem mem_allDigits (v : Int) : v ∈ allDigits ↔ 1 ≤ v ∧ v ≤ 9 := by
  simp only [allDigits, List.mem_cons, List.mem_singleton, List.not_mem_nil, or_false]
  omega

theorem eq_allDigits_of_testBit (m : Nat) (h : ∀ t, m.testBit t = true ↔ t < 9) :
    m = SUDOKU_TEST_ALLDIGITS := by
  apply Nat.eq_of_testBit_eq
  intro t
  rw [testBit_allDigits]
  by_cases ht : t < 9
  · rw [(h t).mpr ht, decide_eq_true ht]
  · rw [decide_eq_false ht, Bool.eq_false_iff]
    exact fun hb => ht ((h t).mp hb)

/-- In a list of squares whose values are a permutation of 1..9, bit `t` is the bit of
some square exactly when `t < 9`. -/
theorem perm_bits (board : Board) (cells : List (Nat × Nat))
    (hp : (cells.map (fun c => board c.1 c.2)).Perm allDigits) (t : Nat) :
    (∃ c ∈ cells, 1 ≤ board c.1 c.2 ∧ board c.1 c.2 ≤ 9 ∧ (board c.1 c.2).toNat - 1 = t) ↔
      t < 9 := by
  constructor
  · rintro ⟨c, _, h1, h2, h3⟩; omega
  · intro ht
    have hmem : ((t + 1 : Nat) : Int) ∈ allDigits := (mem_allDigits _).mpr (by omega)
    obtain ⟨c, hc, hv⟩ := List.mem_map.mp (hp.mem_iff.mpr hmem)
    exact ⟨c, hc, by omega, by omega, by omega⟩

/-- C2. On a board whose rows, columns and blocks are all permutations of 1..9,
`evaluateDigitsPresent` reports validity and fills all 27 bit fields with
`SUDOKU_TEST_ALLDIGITS`, whatever `verbose` is. -/
theorem C2_solved_board_valid_all_masks_full (board : Board) (verbose : Bool)
    (hs : IsSolved board) :
    (evaluateDigitsPresent board verbose).sudokuValid = true ∧
      ∀ i < 9,
        (evaluateDigitsPresent board verbose).digitsPresent.rows i = SUDOKU_TEST_ALLDIGITS ∧
        (evaluateDigitsPresent board verbose).digitsPresent.columns i = SUDOKU_TEST_ALLDIGITS ∧
        (evaluateDigitsPresent board verbose).digitsPresent.blocks i = SUDOKU_TEST_ALLDIGITS := by
  constructor
  · rw [valid_iff_cells]
    have hnd : allDigits.Nodup := by decide
    refine ⟨?_, ?_, ?_⟩
    · intro i hi
      obtain ⟨hp, _, _⟩ := hs i (List.mem_range.mp hi)
      exact ⟨fun c hc => (mem_allDigits _).mp (hp.mem_iff.mp
        (List.mem_map.mpr ⟨c, hc, rfl⟩)), hp.nodup_iff.mpr hnd⟩
    · intro i hi
      obtain ⟨_, hp, _⟩ := hs i (List.mem_range.mp hi)
      exact ⟨fun c hc => (mem_allDigits _).mp (hp.mem_iff.mp
        (List.mem_map.mpr ⟨c, hc, rfl⟩)), hp.nodup_iff.mpr hnd⟩
    · intro i hi
      obtain ⟨_, _, hp⟩ := hs i (List.mem_range.mp hi)
      exact ⟨fun c hc => (mem_allDigits _).mp (hp.mem_iff.mp
        (List.mem_map.mpr ⟨c, hc, rfl⟩)), hp.nodup_iff.mpr hnd⟩
  · intro i hi
    obtain ⟨hr, hc, hb⟩ := hs i hi
    refine ⟨eq_allDigits_of_testBit _ fun t => ?_, eq_allDigits_of_testBit _ fun t => ?_,
      eq_allDigits_of_testBit _ fun t => ?_⟩
    · rw [rows_testBit board verbose i t hi, ← perm_bits board (rowCells i) hr t]
      constructor
      · rintro ⟨j, hj, h⟩; exact ⟨(i, j), (mem_rowCells i _).mpr ⟨rfl, hj⟩, h⟩
      · rintro ⟨c, hc, h⟩
        obtain ⟨h1, h2⟩ := (mem_rowCells i c).mp hc
        rw [h1] at h
        exact ⟨c.2, h2, h⟩
    · rw [columns_testBit board verbose i t hi, ← perm_bits board (columnCells i) hc t]
      constructor
      · rintro ⟨j, hj, h⟩; exact ⟨(j, i), (mem_columnCells i _).mpr ⟨hj, rfl⟩, h⟩
      · rintro ⟨c, hc, h⟩
        obtain ⟨h1, h2⟩ := (mem_columnCells i c).mp hc
        rw [h2] at h
        exact ⟨c.1, h1, h⟩
    · rw [blocks_testBit board verbose i t hi, ← perm_bits board (blockCells i) hb t]

theorem isSolved_solvedExample : IsSolved solvedExample := by decide

/-- C2 at `solvedExample`, with and without diagnostics. -/
theorem C2_solved_board_valid_all_masks_full_witness :
    IsSolved solvedExample ∧
      ((evaluateDigitsPresent solvedExample true).sudokuValid = true ∧
        ∀ i < 9,
          (evaluateDigitsPresent solvedExample true).digitsPresent.rows i
            = SUDOKU_TEST_ALLDIGITS ∧
          (evaluateDigitsPresent solvedExample true).digitsPresent.columns i
            = SUDOKU_TEST_ALLDIGITS ∧
          (evaluateDigitsPresent solvedExample true).digitsPresent.blocks i
            = SUDOKU_TEST_ALLDIGITS) :=
  ⟨isSolved_solvedExample,
    C2_solved_board_valid_all_masks_full solvedExample true isSolved_solvedExample⟩

/-- Bit `d - 1` of `rows[i]` is set exactly when digit `d` occurs in row `i`. -/
theorem rows_bit_iff (board : Board) (verbose : Bool) (i d : Nat) (hi : i < 9)
    (hd1 : 1 ≤ d) (hd9 : d ≤ 9) :
    ((evaluateDigitsPresent board verbose).digitsPresent.rows i).testBit (d - 1) = true ↔
      ∃ j < 9, board i j = (d : Int) := by
  rw [rows_testBit board verbose i (d - 1) hi]
  constructor
  · rintro ⟨j, hj, h1, h2, h3⟩; exact ⟨j, hj, by omega⟩
  · rintro ⟨j, hj, h⟩; exact ⟨j, hj, by omega, by omega, by omega⟩

/-- Bit `d - 1` of `columns[j]` is set exactly when digit `d` occurs in column `j`. -/
theorem columns_bit_iff (board : Board) (verbose : Bool) (j d : Nat) (hj : j < 9)
    (hd1 : 1 ≤ d) (hd9 : d ≤ 9) :
    ((evaluateDigitsPresent board verbose).digitsPresent.columns j).testBit (d - 1) = true ↔
      ∃ i < 9, board i j = (d : Int) := by
  rw [columns_testBit board verbose j (d - 1) hj]
  constructor
  · rintro ⟨i, hi, h1, h2, h3⟩; exact ⟨i, hi, by omega⟩
  · rintro ⟨i, hi, h⟩; exact ⟨i, hi, by omega, by omega, by omega⟩

/-- Bit `d - 1` of `blocks[k]` is set exactly when digit `d` occurs in block `k`. -/
theorem blocks_bit_iff (board : Board) (verbose : Bool) (k d : Nat) (hk : k < 9)
    (hd1 : 1 ≤ d) (hd9 : d ≤ 9) :
    ((evaluateDigitsPresent board verbose).digitsPresent.blocks k).testBit (d - 1) = true ↔
      ∃ c ∈ blockCells k, board c.1 c.2 = (d : Int) := by
  rw [blocks_testBit board verbose k (d - 1) hk]
  constructor
  · rintro ⟨c, hc, h1, h2, h3⟩; exact ⟨c, hc, by omega⟩
  · rintro ⟨c, hc, h⟩; exact ⟨c, hc, by omega, by omega, by omega⟩

/-- C3. After `evaluateDigitsPresent`, bit `d - 1` of `rows[i]`, `columns[i]` and
`blocks[i]` is set exactly when digit `d` occurs in row `i`, in column `i`, and in the
block with row offset `(i / 3) * 3` and column offset `(i % 3) * 3`; no bit above bit 8 is
set, so blank and out-of-range squares contribute nothing. -/
theorem C3_masks_record_occurrences (board : Board) (verbose : Bool) (i : Nat) (hi : i < 9) :
    (∀ d : Nat, 1 ≤ d → d ≤ 9 →
      (((evaluateDigitsPresent board verbose).digitsPresent.rows i).testBit (d - 1) = true ↔
        ∃ c < 9, board i c = (d : Int)) ∧
      (((evaluateDigitsPresent board verbose).digitsPresent.columns i).testBit (d - 1) = true ↔
        ∃ r < 9, board r i = (d : Int)) ∧
      (((evaluateDigitsPresent board verbose).digitsPresent.blocks i).testBit (d - 1) = true ↔
        ∃ a < 3, ∃ b < 3, board ((i / 3) * 3 + a) ((i % 3) * 3 + b) = (d : Int))) ∧
    (∀ t, 9 ≤ t →
      ((evaluateDigitsPresent board verbose).digitsPresent.rows i).testBit t = false ∧
      ((evaluateDigitsPresent board verbose).digitsPresent.columns i).testBit t = false ∧
      ((evaluateDigitsPresent board verbose).digitsPresent.blocks i).testBit t = false) := by
  constructor
  · intro d hd1 hd9
    refine ⟨rows_bit_iff board verbose i d hi hd1 hd9,
      columns_bit_iff board verbose i d hi hd1 hd9, ?_⟩
    rw [blocks_bit_iff board verbose i d hi hd1 hd9]
    constructor
    · rintro ⟨⟨r, c⟩, hc, h⟩
      rw [mem_blockCells] at hc
      simp only at hc h
      refine ⟨r - (i / 3) * 3, by omega, c - (i % 3) * 3, by omega, ?_⟩
      have e1 : i / 3 * 3 + (r - i / 3 * 3) = r := by omega
      have e2 : i % 3 * 3 + (c - i % 3 * 3) = c := by omega
      rw [e1, e2]; exact h
    · rintro ⟨a, ha, b, hb, h⟩
      refine ⟨((i / 3) * 3 + a, (i % 3) * 3 + b), ?_, h⟩
      rw [mem_blockCells]
      simp only
      omega
  · intro t ht
    refine ⟨?_, ?_, ?_⟩
    · rw [Bool.eq_false_iff]
      intro hb
      obtain ⟨j, _, h1, h2, h3⟩ := (rows_testBit board verbose i t hi).mp hb
      omega
    · rw [Bool.eq_false_iff]
      intro hb
      obtain ⟨j, _, h1, h2, h3⟩ := (columns_testBit board verbose i t hi).mp hb
      omega
    · rw [Bool.eq_false_iff]
      intro hb
      obtain ⟨c, _, h1, h2, h3⟩ := (blocks_testBit board verbose i t hi).mp hb
      omega

/-- C3 at `puzzleExample`: row 4, column 4 and the centre block, digit 8 and bit 9. -/
theorem C3_masks_record_occurrences_witness :
    4 < 9 ∧ 1 ≤ 8 ∧ 8 ≤ 9 ∧ 9 ≤ 9 ∧
    ((((evaluateDigitsPresent puzzleExample false).digitsPresent.rows 4).testBit (8 - 1) = true ↔
        ∃ c < 9, puzzleExample 4 c = ((8 : Nat) : Int)) ∧
      (((evaluateDigitsPresent puzzleExample false).digitsPresent.columns 4).testBit (8 - 1)
          = true ↔ ∃ r < 9, puzzleExample r 4 = ((8 : Nat) : Int)) ∧
      (((evaluateDigitsPresent puzzleExample false).digitsPresent.blocks 4).testBit (8 - 1)
          = true ↔
        ∃ a < 3, ∃ b < 3, puzzleExample ((4 / 3) * 3 + a) ((4 % 3) * 3 + b) = ((8 : Nat) : Int))) ∧
    (((evaluateDigitsPresent puzzleExample false).digitsPresent.rows 4).testBit 9 = false ∧
      ((evaluateDigitsPresent puzzleExample false).digitsPresent.columns 4).testBit 9 = false ∧
      ((evaluateDigitsPresent puzzleExample false).digitsPresent.blocks 4).testBit 9 = false) :=
  ⟨by decide, by decide, by decide, by decide,
    (C3_masks_record_occurrences puzzleExample false 4 (by decide)).1 8 (by decide) (by decide),
    (C3_masks_record_occurrences puzzleExample false 4 (by decide)).2 9 (by decide)⟩

/-! ## `assistantCrosshatch`: the loops as a search for the first hit -/

theorem foldl_stuck {α : Type} (step : HistoryStep → α → HistoryStep)
    (hstep : ∀ s x, s.newValue ≠ 0 → step s x = s) (l : List α) (s : HistoryStep)
    (hs : s.newValue ≠ 0) : l.foldl step s = s := by
  induction l with
  | nil => rfl
  | cons x rest ih => rw [List.foldl_cons, hstep s x hs, ih]

/-- A loop that stops at the first suggestion computes `findSome?`. -/
theorem foldl_guard_findSome {α : Type} (hit : α → Option HistoryStep)
    (step : HistoryStep → α → HistoryStep)
    (hstep : ∀ s x, s.newValue ≠ 0 → step s x = s)
    (hstart : ∀ x, step noSuggestion x = (hit x).getD noSuggestion)
    (hhit : ∀ x r, hit x = some r → r.newValue ≠ 0) (l : List α) :
    l.foldl step noSuggestion = (l.findSome? hit).getD noSuggestion := by
  induction l with
  | nil => rfl
  | cons x rest ih =>
    rw [List.foldl_cons, hstart, List.findSome?_cons]
    cases hx : hit x with
    | none => simpa using ih
    | some r =>
      simp only [Option.getD_some]
      exact foldl_stuck step hstep rest r (hhit x r hx)

theorem crosshatchHit_newValue (board : Board) (dp : DigitsPresent) (row digit column : Nat)
    (r : HistoryStep) (h : crosshatchHit board dp row digit column = some r) :
    r.newValue = (digit : Int) ∧ r.oldValue = 0 := by
  unfold crosshatchHit at h
  split at h
  · cases h; exact ⟨rfl, rfl⟩
  · exact Option.noConfusion h

theorem crosshatchColumn_start (board : Board) (dp : DigitsPresent) (row digit column : Nat) :
    crosshatchColumn board dp row digit noSuggestion column =
      (crosshatchHit board dp row digit column).getD noSuggestion := by
  unfold crosshatchColumn crosshatchHit
  simp only [noSuggestion, ne_eq, not_true_eq_false, if_false]
  by_cases h1 : dp.columns column &&& SUDOKU_TEST_FLAG_SHIFT digit = 0
  · simp [h1]
  · by_cases h2 : dp.blocks (SUDOKU_BLOCK_FROM_INTERSECTION row column) &&&
        SUDOKU_TEST_FLAG_SHIFT digit = 0
    · by_cases h3 : (crosshatchCandidates board dp row column
          (SUDOKU_BLOCK_FROM_INTERSECTION row column) (SUDOKU_TEST_FLAG_SHIFT digit)).length = 1
      · simp [h1, h2, h3]
      · simp [h1, h2, h3]
    · simp [h1, h2]

theorem crosshatchDigit_start (board : Board) (dp : DigitsPresent) (row digit : Nat)
    (hd : 1 ≤ digit) :
    crosshatchDigit board dp row noSuggestion digit =
      (crosshatchDigitHit board dp row digit).getD noSuggestion := by
  unfold crosshatchDigit crosshatchDigitHit
  simp only [noSuggestion, ne_eq, not_true_eq_false, if_false]
  split
  · apply foldl_guard_findSome
    · intro s x hs; unfold crosshatchColumn; rw [if_pos hs]
    · intro x; exact crosshatchColumn_start board dp row digit x
    · intro x r hr
      rw [(crosshatchHit_newValue board dp row digit x r hr).1]
      omega
  · rfl

theorem crosshatchDigitHit_newValue (board : Board) (dp : DigitsPresent) (row digit : Nat)
    (r : HistoryStep) (h : crosshatchDigitHit board dp row digit = some r) :
    r.newValue = (digit : Int) := by
  unfold crosshatchDigitHit at h
  split at h
  · obtain ⟨column, _, hc⟩ := List.exists_of_findSome?_eq_some h
    exact (crosshatchHit_newValue board dp row digit column r hc).1
  · exact Option.noConfusion h

theorem foldl_guard_findSome_mem {α : Type} (hit : α → Option HistoryStep)
    (step : HistoryStep → α → HistoryStep)
    (hstep : ∀ s x, s.newValue ≠ 0 → step s x = s) (l : List α)
    (hstart : ∀ x ∈ l, step noSuggestion x = (hit x).getD noSuggestion)
    (hhit : ∀ x ∈ l, ∀ r, hit x = some r → r.newValue ≠ 0) :
    l.foldl step noSuggestion = (l.findSome? hit).getD noSuggestion := by
  induction l with
  | nil => rfl
  | cons x rest ih =>
    rw [List.foldl_cons, hstart x (List.mem_cons_self _ _), List.findSome?_cons]
    cases hx : hit x with
    | none =>
      simpa using ih (fun y hy => hstart y (List.mem_cons_of_mem _ hy))
        (fun y hy => hhit y (List.mem_cons_of_mem _ hy))
    | some r =>
      simp only [Option.getD_some]
      exact foldl_stuck step hstep rest r (hhit x (List.mem_cons_self _ _) r hx)

theorem crosshatchRow_start (board : Board) (dp : DigitsPresent) (row : Nat) :
    crosshatchRow board dp noSuggestion row =
      (crosshatchRowHit board dp row).getD noSuggestion := by
  unfold crosshatchRow crosshatchRowHit
  simp only [noSuggestion, ne_eq, not_true_eq_false, if_false]
  apply foldl_guard_findSome_mem
  · intro s x hs; unfold crosshatchDigit; rw [if_pos hs]
  · intro x hx
    exact crosshatchDigit_start board dp row x (List.mem_range'_1.mp hx).1
  · intro x hx r hr
    rw [crosshatchDigitHit_newValue board dp row x r hr]
    have := (List.mem_range'_1.mp hx).1
    omega

theorem crosshatchRowHit_newValue (board : Board) (dp : DigitsPresent) (row : Nat)
    (r : HistoryStep) (h : crosshatchRowHit board dp row = some r) : r.newValue ≠ 0 := by
  unfold crosshatchRowHit at h
  obtain ⟨digit, hd, hc⟩ := List.exists_of_findSome?_eq_some h
  rw [crosshatchDigitHit_newValue board dp row digit r hc]
  have := (List.mem_range'_1.mp hd).1
  omega

/-- The result of `assistantCrosshatch` is the first hit in the order row, digit, column. -/
theorem assistantCrosshatch_eq_findSome (board : Board) :
    assistantCrosshatch board =
      ((List.range 9).findSome?
        (crosshatchRowHit board (evaluateDigitsPresent board false).digitsPresent)).getD
          noSuggestion := by
  unfold assistantCrosshatch
  apply foldl_guard_findSome
  · intro s x hs; unfold crosshatchRow; rw [if_pos hs]
  · intro x; exact crosshatchRow_start board _ x
  · intro x r hr; exact crosshatchRowHit_newValue board _ x r hr

theorem foldl_append_if {α β : Type} (p : α → Prop) (inst : ∀ x, Decidable (p x)) (f : α → β)
    (l : List α) (init : List β) :
    l.foldl (fun acc x => @ite _ (p x) (inst x) (acc ++ [f x]) acc) init =
      init ++ (l.filter (fun x => @decide (p x) (inst x))).map f := by
  induction l generalizing init with
  | nil => simp
  | cons x rest ih =>
    rw [List.foldl_cons, ih, List.filter_cons]
    by_cases hx : p x
    · simp [hx]
    · simp [hx]

theorem crosshatchCandidates_eq_filter (board : Board) (dp : DigitsPresent)
    (row column block testFlag : Nat) :
    crosshatchCandidates board dp row column block testFlag =
      ((blockCells block).filter (fun c =>
        decide (CrosshatchEligible board dp row column testFlag c))).map toCoord := by
  have h := foldl_append_if (CrosshatchEligible board dp row column testFlag)
    (fun _ => inferInstance) toCoord (blockCells block) []
  rw [List.nil_append] at h
  rw [← h]
  simp only [crosshatchCandidates, blockCells, foldl_flatMap_eq, List.foldl_map]
  rfl

theorem rows_flag_eq_zero_iff (board : Board) (verbose : Bool) (i d : Nat) (hi : i < 9)
    (hd1 : 1 ≤ d) (hd9 : d ≤ 9) :
    (evaluateDigitsPresent board verbose).digitsPresent.rows i &&& SUDOKU_TEST_FLAG_SHIFT d = 0 ↔
      ¬ InRow board i (d : Int) := by
  rw [and_flag_eq_zero_iff, Bool.eq_false_iff, Ne, rows_bit_iff board verbose i d hi hd1 hd9]
  rfl

theorem columns_flag_eq_zero_iff (board : Board) (verbose : Bool) (j d : Nat) (hj : j < 9)
    (hd1 : 1 ≤ d) (hd9 : d ≤ 9) :
    (evaluateDigitsPresent board verbose).digitsPresent.columns j &&&
        SUDOKU_TEST_FLAG_SHIFT d = 0 ↔ ¬ InColumn board j (d : Int) := by
  rw [and_flag_eq_zero_iff, Bool.eq_false_iff, Ne, columns_bit_iff board verbose j d hj hd1 hd9]
  rfl

theorem blocks_flag_eq_zero_iff (board : Board) (verbose : Bool) (k d : Nat) (hk : k < 9)
    (hd1 : 1 ≤ d) (hd9 : d ≤ 9) :
    (evaluateDigitsPresent board verbose).digitsPresent.blocks k &&&
        SUDOKU_TEST_FLAG_SHIFT d = 0 ↔ ¬ InBlock board k (d : Int) := by
  rw [and_flag_eq_zero_iff, Bool.eq_false_iff, Ne, blocks_bit_iff board verbose k d hk hd1 hd9]
  rfl

theorem block_lt (row column : Nat) (hr : row < 9) (hc : column < 9) :
    SUDOKU_BLOCK_FROM_INTERSECTION row column < 9 := by
  unfold SUDOKU_BLOCK_FROM_INTERSECTION; omega

/-- The squares `assistantCrosshatch` collects are the eligible squares of the board. -/
theorem crosshatchCandidates_eq_eligibleCells (board : Board) (row digit column : Nat)
    (hr : row < 9) (hc : column < 9) (hd1 : 1 ≤ digit) (hd9 : digit ≤ 9) :
    crosshatchCandidates board (evaluateDigitsPresent board false).digitsPresent row column
        (SUDOKU_BLOCK_FROM_INTERSECTION row column) (SUDOKU_TEST_FLAG_SHIFT digit) =
      (eligibleCells board row digit column).map toCoord := by
  rw [crosshatchCandidates_eq_filter, eligibleCells]
  congr 1
  apply List.filter_congr
  intro c hcmem
  obtain ⟨h1, h2, _⟩ := mem_blockCells_lt _ (block_lt row column hr hc) c hcmem
  simp only [CrosshatchEligible, decide_eq_decide]
  rw [rows_flag_eq_zero_iff board false c.1 digit h1 hd1 hd9,
    columns_flag_eq_zero_iff board false c.2 digit h2 hd1 hd9]

theorem rows_flag_ne_zero_iff (board : Board) (verbose : Bool) (i d : Nat) (hi : i < 9)
    (hd1 : 1 ≤ d) (hd9 : d ≤ 9) :
    (evaluateDigitsPresent board verbose).digitsPresent.rows i &&& SUDOKU_TEST_FLAG_SHIFT d ≠ 0 ↔
      InRow board i (d : Int) := by
  rw [Ne, rows_flag_eq_zero_iff board verbose i d hi hd1 hd9, not_not]

theorem columns_flag_ne_zero_iff (board : Board) (verbose : Bool) (j d : Nat) (hj : j < 9)
    (hd1 : 1 ≤ d) (hd9 : d ≤ 9) :
    (evaluateDigitsPresent board verbose).digitsPresent.columns j &&&
        SUDOKU_TEST_FLAG_SHIFT d ≠ 0 ↔ InColumn board j (d : Int) := by
  rw [Ne, columns_flag_eq_zero_iff board verbose j d hj hd1 hd9, not_not]

theorem headD_map_toCoord (l : List (Nat × Nat)) :
    (l.map toCoord).headD { col := 0, row := 0 } = toCoord (l.headD (0, 0)) := by
  cases l <;> rfl

/-- One iteration of the `column` loop hits exactly when the triple qualifies, the row
condition apart. -/
theorem crosshatchHit_eq (board : Board) (row digit column : Nat)
    (hr : row < 9) (hc : column < 9) (hd1 : 1 ≤ digit) (hd9 : digit ≤ 9) :
    crosshatchHit board (evaluateDigitsPresent board false).digitsPresent row digit column =
      if InColumn board column (digit : Int) ∧
          ¬ InBlock board (SUDOKU_BLOCK_FROM_INTERSECTION row column) (digit : Int) ∧
          (eligibleCells board row digit column).length = 1 then
        some (suggestionOfTriple board (row, digit, column))
      else none := by
  unfold crosshatchHit
  rw [crosshatchCandidates_eq_eligibleCells board row digit column hr hc hd1 hd9,
    List.length_map, headD_map_toCoord]
  have e1 := columns_flag_ne_zero_iff board false column digit hc hd1 hd9
  have e2 := blocks_flag_eq_zero_iff board false _ digit (block_lt row column hr hc) hd1 hd9
  by_cases h : InColumn board column (digit : Int) ∧
      ¬ InBlock board (SUDOKU_BLOCK_FROM_INTERSECTION row column) (digit : Int) ∧
      (eligibleCells board row digit column).length = 1
  · rw [if_pos h, if_pos ⟨e1.mpr h.1, e2.mpr h.2.1, h.2.2⟩]
    rfl
  · rw [if_neg h, if_neg]
    rintro ⟨h1, h2, h3⟩
    exact h ⟨e1.mp h1, e2.mp h2, h3⟩

theorem findSome?_congr_mem {α β : Type} (f g : α → Option β) (l : List α)
    (h : ∀ x ∈ l, f x = g x) : l.findSome? f = l.findSome? g := by
  induction l with
  | nil => rfl
  | cons x rest ih =>
    rw [List.findSome?_cons, List.findSome?_cons, h x (List.mem_cons_self _ _),
      ih (fun y hy => h y (List.mem_cons_of_mem _ hy))]

theorem findSome?_flatMap_eq {α β γ : Type} (f : α → List β) (g : β → Option γ) (l : List α) :
    (l.flatMap f).findSome? g = l.findSome? (fun x => (f x).findSome? g) := by
  induction l with
  | nil => rfl
  | cons x rest ih =>
    rw [List.flatMap_cons, List.findSome?_append, ih, List.findSome?_cons]
    cases (f x).findSome? g <;> rfl

theorem findSome?_if_eq_find? {α β : Type} (p : α → Prop) [DecidablePred p] (g : α → β)
    (l : List α) :
    l.findSome? (fun x => if p x then some (g x) else none) =
      (l.find? (fun x => decide (p x))).map g := by
  induction l with
  | nil => rfl
  | cons x rest ih =>
    rw [List.findSome?_cons, List.find?_cons]
    by_cases hx : p x
    · simp [hx]
    · simp [hx, ih]

/-- The hit of a triple, as an option. -/
theorem crosshatchRowHit_eq (board : Board) (row : Nat) (hr : row < 9) :
    crosshatchRowHit board (evaluateDigitsPresent board false).digitsPresent row =
      (List.range' 1 9).findSome? (fun digit =>
        (List.range 9).findSome? (fun column =>
          if Qualifies board (row, digit, column) then
            some (suggestionOfTriple board (row, digit, column))
          else none)) := by
  unfold crosshatchRowHit
  apply findSome?_congr_mem
  intro digit hdigit
  obtain ⟨hd1, hd9⟩ := List.mem_range'_1.mp hdigit
  have hd9 : digit ≤ 9 := by omega
  unfold crosshatchDigitHit
  have e0 := rows_flag_ne_zero_iff board false row digit hr hd1 hd9
  by_cases hrow : InRow board row (digit : Int)
  · rw [if_pos (e0.mpr hrow)]
    apply findSome?_congr_mem
    intro column hcolumn
    rw [crosshatchHit_eq board row digit column hr (List.mem_range.mp hcolumn) hd1 hd9]
    simp only [Qualifies, hrow, true_and]
  · rw [if_neg (fun h => hrow (e0.mp h))]
    symm
    rw [List.findSome?_eq_none_iff]
    intro column _
    rw [if_neg]
    exact fun h => hrow h.1

/-- C7. `assistantCrosshatch` equals its reference definition: it returns the eligible
square and the digit of the least qualifying triple in the order row, digit, column, and
the no-suggestion value (digit 0) when no triple qualifies. -/
theorem C7_crosshatch_equals_reference (board : Board) :
    assistantCrosshatch board = crosshatchReference board := by
  rw [assistantCrosshatch_eq_findSome, crosshatchReference, crosshatchTriples]
  have h1 : (List.range 9).findSome?
      (crosshatchRowHit board (evaluateDigitsPresent board false).digitsPresent) =
      (List.range 9).findSome? (fun row => (List.range' 1 9).findSome? (fun digit =>
        (List.range 9).findSome? (fun column =>
          if Qualifies board (row, digit, column) then
            some (suggestionOfTriple board (row, digit, column))
          else none))) :=
    findSome?_congr_mem _ _ _ (fun row hrow =>
      crosshatchRowHit_eq board row (List.mem_range.mp hrow))
  have h2 := findSome?_if_eq_find? (Qualifies board) (suggestionOfTriple board)
    ((List.range 9).flatMap (fun row => (List.range' 1 9).flatMap (fun digit =>
      (List.range 9).map (fun column => (row, digit, column)))))
  rw [findSome?_flatMap_eq] at h2
  simp only [findSome?_flatMap_eq, List.findSome?_map] at h2
  rw [h1]
  have h3 : ∀ o : Option (Nat × Nat × Nat),
      (o.map (suggestionOfTriple board)).getD noSuggestion =
        match o with
        | some t => suggestionOfTriple board t
        | none => noSuggestion := by
    intro o; cases o <;> rfl
  rw [← h3, ← h2]
  rfl

/-! ## Facts about solved boards -/

theorem solved_digit (S : Board) (hS : IsSolved S) (r c : Nat) (hr : r < 9) (hc : c < 9) :
    1 ≤ S r c ∧ S r c ≤ 9 := by
  obtain ⟨hp, _, _⟩ := hS r hr
  exact (mem_allDigits _).mp (hp.mem_iff.mp
    (List.mem_map.mpr ⟨(r, c), (mem_rowCells r _).mpr ⟨rfl, hc⟩, rfl⟩))

theorem nodup_allDigits : allDigits.Nodup := by decide

theorem solved_row_inj (S : Board) (hS : IsSolved S) (r c1 c2 : Nat) (hr : r < 9)
    (hc1 : c1 < 9) (hc2 : c2 < 9) (h : S r c1 = S r c2) : c1 = c2 := by
  obtain ⟨hp, _, _⟩ := hS r hr
  have hinj := (List.nodup_map_iff_inj_on (nodup_rowCells r)).mp
    (hp.nodup_iff.mpr nodup_allDigits)
  exact (Prod.mk.inj (hinj (r, c1) ((mem_rowCells r _).mpr ⟨rfl, hc1⟩) (r, c2)
    ((mem_rowCells r _).mpr ⟨rfl, hc2⟩) h)).2

theorem solved_column_inj (S : Board) (hS : IsSolved S) (c r1 r2 : Nat) (hc : c < 9)
    (hr1 : r1 < 9) (hr2 : r2 < 9) (h : S r1 c = S r2 c) : r1 = r2 := by
  obtain ⟨_, hp, _⟩ := hS c hc
  have hinj := (List.nodup_map_iff_inj_on (nodup_columnCells c)).mp
    (hp.nodup_iff.mpr nodup_allDigits)
  exact (Prod.mk.inj (hinj (r1, c) ((mem_columnCells c _).mpr ⟨hr1, rfl⟩) (r2, c)
    ((mem_columnCells c _).mpr ⟨hr2, rfl⟩) h)).1

theorem solved_block_inj (S : Board) (hS : IsSolved S) (k : Nat) (hk : k < 9)
    (c1 c2 : Nat × Nat) (h1 : c1 ∈ blockCells k) (h2 : c2 ∈ blockCells k)
    (h : S c1.1 c1.2 = S c2.1 c2.2) : c1 = c2 := by
  obtain ⟨_, _, hp⟩ := hS k hk
  exact (List.nodup_map_iff_inj_on (nodup_blockCells k hk)).mp
    (hp.nodup_iff.mpr nodup_allDigits) c1 h1 c2 h2 h

theorem solved_row_has (S : Board) (hS : IsSolved S) (r : Nat) (hr : r < 9) (d : Int)
    (hd1 : 1 ≤ d) (hd9 : d ≤ 9) : ∃ c < 9, S r c = d := by
  obtain ⟨hp, _, _⟩ := hS r hr
  obtain ⟨c, hc, hv⟩ := List.mem_map.mp (hp.mem_iff.mpr ((mem_allDigits d).mpr ⟨hd1, hd9⟩))
  obtain ⟨h1, h2⟩ := (mem_rowCells r c).mp hc
  rw [h1] at hv
  exact ⟨c.2, h2, hv⟩

theorem solved_column_has (S : Board) (hS : IsSolved S) (c : Nat) (hc : c < 9) (d : Int)
    (hd1 : 1 ≤ d) (hd9 : d ≤ 9) : ∃ r < 9, S r c = d := by
  obtain ⟨_, hp, _⟩ := hS c hc
  obtain ⟨x, hx, hv⟩ := List.mem_map.mp (hp.mem_iff.mpr ((mem_allDigits d).mpr ⟨hd1, hd9⟩))
  obtain ⟨h1, h2⟩ := (mem_columnCells c x).mp hx
  rw [h2] at hv
  exact ⟨x.1, h1, hv⟩

theorem solved_block_has (S : Board) (hS : IsSolved S) (k : Nat) (hk : k < 9) (d : Int)
    (hd1 : 1 ≤ d) (hd9 : d ≤ 9) : ∃ c ∈ blockCells k, S c.1 c.2 = d := by
  obtain ⟨_, _, hp⟩ := hS k hk
  obtain ⟨x, hx, hv⟩ := List.mem_map.mp (hp.mem_iff.mpr ((mem_allDigits d).mpr ⟨hd1, hd9⟩))
  exact ⟨x, hx, hv⟩

/-! ## Claims about `assistantCrosshatch` -/

/-- Whenever `assistantCrosshatch` suggests a digit, the suggestion is that of a qualifying
triple with row and column below 9 and digit in 1..9. -/
theorem crosshatch_found (board : Board) (h : (assistantCrosshatch board).newValue ≠ 0) :
    ∃ row digit column, row < 9 ∧ 1 ≤ digit ∧ digit ≤ 9 ∧ column < 9 ∧
      Qualifies board (row, digit, column) ∧
      assistantCrosshatch board = suggestionOfTriple board (row, digit, column) := by
  rw [assistantCrosshatch_eq_findSome] at h ⊢
  cases hf : (List.range 9).findSome?
      (crosshatchRowHit board (evaluateDigitsPresent board false).digitsPresent) with
  | none =>
    rw [hf] at h
    exact absurd rfl h
  | some r =>
    obtain ⟨row, hrow, hr⟩ := List.exists_of_findSome?_eq_some hf
    have hrow9 := List.mem_range.mp hrow
    rw [crosshatchRowHit_eq board row hrow9] at hr
    obtain ⟨digit, hdigit, hd⟩ := List.exists_of_findSome?_eq_some hr
    obtain ⟨column, hcolumn, hc⟩ := List.exists_of_findSome?_eq_some hd
    obtain ⟨hd1, hd9⟩ := List.mem_range'_1.mp hdigit
    split at hc
    · next hq =>
      refine ⟨row, digit, column, hrow9, hd1, by omega, List.mem_range.mp hcolumn, hq, ?_⟩
      simp only [Option.getD_some]
      exact (Option.some.inj hc).symm
    · exact Option.noConfusion hc

theorem mem_eligibleCells (board : Board) (row digit column : Nat) (c : Nat × Nat) :
    c ∈ eligibleCells board row digit column ↔
      c ∈ blockCells (SUDOKU_BLOCK_FROM_INTERSECTION row column) ∧
        board c.1 c.2 = 0 ∧ c.1 ≠ row ∧ c.2 ≠ column ∧
        ¬ InRow board c.1 (digit : Int) ∧ ¬ InColumn board c.2 (digit : Int) := by
  unfold eligibleCells
  rw [List.mem_filter, decide_eq_true_eq]

theorem headD_of_length_one {α : Type} (l : List α) (d x : α) (hl : l.length = 1)
    (hx : x ∈ l) : l.headD d = x := by
  obtain ⟨a, rfl⟩ := List.length_eq_one.mp hl
  rw [List.mem_singleton] at hx
  rw [hx]; rfl

/-- In a solved board that completes `G`, the digit of a qualifying triple of `G` sits on
the single eligible square. -/
theorem qualifies_forced (G S : Board) (hS : IsSolved S) (hSG : Completes S G)
    (row digit column : Nat) (hr : row < 9) (hd1 : 1 ≤ digit) (hd9 : digit ≤ 9)
    (hc : column < 9) (hq : Qualifies G (row, digit, column)) :
    S ((eligibleCells G row digit column).headD (0, 0)).1
      ((eligibleCells G row digit column).headD (0, 0)).2 = (digit : Int) := by
  obtain ⟨⟨j, hj, hrowd⟩, ⟨i, hi, hcold⟩, hnb, hlen⟩ := hq
  simp only at hrowd hcold hnb hlen
  have hk := block_lt row column hr hc
  obtain ⟨c0, hc0, hv⟩ := solved_block_has S hS _ hk (digit : Int) (by omega) (by omega)
  obtain ⟨h01, h02, h03, h04⟩ := mem_blockCells_lt _ hk c0 hc0
  have hd0 : (digit : Int) ≠ 0 := by omega
  have hblank : G c0.1 c0.2 = 0 := by
    by_contra hne
    have := hSG c0.1 h01 c0.2 h02 hne
    exact hnb ⟨c0, hc0, by rw [← this, hv]⟩
  have hSrow : S row j = (digit : Int) := by
    rw [hSG row hr j hj (by rw [hrowd]; exact hd0), hrowd]
  have hScol : S i column = (digit : Int) := by
    rw [hSG i hi column hc (by rw [hcold]; exact hd0), hcold]
  have hmem : c0 ∈ eligibleCells G row digit column := by
    rw [mem_eligibleCells]
    refine ⟨hc0, hblank, ?_, ?_, ?_, ?_⟩
    · intro he
      have := solved_row_inj S hS row j c0.2 hr hj h02 (by rw [hSrow, ← he, hv])
      rw [he, ← this, hrowd] at hblank
      exact hd0 hblank
    · intro he
      have := solved_column_inj S hS column i c0.1 hc hi h01 (by rw [hScol, ← he, hv])
      rw [he, ← this, hcold] at hblank
      exact hd0 hblank
    · rintro ⟨j2, hj2, hj2d⟩
      have hS2 : S c0.1 j2 = (digit : Int) := by
        rw [hSG c0.1 h01 j2 hj2 (by rw [hj2d]; exact hd0), hj2d]
      have := solved_row_inj S hS c0.1 j2 c0.2 h01 hj2 h02 (by rw [hS2, hv])
      rw [← this, hj2d] at hblank
      exact hd0 hblank
    · rintro ⟨i2, hi2, hi2d⟩
      have hS2 : S i2 c0.2 = (digit : Int) := by
        rw [hSG i2 hi2 c0.2 h02 (by rw [hi2d]; exact hd0), hi2d]
      have := solved_column_inj S hS c0.2 i2 c0.1 h02 hi2 h01 (by rw [hS2, hv])
      rw [← this, hi2d] at hblank
      exact hd0 hblank
  rw [headD_of_length_one _ (0, 0) c0 hlen hmem]
  exact hv

/-- C4. Cross-hatch suggestions are forced: in every solved board that agrees with the
board on its non-blank squares, the suggested square holds the suggested digit. -/
theorem C4_crosshatch_suggestion_forced (G S : Board) (hS : IsSolved S) (hSG : Completes S G)
    (hd : (assistantCrosshatch G).newValue ≠ 0) :
    S (assistantCrosshatch G).location.row (assistantCrosshatch G).location.col =
      (assistantCrosshatch G).newValue := by
  obtain ⟨row, digit, column, hr, hd1, hd9, hc, hq, he⟩ := crosshatch_found G hd
  rw [he]
  exact qualifies_forced G S hS hSG row digit column hr hd1 hd9 hc hq

theorem completes_example : Completes solvedExample puzzleExample := by decide

set_option maxRecDepth 100000 in
theorem crosshatch_example :
    assistantCrosshatch puzzleExample =
      { location := { col := 6, row := 2 }, newValue := 5, oldValue := 0 } := by decide

/-- C4 at `puzzleExample` and its solution `solvedExample`. -/
theorem C4_crosshatch_suggestion_forced_witness :
    IsSolved solvedExample ∧ Completes solvedExample puzzleExample ∧
      (assistantCrosshatch puzzleExample).newValue ≠ 0 ∧
      solvedExample (assistantCrosshatch puzzleExample).location.row
        (assistantCrosshatch puzzleExample).location.col =
          (assistantCrosshatch puzzleExample).newValue :=
  ⟨isSolved_solvedExample, completes_example, by rw [crosshatch_example]; decide,
    C4_crosshatch_suggestion_forced puzzleExample solvedExample isSolved_solvedExample
      completes_example (by rw [crosshatch_example]; decide)⟩

/-! ## Loops that stop at the first find -/

theorem foldl_guard_stuck {σ α : Type} (found : σ → Bool) (body : σ → α → σ) (l : List α)
    (s : σ) (hs : found s = true) :
    l.foldl (fun s x => if found s = true then s else body s x) s = s := by
  induction l with
  | nil => rfl
  | cons x rest ih => rw [List.foldl_cons, if_pos hs, ih]

/-- Two nested loops with the same exit test are one loop over the pairs. -/
theorem foldl_guard_nested {σ α β : Type} (found : σ → Bool) (body : σ → α × β → σ)
    (la : List α) (lb : List β) (s : σ) :
    la.foldl (fun s a => if found s = true then s else
        lb.foldl (fun s b => if found s = true then s else body s (a, b)) s) s =
      (la.flatMap (fun a => lb.map (fun b => (a, b)))).foldl
        (fun s p => if found s = true then s else body s p) s := by
  rw [foldl_flatMap_eq]
  simp only [List.foldl_map]
  congr 1
  funext s a
  by_cases hs : found s = true
  · rw [if_pos hs]
    exact (foldl_guard_stuck found (fun s b => body s (a, b)) lb s hs).symm
  · rw [if_neg hs]

/-- While nothing is hit the loop keeps its invariant. -/
theorem foldl_guard_none {σ α : Type} (found : σ → Bool) (body : σ → α → σ)
    (hit : α → Prop) (I : σ → Prop) (l : List α)
    (hI : ∀ s, ∀ x ∈ l, I s → ¬ hit x → I (body s x))
    (hnone : ∀ x ∈ l, ¬ hit x) (s : σ) (hs : I s) :
    I (l.foldl (fun s x => if found s = true then s else body s x) s) := by
  induction l generalizing s with
  | nil => exact hs
  | cons x rest ih =>
    rw [List.foldl_cons]
    apply ih (fun s y hy => hI s y (List.mem_cons_of_mem _ hy))
      (fun y hy => hnone y (List.mem_cons_of_mem _ hy))
    by_cases hf : found s = true
    · rw [if_pos hf]; exact hs
    · rw [if_neg hf]
      exact hI s x (List.mem_cons_self _ _) hs (hnone x (List.mem_cons_self _ _))

/-- The loop returns what its first hit produces. -/
theorem foldl_guard_first {σ α : Type} (found : σ → Bool) (body : σ → α → σ)
    (hit : α → Prop) (res : α → σ) (I : σ → Prop) (l1 l2 : List α) (x : α)
    (hI0 : ∀ s, I s → found s = false)
    (hI : ∀ s, ∀ y ∈ l1, I s → ¬ hit y → I (body s y))
    (hH : ∀ s, I s → body s x = res x)
    (hR : found (res x) = true)
    (hnone : ∀ y ∈ l1, ¬ hit y) (s : σ) (hs : I s) :
    (l1 ++ x :: l2).foldl (fun s x => if found s = true then s else body s x) s = res x := by
  rw [List.foldl_append, List.foldl_cons]
  have h1 := foldl_guard_none found body hit I l1 hI hnone s hs
  rw [if_neg (by rw [hI0 _ h1]; exact Bool.noConfusion), hH _ h1]
  exact foldl_guard_stuck found body l2 (res x) hR

theorem foldl_count_last {α β : Type} (p : α → Prop) (inst : ∀ x, Decidable (p x)) (f : α → β)
    (l : List α) (n0 : Nat) (y0 : β) :
    l.foldl (fun (nb : Nat × β) x => @ite _ (p x) (inst x) (nb.1 + 1, f x) nb) (n0, y0) =
      (n0 + (l.filter (fun x => @decide (p x) (inst x))).length,
        ((l.filter (fun x => @decide (p x) (inst x))).map f).getLastD y0) := by
  induction l generalizing n0 y0 with
  | nil => rfl
  | cons x rest ih =>
    rw [List.foldl_cons, List.filter_cons]
    by_cases hx : p x
    · rw [if_pos hx, ih]
      simp only [hx, decide_True, if_true, List.length_cons, List.map_cons,
        List.getLastD_cons]
      congr 1
      omega
    · rw [if_neg hx, ih]
      simp only [hx, decide_False, Bool.false_eq_true, if_false]

theorem shiftRight_and_one_ne_zero (m bit : Nat) :
    (m >>> bit) &&& 1 ≠ 0 ↔ m.testBit bit = true := by
  unfold Nat.testBit
  rw [Nat.and_comm]
  simp

theorem countFlaggedBits_eq (m : Nat) :
    countFlaggedBits m = ((candidateBits m).length, (candidateBits m).getLastD 0) := by
  unfold countFlaggedBits candidateBits
  have h := foldl_count_last (fun bit => (m >>> bit) &&& 1 ≠ 0) (fun _ => inferInstance) id
    (List.range 9) 0 0
  have hf : (List.range 9).filter (fun bit => decide ((m >>> bit) &&& 1 ≠ 0)) =
      (List.range 9).filter (fun b => m.testBit b) := by
    apply List.filter_congr
    intro b _
    by_cases hb : m.testBit b = true
    · rw [hb, decide_eq_true ((shiftRight_and_one_ne_zero m b).mpr hb)]
    · rw [Bool.not_eq_true] at hb
      rw [hb, decide_eq_false]
      intro h
      rw [(shiftRight_and_one_ne_zero m b).mp h] at hb
      exact Bool.noConfusion hb
  rw [hf, List.map_id, Nat.zero_add] at h
  exact h

theorem countInBlock_eq (g : CandidateGrid) (digit block : Nat) (sq : Coord2D) :
    countInBlock g block (SUDOKU_TEST_FLAG_SHIFT digit) sq =
      ((holders g digit block).length, ((holders g digit block).map toCoord).getLastD sq) := by
  have h := foldl_count_last (fun c : Nat × Nat => g c.1 c.2 &&& SUDOKU_TEST_FLAG_SHIFT digit ≠ 0)
    (fun _ => inferInstance) toCoord (blockCells block) 0 sq
  have hf : (blockCells block).filter
      (fun c => decide (g c.1 c.2 &&& SUDOKU_TEST_FLAG_SHIFT digit ≠ 0)) =
      holders g digit block := by
    unfold holders
    apply List.filter_congr
    intro c _
    by_cases hb : (g c.1 c.2).testBit (digit - 1) = true
    · rw [hb, decide_eq_true ((and_flag_ne_zero_iff _ _).mpr hb)]
    · rw [Bool.not_eq_true] at hb
      rw [hb, decide_eq_false]
      intro h
      rw [(and_flag_ne_zero_iff _ _).mp h] at hb
      exact Bool.noConfusion hb
  rw [hf, Nat.zero_add] at h
  rw [← h]
  simp only [countInBlock, blockCells, foldl_flatMap_eq, List.foldl_map]
  rfl

theorem scanSquares_eq (g : CandidateGrid) (s : ScanState) :
    scanSquares g s =
      allSquares.foldl (fun s c =>
        if s.suggestionFound = true then s else scanSquareBody g s c) s := by
  unfold allSquares
  rw [← foldl_guard_nested (fun s : ScanState => s.suggestionFound) (scanSquareBody g)]
  rfl

theorem scanBlocks_eq (g : CandidateGrid) (s : ScanState) :
    scanBlocks g s =
      digitBlockPairs.foldl (fun s p =>
        if s.suggestionFound = true then s else scanBlockBody g s p) s := by
  unfold digitBlockPairs
  rw [← foldl_guard_nested (fun s : ScanState => s.suggestionFound) (scanBlockBody g)]
  rfl

/-! ## `scanForSingleCandidate` as two searches -/

theorem getLastD_map_of_length_one {α β : Type} (l : List α) (f : α → β) (d : β) (d2 : α)
    (hl : l.length = 1) : (l.map f).getLastD d = f (l.headD d2) := by
  obtain ⟨a, rfl⟩ := List.length_eq_one.mp hl
  rfl

theorem getLastD_of_length_one {α : Type} (l : List α) (d d2 : α)
    (hl : l.length = 1) : l.getLastD d = l.headD d2 := by
  obtain ⟨a, rfl⟩ := List.length_eq_one.mp hl
  rfl

theorem scanSquareBody_hit (g : CandidateGrid) (s : ScanState) (c : Nat × Nat)
    (h : HasOneBit (g c.1 c.2)) :
    scanSquareBody g s c =
      { suggestionFound := true
        suggestedSquare := toCoord c
        suggestionValue := (((candidateBits (g c.1 c.2)).headD 0 + 1 : Nat) : Int) } := by
  unfold scanSquareBody
  rw [countFlaggedBits_eq]
  simp only
  have h2 : (candidateBits (g c.1 c.2)).length = 1 := h
  rw [if_pos h2, getLastD_of_length_one _ 0 0 h2]
  rfl

theorem scanSquareBody_miss (g : CandidateGrid) (s : ScanState) (c : Nat × Nat)
    (h : ¬ HasOneBit (g c.1 c.2)) : scanSquareBody g s c = s := by
  unfold scanSquareBody
  rw [countFlaggedBits_eq]
  simp only
  have h2 : ¬ (candidateBits (g c.1 c.2)).length = 1 := h
  rw [if_neg h2]

theorem scanBlockBody_hit (g : CandidateGrid) (s : ScanState) (p : Nat × Nat)
    (h : (holders g p.1 p.2).length = 1) :
    scanBlockBody g s p =
      { suggestionFound := true
        suggestedSquare := toCoord ((holders g p.1 p.2).headD (0, 0))
        suggestionValue := (p.1 : Int) } := by
  unfold scanBlockBody
  rw [countInBlock_eq]
  simp only
  rw [if_pos h, getLastD_map_of_length_one _ toCoord _ (0, 0) h]

theorem scanBlockBody_miss (g : CandidateGrid) (s : ScanState) (p : Nat × Nat)
    (h : ¬ (holders g p.1 p.2).length = 1) :
    (scanBlockBody g s p).suggestionFound = s.suggestionFound ∧
      (scanBlockBody g s p).suggestionValue = s.suggestionValue := by
  unfold scanBlockBody
  rw [countInBlock_eq]
  simp only
  rw [if_neg h]
  exact ⟨rfl, rfl⟩

theorem scanSquares_found (g : CandidateGrid) (s : ScanState) (hs : s.suggestionFound = false)
    (c : Nat × Nat)
    (h : allSquares.find? (fun c => decide (HasOneBit (g c.1 c.2))) = some c) :
    scanSquares g s =
      { suggestionFound := true
        suggestedSquare := toCoord c
        suggestionValue := (((candidateBits (g c.1 c.2)).headD 0 + 1 : Nat) : Int) } := by
  obtain ⟨hc, l1, l2, hl, hbefore⟩ := List.find?_eq_some.mp h
  rw [decide_eq_true_eq] at hc
  rw [scanSquares_eq, hl]
  exact foldl_guard_first (fun s : ScanState => s.suggestionFound) (scanSquareBody g)
    (fun c => HasOneBit (g c.1 c.2))
    (fun c => { suggestionFound := true
                suggestedSquare := toCoord c
                suggestionValue := (((candidateBits (g c.1 c.2)).headD 0 + 1 : Nat) : Int) })
    (fun t => t = s) l1 l2 c
    (by intro t ht; dsimp only at ht ⊢; rw [ht]; exact hs)
    (by intro t y _ ht hy; dsimp only at ht hy ⊢; rw [scanSquareBody_miss g t y hy]; exact ht)
    (by intro t _; exact scanSquareBody_hit g t c hc) (by rfl)
    (by intro y hy; simpa using hbefore y hy) s rfl

theorem scanSquares_none (g : CandidateGrid) (s : ScanState)
    (h : allSquares.find? (fun c => decide (HasOneBit (g c.1 c.2))) = none) :
    scanSquares g s = s := by
  rw [scanSquares_eq]
  exact foldl_guard_none (fun s : ScanState => s.suggestionFound) (scanSquareBody g)
    (fun c => HasOneBit (g c.1 c.2)) (fun t => t = s) allSquares
    (by intro t y _ ht hy; dsimp only at ht hy ⊢; rw [scanSquareBody_miss g t y hy]; exact ht)
    (by intro y hy; simpa using List.find?_eq_none.mp h y hy) s rfl

theorem scanBlocks_found (g : CandidateGrid) (s : ScanState) (hs : s.suggestionFound = false)
    (p : Nat × Nat)
    (h : digitBlockPairs.find? (fun p => decide ((holders g p.1 p.2).length = 1)) = some p) :
    scanBlocks g s =
      { suggestionFound := true
        suggestedSquare := toCoord ((holders g p.1 p.2).headD (0, 0))
        suggestionValue := (p.1 : Int) } := by
  obtain ⟨hp, l1, l2, hl, hbefore⟩ := List.find?_eq_some.mp h
  rw [decide_eq_true_eq] at hp
  rw [scanBlocks_eq, hl]
  exact foldl_guard_first (fun s : ScanState => s.suggestionFound) (scanBlockBody g)
    (fun p => (holders g p.1 p.2).length = 1)
    (fun p => { suggestionFound := true
                suggestedSquare := toCoord ((holders g p.1 p.2).headD (0, 0))
                suggestionValue := (p.1 : Int) })
    (fun t => t.suggestionFound = false) l1 l2 p
    (by intro t ht; exact ht)
    (by intro t y _ ht hy; dsimp only at ht hy ⊢
        rw [(scanBlockBody_miss g t y hy).1]; exact ht)
    (by intro t _; exact scanBlockBody_hit g t p hp) (by rfl)
    (by intro y hy; simpa using hbefore y hy) s hs

theorem scanBlocks_none (g : CandidateGrid) (s : ScanState) (hs : s.suggestionFound = false)
    (hv : s.suggestionValue = 0)
    (h : digitBlockPairs.find? (fun p => decide ((holders g p.1 p.2).length = 1)) = none) :
    (scanBlocks g s).suggestionValue = 0 := by
  rw [scanBlocks_eq]
  exact (foldl_guard_none (fun s : ScanState => s.suggestionFound) (scanBlockBody g)
    (fun p => (holders g p.1 p.2).length = 1)
    (fun t => t.suggestionFound = false ∧ t.suggestionValue = 0) digitBlockPairs
    (by intro t y _ ht hy; dsimp only at ht hy ⊢
        rw [(scanBlockBody_miss g t y hy).1, (scanBlockBody_miss g t y hy).2]; exact ht)
    (by intro y hy; simpa using List.find?_eq_none.mp h y hy) s ⟨hs, hv⟩).2

theorem scanBlocks_stuck (g : CandidateGrid) (s : ScanState) (hs : s.suggestionFound = true) :
    scanBlocks g s = s := by
  rw [scanBlocks_eq]
  exact foldl_guard_stuck (fun s : ScanState => s.suggestionFound) (scanBlockBody g) _ s hs

theorem mem_digitBlockPairs (p : Nat × Nat) :
    p ∈ digitBlockPairs ↔ (1 ≤ p.1 ∧ p.1 ≤ 9) ∧ p.2 < 9 := by
  obtain ⟨a, b⟩ := p
  simp only [digitBlockPairs, List.mem_flatMap, List.mem_map, List.mem_range'_1,
    List.mem_range, Prod.mk.injEq]
  constructor
  · rintro ⟨d, hd, k, hk, rfl, rfl⟩; exact ⟨⟨hd.1, by omega⟩, hk⟩
  · rintro ⟨ha, hb⟩; exact ⟨a, ⟨ha.1, by omega⟩, b, hb, rfl, rfl⟩

theorem mem_allSquares (c : Nat × Nat) : c ∈ allSquares ↔ c.1 < 9 ∧ c.2 < 9 := by
  obtain ⟨a, b⟩ := c
  simp only [allSquares, List.mem_flatMap, List.mem_map, List.mem_range, Prod.mk.injEq]
  constructor
  · rintro ⟨r, hr, k, hk, rfl, rfl⟩; exact ⟨hr, hk⟩
  · rintro ⟨ha, hb⟩; exact ⟨a, ha, b, hb, rfl, rfl⟩

/-- The value and square `scanForSingleCandidate` returns, read as a suggestion: the first
square with one candidate bit if there is one, else the first (digit, block) pair with a
single holder. -/
theorem scanForSingleCandidate_eq (g : CandidateGrid) (sq : Coord2D) :
    (if (scanForSingleCandidate g sq).1 = 0 then none
      else some ((scanForSingleCandidate g sq).2, (scanForSingleCandidate g sq).1)) =
      (nakedSingle g).or (blockSingle g) := by
  unfold scanForSingleCandidate nakedSingle blockSingle
  simp only
  cases hn : allSquares.find? (fun c => decide (HasOneBit (g c.1 c.2))) with
  | some c =>
    rw [scanSquares_found g _ rfl c hn, scanBlocks_stuck _ _ rfl]
    simp only [Option.map_some', Option.or_some]
    rw [if_neg (by omega)]
  | none =>
    rw [scanSquares_none g _ hn]
    cases hb : digitBlockPairs.find? (fun p => decide ((holders g p.1 p.2).length = 1)) with
    | some p =>
      rw [scanBlocks_found g _ rfl p hb]
      have hp := ((mem_digitBlockPairs p).mp (List.mem_of_find?_eq_some hb)).1.1
      simp only [Option.map_some', Option.map_none', Option.none_or]
      rw [if_neg (by omega)]
    | none =>
      rw [scanBlocks_none g _ rfl rfl hb]
      rfl

/-! ## Candidate grids: closed forms of the loops that write them -/

theorem setSquare_apply (g : CandidateGrid) (row column value r c : Nat) :
    setSquare g row column value r c = if r = row ∧ c = column then value else g r c := rfl

/-- A loop that rewrites some squares of a duplicate-free list, each from its own old
value. -/
theorem foldl_cells_update (cells : List (Nat × Nat)) (hnd : cells.Nodup)
    (P : Nat × Nat → Prop) (inst : ∀ c, Decidable (P c)) (f : Nat × Nat → Nat → Nat)
    (g0 : CandidateGrid) (r c : Nat) :
    cells.foldl (fun g x =>
        @ite _ (P x) (inst x) (setSquare g x.1 x.2 (f x (g x.1 x.2))) g) g0 r c =
      if (r, c) ∈ cells ∧ P (r, c) then f (r, c) (g0 r c) else g0 r c := by
  induction cells generalizing g0 with
  | nil => simp
  | cons x rest ih =>
    obtain ⟨hx, hrest⟩ := List.nodup_cons.mp hnd
    rw [List.foldl_cons, ih hrest]
    by_cases hrc : (r, c) = x
    · subst hrc
      have h1 : ¬ ((r, c) ∈ rest ∧ P (r, c)) := fun h => hx h.1
      rw [if_neg h1]
      by_cases hP : P (r, c)
      · rw [if_pos hP, if_pos ⟨List.mem_cons_self _ _, hP⟩, setSquare_apply]
        simp
      · rw [if_neg hP, if_neg (fun h => hP h.2)]
    · have hg : (@ite _ (P x) (inst x) (setSquare g0 x.1 x.2 (f x (g0 x.1 x.2))) g0) r c
          = g0 r c := by
        by_cases hP : P x
        · rw [if_pos hP, setSquare_apply, if_neg]
          rintro ⟨h1, h2⟩
          exact hrc (Prod.ext h1 h2)
        · rw [if_neg hP]
      rw [hg]
      have hm : (r, c) ∈ x :: rest ↔ (r, c) ∈ rest := by
        rw [List.mem_cons]
        constructor
        · rintro (h | h)
          · exact absurd h hrc
          · exact h
        · exact Or.inr
      simp only [hm]

theorem nodup_allSquares : allSquares.Nodup := by decide

/-- The candidate grid of step 1, square by square. -/
theorem initialDigitsPossible_apply (board : Board) (dp : DigitsPresent) (r c : Nat) :
    initialDigitsPossible board dp r c =
      if (r < 9 ∧ c < 9) ∧ board r c = 0 then
        clearFlags (clearFlags (clearFlags SUDOKU_TEST_ALLDIGITS (dp.rows r)) (dp.columns c))
          (dp.blocks (SUDOKU_BLOCK_FROM_INTERSECTION r c))
      else 0 := by
  have h := foldl_cells_update allSquares nodup_allSquares
    (fun x => board x.1 x.2 = 0) (fun _ => inferInstance)
    (fun x _ => clearFlags (clearFlags (clearFlags SUDOKU_TEST_ALLDIGITS (dp.rows x.1))
      (dp.columns x.2)) (dp.blocks (SUDOKU_BLOCK_FROM_INTERSECTION x.1 x.2)))
    (fun _ _ => 0) r c
  simp only [mem_allSquares] at h
  rw [← h]
  simp only [initialDigitsPossible, allSquares, foldl_flatMap_eq, List.foldl_map]

/-- The squares `clearOutsideRow` rewrites. -/
theorem clearOutsideRow_apply (g : CandidateGrid) (block row testFlag : Nat) (hb : block < 9)
    (r c : Nat) :
    clearOutsideRow g block row testFlag r c =
      if (r, c) ∈ blockCells block ∧ r ≠ row then clearFlags (g r c) testFlag else g r c := by
  have h := foldl_cells_update (blockCells block) (nodup_blockCells block hb)
    (fun x => x.1 ≠ row) (fun _ => inferInstance) (fun _ v => clearFlags v testFlag) g r c
  rw [← h]
  simp only [clearOutsideRow, blockCells, foldl_flatMap_eq, List.foldl_map]

/-- The squares `clearOutsideColumn` rewrites. -/
theorem clearOutsideColumn_apply (g : CandidateGrid) (block column testFlag : Nat)
    (hb : block < 9) (r c : Nat) :
    clearOutsideColumn g block column testFlag r c =
      if (r, c) ∈ blockCells block ∧ c ≠ column then clearFlags (g r c) testFlag
      else g r c := by
  have h := foldl_cells_update (blockCells block) (nodup_blockCells block hb)
    (fun x => x.2 ≠ column) (fun _ => inferInstance) (fun _ v => clearFlags v testFlag) g r c
  rw [← h]
  simp only [clearOutsideColumn, blockCells, foldl_flatMap_eq, List.foldl_map]

theorem foldl_setFlag (α : Type) (Q : α → Prop) (inst : ∀ x, Decidable (Q x)) (f : α → Nat)
    (l : List α) (p0 : Nat → Bool) (i : Nat) :
    l.foldl (fun p x => @ite _ (Q x) (inst x) (setFlag p (f x)) p) p0 i = true ↔
      p0 i = true ∨ ∃ x ∈ l, Q x ∧ f x = i := by
  induction l generalizing p0 with
  | nil => simp
  | cons x rest ih =>
    rw [List.foldl_cons, ih]
    by_cases hQ : Q x
    · rw [if_pos hQ]
      unfold setFlag
      constructor
      · rintro (h | ⟨y, hy, hQy, hfy⟩)
        · by_cases hi : i = f x
          · exact Or.inr ⟨x, List.mem_cons_self _ _, hQ, hi.symm⟩
          · rw [if_neg hi] at h; exact Or.inl h
        · exact Or.inr ⟨y, List.mem_cons_of_mem _ hy, hQy, hfy⟩
      · rintro (h | ⟨y, hy, hQy, hfy⟩)
        · by_cases hi : i = f x
          · rw [if_pos hi]; exact Or.inl rfl
          · rw [if_neg hi]; exact Or.inl h
        · rcases List.mem_cons.mp hy with rfl | hy
          · rw [if_pos hfy.symm]; exact Or.inl rfl
          · exact Or.inr ⟨y, hy, hQy, hfy⟩
    · rw [if_neg hQ]
      constructor
      · rintro (h | ⟨y, hy, hQy, hfy⟩)
        · exact Or.inl h
        · exact Or.inr ⟨y, List.mem_cons_of_mem _ hy, hQy, hfy⟩
      · rintro (h | ⟨y, hy, hQy, hfy⟩)
        · exact Or.inl h
        · rcases List.mem_cons.mp hy with rfl | hy
          · exact absurd hQy hQ
          · exact Or.inr ⟨y, hy, hQy, hfy⟩

/-- Row pass: `digitPossibleInBlock[i]` is set exactly when the digit is possible in some
square of the row inside block-column `i`. -/
theorem rowBlocksPossible_iff (g : CandidateGrid) (row digit i : Nat) :
    rowBlocksPossible g row (SUDOKU_TEST_FLAG_SHIFT digit) i = true ↔
      ∃ column < 9, (g row column).testBit (digit - 1) = true ∧ column / 3 = i := by
  unfold rowBlocksPossible
  rw [foldl_setFlag Nat (fun column => g row column &&& SUDOKU_TEST_FLAG_SHIFT digit ≠ 0)
    (fun _ => inferInstance) (fun column => SUDOKU_BLOCK_FROM_INTERSECTION row column % 3)]
  simp only [Bool.false_eq_true, false_or, List.mem_range, and_flag_ne_zero_iff]
  constructor
  · rintro ⟨column, hc, hb, hi⟩
    refine ⟨column, hc, hb, ?_⟩
    unfold SUDOKU_BLOCK_FROM_INTERSECTION at hi
    omega
  · rintro ⟨column, hc, hb, hi⟩
    refine ⟨column, hc, hb, ?_⟩
    unfold SUDOKU_BLOCK_FROM_INTERSECTION
    omega

/-- Column pass: `digitPossibleInBlock[i]` is set exactly when the digit is possible in
some square of the column inside block-row `i`. -/
theorem columnBlocksPossible_iff (g : CandidateGrid) (column digit i : Nat) (hc : column < 9) :
    columnBlocksPossible g column (SUDOKU_TEST_FLAG_SHIFT digit) i = true ↔
      ∃ row < 9, (g row column).testBit (digit - 1) = true ∧ row / 3 = i := by
  unfold columnBlocksPossible
  rw [foldl_setFlag Nat (fun row => g row column &&& SUDOKU_TEST_FLAG_SHIFT digit ≠ 0)
    (fun _ => inferInstance) (fun row => SUDOKU_BLOCK_FROM_INTERSECTION row column / 3)]
  simp only [Bool.false_eq_true, false_or, List.mem_range, and_flag_ne_zero_iff]
  constructor
  · rintro ⟨row, hr, hb, hi⟩
    refine ⟨row, hr, hb, ?_⟩
    unfold SUDOKU_BLOCK_FROM_INTERSECTION at hi
    omega
  · rintro ⟨row, hr, hb, hi⟩
    refine ⟨row, hr, hb, ?_⟩
    unfold SUDOKU_BLOCK_FROM_INTERSECTION
    omega

theorem rowBlockCount_one (p : Nat → Bool) (row : Nat)
    (h : (rowBlockCount p row).1 = 1) :
    ∃ i < 3, p i = true ∧ (∀ j < 3, p j = true → j = i) ∧
      (rowBlockCount p row).2 = i + (row / 3) * 3 := by
  have hr : List.range 3 = [0, 1, 2] := by decide
  unfold rowBlockCount at h ⊢
  rw [hr] at h ⊢
  simp only [List.foldl_cons, List.foldl_nil] at h ⊢
  have key : ∀ j < 3, j = 0 ∨ j = 1 ∨ j = 2 := fun j hj => by omega
  cases h0 : p 0 <;> cases h1 : p 1 <;> cases h2 : p 2 <;>
    simp only [h0, h1, h2, Bool.false_eq_true, if_false, if_true] at h ⊢
  · omega
  · exact ⟨2, by omega, h2, fun j hj hp => by
      rcases key j hj with rfl | rfl | rfl <;> simp_all, rfl⟩
  · exact ⟨1, by omega, h1, fun j hj hp => by
      rcases key j hj with rfl | rfl | rfl <;> simp_all, rfl⟩
  · omega
  · exact ⟨0, by omega, h0, fun j hj hp => by
      rcases key j hj with rfl | rfl | rfl <;> simp_all, rfl⟩
  · omega
  · omega
  · omega

theorem columnBlockCount_one (p : Nat → Bool) (column : Nat)
    (h : (columnBlockCount p column).1 = 1) :
    ∃ i < 3, p i = true ∧ (∀ j < 3, p j = true → j = i) ∧
      (columnBlockCount p column).2 = i * 3 + column / 3 := by
  have hr : List.range 3 = [0, 1, 2] := by decide
  unfold columnBlockCount at h ⊢
  rw [hr] at h ⊢
  simp only [List.foldl_cons, List.foldl_nil] at h ⊢
  have key : ∀ j < 3, j = 0 ∨ j = 1 ∨ j = 2 := fun j hj => by omega
  cases h0 : p 0 <;> cases h1 : p 1 <;> cases h2 : p 2 <;>
    simp only [h0, h1, h2, Bool.false_eq_true, if_false, if_true] at h ⊢
  · omega
  · exact ⟨2, by omega, h2, fun j hj hp => by
      rcases key j hj with rfl | rfl | rfl <;> simp_all, rfl⟩
  · exact ⟨1, by omega, h1, fun j hj hp => by
      rcases key j hj with rfl | rfl | rfl <;> simp_all, rfl⟩
  · omega
  · exact ⟨0, by omega, h0, fun j hj hp => by
      rcases key j hj with rfl | rfl | rfl <;> simp_all, rfl⟩
  · omega
  · omega
  · omega

/-! ## One step of the locked-candidate elimination -/

/-- Row pass, one `(row, digit)` step: a square either keeps its field, or it lies in the
row's band outside the row, in the only block-column where the digit is still possible in
the row, and loses the digit's bit. -/
theorem lockRowDigit_cases (row : Nat) (hrow : row < 9) (g : CandidateGrid) (digit r c : Nat) :
    lockRowDigit row g digit r c = g r c ∨
      (lockRowDigit row g digit r c = clearFlags (g r c) (SUDOKU_TEST_FLAG_SHIFT digit) ∧
        r ≠ row ∧ r < 9 ∧ c < 9 ∧ r / 3 = row / 3 ∧
        (∃ c0 < 9, (g row c0).testBit (digit - 1) = true ∧ c0 / 3 = c / 3) ∧
        ∀ c1 < 9, (g row c1).testBit (digit - 1) = true → c1 / 3 = c / 3) := by
  unfold lockRowDigit
  by_cases h : (rowBlockCount (rowBlocksPossible g row (SUDOKU_TEST_FLAG_SHIFT digit)) row).1 = 1
  · rw [if_pos h]
    obtain ⟨i, hi, hpi, huniq, hblock⟩ := rowBlockCount_one _ _ h
    have hb9 : i + (row / 3) * 3 < 9 := by omega
    rw [hblock, clearOutsideRow_apply g _ row _ hb9]
    by_cases hm : (r, c) ∈ blockCells (i + (row / 3) * 3) ∧ r ≠ row
    · rw [if_pos hm]
      right
      obtain ⟨hmem, hne⟩ := hm
      rw [mem_blockCells] at hmem
      simp only at hmem
      obtain ⟨c0, hc0, hbit, hc0i⟩ := (rowBlocksPossible_iff g row digit i).mp hpi
      refine ⟨rfl, hne, by omega, by omega, by omega, ⟨c0, hc0, hbit, by omega⟩, ?_⟩
      intro c1 hc1 hbit1
      have := huniq (c1 / 3) (by omega)
        ((rowBlocksPossible_iff g row digit (c1 / 3)).mpr ⟨c1, hc1, hbit1, rfl⟩)
      omega
    · rw [if_neg hm]; exact Or.inl rfl
  · rw [if_neg h]; exact Or.inl rfl

/-- Column pass, one `(column, digit)` step: a square either keeps its field, or it lies
in the column's stack outside the column, in the only block-row where the digit is still
possible in the column, and loses the digit's bit. -/
theorem lockColumnDigit_cases (column : Nat) (hcol : column < 9) (g : CandidateGrid)
    (digit r c : Nat) :
    lockColumnDigit column g digit r c = g r c ∨
      (lockColumnDigit column g digit r c =
          clearFlags (g r c) (SUDOKU_TEST_FLAG_SHIFT digit) ∧
        c ≠ column ∧ r < 9 ∧ c < 9 ∧ c / 3 = column / 3 ∧
        (∃ r0 < 9, (g r0 column).testBit (digit - 1) = true ∧ r0 / 3 = r / 3) ∧
        ∀ r1 < 9, (g r1 column).testBit (digit - 1) = true → r1 / 3 = r / 3) := by
  unfold lockColumnDigit
  by_cases h : (columnBlockCount
      (columnBlocksPossible g column (SUDOKU_TEST_FLAG_SHIFT digit)) column).1 = 1
  · rw [if_pos h]
    obtain ⟨i, hi, hpi, huniq, hblock⟩ := columnBlockCount_one _ _ h
    have hb9 : i * 3 + column / 3 < 9 := by omega
    rw [hblock, clearOutsideColumn_apply g _ column _ hb9]
    by_cases hm : (r, c) ∈ blockCells (i * 3 + column / 3) ∧ c ≠ column
    · rw [if_pos hm]
      right
      obtain ⟨hmem, hne⟩ := hm
      rw [mem_blockCells] at hmem
      simp only at hmem
      obtain ⟨r0, hr0, hbit, hr0i⟩ := (columnBlocksPossible_iff g column digit i hcol).mp hpi
      refine ⟨rfl, hne, by omega, by omega, by omega, ⟨r0, hr0, hbit, by omega⟩, ?_⟩
      intro r1 hr1 hbit1
      have := huniq (r1 / 3) (by omega)
        ((columnBlocksPossible_iff g column digit (r1 / 3) hcol).mpr ⟨r1, hr1, hbit1, rfl⟩)
      omega
    · rw [if_neg hm]; exact Or.inl rfl
  · rw [if_neg h]; exact Or.inl rfl

theorem foldl_invariant {σ α : Type} (I : σ → Prop) (f : σ → α → σ) (l : List α)
    (h : ∀ s, ∀ x ∈ l, I s → I (f s x)) (s : σ) (hs : I s) : I (l.foldl f s) := by
  induction l generalizing s with
  | nil => exact hs
  | cons x rest ih =>
    rw [List.foldl_cons]
    exact ih (fun s y hy => h s y (List.mem_cons_of_mem _ hy)) _
      (h s x (List.mem_cons_self _ _) hs)

/-- A property kept by every single step is kept by the row pass. -/
theorem lockRows_invariant (I : CandidateGrid → Prop)
    (h : ∀ g row digit, row < 9 → 1 ≤ digit → digit ≤ 9 → I g → I (lockRowDigit row g digit))
    (g : CandidateGrid) (hg : I g) : I (lockRows g) := by
  unfold lockRows
  apply foldl_invariant I _ _ _ g hg
  intro s row hrow hs
  apply foldl_invariant I _ _ _ s hs
  intro t digit hdigit ht
  obtain ⟨h1, h2⟩ := List.mem_range'_1.mp hdigit
  exact h t row digit (List.mem_range.mp hrow) h1 (by omega) ht

/-- A property kept by every single step is kept by the column pass. -/
theorem lockColumns_invariant (I : CandidateGrid → Prop)
    (h : ∀ g column digit, column < 9 → 1 ≤ digit → digit ≤ 9 → I g →
      I (lockColumnDigit column g digit))
    (g : CandidateGrid) (hg : I g) : I (lockColumns g) := by
  unfold lockColumns
  apply foldl_invariant I _ _ _ g hg
  intro s column hcolumn hs
  apply foldl_invariant I _ _ _ s hs
  intro t digit hdigit ht
  obtain ⟨h1, h2⟩ := List.mem_range'_1.mp hdigit
  exact h t column digit (List.mem_range.mp hcolumn) h1 (by omega) ht

/-- The elimination only clears bits. -/
theorem lock_subset (g0 : CandidateGrid) (r c t : Nat)
    (h : (lockColumns (lockRows g0) r c).testBit t = true) : (g0 r c).testBit t = true := by
  have key : ∀ r c t, (lockColumns (lockRows g0) r c).testBit t = true →
      (g0 r c).testBit t = true := by
    apply lockColumns_invariant (fun g => ∀ r c t, (g r c).testBit t = true →
      (g0 r c).testBit t = true)
    · intro g column digit hcol _ _ hg r c t ht
      rcases lockColumnDigit_cases column hcol g digit r c with he | ⟨he, _⟩
      · rw [he] at ht; exact hg r c t ht
      · rw [he, testBit_clearFlags, Bool.and_eq_true] at ht
        exact hg r c t ht.1
    · apply lockRows_invariant (fun g => ∀ r c t, (g r c).testBit t = true →
        (g0 r c).testBit t = true)
      · intro g row digit hrow _ _ hg r c t ht
        rcases lockRowDigit_cases row hrow g digit r c with he | ⟨he, _⟩
        · rw [he] at ht; exact hg r c t ht
        · rw [he, testBit_clearFlags, Bool.and_eq_true] at ht
          exact hg r c t ht.1
      · intro r c t ht; exact ht
  exact key r c t h

/-- Bit `t` of a square of the candidate grid of step 1. -/
theorem candidateGrid_testBit (board : Board) (r c t : Nat) :
    (candidateGrid board r c).testBit t = true ↔
      r < 9 ∧ c < 9 ∧ board r c = 0 ∧ t < 9 ∧
        ¬ InRow board r ((t + 1 : Nat) : Int) ∧ ¬ InColumn board c ((t + 1 : Nat) : Int) ∧
        ¬ InBlock board (SUDOKU_BLOCK_FROM_INTERSECTION r c) ((t + 1 : Nat) : Int) := by
  unfold candidateGrid
  rw [initialDigitsPossible_apply]
  by_cases h : (r < 9 ∧ c < 9) ∧ board r c = 0
  · rw [if_pos h]
    obtain ⟨⟨hr, hc⟩, hb⟩ := h
    rw [testBit_clearFlags, testBit_clearFlags, testBit_clearFlags, testBit_allDigits]
    simp only [Bool.and_eq_true, decide_eq_true_eq, Bool.not_eq_true']
    constructor
    · rintro ⟨⟨⟨ht, h1⟩, h2⟩, h3⟩
      refine ⟨hr, hc, hb, ht, ?_, ?_, ?_⟩
      · intro hin
        have := (rows_bit_iff board false r (t + 1) hr (by omega) (by omega)).mpr hin
        rw [Nat.add_sub_cancel, h1] at this
        exact Bool.noConfusion this
      · intro hin
        have := (columns_bit_iff board false c (t + 1) hc (by omega) (by omega)).mpr hin
        rw [Nat.add_sub_cancel, h2] at this
        exact Bool.noConfusion this
      · intro hin
        have := (blocks_bit_iff board false _ (t + 1) (block_lt r c hr hc) (by omega)
          (by omega)).mpr hin
        rw [Nat.add_sub_cancel, h3] at this
        exact Bool.noConfusion this
    · rintro ⟨_, _, _, ht, h1, h2, h3⟩
      refine ⟨⟨⟨ht, ?_⟩, ?_⟩, ?_⟩
      · rw [Bool.eq_false_iff]
        intro hbit
        apply h1
        have := (rows_bit_iff board false r (t + 1) hr (by omega) (by omega)).mp
          (by rw [Nat.add_sub_cancel]; exact hbit)
        exact this
      · rw [Bool.eq_false_iff]
        intro hbit
        apply h2
        have := (columns_bit_iff board false c (t + 1) hc (by omega) (by omega)).mp
          (by rw [Nat.add_sub_cancel]; exact hbit)
        exact this
      · rw [Bool.eq_false_iff]
        intro hbit
        apply h3
        have := (blocks_bit_iff board false _ (t + 1) (block_lt r c hr hc) (by omega)
          (by omega)).mp (by rw [Nat.add_sub_cancel]; exact hbit)
        exact this
  · rw [if_neg h]
    simp only [Nat.zero_testBit, Bool.false_eq_true, false_iff]
    rintro ⟨hr, hc, hb, _⟩
    exact h ⟨⟨hr, hc⟩, hb⟩

/-! ## `assistantLocked` as two runs of the scan -/

/-- The suggestion of `assistantLocked`: the scan of the candidate grid, and the scan of
the reduced grid when the first finds nothing. -/
theorem assistantLocked_suggestion (board : Board) :
    suggestionOf (assistantLocked board) =
      ((nakedSingle (candidateGrid board)).or (blockSingle (candidateGrid board))).or
        ((nakedSingle (reducedGrid board)).or (blockSingle (reducedGrid board))) := by
  have h1 := scanForSingleCandidate_eq (candidateGrid board) noSuggestion.location
  have h2 := scanForSingleCandidate_eq (reducedGrid board)
    (scanForSingleCandidate (candidateGrid board) noSuggestion.location).2
  rw [← h1, ← h2]
  unfold assistantLocked suggestionOf reducedGrid candidateGrid
  simp only
  by_cases hv : (scanForSingleCandidate
      (initialDigitsPossible board (evaluateDigitsPresent board false).digitsPresent)
      noSuggestion.location).1 = 0
  · simp only [hv, if_true, Option.none_or]
  · simp only [hv, if_false]
    rfl

theorem testBit_flag (digit t : Nat) :
    (SUDOKU_TEST_FLAG_SHIFT digit).testBit t = decide (digit - 1 = t) := by
  unfold SUDOKU_TEST_FLAG_SHIFT
  rw [Nat.one_shiftLeft, Nat.testBit_two_pow]

theorem candidateBits_singleton (m b : Nat) (h : candidateBits m = [b]) :
    b < 9 ∧ m.testBit b = true ∧ ∀ b2 < 9, m.testBit b2 = true → b2 = b := by
  have hb : b ∈ candidateBits m := by rw [h]; exact List.mem_singleton.mpr rfl
  unfold candidateBits at hb h
  rw [List.mem_filter, List.mem_range] at hb
  refine ⟨hb.1, hb.2, ?_⟩
  intro b2 hb2 hbit
  have : b2 ∈ (List.range 9).filter (fun b => m.testBit b) :=
    List.mem_filter.mpr ⟨List.mem_range.mpr hb2, hbit⟩
  rw [h] at this
  exact List.mem_singleton.mp this

theorem nakedSingle_some (g : CandidateGrid) (loc : Coord2D) (v : Int)
    (h : nakedSingle g = some (loc, v)) :
    loc.row < 9 ∧ loc.col < 9 ∧
      ∃ b, candidateBits (g loc.row loc.col) = [b] ∧ v = ((b + 1 : Nat) : Int) := by
  unfold nakedSingle at h
  cases hf : allSquares.find? (fun c => decide (HasOneBit (g c.1 c.2))) with
  | none => rw [hf] at h; exact Option.noConfusion h
  | some c =>
    rw [hf] at h
    simp only [Option.map_some', Option.some.injEq, Prod.mk.injEq] at h
    obtain ⟨hloc, hv⟩ := h
    have hmem := (mem_allSquares c).mp (List.mem_of_find?_eq_some hf)
    have hone := List.find?_some hf
    rw [decide_eq_true_eq] at hone
    obtain ⟨b, hb⟩ := List.length_eq_one.mp hone
    subst hloc
    refine ⟨hmem.1, hmem.2, b, hb, ?_⟩
    rw [← hv]
    show ((((candidateBits (g c.1 c.2)).headD 0 + 1 : Nat) : Int)) = _
    rw [hb]
    rfl

theorem blockSingle_some (g : CandidateGrid) (loc : Coord2D) (v : Int)
    (h : blockSingle g = some (loc, v)) :
    ∃ d k : Nat, 1 ≤ d ∧ d ≤ 9 ∧ k < 9 ∧ v = (d : Int) ∧
      holders g d k = [(loc.row, loc.col)] := by
  unfold blockSingle at h
  cases hf : digitBlockPairs.find? (fun p => decide ((holders g p.1 p.2).length = 1)) with
  | none => rw [hf] at h; exact Option.noConfusion h
  | some p =>
    rw [hf] at h
    simp only [Option.map_some', Option.some.injEq, Prod.mk.injEq] at h
    obtain ⟨hloc, hv⟩ := h
    have hmem := (mem_digitBlockPairs p).mp (List.mem_of_find?_eq_some hf)
    have hone := List.find?_some hf
    rw [decide_eq_true_eq] at hone
    obtain ⟨x, hx⟩ := List.length_eq_one.mp hone
    subst hloc
    refine ⟨p.1, p.2, hmem.1.1, hmem.1.2, hmem.2, hv.symm, ?_⟩
    rw [hx]
    rfl

theorem holders_singleton (g : CandidateGrid) (d k : Nat) (x : Nat × Nat)
    (h : holders g d k = [x]) :
    x ∈ blockCells k ∧ (g x.1 x.2).testBit (d - 1) = true ∧
      ∀ y ∈ blockCells k, (g y.1 y.2).testBit (d - 1) = true → y = x := by
  have hx : x ∈ holders g d k := by rw [h]; exact List.mem_singleton.mpr rfl
  unfold holders at hx h
  rw [List.mem_filter] at hx
  refine ⟨hx.1, hx.2, ?_⟩
  intro y hy hbit
  have : y ∈ (blockCells k).filter (fun c => (g c.1 c.2).testBit (d - 1)) :=
    List.mem_filter.mpr ⟨hy, hbit⟩
  rw [h] at this
  exact List.mem_singleton.mp this

/-! ## Soundness of the candidate grids -/

theorem sound_candidateGrid (G S : Board) (hS : IsSolved S) (hSG : Completes S G) :
    SoundFor G S (candidateGrid G) := by
  intro r hr c hc hblank
  obtain ⟨hv1, hv9⟩ := solved_digit S hS r c hr hc
  have hcast : ((((S r c).toNat - 1 + 1 : Nat)) : Int) = S r c := by omega
  rw [candidateGrid_testBit, hcast]
  have hne : S r c ≠ 0 := by omega
  refine ⟨hr, hc, hblank, by omega, ?_, ?_, ?_⟩
  · rintro ⟨j, hj, hG⟩
    have hSj : S r j = S r c := by rw [hSG r hr j hj (by rw [hG]; exact hne), hG]
    have := solved_row_inj S hS r j c hr hj hc hSj
    rw [this, hblank] at hG
    exact hne hG.symm
  · rintro ⟨i, hi, hG⟩
    have hSi : S i c = S r c := by rw [hSG i hi c hc (by rw [hG]; exact hne), hG]
    have := solved_column_inj S hS c i r hc hi hr hSi
    rw [this, hblank] at hG
    exact hne hG.symm
  · rintro ⟨y, hy, hG⟩
    obtain ⟨hmem, hk⟩ := mem_blockCells_of_lt r c hr hc
    obtain ⟨hy1, hy2, _, _⟩ := mem_blockCells_lt _ hk y hy
    have hSy : S y.1 y.2 = S r c := by rw [hSG y.1 hy1 y.2 hy2 (by rw [hG]; exact hne), hG]
    have := solved_block_inj S hS _ hk y (r, c) hy hmem hSy
    rw [this, hblank] at hG
    exact hne hG.symm

/-- One row step keeps the solution's digit in every blank square. -/
theorem sound_lockRowDigit (G S : Board) (hS : IsSolved S) (hSG : Completes S G)
    (g : CandidateGrid)
    (hsub : ∀ r c t, (g r c).testBit t = true → (candidateGrid G r c).testBit t = true)
    (hsound : SoundFor G S g) (row digit : Nat) (hrow : row < 9) (hd1 : 1 ≤ digit)
    (hd9 : digit ≤ 9) : SoundFor G S (lockRowDigit row g digit) := by
  intro r hr c hc hblank
  rcases lockRowDigit_cases row hrow g digit r c with he | ⟨he, hne, _, _, hband, ⟨c0, hc0, hbit0, hc03⟩,
    honly⟩
  · rw [he]; exact hsound r hr c hc hblank
  · rw [he, testBit_clearFlags, hsound r hr c hc hblank, testBit_flag, Bool.true_and,
      Bool.not_eq_true', decide_eq_false_iff_not]
    intro hdt
    obtain ⟨hv1, hv9⟩ := solved_digit S hS r c hr hc
    have hSd : S r c = (digit : Int) := by omega
    have hnotin := ((candidateGrid_testBit G row c0 (digit - 1)).mp
      (hsub row c0 _ hbit0)).2.2.2.2.1
    have hcast : (((digit - 1 + 1 : Nat)) : Int) = (digit : Int) := by omega
    rw [hcast] at hnotin
    obtain ⟨cs, hcs, hScs⟩ := solved_row_has S hS row hrow (digit : Int) (by omega) (by omega)
    have hGcs : G row cs = 0 := by
      by_contra hnz
      exact hnotin ⟨cs, hcs, by rw [← hSG row hrow cs hcs hnz, hScs]⟩
    have hbits := hsound row hrow cs hcs hGcs
    rw [hScs] at hbits
    have hcs3 := honly cs hcs (by
      have : ((digit : Int)).toNat - 1 = digit - 1 := by omega
      rw [this] at hbits; exact hbits)
    obtain ⟨hmem, hk⟩ := mem_blockCells_of_lt r c hr hc
    have hmem2 : (row, cs) ∈ blockCells (SUDOKU_BLOCK_FROM_INTERSECTION r c) := by
      rw [mem_blockCells_iff _ hk]
      refine ⟨hrow, hcs, ?_⟩
      unfold SUDOKU_BLOCK_FROM_INTERSECTION
      simp only
      omega
    have := solved_block_inj S hS _ hk (r, c) (row, cs) hmem hmem2 (by rw [hSd, hScs])
    exact hne (Prod.mk.inj this).1

/-- One column step keeps the solution's digit in every blank square. -/
theorem sound_lockColumnDigit (G S : Board) (hS : IsSolved S) (hSG : Completes S G)
    (g : CandidateGrid)
    (hsub : ∀ r c t, (g r c).testBit t = true → (candidateGrid G r c).testBit t = true)
    (hsound : SoundFor G S g) (column digit : Nat) (hcol : column < 9) (hd1 : 1 ≤ digit)
    (hd9 : digit ≤ 9) : SoundFor G S (lockColumnDigit column g digit) := by
  intro r hr c hc hblank
  rcases lockColumnDigit_cases column hcol g digit r c with he | ⟨he, hne, _, _, hband,
    ⟨r0, hr0, hbit0, hr03⟩, honly⟩
  · rw [he]; exact hsound r hr c hc hblank
  · rw [he, testBit_clearFlags, hsound r hr c hc hblank, testBit_flag, Bool.true_and,
      Bool.not_eq_true', decide_eq_false_iff_not]
    intro hdt
    obtain ⟨hv1, hv9⟩ := solved_digit S hS r c hr hc
    have hSd : S r c = (digit : Int) := by omega
    have hnotin := ((candidateGrid_testBit G r0 column (digit - 1)).mp
      (hsub r0 column _ hbit0)).2.2.2.2.2.1
    have hcast : (((digit - 1 + 1 : Nat)) : Int) = (digit : Int) := by omega
    rw [hcast] at hnotin
    obtain ⟨rs, hrs, hSrs⟩ := solved_column_has S hS column hcol (digit : Int) (by omega)
      (by omega)
    have hGrs : G rs column = 0 := by
      by_contra hnz
      exact hnotin ⟨rs, hrs, by rw [← hSG rs hrs column hcol hnz, hSrs]⟩
    have hbits := hsound rs hrs column hcol hGrs
    rw [hSrs] at hbits
    have hrs3 := honly rs hrs (by
      have : ((digit : Int)).toNat - 1 = digit - 1 := by omega
      rw [this] at hbits; exact hbits)
    obtain ⟨hmem, hk⟩ := mem_blockCells_of_lt r c hr hc
    have hmem2 : (rs, column) ∈ blockCells (SUDOKU_BLOCK_FROM_INTERSECTION r c) := by
      rw [mem_blockCells_iff _ hk]
      refine ⟨hrs, hcol, ?_⟩
      unfold SUDOKU_BLOCK_FROM_INTERSECTION
      simp only
      omega
    have := solved_block_inj S hS _ hk (r, c) (rs, column) hmem hmem2 (by rw [hSd, hSrs])
    exact hne (Prod.mk.inj this).2

theorem sub_lockRowDigit (g0 g : CandidateGrid) (row digit : Nat) (hrow : row < 9)
    (hsub : ∀ r c t, (g r c).testBit t = true → (g0 r c).testBit t = true) (r c t : Nat)
    (h : (lockRowDigit row g digit r c).testBit t = true) : (g0 r c).testBit t = true := by
  rcases lockRowDigit_cases row hrow g digit r c with he | ⟨he, _⟩
  · rw [he] at h; exact hsub r c t h
  · rw [he, testBit_clearFlags, Bool.and_eq_true] at h
    exact hsub r c t h.1

theorem sub_lockColumnDigit (g0 g : CandidateGrid) (column digit : Nat) (hcol : column < 9)
    (hsub : ∀ r c t, (g r c).testBit t = true → (g0 r c).testBit t = true) (r c t : Nat)
    (h : (lockColumnDigit column g digit r c).testBit t = true) :
    (g0 r c).testBit t = true := by
  rcases lockColumnDigit_cases column hcol g digit r c with he | ⟨he, _⟩
  · rw [he] at h; exact hsub r c t h
  · rw [he, testBit_clearFlags, Bool.and_eq_true] at h
    exact hsub r c t h.1

/-- The elimination keeps the solution's digit in every blank square. -/
theorem sound_reducedGrid (G S : Board) (hS : IsSolved S) (hSG : Completes S G) :
    SoundFor G S (reducedGrid G) := by
  have key : (∀ r c t, (reducedGrid G r c).testBit t = true →
      (candidateGrid G r c).testBit t = true) ∧ SoundFor G S (reducedGrid G) := by
    unfold reducedGrid
    apply lockColumns_invariant (fun g => (∀ r c t, (g r c).testBit t = true →
      (candidateGrid G r c).testBit t = true) ∧ SoundFor G S g)
    · intro g column digit hcol hd1 hd9 ⟨hsub, hsound⟩
      exact ⟨sub_lockColumnDigit _ g column digit hcol hsub,
        sound_lockColumnDigit G S hS hSG g hsub hsound column digit hcol hd1 hd9⟩
    · apply lockRows_invariant (fun g => (∀ r c t, (g r c).testBit t = true →
        (candidateGrid G r c).testBit t = true) ∧ SoundFor G S g)
      · intro g row digit hrow hd1 hd9 ⟨hsub, hsound⟩
        exact ⟨sub_lockRowDigit _ g row digit hrow hsub,
          sound_lockRowDigit G S hS hSG g hsub hsound row digit hrow hd1 hd9⟩
      · exact ⟨fun _ _ _ h => h, sound_candidateGrid G S hS hSG⟩
  exact key.2

theorem reducedGrid_subset (board : Board) (r c t : Nat)
    (h : (reducedGrid board r c).testBit t = true) :
    (candidateGrid board r c).testBit t = true :=
  lock_subset (candidateGrid board) r c t h

/-! ## Claims about the suggestions of `assistantLocked` -/

theorem naked_forced (G S : Board) (hS : IsSolved S) (g : CandidateGrid)
    (hsub : ∀ r c t, (g r c).testBit t = true → (candidateGrid G r c).testBit t = true)
    (hsound : SoundFor G S g) (loc : Coord2D) (v : Int)
    (h : nakedSingle g = some (loc, v)) : S loc.row loc.col = v := by
  obtain ⟨hr, hc, b, hb, hv⟩ := nakedSingle_some g loc v h
  obtain ⟨hb9, hbit, honly⟩ := candidateBits_singleton _ b hb
  have hblank := ((candidateGrid_testBit G loc.row loc.col b).mp (hsub _ _ _ hbit)).2.2.1
  obtain ⟨hv1, hv9⟩ := solved_digit S hS loc.row loc.col hr hc
  have := honly _ (by omega) (hsound loc.row hr loc.col hc hblank)
  omega

theorem block_forced (G S : Board) (hS : IsSolved S) (hSG : Completes S G) (g : CandidateGrid)
    (hsub : ∀ r c t, (g r c).testBit t = true → (candidateGrid G r c).testBit t = true)
    (hsound : SoundFor G S g) (loc : Coord2D) (v : Int)
    (h : blockSingle g = some (loc, v)) : S loc.row loc.col = v := by
  obtain ⟨d, k, hd1, hd9, hk, hv, hh⟩ := blockSingle_some g loc v h
  obtain ⟨hmem, hbit, honly⟩ := holders_singleton g d k _ hh
  simp only at hbit
  obtain ⟨hr, hc, hkk⟩ := (mem_blockCells_iff k hk _).mp hmem
  simp only at hr hc hkk
  have hnotin := ((candidateGrid_testBit G loc.row loc.col (d - 1)).mp
    (hsub _ _ _ hbit)).2.2.2.2.2.2
  have hcast : (((d - 1 + 1 : Nat)) : Int) = (d : Int) := by omega
  rw [hcast, hkk] at hnotin
  obtain ⟨y, hy, hSy⟩ := solved_block_has S hS k hk (d : Int) (by omega) (by omega)
  obtain ⟨hy1, hy2, _, _⟩ := mem_blockCells_lt k hk y hy
  have hGy : G y.1 y.2 = 0 := by
    by_contra hnz
    exact hnotin ⟨y, hy, by rw [← hSG y.1 hy1 y.2 hy2 hnz, hSy]⟩
  have hbits := hsound y.1 hy1 y.2 hy2 hGy
  rw [hSy] at hbits
  have hyx := honly y hy (by
    have : ((d : Int)).toNat - 1 = d - 1 := by omega
    rw [this] at hbits; exact hbits)
  rw [hyx] at hSy
  rw [hv]; exact hSy

theorem or_eq_some {α : Type} (a b : Option α) (x : α) (h : a.or b = some x) :
    a = some x ∨ b = some x := by
  cases a with
  | none => exact Or.inr h
  | some y => exact Or.inl h

/-- A suggestion of `assistantLocked` comes from one of the four searches. -/
theorem locked_cases (board : Board) (hd : (assistantLocked board).newValue ≠ 0) :
    (nakedSingle (candidateGrid board) =
        some ((assistantLocked board).location, (assistantLocked board).newValue) ∨
      blockSingle (candidateGrid board) =
        some ((assistantLocked board).location, (assistantLocked board).newValue)) ∨
      (nakedSingle (reducedGrid board) =
        some ((assistantLocked board).location, (assistantLocked board).newValue) ∨
      blockSingle (reducedGrid board) =
        some ((assistantLocked board).location, (assistantLocked board).newValue)) := by
  have h := assistantLocked_suggestion board
  unfold suggestionOf at h
  rw [if_neg hd] at h
  rcases or_eq_some _ _ _ h.symm with h1 | h1
  · exact Or.inl (or_eq_some _ _ _ h1)
  · exact Or.inr (or_eq_some _ _ _ h1)

/-- C5. Locked-candidate suggestions are forced: in every solved board that agrees with
the board on its non-blank squares, the suggested square holds the suggested digit,
whichever scan produced the suggestion. -/
theorem C5_locked_suggestion_forced (G S : Board) (hS : IsSolved S) (hSG : Completes S G)
    (hd : (assistantLocked G).newValue ≠ 0) :
    S (assistantLocked G).location.row (assistantLocked G).location.col =
      (assistantLocked G).newValue := by
  rcases locked_cases G hd with (h | h) | (h | h)
  · exact naked_forced G S hS _ (fun _ _ _ h => h) (sound_candidateGrid G S hS hSG) _ _ h
  · exact block_forced G S hS hSG _ (fun _ _ _ h => h) (sound_candidateGrid G S hS hSG) _ _ h
  · exact naked_forced G S hS _ (reducedGrid_subset G) (sound_reducedGrid G S hS hSG) _ _ h
  · exact block_forced G S hS hSG _ (reducedGrid_subset G) (sound_reducedGrid G S hS hSG) _ _ h

set_option maxRecDepth 100000 in
theorem locked_example :
    assistantLocked puzzleExample =
      { location := { col := 4, row := 4 }, newValue := 5, oldValue := 0 } := by decide

/-- C5 at `puzzleExample` and its solution `solvedExample`. -/
theorem C5_locked_suggestion_forced_witness :
    IsSolved solvedExample ∧ Completes solvedExample puzzleExample ∧
      (assistantLocked puzzleExample).newValue ≠ 0 ∧
      solvedExample (assistantLocked puzzleExample).location.row
        (assistantLocked puzzleExample).location.col =
          (assistantLocked puzzleExample).newValue :=
  ⟨isSolved_solvedExample, completes_example, by rw [locked_example]; decide,
    C5_locked_suggestion_forced puzzleExample solvedExample isSolved_solvedExample
      completes_example (by rw [locked_example]; decide)⟩

theorem naked_legal (board : Board) (g : CandidateGrid)
    (hsub : ∀ r c t, (g r c).testBit t = true → (candidateGrid board r c).testBit t = true)
    (h : HistoryStep) (hn : nakedSingle g = some (h.location, h.newValue)) :
    LegalMove board h := by
  obtain ⟨hr, hc, b, hb, hv⟩ := nakedSingle_some g _ _ hn
  obtain ⟨hb9, hbit, _⟩ := candidateBits_singleton _ b hb
  obtain ⟨_, _, hblank, _, h1, h2, h3⟩ :=
    (candidateGrid_testBit board h.location.row h.location.col b).mp (hsub _ _ _ hbit)
  rw [← hv] at h1 h2 h3
  exact ⟨hr, hc, by omega, by omega, hblank, h1, h2, h3⟩

theorem block_legal (board : Board) (g : CandidateGrid)
    (hsub : ∀ r c t, (g r c).testBit t = true → (candidateGrid board r c).testBit t = true)
    (h : HistoryStep) (hn : blockSingle g = some (h.location, h.newValue)) :
    LegalMove board h := by
  obtain ⟨d, k, hd1, hd9, hk, hv, hh⟩ := blockSingle_some g _ _ hn
  obtain ⟨_, hbit, _⟩ := holders_singleton g d k _ hh
  simp only at hbit
  obtain ⟨hr, hc, hblank, _, h1, h2, h3⟩ :=
    (candidateGrid_testBit board h.location.row h.location.col (d - 1)).mp (hsub _ _ _ hbit)
  have hcast : (((d - 1 + 1 : Nat)) : Int) = h.newValue := by omega
  rw [hcast] at h1 h2 h3
  exact ⟨hr, hc, by omega, by omega, hblank, h1, h2, h3⟩

theorem crosshatch_legal (board : Board) (hd : (assistantCrosshatch board).newValue ≠ 0) :
    LegalMove board (assistantCrosshatch board) := by
  obtain ⟨row, digit, column, hr, hd1, hd9, hc, hq, he⟩ := crosshatch_found board hd
  rw [he]
  obtain ⟨_, _, hnb, hlen⟩ := hq
  simp only at hnb hlen
  obtain ⟨x, hx⟩ := List.length_eq_one.mp hlen
  have hmem : x ∈ eligibleCells board row digit column := by
    rw [hx]; exact List.mem_singleton.mpr rfl
  obtain ⟨hblock, hblank, _, _, hnr, hnc⟩ := (mem_eligibleCells board row digit column x).mp hmem
  have hk := block_lt row column hr hc
  obtain ⟨hx1, hx2, hxk⟩ := (mem_blockCells_iff _ hk x).mp hblock
  unfold LegalMove suggestionOfTriple
  simp only [hx, List.headD_cons, toCoord]
  rw [hxk]
  exact ⟨hx1, hx2, by omega, by omega, hblank, hnr, hnc, hnb⟩

/-- C6. Every suggestion is a legal move, for both assistants: a returned digit other than
0 lies in 1..9 and comes with a blank square of the grid whose row, column and block do not
contain that digit. The property holds for every board, whatever its squares hold. -/
theorem C6_suggestions_are_legal_moves (board : Board) :
    ((assistantCrosshatch board).newValue ≠ 0 → LegalMove board (assistantCrosshatch board)) ∧
      ((assistantLocked board).newValue ≠ 0 → LegalMove board (assistantLocked board)) := by
  refine ⟨crosshatch_legal board, fun hd => ?_⟩
  rcases locked_cases board hd with (h | h) | (h | h)
  · exact naked_legal board _ (fun _ _ _ h => h) _ h
  · exact block_legal board _ (fun _ _ _ h => h) _ h
  · exact naked_legal board _ (reducedGrid_subset board) _ h
  · exact block_legal board _ (reducedGrid_subset board) _ h

/-- C6 at `puzzleExample`, where both assistants make a suggestion. -/
theorem C6_suggestions_are_legal_moves_witness :
    ((assistantCrosshatch puzzleExample).newValue ≠ 0 ∧
        LegalMove puzzleExample (assistantCrosshatch puzzleExample)) ∧
      ((assistantLocked puzzleExample).newValue ≠ 0 ∧
        LegalMove puzzleExample (assistantLocked puzzleExample)) :=
  ⟨⟨by rw [crosshatch_example]; decide,
      (C6_suggestions_are_legal_moves puzzleExample).1 (by rw [crosshatch_example]; decide)⟩,
    ⟨by rw [locked_example]; decide,
      (C6_suggestions_are_legal_moves puzzleExample).2 (by rw [locked_example]; decide)⟩⟩

/-! ## The elimination of the code and the elimination of the specification -/

theorem testBit_foldl_digits (l : List Nat) (m t : Nat) :
    (l.foldl (fun m d => m ||| 2 ^ (d - 1)) m).testBit t =
      (m.testBit t || l.any (fun d => decide (d - 1 = t))) := by
  induction l generalizing m with
  | nil => simp
  | cons d rest ih =>
    rw [List.foldl_cons, ih, Nat.testBit_or, Nat.testBit_two_pow, List.any_cons,
      Bool.or_assoc]

/-- Bit `t` of a digit mask: digit `t + 1` is one of 1..9 and satisfies `p`. -/
theorem testBit_digitMask (p : Nat → Bool) (t : Nat) :
    (digitMask p).testBit t = (decide (t < 9) && p (t + 1)) := by
  unfold digitMask
  rw [testBit_foldl_digits, Nat.zero_testBit, Bool.false_or, Bool.eq_iff_iff]
  simp only [List.any_eq_true, List.mem_filter, List.mem_range'_1, decide_eq_true_eq,
    Bool.and_eq_true]
  constructor
  · rintro ⟨d, ⟨⟨h1, h2⟩, hp⟩, hd⟩
    have hdt : d = t + 1 := by omega
    subst hdt
    exact ⟨by omega, hp⟩
  · rintro ⟨ht, hp⟩
    exact ⟨t + 1, ⟨⟨by omega, by omega⟩, hp⟩, by omega⟩

/-- The candidate grid the code builds is the candidate grid of the specification. -/
theorem specCandidateGrid_eq (board : Board) : specCandidateGrid board = candidateGrid board := by
  funext r c
  apply Nat.eq_of_testBit_eq
  intro t
  rw [Bool.eq_iff_iff, candidateGrid_testBit]
  unfold specCandidateGrid
  by_cases h : r < 9 ∧ c < 9 ∧ board r c = 0
  · rw [if_pos h, testBit_digitMask]
    simp only [Bool.and_eq_true, decide_eq_true_eq]
    constructor
    · rintro ⟨ht, h1, h2, h3⟩
      exact ⟨h.1, h.2.1, h.2.2, ht, h1, h2, h3⟩
    · rintro ⟨_, _, _, ht, h1, h2, h3⟩
      exact ⟨ht, h1, h2, h3⟩
  · rw [if_neg h]
    simp only [Nat.zero_testBit, Bool.false_eq_true, false_iff]
    rintro ⟨hr, hc, hb, _⟩
    exact h ⟨hr, hc, hb⟩

theorem nineBits_candidateGrid (board : Board) : NineBits (candidateGrid board) :=
  fun r c t h => ((candidateGrid_testBit board r c t).mp h).2.2.2.1

/-- Clearing the flag of digit `d` in a mask of nine bits leaves the set of the other
digits of the mask. -/
theorem clearFlags_eq_digitMask (m d : Nat) (hd : 1 ≤ d)
    (hm : ∀ t, m.testBit t = true → t < 9) :
    clearFlags m (SUDOKU_TEST_FLAG_SHIFT d) =
      digitMask (fun e => m.testBit (e - 1) && decide (e ≠ d)) := by
  apply Nat.eq_of_testBit_eq
  intro t
  rw [testBit_clearFlags, testBit_flag, testBit_digitMask, Nat.add_sub_cancel,
    Bool.eq_iff_iff]
  simp only [Bool.and_eq_true, Bool.not_eq_true', decide_eq_false_iff_not, decide_eq_true_eq]
  constructor
  · rintro ⟨h1, h2⟩
    exact ⟨hm t h1, h1, by omega⟩
  · rintro ⟨_, h1, h2⟩
    exact ⟨h1, by omega⟩

theorem rowBlockCount_of_unique (p : Nat → Bool) (row i : Nat) (hi : i < 3)
    (hp : p i = true) (huniq : ∀ j < 3, p j = true → j = i) :
    rowBlockCount p row = (1, i + (row / 3) * 3) := by
  have hr : List.range 3 = [0, 1, 2] := by decide
  unfold rowBlockCount
  rw [hr]
  simp only [List.foldl_cons, List.foldl_nil]
  have h0 := huniq 0 (by omega)
  have h1 := huniq 1 (by omega)
  have h2 := huniq 2 (by omega)
  have key : i = 0 ∨ i = 1 ∨ i = 2 := by omega
  rcases key with rfl | rfl | rfl
  · cases e1 : p 1
    · cases e2 : p 2
      · simp [hp, e1, e2]
      · exact absurd (h2 e2) (by omega)
    · exact absurd (h1 e1) (by omega)
  · cases e0 : p 0
    · cases e2 : p 2
      · simp [hp, e0, e2]
      · exact absurd (h2 e2) (by omega)
    · exact absurd (h0 e0) (by omega)
  · cases e0 : p 0
    · cases e1 : p 1
      · simp [hp, e0, e1]
      · exact absurd (h1 e1) (by omega)
    · exact absurd (h0 e0) (by omega)

theorem columnBlockCount_of_unique (p : Nat → Bool) (column i : Nat) (hi : i < 3)
    (hp : p i = true) (huniq : ∀ j < 3, p j = true → j = i) :
    columnBlockCount p column = (1, i * 3 + column / 3) := by
  have hr : List.range 3 = [0, 1, 2] := by decide
  unfold columnBlockCount
  rw [hr]
  simp only [List.foldl_cons, List.foldl_nil]
  have h0 := huniq 0 (by omega)
  have h1 := huniq 1 (by omega)
  have h2 := huniq 2 (by omega)
  have key : i = 0 ∨ i = 1 ∨ i = 2 := by omega
  rcases key with rfl | rfl | rfl
  · cases e1 : p 1
    · cases e2 : p 2
      · simp [hp, e1, e2]
      · exact absurd (h2 e2) (by omega)
    · exact absurd (h1 e1) (by omega)
  · cases e0 : p 0
    · cases e2 : p 2
      · simp [hp, e0, e2]
      · exact absurd (h2 e2) (by omega)
    · exact absurd (h0 e0) (by omega)
  · cases e0 : p 0
    · cases e1 : p 1
      · simp [hp, e0, e1]
      · exact absurd (h1 e1) (by omega)
    · exact absurd (h0 e0) (by omega)

/-- A row step on a grid in which the digit is confined to block `k` is the loop that
clears the digit in block `k` outside the row. -/
theorem lockRowDigit_of_confined (g : CandidateGrid) (r d k : Nat)
    (hconf : ConfinedToBlock g r d k) :
    lockRowDigit r g d = clearOutsideRow g k r (SUDOKU_TEST_FLAG_SHIFT d) := by
  obtain ⟨hk3, hk9, ⟨c0, hc0, hbit0, hc03⟩, honly⟩ := hconf
  have hcount : rowBlockCount (rowBlocksPossible g r (SUDOKU_TEST_FLAG_SHIFT d)) r =
      (1, k % 3 + (r / 3) * 3) := by
    apply rowBlockCount_of_unique _ _ _ (by omega)
    · exact (rowBlocksPossible_iff g r d _).mpr ⟨c0, hc0, hbit0, hc03⟩
    · intro j _ hj
      obtain ⟨c1, hc1, hbit1, hc13⟩ := (rowBlocksPossible_iff g r d j).mp hj
      rw [← hc13]
      exact honly c1 hc1 hbit1
  have hkk : k % 3 + (r / 3) * 3 = k := by omega
  unfold lockRowDigit
  dsimp only
  rw [hcount]
  simp only [if_true]
  rw [hkk]

/-- A column step on a grid in which the digit is confined to block `k` is the loop that
clears the digit in block `k` outside the column. -/
theorem lockColumnDigit_of_confined (g : CandidateGrid) (c d k : Nat) (hc : c < 9)
    (hconf : ConfinedToBlockInColumn g c d k) :
    lockColumnDigit c g d = clearOutsideColumn g k c (SUDOKU_TEST_FLAG_SHIFT d) := by
  obtain ⟨hk3, hk9, ⟨r0, hr0, hbit0, hr03⟩, honly⟩ := hconf
  have hcount : columnBlockCount (columnBlocksPossible g c (SUDOKU_TEST_FLAG_SHIFT d)) c =
      (1, (k / 3) * 3 + c / 3) := by
    apply columnBlockCount_of_unique _ _ _ (by omega)
    · exact (columnBlocksPossible_iff g c d _ hc).mpr ⟨r0, hr0, hbit0, hr03⟩
    · intro j _ hj
      obtain ⟨r1, hr1, hbit1, hr13⟩ := (columnBlocksPossible_iff g c d j hc).mp hj
      rw [← hr13]
      exact honly r1 hr1 hbit1
  have hkk : (k / 3) * 3 + c / 3 = k := by omega
  unfold lockColumnDigit
  dsimp only
  rw [hcount]
  simp only [if_true]
  rw [hkk]

/-- One `(row, digit)` step of the code is the rule of the specification for that row and
digit. -/
theorem lockRowDigit_eq_spec (g : CandidateGrid) (row digit : Nat) (hrow : row < 9)
    (hd : 1 ≤ digit) (hg : NineBits g) :
    lockRowDigit row g digit = eliminateFromRow g row digit := by
  funext i j
  unfold eliminateFromRow
  by_cases hspec : ∃ k < 9, ConfinedToBlock g row digit k ∧ (i, j) ∈ blockCells k ∧ i ≠ row
  · rw [if_pos hspec]
    obtain ⟨k, hk, hconf, hmem, hne⟩ := hspec
    rw [lockRowDigit_of_confined g row digit k hconf, clearOutsideRow_apply g k row _ hk,
      if_pos ⟨hmem, hne⟩]
    exact clearFlags_eq_digitMask _ _ hd (hg i j)
  · rw [if_neg hspec]
    rcases lockRowDigit_cases row hrow g digit i j with he |
      ⟨_, hne, hi, hj, hband, ⟨c0, hc0, hbit0, hc03⟩, honly⟩
    · exact he
    · exfalso
      apply hspec
      refine ⟨(row / 3) * 3 + j / 3, by omega,
        ⟨by omega, by omega, ⟨c0, hc0, hbit0, by omega⟩, ?_⟩, ?_, hne⟩
      · intro c1 hc1 hb
        have := honly c1 hc1 hb
        omega
      · rw [mem_blockCells_iff _ (by omega)]
        refine ⟨hi, hj, ?_⟩
        unfold SUDOKU_BLOCK_FROM_INTERSECTION
        simp only
        omega

/-- One `(column, digit)` step of the code is the rule of the specification for that
column and digit. -/
theorem lockColumnDigit_eq_spec (g : CandidateGrid) (column digit : Nat) (hcol : column < 9)
    (hd : 1 ≤ digit) (hg : NineBits g) :
    lockColumnDigit column g digit = eliminateFromColumn g column digit := by
  funext i j
  unfold eliminateFromColumn
  by_cases hspec : ∃ k < 9, ConfinedToBlockInColumn g column digit k ∧
      (i, j) ∈ blockCells k ∧ j ≠ column
  · rw [if_pos hspec]
    obtain ⟨k, hk, hconf, hmem, hne⟩ := hspec
    rw [lockColumnDigit_of_confined g column digit k hcol hconf,
      clearOutsideColumn_apply g k column _ hk, if_pos ⟨hmem, hne⟩]
    exact clearFlags_eq_digitMask _ _ hd (hg i j)
  · rw [if_neg hspec]
    rcases lockColumnDigit_cases column hcol g digit i j with he |
      ⟨_, hne, hi, hj, hband, ⟨r0, hr0, hbit0, hr03⟩, honly⟩
    · exact he
    · exfalso
      apply hspec
      refine ⟨(i / 3) * 3 + column / 3, by omega,
        ⟨by omega, by omega, ⟨r0, hr0, hbit0, by omega⟩, ?_⟩, ?_, hne⟩
      · intro r1 hr1 hb
        have := honly r1 hr1 hb
        omega
      · rw [mem_blockCells_iff _ (by omega)]
        refine ⟨hi, hj, ?_⟩
        unfold SUDOKU_BLOCK_FROM_INTERSECTION
        simp only
        omega

theorem nineBits_lockRowDigit (g : CandidateGrid) (row digit : Nat) (hrow : row < 9)
    (hg : NineBits g) : NineBits (lockRowDigit row g digit) := by
  intro r c t ht
  rcases lockRowDigit_cases row hrow g digit r c with he | ⟨he, _⟩
  · rw [he] at ht
    exact hg r c t ht
  · rw [he, testBit_clearFlags, Bool.and_eq_true] at ht
    exact hg r c t ht.1

theorem nineBits_lockColumnDigit (g : CandidateGrid) (column digit : Nat) (hcol : column < 9)
    (hg : NineBits g) : NineBits (lockColumnDigit column g digit) := by
  intro r c t ht
  rcases lockColumnDigit_cases column hcol g digit r c with he | ⟨he, _⟩
  · rw [he] at ht
    exact hg r c t ht
  · rw [he, testBit_clearFlags, Bool.and_eq_true] at ht
    exact hg r c t ht.1

/-- Two loop bodies that agree on the states of an invariant the first one keeps give the
same loop from such a state, and the invariant holds at the end. -/
theorem foldl_eq_of_invariant {σ α : Type} (I : σ → Prop) (f g : σ → α → σ) (l : List α)
    (hI : ∀ s, ∀ x ∈ l, I s → I (f s x)) (hfg : ∀ s, ∀ x ∈ l, I s → f s x = g s x)
    (s : σ) (hs : I s) : l.foldl f s = l.foldl g s ∧ I (l.foldl f s) := by
  induction l generalizing s with
  | nil => exact ⟨rfl, hs⟩
  | cons x rest ih =>
    rw [List.foldl_cons, List.foldl_cons, ← hfg s x (List.mem_cons_self _ _) hs]
    exact ih (fun s y hy => hI s y (List.mem_cons_of_mem _ hy))
      (fun s y hy => hfg s y (List.mem_cons_of_mem _ hy)) _
      (hI s x (List.mem_cons_self _ _) hs)

/-- The two passes of the code are the elimination of the specification. -/
theorem specElimination_eq (g : CandidateGrid) (hg : NineBits g) :
    specElimination g = lockColumns (lockRows g) := by
  have hrowDigits : ∀ row < 9, ∀ s, NineBits s →
      (List.range' 1 9).foldl (lockRowDigit row) s =
          (List.range' 1 9).foldl (fun g d => eliminateFromRow g row d) s ∧
        NineBits ((List.range' 1 9).foldl (lockRowDigit row) s) := by
    intro row hrow s hs
    apply foldl_eq_of_invariant NineBits _ _ _ _ _ s hs
    · intro t d _ ht
      exact nineBits_lockRowDigit t row d hrow ht
    · intro t d hd ht
      exact lockRowDigit_eq_spec t row d hrow (List.mem_range'_1.mp hd).1 ht
  have hcolumnDigits : ∀ column < 9, ∀ s, NineBits s →
      (List.range' 1 9).foldl (lockColumnDigit column) s =
          (List.range' 1 9).foldl (fun g d => eliminateFromColumn g column d) s ∧
        NineBits ((List.range' 1 9).foldl (lockColumnDigit column) s) := by
    intro column hcol s hs
    apply foldl_eq_of_invariant NineBits _ _ _ _ _ s hs
    · intro t d _ ht
      exact nineBits_lockColumnDigit t column d hcol ht
    · intro t d hd ht
      exact lockColumnDigit_eq_spec t column d hcol (List.mem_range'_1.mp hd).1 ht
  have hrows := foldl_eq_of_invariant NineBits
    (fun g row => (List.range' 1 9).foldl (lockRowDigit row) g)
    (fun g r => (List.range' 1 9).foldl (fun g d => eliminateFromRow g r d) g)
    (List.range 9)
    (fun s row hrow hs => (hrowDigits row (List.mem_range.mp hrow) s hs).2)
    (fun s row hrow hs => (hrowDigits row (List.mem_range.mp hrow) s hs).1) g hg
  have hcolumns := foldl_eq_of_invariant NineBits
    (fun g column => (List.range' 1 9).foldl (lockColumnDigit column) g)
    (fun g c => (List.range' 1 9).foldl (fun g d => eliminateFromColumn g c d) g)
    (List.range 9)
    (fun s column hcol hs => (hcolumnDigits column (List.mem_range.mp hcol) s hs).2)
    (fun s column hcol hs => (hcolumnDigits column (List.mem_range.mp hcol) s hs).1)
    _ hrows.2
  unfold specElimination lockColumns lockRows
  rw [← hrows.1, ← hcolumns.1]

/-- The grid `assistantLocked` scans the second time is the reduced grid of the
specification. -/
theorem specReducedGrid_eq (board : Board) : specReducedGrid board = reducedGrid board := by
  unfold specReducedGrid reducedGrid
  rw [specCandidateGrid_eq, specElimination_eq _ (nineBits_candidateGrid board)]

/-- On `columnPassExample` the column pass acts: square (0, 2) of block 0 still allows
digit 1 after the row pass and has lost it after the column pass, and so has the grid of the
specification. -/
theorem columnPassExample_clears :
    (lockRows (candidateGrid columnPassExample) 0 2).testBit 0 = true ∧
      (reducedGrid columnPassExample 0 2).testBit 0 = false ∧
      (specReducedGrid columnPassExample 0 2).testBit 0 = false := by
  have hrows : (lockRows (candidateGrid columnPassExample) 0 2).testBit 0 = true := by decide!
  have hcolumns : (reducedGrid columnPassExample 0 2).testBit 0 = false := by decide!
  exact ⟨hrows, hcolumns, (congrFun (congrFun (specReducedGrid_eq columnPassExample) 0) 2).symm ▸
    hcolumns⟩

/-! ## The order of the steps of `assistantLocked` -/

theorem lockedExample_code :
    suggestionOf (assistantLocked lockedExample) = some ({ col := 7, row := 6 }, 4) := by
  decide!

/-- The five-step procedure of the specification on the grids the code computes. -/
theorem lockedFiveSteps_code (board : Board) :
    lockedFiveSteps board =
      (nakedSingle (candidateGrid board)).or
        ((nakedSingle (reducedGrid board)).or (blockSingle (reducedGrid board))) := by
  unfold lockedFiveSteps
  rw [specCandidateGrid_eq, specReducedGrid_eq]
  cases nakedSingle (candidateGrid board) <;> cases nakedSingle (reducedGrid board) <;>
    cases blockSingle (reducedGrid board) <;> rfl

theorem lockedExample_scans :
    (nakedSingle (candidateGrid lockedExample)).or
        ((nakedSingle (reducedGrid lockedExample)).or
          (blockSingle (reducedGrid lockedExample))) =
      some ({ col := 5, row := 8 }, 4) := by
  decide!

theorem lockedExample_fiveSteps :
    lockedFiveSteps lockedExample = some ({ col := 5, row := 8 }, 4) :=
  (lockedFiveSteps_code lockedExample).trans lockedExample_scans

/-- C8, as stated, fails: on `lockedExample` no square has a single candidate, but digit 4
has a single holder in block 8 of the candidate grid, so `assistantLocked` returns square
(6, 7) from its first scan, before any elimination; the five-step procedure eliminates
first and then finds digit 4 with a single holder in block 7, square (8, 5). -/
theorem C8_five_steps_counterexample :
    suggestionOf (assistantLocked lockedExample) ≠ lockedFiveSteps lockedExample := by
  rw [lockedExample_code, lockedExample_fiveSteps]
  decide

/-- C8, amended. `assistantLocked` equals the procedure that runs both scans before and
after the elimination, each part taken in the words of the specification: the candidate
grid of step 1; the naked-single scan and then the `(digit, block)` scan on it; if both
find nothing, the elimination of step 3 (for each row and each digit, then for each column
and each digit, each judged on the grid as the earlier ones left it) and the same two scans
on the reduced grid; and no suggestion (digit 0) if those find nothing. -/
theorem C8_locked_equals_two_scans (board : Board) :
    suggestionOf (assistantLocked board) = lockedTwoScans board := by
  rw [assistantLocked_suggestion]
  unfold lockedTwoScans
  rw [specCandidateGrid_eq, specReducedGrid_eq]
  cases nakedSingle (candidateGrid board) <;> cases blockSingle (candidateGrid board) <;>
    cases nakedSingle (reducedGrid board) <;> cases blockSingle (reducedGrid board) <;> rfl

theorem nakedSingle_eq_none_iff (g : CandidateGrid) :
    nakedSingle g = none ↔ ¬ ∃ r < 9, ∃ c < 9, HasOneBit (g r c) := by
  unfold nakedSingle
  rw [Option.map_eq_none', List.find?_eq_none]
  constructor
  · rintro h ⟨r, hr, c, hc, hone⟩
    exact h (r, c) ((mem_allSquares _).mpr ⟨hr, hc⟩) (by simpa using hone)
  · intro h x hx hone
    obtain ⟨h1, h2⟩ := (mem_allSquares x).mp hx
    exact h ⟨x.1, h1, x.2, h2, by simpa using hone⟩

theorem blockSingle_eq_none_iff (g : CandidateGrid) :
    blockSingle g = none ↔
      ¬ ∃ d, 1 ≤ d ∧ d ≤ 9 ∧ ∃ k < 9, (holders g d k).length = 1 := by
  unfold blockSingle
  rw [Option.map_eq_none', List.find?_eq_none]
  constructor
  · rintro h ⟨d, hd1, hd9, k, hk, hone⟩
    exact h (d, k) ((mem_digitBlockPairs _).mpr ⟨⟨hd1, hd9⟩, hk⟩) (by simpa using hone)
  · intro h x hx hone
    obtain ⟨⟨h1, h2⟩, h3⟩ := (mem_digitBlockPairs x).mp hx
    exact h ⟨x.1, h1, h2, x.2, h3, by simpa using hone⟩

theorem eq_singleton_of_nodup {α : Type} (l : List α) (x : α) (hnd : l.Nodup) (hx : x ∈ l)
    (hall : ∀ y ∈ l, y = x) : l = [x] := by
  cases l with
  | nil => exact absurd hx (List.not_mem_nil _)
  | cons a rest =>
    have ha := hall a (List.mem_cons_self _ _)
    cases rest with
    | nil => rw [ha]
    | cons b rest2 =>
      have hb := hall b (List.mem_cons_of_mem _ (List.mem_cons_self _ _))
      have := (List.nodup_cons.mp hnd).1
      rw [ha, hb] at this
      exact absurd (List.mem_cons_self _ _) this

/-- A digit with a single holder in a block of the candidate grid keeps that single
holder through the elimination. -/
theorem holders_persist (g0 : CandidateGrid) (d k : Nat) (hk : k < 9)
    (h : (holders g0 d k).length = 1) :
    (holders (lockColumns (lockRows g0)) d k).length = 1 := by
  obtain ⟨x, hx⟩ := List.length_eq_one.mp h
  obtain ⟨hmem, hbit, honly⟩ := holders_singleton g0 d k x hx
  obtain ⟨hx1, hx2, hxk⟩ := (mem_blockCells_iff k hk x).mp hmem
  have key : (lockColumns (lockRows g0) x.1 x.2).testBit (d - 1) = true ∧
      ∀ y ∈ blockCells k, (lockColumns (lockRows g0) y.1 y.2).testBit (d - 1) = true →
        y = x := by
    apply lockColumns_invariant (fun g => (g x.1 x.2).testBit (d - 1) = true ∧
      ∀ y ∈ blockCells k, (g y.1 y.2).testBit (d - 1) = true → y = x)
    · intro g column digit hcol hg1 _ ⟨hgx, hgonly⟩
      constructor
      · rcases lockColumnDigit_cases column hcol g digit x.1 x.2 with he |
          ⟨he, hne, _, _, hband, ⟨r0, hr0, hbit0, hr03⟩, _⟩
        · rw [he]; exact hgx
        · rw [he, testBit_clearFlags, hgx, testBit_flag, Bool.true_and, Bool.not_eq_true',
            decide_eq_false_iff_not]
          intro hdd
          have hmem0 : (r0, column) ∈ blockCells k := by
            rw [mem_blockCells_iff k hk]
            refine ⟨hr0, hcol, ?_⟩
            unfold SUDOKU_BLOCK_FROM_INTERSECTION at hxk ⊢
            simp only
            omega
          have := hgonly (r0, column) hmem0 (by rw [← hdd]; exact hbit0)
          exact hne (by rw [← this])
      · intro y hy hby
        apply hgonly y hy
        rcases lockColumnDigit_cases column hcol g digit y.1 y.2 with he | ⟨he, _⟩
        · rw [he] at hby; exact hby
        · rw [he, testBit_clearFlags, Bool.and_eq_true] at hby
          exact hby.1
    · apply lockRows_invariant (fun g => (g x.1 x.2).testBit (d - 1) = true ∧
        ∀ y ∈ blockCells k, (g y.1 y.2).testBit (d - 1) = true → y = x)
      · intro g row digit hrow hg1 _ ⟨hgx, hgonly⟩
        constructor
        · rcases lockRowDigit_cases row hrow g digit x.1 x.2 with he |
            ⟨he, hne, _, _, hband, ⟨c0, hc0, hbit0, hc03⟩, _⟩
          · rw [he]; exact hgx
          · rw [he, testBit_clearFlags, hgx, testBit_flag, Bool.true_and, Bool.not_eq_true',
              decide_eq_false_iff_not]
            intro hdd
            have hmem0 : (row, c0) ∈ blockCells k := by
              rw [mem_blockCells_iff k hk]
              refine ⟨hrow, hc0, ?_⟩
              unfold SUDOKU_BLOCK_FROM_INTERSECTION at hxk ⊢
              simp only
              omega
            have := hgonly (row, c0) hmem0 (by rw [← hdd]; exact hbit0)
            exact hne (by rw [← this])
        · intro y hy hby
          apply hgonly y hy
          rcases lockRowDigit_cases row hrow g digit y.1 y.2 with he | ⟨he, _⟩
          · rw [he] at hby; exact hby
          · rw [he, testBit_clearFlags, Bool.and_eq_true] at hby
            exact hby.1
      · exact ⟨hbit, honly⟩
  have hlist : holders (lockColumns (lockRows g0)) d k = [x] := by
    apply eq_singleton_of_nodup
    · exact (nodup_blockCells k hk).filter _
    · exact List.mem_filter.mpr ⟨hmem, key.1⟩
    · intro y hy
      obtain ⟨hy1, hy2⟩ := List.mem_filter.mp hy
      exact key.2 y hy1 hy2
  rw [hlist]
  rfl

theorem or_eq_none_iff {α : Type} (a b : Option α) : a.or b = none ↔ a = none ∧ b = none := by
  cases a <;> cases b <;> simp [Option.or]

theorem suggestionOf_eq_none_iff (h : HistoryStep) : suggestionOf h = none ↔ h.newValue = 0 := by
  unfold suggestionOf
  by_cases hv : h.newValue = 0
  · simp [hv]
  · simp [hv]

/-- C9. `assistantLocked` returns the no-suggestion value (digit 0) exactly when none of
the steps 2, 4 and 5 of the specification yields a result: the candidate grid of step 1
has no square with exactly one candidate bit, and the grid after the elimination of step 3
has neither such a square nor a `(digit, block)` pair with a single holder. Both grids are
the ones defined in the words of the specification. -/
theorem C9_sentinel_iff_no_step_yields (board : Board) :
    (assistantLocked board).newValue = 0 ↔
      (¬ ∃ r < 9, ∃ c < 9, HasOneBit (specCandidateGrid board r c)) ∧
      (¬ ∃ r < 9, ∃ c < 9, HasOneBit (specReducedGrid board r c)) ∧
      (¬ ∃ d, 1 ≤ d ∧ d ≤ 9 ∧ ∃ k < 9,
        (holders (specReducedGrid board) d k).length = 1) := by
  rw [specCandidateGrid_eq, specReducedGrid_eq, ← suggestionOf_eq_none_iff,
    assistantLocked_suggestion, or_eq_none_iff, or_eq_none_iff,
    or_eq_none_iff, nakedSingle_eq_none_iff, nakedSingle_eq_none_iff,
    blockSingle_eq_none_iff, blockSingle_eq_none_iff]
  constructor
  · rintro ⟨⟨h1, _⟩, h3, h4⟩
    exact ⟨h1, h3, h4⟩
  · rintro ⟨h1, h3, h4⟩
    refine ⟨⟨h1, ?_⟩, h3, h4⟩
    rintro ⟨d, hd1, hd9, k, hk, hone⟩
    exact h4 ⟨d, hd1, hd9, k, hk, holders_persist (candidateGrid board) d k hk hone⟩

theorem pairwise_allSquares : allSquares.Pairwise RowMajorLt := by decide!

/-- The square `find?` returns on `allSquares` is the first in row-major order. -/
theorem find?_allSquares_first (p : Nat × Nat → Bool) (x : Nat × Nat)
    (h : allSquares.find? p = some x) (y : Nat × Nat) (hy : y ∈ allSquares)
    (hlt : RowMajorLt y x) : p y = false := by
  obtain ⟨_, l1, l2, hl, hbefore⟩ := List.find?_eq_some.mp h
  have hp := pairwise_allSquares
  rw [hl] at hp hy
  rw [List.pairwise_append] at hp
  obtain ⟨_, h2, h12⟩ := hp
  rcases List.mem_append.mp hy with hy1 | hy2
  · simpa using hbefore y hy1
  · rcases List.mem_cons.mp hy2 with rfl | hy3
    · unfold RowMajorLt at hlt; omega
    · have := (List.pairwise_cons.mp h2).1 y hy3
      unfold RowMajorLt at hlt this
      omega

theorem assistantLocked_oldValue (board : Board) : (assistantLocked board).oldValue = 0 := by
  unfold assistantLocked
  simp only
  split <;> rfl

/-- C10. When the candidate grid of step 1 has a square with exactly one candidate bit,
`assistantLocked` returns the first such square in row-major order with the digit
(bit index + 1) of its single bit; the result is fixed by the candidate grid alone, the
elimination is not consulted. -/
theorem C10_initial_naked_single_returned (board : Board)
    (h : ∃ r < 9, ∃ c < 9, HasOneBit (candidateGrid board r c)) :
    ∃ r < 9, ∃ c < 9, ∃ b < 9,
      HasOneBit (candidateGrid board r c) ∧ (candidateGrid board r c).testBit b = true ∧
      (∀ r2 < 9, ∀ c2 < 9, (r2 < r ∨ (r2 = r ∧ c2 < c)) →
        ¬ HasOneBit (candidateGrid board r2 c2)) ∧
      assistantLocked board =
        { location := { col := c, row := r }, newValue := ((b + 1 : Nat) : Int),
          oldValue := 0 } := by
  cases hf : allSquares.find? (fun c => decide (HasOneBit (candidateGrid board c.1 c.2))) with
  | none =>
    have hnone : nakedSingle (candidateGrid board) = none := by
      unfold nakedSingle; rw [hf]; rfl
    exact absurd h ((nakedSingle_eq_none_iff _).mp hnone)
  | some x =>
    have hmem := (mem_allSquares x).mp (List.mem_of_find?_eq_some hf)
    have hone := List.find?_some hf
    rw [decide_eq_true_eq] at hone
    obtain ⟨b, hb⟩ := List.length_eq_one.mp hone
    obtain ⟨hb9, hbit, _⟩ := candidateBits_singleton _ b hb
    have hnaked : nakedSingle (candidateGrid board) = some (toCoord x, ((b + 1 : Nat) : Int)) := by
      unfold nakedSingle; rw [hf, Option.map_some', hb]; rfl
    have hs := assistantLocked_suggestion board
    rw [hnaked] at hs
    have hs2 : suggestionOf (assistantLocked board) =
        some (toCoord x, ((b + 1 : Nat) : Int)) := hs
    unfold suggestionOf at hs2
    have hold := assistantLocked_oldValue board
    refine ⟨x.1, hmem.1, x.2, hmem.2, b, hb9, hone, hbit, ?_, ?_⟩
    · intro r2 hr2 c2 hc2 hlt hone2
      have := find?_allSquares_first _ x hf (r2, c2) ((mem_allSquares _).mpr ⟨hr2, hc2⟩) hlt
      rw [decide_eq_false_iff_not] at this
      exact this hone2
    · by_cases hv : (assistantLocked board).newValue = 0
      · rw [if_pos hv] at hs2; exact Option.noConfusion hs2
      · rw [if_neg hv] at hs2
        obtain ⟨h1, h2⟩ := Prod.mk.inj (Option.some.inj hs2)
        cases hres : assistantLocked board with
        | mk location newValue oldValue =>
          rw [hres] at h1 h2 hold
          simp only at h1 h2 hold
          rw [h1, h2, hold]
          rfl

theorem puzzleExample_has_naked_single :
    ∃ r < 9, ∃ c < 9, HasOneBit (candidateGrid puzzleExample r c) :=
  ⟨4, by decide, 4, by decide, by decide!⟩

/-- C10 at `puzzleExample`, whose candidate grid has a single candidate at square (4, 4). -/
theorem C10_initial_naked_single_returned_witness :
    (∃ r < 9, ∃ c < 9, HasOneBit (candidateGrid puzzleExample r c)) ∧
    ∃ r < 9, ∃ c < 9, ∃ b < 9,
      HasOneBit (candidateGrid puzzleExample r c) ∧
      (candidateGrid puzzleExample r c).testBit b = true ∧
      (∀ r2 < 9, ∀ c2 < 9, (r2 < r ∨ (r2 = r ∧ c2 < c)) →
        ¬ HasOneBit (candidateGrid puzzleExample r2 c2)) ∧
      assistantLocked puzzleExample =
        { location := { col := c, row := r }, newValue := ((b + 1 : Nat) : Int),
          oldValue := 0 } :=
  ⟨puzzleExample_has_naked_single,
    C10_initial_naked_single_returned puzzleExample puzzleExample_has_naked_single⟩

/-! ## The candidate grid of step 1, as a difference of bit fields -/

theorem rows_lt (board : Board) (verbose : Bool) (i : Nat) (hi : i < 9) :
    (evaluateDigitsPresent board verbose).digitsPresent.rows i < 2 ^ 9 := by
  apply Nat.lt_pow_two_of_testBit
  intro t ht
  rw [Bool.eq_false_iff]
  intro hb
  obtain ⟨j, _, h1, h2, h3⟩ := (rows_testBit board verbose i t hi).mp hb
  omega

theorem columns_lt (board : Board) (verbose : Bool) (j : Nat) (hj : j < 9) :
    (evaluateDigitsPresent board verbose).digitsPresent.columns j < 2 ^ 9 := by
  apply Nat.lt_pow_two_of_testBit
  intro t ht
  rw [Bool.eq_false_iff]
  intro hb
  obtain ⟨i, _, h1, h2, h3⟩ := (columns_testBit board verbose j t hj).mp hb
  omega

theorem blocks_lt (board : Board) (verbose : Bool) (k : Nat) (hk : k < 9) :
    (evaluateDigitsPresent board verbose).digitsPresent.blocks k < 2 ^ 9 := by
  apply Nat.lt_pow_two_of_testBit
  intro t ht
  rw [Bool.eq_false_iff]
  intro hb
  obtain ⟨c, _, h1, h2, h3⟩ := (blocks_testBit board verbose k t hk).mp hb
  omega

/-- Clearing three fields in turn from `SUDOKU_TEST_ALLDIGITS` subtracts their union. -/
theorem clearFlags_three (a b c : Nat) (ha : a < 2 ^ 9) (hb : b < 2 ^ 9) (hc : c < 2 ^ 9) :
    clearFlags (clearFlags (clearFlags SUDOKU_TEST_ALLDIGITS a) b) c =
      SUDOKU_TEST_ALLDIGITS - (a ||| b ||| c) := by
  have hu : a ||| b ||| c < 2 ^ 9 := Nat.or_lt_two_pow (Nat.or_lt_two_pow ha hb) hc
  have he : SUDOKU_TEST_ALLDIGITS - (a ||| b ||| c) = 2 ^ 9 - ((a ||| b ||| c) + 1) := by
    show 511 - (a ||| b ||| c) = 2 ^ 9 - ((a ||| b ||| c) + 1)
    omega
  apply Nat.eq_of_testBit_eq
  intro t
  rw [he, Nat.testBit_two_pow_sub_succ hu, testBit_clearFlags, testBit_clearFlags,
    testBit_clearFlags, testBit_allDigits, Nat.testBit_or, Nat.testBit_or]
  cases decide (t < 9) <;> cases a.testBit t <;> cases b.testBit t <;> cases c.testBit t <;> rfl

/-- C12. The candidate grid `assistantLocked` builds before any scan: a blank square holds
`SUDOKU_TEST_ALLDIGITS` minus the union of the presence fields of its row, its column and
its block `(r / 3) * 3 + c / 3`, as `evaluateDigitsPresent` computes them (bit `t` is set
exactly when `t < 9` and the union lacks it); a square that is not blank holds 0. -/
theorem C12_candidate_grid_is_complement_of_presence (board : Board) (r c : Nat)
    (hr : r < 9) (hc : c < 9) :
    (board r c = 0 →
      candidateGrid board r c =
        SUDOKU_TEST_ALLDIGITS -
          ((evaluateDigitsPresent board false).digitsPresent.rows r |||
            (evaluateDigitsPresent board false).digitsPresent.columns c |||
            (evaluateDigitsPresent board false).digitsPresent.blocks ((r / 3) * 3 + c / 3)) ∧
      ∀ t, (candidateGrid board r c).testBit t =
        (decide (t < 9) &&
          !((evaluateDigitsPresent board false).digitsPresent.rows r |||
            (evaluateDigitsPresent board false).digitsPresent.columns c |||
            (evaluateDigitsPresent board false).digitsPresent.blocks
              ((r / 3) * 3 + c / 3)).testBit t)) ∧
    (board r c ≠ 0 → candidateGrid board r c = 0) := by
  have hk := block_lt r c hr hc
  unfold SUDOKU_BLOCK_FROM_INTERSECTION at hk
  have hu := Nat.or_lt_two_pow (Nat.or_lt_two_pow (rows_lt board false r hr)
    (columns_lt board false c hc)) (blocks_lt board false _ hk)
  constructor
  · intro hb
    have hval : candidateGrid board r c =
        SUDOKU_TEST_ALLDIGITS -
          ((evaluateDigitsPresent board false).digitsPresent.rows r |||
            (evaluateDigitsPresent board false).digitsPresent.columns c |||
            (evaluateDigitsPresent board false).digitsPresent.blocks ((r / 3) * 3 + c / 3)) := by
      unfold candidateGrid
      rw [initialDigitsPossible_apply, if_pos ⟨⟨hr, hc⟩, hb⟩]
      exact clearFlags_three _ _ _ (rows_lt board false r hr) (columns_lt board false c hc)
        (blocks_lt board false _ hk)
    refine ⟨hval, fun t => ?_⟩
    rw [hval]
    have he : ∀ u : Nat, SUDOKU_TEST_ALLDIGITS - u = 2 ^ 9 - (u + 1) := by
      intro u
      show 511 - u = 2 ^ 9 - (u + 1)
      omega
    rw [he, Nat.testBit_two_pow_sub_succ hu]
  · intro hb
    unfold candidateGrid
    rw [initialDigitsPossible_apply, if_neg (fun h => hb h.2)]

/-- C12 at `puzzleExample`: the blank square (0, 2) and the filled square (0, 0). -/
theorem C12_candidate_grid_is_complement_of_presence_witness :
    (0 < 9 ∧ 2 < 9 ∧ puzzleExample 0 2 = 0 ∧
      candidateGrid puzzleExample 0 2 =
        SUDOKU_TEST_ALLDIGITS -
          ((evaluateDigitsPresent puzzleExample false).digitsPresent.rows 0 |||
            (evaluateDigitsPresent puzzleExample false).digitsPresent.columns 2 |||
            (evaluateDigitsPresent puzzleExample false).digitsPresent.blocks
              ((0 / 3) * 3 + 2 / 3))) ∧
    (0 < 9 ∧ puzzleExample 0 0 ≠ 0 ∧ candidateGrid puzzleExample 0 0 = 0) :=
  ⟨⟨by decide, by decide, by decide,
      ((C12_candidate_grid_is_complement_of_presence puzzleExample 0 2 (by decide)
        (by decide)).1 (by decide)).1⟩,
    ⟨by decide, by decide,
      (C12_candidate_grid_is_complement_of_presence puzzleExample 0 0 (by decide)
        (by decide)).2 (by decide)⟩⟩

/-! ## `assistantCrosshatch` on solved and nearly solved boards -/

/-- C14. On a fully solved board `assistantCrosshatch` returns the no-suggestion value:
digit 0. -/
theorem C14_crosshatch_solved_board_no_suggestion (S : Board) (hS : IsSolved S) :
    (assistantCrosshatch S).newValue = 0 := by
  by_contra hd
  obtain ⟨row, digit, column, hr, hd1, hd9, hc, hq, _⟩ := crosshatch_found S hd
  obtain ⟨_, _, hnb, _⟩ := hq
  exact hnb (solved_block_has S hS _ (block_lt row column hr hc) (digit : Int) (by omega)
    (by omega))

/-- C14 at `solvedExample`. -/
theorem C14_crosshatch_solved_board_no_suggestion_witness :
    IsSolved solvedExample ∧ (assistantCrosshatch solvedExample).newValue = 0 :=
  ⟨isSolved_solvedExample,
    C14_crosshatch_solved_board_no_suggestion solvedExample isSolved_solvedExample⟩

/-- A qualifying triple makes `assistantCrosshatch` return a suggestion. -/
theorem crosshatch_some_of_qualifies (board : Board) (row digit column : Nat) (hr : row < 9)
    (hd1 : 1 ≤ digit) (hd9 : digit ≤ 9) (hc : column < 9)
    (hq : Qualifies board (row, digit, column)) : (assistantCrosshatch board).newValue ≠ 0 := by
  rw [assistantCrosshatch_eq_findSome]
  have h1 : ((List.range 9).findSome?
      (crosshatchRowHit board (evaluateDigitsPresent board false).digitsPresent)).isSome
        = true := by
    rw [List.findSome?_isSome_iff]
    refine ⟨row, List.mem_range.mpr hr, ?_⟩
    rw [crosshatchRowHit_eq board row hr, List.findSome?_isSome_iff]
    refine ⟨digit, List.mem_range'_1.mpr ⟨hd1, by omega⟩, ?_⟩
    rw [List.findSome?_isSome_iff]
    refine ⟨column, List.mem_range.mpr hc, ?_⟩
    rw [if_pos hq]
    rfl
  obtain ⟨r0, hr0⟩ := Option.isSome_iff_exists.mp h1
  rw [hr0]
  simp only [Option.getD_some]
  obtain ⟨row2, _, hh⟩ := List.exists_of_findSome?_eq_some hr0
  exact crosshatchRowHit_newValue board _ row2 r0 hh

theorem blankAt_self (S : Board) (r c : Nat) : blankAt S r c r c = 0 := by
  unfold blankAt
  rw [if_pos ⟨rfl, rfl⟩]

theorem blankAt_of_ne (S : Board) (r c i j : Nat) (h : ¬ (i = r ∧ j = c)) :
    blankAt S r c i j = S i j := by
  unfold blankAt
  rw [if_neg h]

theorem completes_blankAt (S : Board) (r c : Nat) : Completes S (blankAt S r c) := by
  intro i _ j _ hne
  by_cases h : i = r ∧ j = c
  · obtain ⟨rfl, rfl⟩ := h
    exact absurd (blankAt_self S i j) hne
  · rw [blankAt_of_ne S r c i j h]

/-- The only blank square of a solved board with one square blanked is that square. -/
theorem blankAt_blank_only (S : Board) (hS : IsSolved S) (r c i j : Nat) (hi : i < 9)
    (hj : j < 9) (h : blankAt S r c i j = 0) : i = r ∧ j = c := by
  by_contra hne
  rw [blankAt_of_ne S r c i j hne] at h
  have := solved_digit S hS i j hi hj
  omega

/-- C13. On a solved board with the single square `(r, c)` blanked, `assistantCrosshatch`
returns exactly that square with the digit the solved board holds there. -/
theorem C13_crosshatch_fills_single_blank (S : Board) (hS : IsSolved S) (r c : Nat)
    (hr : r < 9) (hc : c < 9) :
    assistantCrosshatch (blankAt S r c) =
      { location := { col := c, row := r }, newValue := S r c, oldValue := 0 } := by
  obtain ⟨hv1, hv9⟩ := solved_digit S hS r c hr hc
  have hSG := completes_blankAt S r c
  have hcast : (((S r c).toNat : Nat) : Int) = S r c := by omega
  have hk := block_lt r c hr hc
  obtain ⟨hmemrc, _⟩ := mem_blockCells_of_lt r c hr hc
  -- a crossing row and column of the same block, other than `r` and `c`
  have hr2 : (r / 3) * 3 + (r + 1) % 3 < 9 := by omega
  have hc2 : (c / 3) * 3 + (c + 1) % 3 < 9 := by omega
  have hrne : r ≠ (r / 3) * 3 + (r + 1) % 3 := by omega
  have hcne : c ≠ (c / 3) * 3 + (c + 1) % 3 := by omega
  have hblock : SUDOKU_BLOCK_FROM_INTERSECTION ((r / 3) * 3 + (r + 1) % 3)
      ((c / 3) * 3 + (c + 1) % 3) = SUDOKU_BLOCK_FROM_INTERSECTION r c := by
    unfold SUDOKU_BLOCK_FROM_INTERSECTION
    omega
  have hnotrow : ¬ InRow (blankAt S r c) r (((S r c).toNat : Nat) : Int) := by
    rintro ⟨j, hj, hG⟩
    rw [hcast] at hG
    by_cases hjc : j = c
    · rw [hjc, blankAt_self] at hG; omega
    · rw [blankAt_of_ne S r c r j (fun h => hjc h.2)] at hG
      exact hjc (solved_row_inj S hS r j c hr hj hc hG)
  have hnotcol : ¬ InColumn (blankAt S r c) c (((S r c).toNat : Nat) : Int) := by
    rintro ⟨i, hi, hG⟩
    rw [hcast] at hG
    by_cases hir : i = r
    · rw [hir, blankAt_self] at hG; omega
    · rw [blankAt_of_ne S r c i c (fun h => hir h.1)] at hG
      exact hir (solved_column_inj S hS c i r hc hi hr hG)
  have hq : Qualifies (blankAt S r c)
      ((r / 3) * 3 + (r + 1) % 3, (S r c).toNat, (c / 3) * 3 + (c + 1) % 3) := by
    refine ⟨?_, ?_, ?_, ?_⟩
    · obtain ⟨j, hj, hSj⟩ := solved_row_has S hS _ hr2 (S r c) hv1 hv9
      refine ⟨j, hj, ?_⟩
      simp only
      rw [blankAt_of_ne S r c _ j (fun h => hrne h.1.symm), hSj, hcast]
    · obtain ⟨i, hi, hSi⟩ := solved_column_has S hS _ hc2 (S r c) hv1 hv9
      refine ⟨i, hi, ?_⟩
      simp only
      rw [blankAt_of_ne S r c i _ (fun h => hcne h.2.symm), hSi, hcast]
    · simp only
      rw [hblock, hcast]
      rintro ⟨y, hy, hGy⟩
      obtain ⟨hy1, hy2, _⟩ := (mem_blockCells_iff _ hk y).mp hy
      by_cases hyrc : y.1 = r ∧ y.2 = c
      · rw [hyrc.1, hyrc.2, blankAt_self] at hGy; omega
      · rw [blankAt_of_ne S r c y.1 y.2 hyrc] at hGy
        have := solved_block_inj S hS _ hk y (r, c) hy hmemrc hGy
        exact hyrc ⟨congrArg Prod.fst this, congrArg Prod.snd this⟩
    · simp only
      have hlist : eligibleCells (blankAt S r c) ((r / 3) * 3 + (r + 1) % 3) (S r c).toNat
          ((c / 3) * 3 + (c + 1) % 3) = [(r, c)] := by
        apply eq_singleton_of_nodup
        · unfold eligibleCells
          rw [hblock]
          exact (nodup_blockCells _ hk).filter _
        · rw [mem_eligibleCells, hblock]
          exact ⟨hmemrc, blankAt_self S r c, hrne, hcne, hnotrow, hnotcol⟩
        · intro y hy
          rw [mem_eligibleCells, hblock] at hy
          obtain ⟨hy0, hyb, _⟩ := hy
          obtain ⟨hy1, hy2, _⟩ := (mem_blockCells_iff _ hk y).mp hy0
          obtain ⟨e1, e2⟩ := blankAt_blank_only S hS r c y.1 y.2 hy1 hy2 hyb
          exact Prod.ext e1 e2
      rw [hlist]
      rfl
  have hd := crosshatch_some_of_qualifies (blankAt S r c) _ _ _ hr2 (by omega) (by omega) hc2 hq
  obtain ⟨row, digit, column, hrow, hd1, hd9, hcol, hq2, he⟩ := crosshatch_found _ hd
  have hforced := qualifies_forced (blankAt S r c) S hS hSG row digit column hrow hd1 hd9 hcol hq2
  obtain ⟨x, hx⟩ := List.length_eq_one.mp hq2.2.2.2
  simp only at hx
  have hxmem : x ∈ eligibleCells (blankAt S r c) row digit column := by
    rw [hx]; exact List.mem_singleton.mpr rfl
  obtain ⟨hx0, hxb, _⟩ := (mem_eligibleCells _ row digit column x).mp hxmem
  obtain ⟨hx1, hx2, _⟩ := (mem_blockCells_iff _ (block_lt row column hrow hcol) x).mp hx0
  obtain ⟨e1, e2⟩ := blankAt_blank_only S hS r c x.1 x.2 hx1 hx2 hxb
  rw [hx] at hforced
  simp only [List.headD_cons] at hforced
  rw [e1, e2] at hforced
  rw [he]
  unfold suggestionOfTriple
  simp only [hx, List.headD_cons, toCoord, e1, e2]
  rw [← hforced]

/-- C13 at `solvedExample` with square (4, 4) blanked. -/
theorem C13_crosshatch_fills_single_blank_witness :
    IsSolved solvedExample ∧ 4 < 9 ∧
      assistantCrosshatch (blankAt solvedExample 4 4) =
        { location := { col := 4, row := 4 }, newValue := solvedExample 4 4, oldValue := 0 } :=
  ⟨isSolved_solvedExample, by decide,
    C13_crosshatch_fills_single_blank solvedExample isSolved_solvedExample 4 4 (by decide)
      (by decide)⟩

/-! ## Verbosity and diagnostics of `evaluateDigitsPresent` -/

/-- Outside the domain of the grid a run with `verbose` false is not silent: on
`illegalExample`, whose square (0, 0) holds 10, the line of `validateSudokuDigit` is
printed once in each of the three passes. No command stores such a value in a board. -/
theorem evaluateDigitsPresent_prints_outside_domain :
    (evaluateDigitsPresent illegalExample false).output =
      [Diagnostic.invalidSudokuDigit 10, Diagnostic.invalidSudokuDigit 10,
        Diagnostic.invalidSudokuDigit 10] := by
  decide!

theorem range_split (n i : Nat) (h : i < n) :
    List.range n = List.range i ++ i :: List.range' (i + 1) (n - i - 1) := by
  rw [List.range_eq_range', List.range_eq_range', ← List.range'_succ]
  have h2 := List.range'_append_1 0 i (n - i - 1 + 1)
  rw [Nat.zero_add] at h2
  rw [h2]
  congr 1
  omega

theorem range'_split (s n i : Nat) (h : i < n) :
    List.range' s n = List.range' s i ++ (s + i) :: List.range' (s + i + 1) (n - i - 1) := by
  rw [← List.range'_succ, List.range'_append_1]
  congr 1
  omega

theorem EVALUATE_DIGIT_output_mono (type : SUDOKU_COLLECTION_TYPE) (cn : Nat) (verbose : Bool)
    (i j k : Nat) (v : Int) (s : EvalState) (m : Diagnostic) (h : m ∈ s.output) :
    m ∈ (EVALUATE_DIGIT type cn verbose i j k v s).output := by
  unfold EVALUATE_DIGIT
  split
  · split
    · simp only
      split
      · exact List.mem_append_left _ h
      · exact h
    · simp only
      split
      · simp only
        split
        · exact List.mem_append_left _ h
        · exact h
      · exact h
  · simp only
    split
    · exact List.mem_append_left _ (List.mem_append_left _ h)
    · exact List.mem_append_left _ h

theorem reportMissing_output_mono (type : SUDOKU_COLLECTION_TYPE) (n : Nat) (verbose : Bool)
    (s : EvalState) (m : Diagnostic) (h : m ∈ s.output) :
    m ∈ (reportMissing type n verbose s).output := by
  unfold reportMissing
  split
  · exact List.mem_append_left _ h
  · exact h

theorem scanCells_output_mono (board : Board) (type : SUDOKU_COLLECTION_TYPE) (cn : Nat)
    (verbose : Bool) (k : Nat) (cells : List (Nat × Nat)) (s : EvalState) (m : Diagnostic)
    (h : m ∈ s.output) : m ∈ (scanCells board type cn verbose k cells s).output := by
  unfold scanCells
  exact foldl_invariant (fun s => m ∈ s.output) _ cells
    (fun s c _ hs => EVALUATE_DIGIT_output_mono _ _ _ _ _ _ _ s m hs) s h

theorem scanPass_output_mono (board : Board) (type : SUDOKU_COLLECTION_TYPE) (verbose : Bool)
    (kOf : Nat → Nat) (cellsOf : Nat → List (Nat × Nat)) (idxs : List Nat) (s : EvalState)
    (m : Diagnostic) (h : m ∈ s.output) :
    m ∈ (scanPass board type verbose kOf cellsOf idxs s).output := by
  unfold scanPass
  exact foldl_invariant (fun s => m ∈ s.output) _ idxs
    (fun s n _ hs => reportMissing_output_mono _ _ _ _ m
      (scanCells_output_mono board type n verbose (kOf n) (cellsOf n) s m hs)) s h

/-- With `verbose` set, a digit whose bit is already in the field under evaluation gets the
repeated-digit diagnostic of that kind of collection. -/
theorem EVALUATE_DIGIT_emits (type : SUDOKU_COLLECTION_TYPE) (cn i j k : Nat) (v : Int)
    (s : EvalState) (hv1 : 1 ≤ v) (hv9 : v ≤ 9)
    (hbit : (s.digitsPresent.field type cn).testBit (v.toNat - 1) = true) :
    Diagnostic.repeatedDigit type i j k v ∈
      (EVALUATE_DIGIT type cn true i j k v s).output := by
  unfold EVALUATE_DIGIT
  rw [if_pos ((validateSudokuDigit_iff v).mpr ⟨by omega, hv9⟩), if_neg (by omega)]
  simp only
  rw [if_pos ((and_flag_ne_zero_iff _ _).mpr hbit)]
  simp only [if_true]
  exact List.mem_append_right _ (List.mem_singleton.mpr rfl)

/-- The row scan reports the second of two equal digits of a row. -/
theorem scanCells_row_emits (board : Board) (r c1 c2 : Nat) (d : Int) (hc1 : c1 < c2)
    (hc2 : c2 < 9) (hd1 : 1 ≤ d) (hd9 : d ≤ 9) (h1 : board r c1 = d) (h2 : board r c2 = d)
    (s : EvalState) :
    Diagnostic.repeatedDigit SUDOKU_IS_rows r c2 0 d ∈
      (scanCells board SUDOKU_IS_rows r true 0 (rowCells r) s).output := by
  have hsplit : rowCells r = (List.range c2).map (fun j => (r, j)) ++
      (r, c2) :: (List.range' (c2 + 1) (9 - c2 - 1)).map (fun j => (r, j)) := by
    unfold rowCells
    rw [range_split 9 c2 hc2, List.map_append, List.map_cons]
  rw [hsplit]
  unfold scanCells
  rw [List.foldl_append, List.foldl_cons]
  apply scanCells_output_mono board SUDOKU_IS_rows r true 0
  simp only
  rw [h2]
  apply EVALUATE_DIGIT_emits _ _ _ _ _ _ _ hd1 hd9
  apply (scanCells_testBit board SUDOKU_IS_rows SUDOKU_IS_rows r r true 0
    ((List.range c2).map (fun j => (r, j))) s (d.toNat - 1)).mpr
  right
  refine ⟨rfl, rfl, (r, c1), ?_, ?_⟩
  · exact List.mem_map.mpr ⟨c1, List.mem_range.mpr hc1, rfl⟩
  · simp only
    rw [h1]
    exact ⟨hd1, hd9, rfl⟩

theorem evaluateDigitsPresent_output_of_rows (board : Board) (m : Diagnostic)
    (h : m ∈ (evaluateRows board true evalStart).output) :
    m ∈ (evaluateDigitsPresent board true).output := by
  have h2 : m ∈ (evaluateBlocks board true (evaluateColumns board true
      (evaluateRows board true evalStart))).output := by
    rw [evaluateBlocks_eq, evaluateColumns_eq]
    exact scanPass_output_mono _ _ _ _ _ _ _ m (scanPass_output_mono _ _ _ _ _ _ _ m h)
  unfold evaluateDigitsPresent
  simp only
  split
  · exact List.mem_append_left _ h2
  · exact h2

/-- C17. When a digit of 1..9 stands in two squares of row `r`, `evaluateDigitsPresent`
ends with the validity flag false and, when `verbose`, prints the repeated-digit
diagnostic of the row kind, naming row `r`, for the second of the two squares. -/
theorem C17_duplicate_in_row_reported (board : Board) (r c1 c2 : Nat) (d : Int)
    (hr : r < 9) (hc1 : c1 < c2) (hc2 : c2 < 9) (hd1 : 1 ≤ d) (hd9 : d ≤ 9)
    (h1 : board r c1 = d) (h2 : board r c2 = d) :
    (∀ verbose, (evaluateDigitsPresent board verbose).sudokuValid = false) ∧
      Diagnostic.repeatedDigit SUDOKU_IS_rows r c2 0 d ∈
        (evaluateDigitsPresent board true).output := by
  constructor
  · intro verbose
    rw [Bool.eq_false_iff]
    intro hvalid
    obtain ⟨hrows, _, _⟩ := (valid_iff_cells board verbose).mp hvalid
    have hinj := (List.nodup_map_iff_inj_on (nodup_rowCells r)).mp
      (hrows r (List.mem_range.mpr hr)).2
    have := hinj (r, c1) ((mem_rowCells r _).mpr ⟨rfl, by omega⟩) (r, c2)
      ((mem_rowCells r _).mpr ⟨rfl, hc2⟩) (by rw [h1, h2])
    have := (Prod.mk.inj this).2
    omega
  · apply evaluateDigitsPresent_output_of_rows
    rw [evaluateRows_eq]
    obtain ⟨l1, l2, hl⟩ := List.append_of_mem (List.mem_range.mpr hr)
    rw [hl]
    unfold scanPass
    rw [List.foldl_append, List.foldl_cons]
    apply scanPass_output_mono board SUDOKU_IS_rows true (fun _ => 0) rowCells l2
    apply reportMissing_output_mono
    exact scanCells_row_emits board r c1 c2 d hc1 hc2 hd1 hd9 h1 h2 _

/-- The claim C17 instantiated at the board that holds 5 at squares (0, 0) and (0, 1) and is
blank elsewhere. -/
theorem C17_duplicate_in_row_reported_witness :
    (0 < 9 ∧ 0 < 1 ∧ 1 < 9 ∧ (1 : Int) ≤ 5 ∧ (5 : Int) ≤ 9 ∧
      boardOfRows [[5, 5]] 0 0 = 5 ∧ boardOfRows [[5, 5]] 0 1 = 5) ∧
    ((∀ verbose, (evaluateDigitsPresent (boardOfRows [[5, 5]]) verbose).sudokuValid = false) ∧
      Diagnostic.repeatedDigit SUDOKU_IS_rows 0 1 0 5 ∈
        (evaluateDigitsPresent (boardOfRows [[5, 5]]) true).output) :=
  ⟨⟨by decide, by decide, by decide, by decide, by decide, by decide, by decide⟩,
    C17_duplicate_in_row_reported (boardOfRows [[5, 5]]) 0 0 1 5 (by decide) (by decide)
      (by decide) (by decide) (by decide) (by decide) (by decide)⟩

/-! ## The row pass of the elimination, step by step -/

/-- A row step on a grid in which the digit is confined to block `k` clears the digit from
the squares of block `k` outside the row. -/
theorem lockRowDigit_confined (g : CandidateGrid) (r d k : Nat)
    (hconf : ConfinedToBlock g r d k) (c : Nat × Nat) (hc : c ∈ blockCells k) (hne : c.1 ≠ r) :
    (lockRowDigit r g d c.1 c.2).testBit (d - 1) = false := by
  obtain ⟨hk3, hk9, ⟨c0, hc0, hbit0, hc03⟩, honly⟩ := hconf
  have hcount : rowBlockCount (rowBlocksPossible g r (SUDOKU_TEST_FLAG_SHIFT d)) r =
      (1, k % 3 + (r / 3) * 3) := by
    apply rowBlockCount_of_unique _ _ _ (by omega)
    · exact (rowBlocksPossible_iff g r d _).mpr ⟨c0, hc0, hbit0, hc03⟩
    · intro j _ hj
      obtain ⟨c1, hc1, hbit1, hc13⟩ := (rowBlocksPossible_iff g r d j).mp hj
      rw [← hc13]
      exact honly c1 hc1 hbit1
  have hkk : k % 3 + (r / 3) * 3 = k := by omega
  unfold lockRowDigit
  rw [hcount]
  simp only [if_true]
  rw [hkk, clearOutsideRow_apply g k r _ hk9, if_pos ⟨hc, hne⟩, testBit_clearFlags,
    testBit_flag]
  simp

/-- The row pass, cut at the step of row `r` and digit `d`. -/
theorem lockRows_split (g : CandidateGrid) (r d : Nat) (hr : r < 9) (hd1 : 1 ≤ d)
    (hd9 : d ≤ 9) :
    lockRows g =
      (List.range' (r + 1) (9 - r - 1)).foldl
        (fun g row => (List.range' 1 9).foldl (lockRowDigit row) g)
        ((List.range' (d + 1) (9 - (d - 1) - 1)).foldl (lockRowDigit r)
          (lockRowDigit r (rowPassBefore g r d) d)) := by
  have hd : 1 + (d - 1) = d := by omega
  have hsplit := range'_split 1 9 (d - 1) (by omega)
  rw [hd] at hsplit
  unfold lockRows rowPassBefore
  rw [range_split 9 r hr, List.foldl_append, List.foldl_cons]
  congr 1
  rw [hsplit, List.foldl_append, List.foldl_cons]

/-- A bit that is clear stays clear through one row step. -/
theorem lockRowDigit_keeps_clear (g : CandidateGrid) (row digit : Nat) (hrow : row < 9)
    (x y t : Nat) (h : (g x y).testBit t = false) :
    (lockRowDigit row g digit x y).testBit t = false := by
  rcases lockRowDigit_cases row hrow g digit x y with he | ⟨he, _⟩
  · rw [he]; exact h
  · rw [he, testBit_clearFlags, h]; rfl

/-- A bit that is clear stays clear through one column step. -/
theorem lockColumnDigit_keeps_clear (g : CandidateGrid) (column digit : Nat)
    (hcol : column < 9) (x y t : Nat) (h : (g x y).testBit t = false) :
    (lockColumnDigit column g digit x y).testBit t = false := by
  rcases lockColumnDigit_cases column hcol g digit x y with he | ⟨he, _⟩
  · rw [he]; exact h
  · rw [he, testBit_clearFlags, h]; rfl

/-- What the row step of `(r, d)` clears is still clear after the whole elimination. -/
theorem locked_row_cleared (g : CandidateGrid) (r d k : Nat) (hr : r < 9) (hd1 : 1 ≤ d)
    (hd9 : d ≤ 9) (hconf : ConfinedToBlock (rowPassBefore g r d) r d k) (c : Nat × Nat)
    (hc : c ∈ blockCells k) (hne : c.1 ≠ r) :
    (lockColumns (lockRows g) c.1 c.2).testBit (d - 1) = false := by
  have step1 := lockRowDigit_confined _ r d k hconf c hc hne
  have step2 := foldl_invariant
    (fun g : CandidateGrid => (g c.1 c.2).testBit (d - 1) = false) (lockRowDigit r)
    (List.range' (d + 1) (9 - (d - 1) - 1))
    (fun t digit _ ht => lockRowDigit_keeps_clear t r digit hr _ _ _ ht) _ step1
  have step3 := foldl_invariant
    (fun g : CandidateGrid => (g c.1 c.2).testBit (d - 1) = false)
    (fun g row => (List.range' 1 9).foldl (lockRowDigit row) g)
    (List.range' (r + 1) (9 - r - 1))
    (fun s row hrow hs => foldl_invariant
      (fun g : CandidateGrid => (g c.1 c.2).testBit (d - 1) = false) (lockRowDigit row)
      (List.range' 1 9)
      (fun t digit _ ht => lockRowDigit_keeps_clear t row digit
        (by have := (List.mem_range'_1.mp hrow).2; omega) _ _ _ ht) s hs) _ step2
  rw [← lockRows_split g r d hr hd1 hd9] at step3
  exact lockColumns_invariant (fun g : CandidateGrid => (g c.1 c.2).testBit (d - 1) = false)
    (fun g column digit hcol _ _ hg => lockColumnDigit_keeps_clear g column digit hcol _ _ _ hg)
    _ step3

theorem twoLockedRows_runs :
    (scanForSingleCandidate (candidateGrid twoLockedRowsExample) noSuggestion.location).1 = 0 := by
  decide!

theorem twoLockedRows_confined :
    ConfinedToBlock (candidateGrid twoLockedRowsExample) 1 1 0 := by
  decide!

theorem twoLockedRows_kept :
    (reducedGrid twoLockedRowsExample 0 0).testBit (1 - 1) = true := by
  decide!

/-- C11, as stated, fails: on `twoLockedRowsExample` the first scan finds nothing, so the
elimination runs; in the candidate grid of step 1 the squares of row 1 that allow digit 1
all lie in block 0; yet after the elimination square (0, 0), in block 0 outside row 1,
still allows digit 1. Row 0 is confined to the same block and is processed first, so when
the row pass reaches row 1 no square of row 1 allows the digit any more. -/
theorem C11_step1_confinement_counterexample :
    (scanForSingleCandidate (candidateGrid twoLockedRowsExample) noSuggestion.location).1 = 0 ∧
    ¬ (ConfinedToBlock (candidateGrid twoLockedRowsExample) 1 1 0 →
        ∀ c ∈ blockCells 0, c.1 ≠ 1 →
          (reducedGrid twoLockedRowsExample c.1 c.2).testBit (1 - 1) = false) := by
  refine ⟨twoLockedRows_runs, fun h => ?_⟩
  have h2 := h twoLockedRows_confined (0, 0) (by decide) (by decide)
  rw [twoLockedRows_kept] at h2
  exact Bool.noConfusion h2

/-- C11, amended. For every row `r` and digit `d`: if, in the working candidate grid at the
moment the row pass reaches row `r` and digit `d` (the grid of step 1 with the eliminations
of all earlier rows and of the smaller digits of row `r` applied), the squares of row `r`
that still allow `d` all lie in exactly one block of the row, then after the elimination
`d` is cleared from every square of that block outside row `r`. -/
theorem C11_locked_row_clears_block (board : Board) (r d k : Nat) (hr : r < 9) (hd1 : 1 ≤ d)
    (hd9 : d ≤ 9) (hconf : ConfinedToBlock (rowPassBefore (candidateGrid board) r d) r d k) :
    ∀ c ∈ blockCells k, c.1 ≠ r → (reducedGrid board c.1 c.2).testBit (d - 1) = false := by
  intro c hc hne
  exact locked_row_cleared (candidateGrid board) r d k hr hd1 hd9 hconf c hc hne

theorem twoLockedRows_confined_row0 :
    ConfinedToBlock (rowPassBefore (candidateGrid twoLockedRowsExample) 0 1) 0 1 0 := by
  decide!

/-- C11, amended, at row 0 and digit 1 of `twoLockedRowsExample`. -/
theorem C11_locked_row_clears_block_witness :
    0 < 9 ∧ 1 ≤ 1 ∧ 1 ≤ 9 ∧
      ConfinedToBlock (rowPassBefore (candidateGrid twoLockedRowsExample) 0 1) 0 1 0 ∧
      ∀ c ∈ blockCells 0, c.1 ≠ 0 →
        (reducedGrid twoLockedRowsExample c.1 c.2).testBit (1 - 1) = false :=
  ⟨by decide, by decide, by decide, twoLockedRows_confined_row0,
    C11_locked_row_clears_block twoLockedRowsExample 0 1 0 (by decide) (by decide) (by decide)
      twoLockedRows_confined_row0⟩

/-! ## The assistants do not change the board -/

/-- A loop on a memory whose body, seen through `lift`, is the body of a loop on one part of
the memory, is that loop seen through `lift`. -/
theorem foldl_lift {σ τ α : Type} (lift : τ → σ) (f : σ → α → σ) (g : τ → α → τ) (l : List α)
    (h : ∀ t, ∀ x ∈ l, f (lift t) x = lift (g t x)) (t : τ) :
    l.foldl f (lift t) = lift (l.foldl g t) := by
  induction l generalizing t with
  | nil => rfl
  | cons x rest ih =>
    rw [List.foldl_cons, List.foldl_cons, h t x (List.mem_cons_self _ _)]
    exact ih (fun t y hy => h t y (List.mem_cons_of_mem _ hy)) _

theorem evaluateRowsOn_eq (verbose : Bool) (board : SudokuBoard) (s : EvalState) :
    evaluateRowsOn verbose { board := board, eval := s } =
      { board := board, eval := evaluateRows board.contents verbose s } := by
  unfold evaluateRowsOn evaluateRows
  apply foldl_lift (fun s => ({ board := board, eval := s } : EvalMemory))
  intro s i _
  simp only
  rw [foldl_lift (fun s => ({ board := board, eval := s } : EvalMemory)) _
    (fun s j => EVALUATE_DIGIT SUDOKU_IS_rows i verbose i j 0 (board.contents i j) s) _
    (fun _ _ _ => rfl)]

theorem evaluateColumnsOn_eq (verbose : Bool) (board : SudokuBoard) (s : EvalState) :
    evaluateColumnsOn verbose { board := board, eval := s } =
      { board := board, eval := evaluateColumns board.contents verbose s } := by
  unfold evaluateColumnsOn evaluateColumns
  apply foldl_lift (fun s => ({ board := board, eval := s } : EvalMemory))
  intro s j _
  simp only
  rw [foldl_lift (fun s => ({ board := board, eval := s } : EvalMemory)) _
    (fun s i => EVALUATE_DIGIT SUDOKU_IS_columns j verbose i j 0 (board.contents i j) s) _
    (fun _ _ _ => rfl)]

theorem evaluateBlocksOn_eq (verbose : Bool) (board : SudokuBoard) (s : EvalState) :
    evaluateBlocksOn verbose { board := board, eval := s } =
      { board := board, eval := evaluateBlocks board.contents verbose s } := by
  unfold evaluateBlocksOn evaluateBlocks
  apply foldl_lift (fun s => ({ board := board, eval := s } : EvalMemory))
  intro s k _
  simp only
  rw [foldl_lift (fun s => ({ board := board, eval := s } : EvalMemory)) _
    (fun s i => (List.range' ((k % 3) * 3) 3).foldl (fun s j =>
      EVALUATE_DIGIT SUDOKU_IS_blocks k verbose i j k (board.contents i j) s) s) _
    (fun s i _ => foldl_lift (fun s => ({ board := board, eval := s } : EvalMemory)) _
      (fun s j => EVALUATE_DIGIT SUDOKU_IS_blocks k verbose i j k (board.contents i j) s) _
      (fun _ _ _ => rfl) s)]

/-- The run of `evaluateDigitsPresent` on the memory leaves the board it was given, and
fills the struct as `evaluateDigitsPresent` on the board contents does. -/
theorem evaluateDigitsPresentOn_eq (board : SudokuBoard) (verbose : Bool) :
    evaluateDigitsPresentOn board verbose =
      { board := board, eval := evaluateDigitsPresent board.contents verbose } := by
  unfold evaluateDigitsPresentOn evaluateDigitsPresent
  rw [evaluateRowsOn_eq, evaluateColumnsOn_eq, evaluateBlocksOn_eq]
  simp only
  split <;> rfl

theorem crosshatchColumnOn_eq (board : SudokuBoard) (dp : DigitsPresent) (row digit : Nat)
    (s : HistoryStep) (column : Nat) :
    crosshatchColumnOn row digit { board := board, suggestion := s, digitsPresent := dp }
        column =
      { board := board
        suggestion := crosshatchColumn board.contents dp row digit s column
        digitsPresent := dp } := by
  unfold crosshatchColumnOn crosshatchColumn
  simp only
  split
  · rfl
  · split
    · split
      · split <;> rfl
      · rfl
    · rfl

theorem crosshatchDigitOn_eq (board : SudokuBoard) (dp : DigitsPresent) (row : Nat)
    (s : HistoryStep) (digit : Nat) :
    crosshatchDigitOn row { board := board, suggestion := s, digitsPresent := dp } digit =
      { board := board
        suggestion := crosshatchDigit board.contents dp row s digit
        digitsPresent := dp } := by
  unfold crosshatchDigitOn crosshatchDigit
  simp only
  split
  · rfl
  · split
    · exact foldl_lift
        (fun s => ({ board := board, suggestion := s, digitsPresent := dp } : CrosshatchMemory))
        _ _ _ (fun s column _ => crosshatchColumnOn_eq board dp row digit s column) s
    · rfl

theorem crosshatchRowOn_eq (board : SudokuBoard) (dp : DigitsPresent) (s : HistoryStep)
    (row : Nat) :
    crosshatchRowOn { board := board, suggestion := s, digitsPresent := dp } row =
      { board := board
        suggestion := crosshatchRow board.contents dp s row
        digitsPresent := dp } := by
  unfold crosshatchRowOn crosshatchRow
  simp only
  split
  · rfl
  · exact foldl_lift
      (fun s => ({ board := board, suggestion := s, digitsPresent := dp } : CrosshatchMemory))
      _ _ _ (fun s digit _ => crosshatchDigitOn_eq board dp row s digit) s

/-- The run of `assistantCrosshatch` on the memory leaves the board it was given, and its
`suggestion` ends as the value of `assistantCrosshatch` on the board contents. -/
theorem assistantCrosshatchOn_eq (board : SudokuBoard) :
    assistantCrosshatchOn board =
      { board := board
        suggestion := assistantCrosshatch board.contents
        digitsPresent := (evaluateDigitsPresent board.contents false).digitsPresent } := by
  unfold assistantCrosshatchOn assistantCrosshatch
  rw [evaluateDigitsPresentOn_eq]
  exact foldl_lift
    (fun s => ({ board := board, suggestion := s
                 digitsPresent := (evaluateDigitsPresent board.contents false).digitsPresent } :
      CrosshatchMemory))
    _ _ _ (fun s row _ => crosshatchRowOn_eq board _ s row) noSuggestion

theorem initialDigitsPossibleOn_eq (board : SudokuBoard) (s : HistoryStep)
    (dp : DigitsPresent) :
    initialDigitsPossibleOn
        { board := board, suggestion := s, digitsPresent := dp, digitsPossible := fun _ _ => 0 } =
      { board := board, suggestion := s, digitsPresent := dp
        digitsPossible := initialDigitsPossible board.contents dp } := by
  unfold initialDigitsPossibleOn initialDigitsPossible
  apply foldl_lift (fun g =>
    ({ board := board, suggestion := s, digitsPresent := dp, digitsPossible := g } :
      LockedMemory))
  intro g row _
  apply foldl_lift (fun g =>
    ({ board := board, suggestion := s, digitsPresent := dp, digitsPossible := g } :
      LockedMemory))
  intro g column _
  simp only
  split <;> rfl

theorem clearOutsideRowOn_eq (block row testFlag : Nat) (board : SudokuBoard)
    (s : HistoryStep) (dp : DigitsPresent) (g : CandidateGrid) :
    clearOutsideRowOn block row testFlag
        { board := board, suggestion := s, digitsPresent := dp, digitsPossible := g } =
      { board := board, suggestion := s, digitsPresent := dp
        digitsPossible := clearOutsideRow g block row testFlag } := by
  unfold clearOutsideRowOn clearOutsideRow
  apply foldl_lift (fun g =>
    ({ board := board, suggestion := s, digitsPresent := dp, digitsPossible := g } :
      LockedMemory))
  intro g blockRow _
  apply foldl_lift (fun g =>
    ({ board := board, suggestion := s, digitsPresent := dp, digitsPossible := g } :
      LockedMemory))
  intro g blockColumn _
  simp only
  split <;> rfl

theorem clearOutsideColumnOn_eq (block column testFlag : Nat) (board : SudokuBoard)
    (s : HistoryStep) (dp : DigitsPresent) (g : CandidateGrid) :
    clearOutsideColumnOn block column testFlag
        { board := board, suggestion := s, digitsPresent := dp, digitsPossible := g } =
      { board := board, suggestion := s, digitsPresent := dp
        digitsPossible := clearOutsideColumn g block column testFlag } := by
  unfold clearOutsideColumnOn clearOutsideColumn
  apply foldl_lift (fun g =>
    ({ board := board, suggestion := s, digitsPresent := dp, digitsPossible := g } :
      LockedMemory))
  intro g blockRow _
  apply foldl_lift (fun g =>
    ({ board := board, suggestion := s, digitsPresent := dp, digitsPossible := g } :
      LockedMemory))
  intro g blockColumn _
  simp only
  split <;> rfl

theorem lockRowDigitOn_eq (row : Nat) (board : SudokuBoard) (s : HistoryStep)
    (dp : DigitsPresent) (g : CandidateGrid) (digit : Nat) :
    lockRowDigitOn row
        { board := board, suggestion := s, digitsPresent := dp, digitsPossible := g } digit =
      { board := board, suggestion := s, digitsPresent := dp
        digitsPossible := lockRowDigit row g digit } := by
  unfold lockRowDigitOn lockRowDigit
  simp only
  split
  · exact clearOutsideRowOn_eq _ _ _ _ _ _ _
  · rfl

theorem lockColumnDigitOn_eq (column : Nat) (board : SudokuBoard) (s : HistoryStep)
    (dp : DigitsPresent) (g : CandidateGrid) (digit : Nat) :
    lockColumnDigitOn column
        { board := board, suggestion := s, digitsPresent := dp, digitsPossible := g } digit =
      { board := board, suggestion := s, digitsPresent := dp
        digitsPossible := lockColumnDigit column g digit } := by
  unfold lockColumnDigitOn lockColumnDigit
  simp only
  split
  · exact clearOutsideColumnOn_eq _ _ _ _ _ _ _
  · rfl

theorem lockRowsOn_eq (board : SudokuBoard) (s : HistoryStep) (dp : DigitsPresent)
    (g : CandidateGrid) :
    lockRowsOn { board := board, suggestion := s, digitsPresent := dp, digitsPossible := g } =
      { board := board, suggestion := s, digitsPresent := dp, digitsPossible := lockRows g } := by
  unfold lockRowsOn lockRows
  apply foldl_lift (fun g =>
    ({ board := board, suggestion := s, digitsPresent := dp, digitsPossible := g } :
      LockedMemory))
  intro g row _
  exact foldl_lift (fun g =>
    ({ board := board, suggestion := s, digitsPresent := dp, digitsPossible := g } :
      LockedMemory)) _ _ _ (fun g digit _ => lockRowDigitOn_eq row board s dp g digit) g

theorem lockColumnsOn_eq (board : SudokuBoard) (s : HistoryStep) (dp : DigitsPresent)
    (g : CandidateGrid) :
    lockColumnsOn
        { board := board, suggestion := s, digitsPresent := dp, digitsPossible := g } =
      { board := board, suggestion := s, digitsPresent := dp
        digitsPossible := lockColumns g } := by
  unfold lockColumnsOn lockColumns
  apply foldl_lift (fun g =>
    ({ board := board, suggestion := s, digitsPresent := dp, digitsPossible := g } :
      LockedMemory))
  intro g column _
  exact foldl_lift (fun g =>
    ({ board := board, suggestion := s, digitsPresent := dp, digitsPossible := g } :
      LockedMemory)) _ _ _ (fun g digit _ => lockColumnDigitOn_eq column board s dp g digit) g

/-- The run of `assistantLocked` on the memory leaves the board it was given, and its
`suggestion` ends as the value of `assistantLocked` on the board contents. -/
theorem assistantLockedOn_eq (board : SudokuBoard) :
    (assistantLockedOn board).board = board ∧
      (assistantLockedOn board).suggestion = assistantLocked board.contents := by
  unfold assistantLockedOn assistantLocked
  rw [evaluateDigitsPresentOn_eq, initialDigitsPossibleOn_eq]
  simp only [scanOn]
  split
  · rw [lockRowsOn_eq, lockColumnsOn_eq]
    exact ⟨rfl, rfl⟩
  · exact ⟨rfl, rfl⟩

/-- C15. Both assistants are read-only and repeatable. The run of `assistantCrosshatch` and
of `assistantLocked` on the memory, in which every statement of the function and of its
callee `evaluateDigitsPresent` passes the board on, leaves the board as it was given: every
square of `contents` and the whole history. The returned suggestion is the value of
`assistantCrosshatch` and `assistantLocked` on the board contents, so a second call on the
state the first one left returns the same suggestion, and digit 0 is followed by digit 0. -/
theorem C15_assistants_read_only_and_repeatable (board : SudokuBoard) :
    ((assistantCrosshatchCall board).1 = board ∧
      (assistantCrosshatchCall board).2 = assistantCrosshatch board.contents ∧
      (assistantCrosshatchCall (assistantCrosshatchCall board).1).2 =
        (assistantCrosshatchCall board).2 ∧
      ((assistantCrosshatchCall board).2.newValue = 0 →
        (assistantCrosshatchCall (assistantCrosshatchCall board).1).2.newValue = 0)) ∧
    ((assistantLockedCall board).1 = board ∧
      (assistantLockedCall board).2 = assistantLocked board.contents ∧
      (assistantLockedCall (assistantLockedCall board).1).2 = (assistantLockedCall board).2 ∧
      ((assistantLockedCall board).2.newValue = 0 →
        (assistantLockedCall (assistantLockedCall board).1).2.newValue = 0)) := by
  have hc1 : (assistantCrosshatchCall board).1 = board := by
    unfold assistantCrosshatchCall
    rw [assistantCrosshatchOn_eq]
  have hc2 : (assistantCrosshatchCall board).2 = assistantCrosshatch board.contents := by
    unfold assistantCrosshatchCall
    rw [assistantCrosshatchOn_eq]
  have hl1 : (assistantLockedCall board).1 = board := (assistantLockedOn_eq board).1
  have hl2 : (assistantLockedCall board).2 = assistantLocked board.contents :=
    (assistantLockedOn_eq board).2
  refine ⟨⟨hc1, hc2, ?_, ?_⟩, ⟨hl1, hl2, ?_, ?_⟩⟩
  · rw [hc1]
  · intro h
    rw [hc1]
    exact h
  · rw [hl1]
  · intro h
    rw [hl1]
    exact h

/-! ## The edit history -/

theorem writeSteps_succ (contents : Board) (value : HistoryStep → Int)
    (f : Nat → HistoryStep) (k : Nat) :
    writeSteps contents value f (k + 1) =
      setContents (writeSteps contents value f k) (f k).location.row (f k).location.col
        (value (f k)) := by
  unfold writeSteps
  rw [List.range_succ, List.map_append, List.foldl_append]
  rfl

theorem writeSteps_frame (contents : Board) (value : HistoryStep → Int)
    (f : Nat → HistoryStep) (k r c : Nat)
    (h : ∀ i < k, ¬ ((f i).location.row = r ∧ (f i).location.col = c)) :
    writeSteps contents value f k r c = contents r c := by
  induction k with
  | zero => rfl
  | succ k ih =>
    rw [writeSteps_succ]
    unfold setContents
    rw [if_neg]
    · exact ih (fun i hi => h i (by omega))
    · intro hrc
      exact h k (by omega) ⟨hrc.1.symm, hrc.2.symm⟩

theorem undoLoop_succ (n : Nat) (s : Board × HistoryStruct) :
    undoLoop (n + 1) s = undoLoopBody (undoLoop n s) := by
  unfold undoLoop
  rw [List.range_succ, List.foldl_append]
  rfl

theorem redoLoop_succ (n : Nat) (s : Board × HistoryStruct) :
    redoLoop (n + 1) s = redoLoopBody (redoLoop n s) := by
  unfold redoLoop
  rw [List.range_succ, List.foldl_append]
  rfl

/-- The loop of `undoStep` in closed form: it goes back `min n c` steps and writes their
old values, the latest step first. -/
theorem undoLoop_eq (n : Nat) (contents : Board) (history : HistoryStruct) :
    undoLoop n (contents, history) =
      (writeSteps contents HistoryStep.oldValue
          (fun i => history.steps (history.currentStep - 1 - i)) (min n history.currentStep),
        { history with currentStep := history.currentStep - min n history.currentStep }) := by
  induction n with
  | zero =>
    have h0 : min 0 history.currentStep = 0 := Nat.zero_min _
    rw [h0]
    rfl
  | succ n ih =>
    rw [undoLoop_succ, ih]
    unfold undoLoopBody
    by_cases h : history.currentStep ≤ n
    · have h1 : min n history.currentStep = history.currentStep := by omega
      have h2 : min (n + 1) history.currentStep = history.currentStep := by omega
      rw [h1, h2]
      simp
    · have h1 : min n history.currentStep = n := by omega
      have h2 : min (n + 1) history.currentStep = n + 1 := by omega
      have h3 : history.currentStep - n ≠ 0 := by omega
      have h4 : history.currentStep - n - 1 = history.currentStep - 1 - n := by omega
      have h5 : history.currentStep - (n + 1) = history.currentStep - 1 - n := by omega
      rw [h1, h2, writeSteps_succ]
      simp only [h3, if_false, h4, h5]

/-- The loop of `redoStep` in closed form, for a cursor that is not beyond the length: it
goes forward `min n (L - c)` steps and writes their new values, the earliest step first. -/
theorem redoLoop_eq (n : Nat) (contents : Board) (history : HistoryStruct)
    (hle : history.currentStep ≤ history.length) :
    redoLoop n (contents, history) =
      (writeSteps contents HistoryStep.newValue
          (fun i => history.steps (history.currentStep + i))
          (min n (history.length - history.currentStep)),
        { history with
          currentStep :=
            history.currentStep + min n (history.length - history.currentStep) }) := by
  induction n with
  | zero =>
    have h0 : min 0 (history.length - history.currentStep) = 0 := Nat.zero_min _
    rw [h0]
    rfl
  | succ n ih =>
    rw [redoLoop_succ, ih]
    unfold redoLoopBody
    by_cases h : history.length - history.currentStep ≤ n
    · have h1 : min n (history.length - history.currentStep) =
          history.length - history.currentStep := by omega
      have h2 : min (n + 1) (history.length - history.currentStep) =
          history.length - history.currentStep := by omega
      have h3 : history.currentStep + (history.length - history.currentStep) =
          history.length := by omega
      rw [h1, h2, h3]
      simp
    · have h1 : min n (history.length - history.currentStep) = n := by omega
      have h2 : min (n + 1) (history.length - history.currentStep) = n + 1 := by omega
      have h3 : history.currentStep + n ≠ history.length := by omega
      rw [h1, h2, writeSteps_succ]
      simp only [h3, if_false]
      rfl

/-- On an existing history `growHistory` returns normally and changes the capacity at
most. -/
theorem growHistory_some (h : HistoryStruct) (stepsToAdd : Nat) :
    ∃ grown, growHistory (some h) stepsToAdd = Except.ok grown ∧ grown.steps = h.steps ∧
      grown.currentStep = h.currentStep ∧ grown.length = h.length := by
  unfold growHistory
  by_cases hg : stepsToAdd > (h.capacity + 2 ^ 64 - h.length) % 2 ^ 64
  · exact ⟨{ h with capacity := h.capacity * 2 }, by simp only [hg, if_true], rfl, rfl, rfl⟩
  · exact ⟨h, by simp only [hg, if_false], rfl, rfl, rfl⟩

/-- C18. For a board whose history (cursor `c`) exists, a valid square and a valid digit,
`addUndoStep` returns normally; afterwards index `c` of the history holds the step with the
given square as location, the given value as new value and the board's current value at that
square as old value, the cursor is `c + 1` and the length is one more; the steps at all other
indices (those below `c` among them) and the board contents are unchanged. -/
theorem C18_addUndoStep_records_step_at_cursor (board : SudokuBoard) (history : HistoryStruct)
    (square : Coord2D) (value : Int) (hh : board.history = some history)
    (hsquare : validateSudokuCoord2D square = true)
    (hvalue : validateSudokuDigit value = true) :
    ∃ after grown, addUndoStep board square value = Except.ok after ∧
      after.history = some grown ∧
      grown.steps history.currentStep =
        { location := square
          newValue := value
          oldValue := board.contents square.row square.col } ∧
      grown.currentStep = history.currentStep + 1 ∧
      grown.length = history.length + 1 ∧
      (∀ i, i ≠ history.currentStep → grown.steps i = history.steps i) ∧
      after.contents = board.contents := by
  obtain ⟨grown, hg, hsteps, hcur, hlen⟩ := growHistory_some
    { history with
      steps := setStep history.steps history.currentStep
        { location := square
          newValue := value
          oldValue := board.contents square.row square.col }
      currentStep := history.currentStep + 1
      length := history.length + 1 } 1
  refine ⟨{ board with history := some grown }, grown, ?_, rfl, ?_, hcur, hlen, ?_, rfl⟩
  · unfold addUndoStep
    rw [hh]
    simp only [hsquare, hvalue, if_true]
    rw [hg]
  · rw [hsteps]
    simp [setStep]
  · intro i hi
    rw [hsteps]
    simp [setStep, hi]

/-- The claim C18 at `exampleBoard`: recording the change of square (2, 3) to 4. -/
theorem C18_addUndoStep_records_step_at_cursor_witness :
    ∃ after grown, addUndoStep exampleBoard { col := 3, row := 2 } 4 = Except.ok after ∧
      after.history = some grown ∧
      grown.steps exampleHistory.currentStep =
        { location := { col := 3, row := 2 }
          newValue := 4
          oldValue := exampleBoard.contents 2 3 } ∧
      grown.currentStep = exampleHistory.currentStep + 1 ∧
      grown.length = exampleHistory.length + 1 ∧
      (∀ i, i ≠ exampleHistory.currentStep → grown.steps i = exampleHistory.steps i) ∧
      after.contents = exampleBoard.contents :=
  C18_addUndoStep_records_step_at_cursor exampleBoard exampleHistory { col := 3, row := 2 } 4
    rfl (by decide) (by decide)

/-- C19. For a board whose history exists, with cursor `c`, and every `n` (so for every
`n ≥ 1`), `undoStep` returns normally; afterwards the cursor is `c - min n c`, the length and
the stored steps are as before, and the board contents are the previous contents with the
old values of the steps `c - 1, c - 2, ..., c - min n c` written in that order at their
locations, so that a square named by none of these steps keeps its value. -/
theorem C19_undoStep_moves_cursor_back_and_restores_old_values (board : SudokuBoard)
    (history : HistoryStruct) (n : Nat) (hh : board.history = some history) :
    ∃ after status, undoStep board n = Except.ok (after, status) ∧
      after.history =
        some { history with currentStep := history.currentStep - min n history.currentStep } ∧
      after.contents =
        writeSteps board.contents HistoryStep.oldValue
          (fun i => history.steps (history.currentStep - 1 - i)) (min n history.currentStep) ∧
      ∀ r c,
        (∀ i < min n history.currentStep,
          ¬ ((history.steps (history.currentStep - 1 - i)).location.row = r ∧
            (history.steps (history.currentStep - 1 - i)).location.col = c)) →
        after.contents r c = board.contents r c := by
  have key : ∃ after status, undoStep board n = Except.ok (after, status) ∧
      after.history =
        some { history with currentStep := history.currentStep - min n history.currentStep } ∧
      after.contents =
        writeSteps board.contents HistoryStep.oldValue
          (fun i => history.steps (history.currentStep - 1 - i)) (min n history.currentStep) := by
    unfold undoStep
    rw [hh]
    by_cases hn : n = 0
    · subst hn
      refine ⟨board, true, by simp, ?_, ?_⟩
      · rw [hh, Nat.zero_min]
        rfl
      · rw [Nat.zero_min]
        rfl
    · by_cases hc : history.currentStep = 0
      · have h0 : min n history.currentStep = 0 := by omega
        refine ⟨board, false, by simp [hn, hc], ?_, ?_⟩
        · rw [hh, h0]
          rfl
        · rw [h0]
          rfl
      · refine ⟨{ contents := (undoLoop n (board.contents, history)).1
                  history := some (undoLoop n (board.contents, history)).2 }, true,
          by simp only [hn, hc, ne_eq, not_false_eq_true, if_true, if_false], ?_, ?_⟩
        · simp only [undoLoop_eq]
        · simp only [undoLoop_eq]
  obtain ⟨after, status, h1, h2, h3⟩ := key
  refine ⟨after, status, h1, h2, h3, ?_⟩
  intro r c hrc
  rw [h3]
  exact writeSteps_frame _ _ _ _ r c hrc

/-- The claim C19 at `exampleBoard`: undoing one step blanks square (0, 0) again. -/
theorem C19_undoStep_moves_cursor_back_and_restores_old_values_witness :
    ∃ after status, undoStep exampleBoard 1 = Except.ok (after, status) ∧
      after.history =
        some { exampleHistory with
          currentStep := exampleHistory.currentStep - min 1 exampleHistory.currentStep } ∧
      after.contents =
        writeSteps exampleBoard.contents HistoryStep.oldValue
          (fun i => exampleHistory.steps (exampleHistory.currentStep - 1 - i))
          (min 1 exampleHistory.currentStep) ∧
      ∀ r c,
        (∀ i < min 1 exampleHistory.currentStep,
          ¬ ((exampleHistory.steps (exampleHistory.currentStep - 1 - i)).location.row = r ∧
            (exampleHistory.steps (exampleHistory.currentStep - 1 - i)).location.col = c)) →
        after.contents r c = exampleBoard.contents r c :=
  C19_undoStep_moves_cursor_back_and_restores_old_values exampleBoard exampleHistory 1 rfl

/-- C20. For a board whose history exists, with cursor `c` not beyond the length `L`, and
every `n` (so for every `n ≥ 1`), `redoStep` returns normally; afterwards the cursor is
`c + min n (L - c)`, the length and the stored steps are as before, and the board contents
are the previous contents with the new values of the steps `c, c + 1, ...,
c + min n (L - c) - 1` written in that order at their locations, so that a square named by
none of these steps keeps its value. -/
theorem C20_redoStep_moves_cursor_forward_and_applies_new_values (board : SudokuBoard)
    (history : HistoryStruct) (n : Nat) (hh : board.history = some history)
    (hle : history.currentStep ≤ history.length) :
    ∃ after status, redoStep board n = Except.ok (after, status) ∧
      after.history =
        some { history with
          currentStep :=
            history.currentStep + min n (history.length - history.currentStep) } ∧
      after.contents =
        writeSteps board.contents HistoryStep.newValue
          (fun i => history.steps (history.currentStep + i))
          (min n (history.length - history.currentStep)) ∧
      ∀ r c,
        (∀ i < min n (history.length - history.currentStep),
          ¬ ((history.steps (history.currentStep + i)).location.row = r ∧
            (history.steps (history.currentStep + i)).location.col = c)) →
        after.contents r c = board.contents r c := by
  have key : ∃ after status, redoStep board n = Except.ok (after, status) ∧
      after.history =
        some { history with
          currentStep :=
            history.currentStep + min n (history.length - history.currentStep) } ∧
      after.contents =
        writeSteps board.contents HistoryStep.newValue
          (fun i => history.steps (history.currentStep + i))
          (min n (history.length - history.currentStep)) := by
    unfold redoStep
    rw [hh]
    by_cases hn : n = 0
    · subst hn
      refine ⟨board, true, by simp, ?_, ?_⟩
      · rw [hh, Nat.zero_min]
        rfl
      · rw [Nat.zero_min]
        rfl
    · by_cases hc : history.currentStep = history.length
      · have h0 : history.length - history.currentStep = 0 := by omega
        refine ⟨board, false, by simp [hn, hc], ?_, ?_⟩
        · rw [hh, h0, Nat.min_zero]
          rfl
        · rw [h0, Nat.min_zero]
          rfl
      · refine ⟨{ contents := (redoLoop n (board.contents, history)).1
                  history := some (redoLoop n (board.contents, history)).2 }, true,
          by simp only [hn, hc, ne_eq, not_false_eq_true, if_true, if_false], ?_, ?_⟩
        · simp only [redoLoop_eq _ _ _ hle]
        · simp only [redoLoop_eq _ _ _ hle]
  obtain ⟨after, status, h1, h2, h3⟩ := key
  refine ⟨after, status, h1, h2, h3, ?_⟩
  intro r c hrc
  rw [h3]
  exact writeSteps_frame _ _ _ _ r c hrc

/-- The claim C20 at `exampleBoard`: redoing three steps applies the one undone step, which
writes 7 to square (1, 2). -/
theorem C20_redoStep_moves_cursor_forward_and_applies_new_values_witness :
    exampleHistory.currentStep ≤ exampleHistory.length ∧
    ∃ after status, redoStep exampleBoard 3 = Except.ok (after, status) ∧
      after.history =
        some { exampleHistory with
          currentStep :=
            exampleHistory.currentStep +
              min 3 (exampleHistory.length - exampleHistory.currentStep) } ∧
      after.contents =
        writeSteps exampleBoard.contents HistoryStep.newValue
          (fun i => exampleHistory.steps (exampleHistory.currentStep + i))
          (min 3 (exampleHistory.length - exampleHistory.currentStep)) ∧
      ∀ r c,
        (∀ i < min 3 (exampleHistory.length - exampleHistory.currentStep),
          ¬ ((exampleHistory.steps (exampleHistory.currentStep + i)).location.row = r ∧
            (exampleHistory.steps (exampleHistory.currentStep + i)).location.col = c)) →
        after.contents r c = exampleBoard.contents r c :=
  ⟨by decide,
    C20_redoStep_moves_cursor_forward_and_applies_new_values exampleBoard exampleHistory 3 rfl
      (by decide)⟩

/-! ## Invalidation, aborts and return values of the history functions -/

/-- C21. `invalidateSubsequentRedoSteps` sets the length to the cursor index and changes
nothing else: the history afterwards is the history before with only `length` replaced (same
steps, cursor and capacity), the board contents are the same, and a second call changes
nothing. -/
theorem C21_invalidate_sets_length_to_cursor (board : SudokuBoard) :
    (∀ history, board.history = some history →
        (invalidateSubsequentRedoSteps board).history =
          some { history with length := history.currentStep }) ∧
      (invalidateSubsequentRedoSteps board).contents = board.contents ∧
      invalidateSubsequentRedoSteps (invalidateSubsequentRedoSteps board) =
        invalidateSubsequentRedoSteps board := by
  cases board with
  | mk contents history =>
    cases history with
    | none => exact ⟨fun h hh => Option.noConfusion hh, rfl, rfl⟩
    | some h =>
      refine ⟨fun h2 hh => ?_, rfl, rfl⟩
      cases hh
      rfl

/-- C27 fails on the code for a step count of 0: `undoStep` then undoes nothing (board and
history stay as they are) and still returns true. -/
theorem C27_undoStep_zero_steps_returns_true :
    undoStep exampleBoard 0 = Except.ok (exampleBoard, true) := by
  rfl

/-- For a step count of at least 1, `undoStep` returns true exactly when the cursor was not
at the bottom, that is, when at least one step is undone. -/
theorem undoStep_status (board : SudokuBoard) (history : HistoryStruct) (n : Nat)
    (hh : board.history = some history) (hn : 1 ≤ n) :
    ∃ after, undoStep board n = Except.ok (after, decide (history.currentStep ≠ 0)) := by
  unfold undoStep
  rw [hh]
  have hn0 : n ≠ 0 := by omega
  by_cases hc : history.currentStep = 0
  · exact ⟨board, by simp [hn0, hc]⟩
  · exact ⟨{ contents := (undoLoop n (board.contents, history)).1
             history := some (undoLoop n (board.contents, history)).2 },
      by simp only [hn0, hc, ne_eq, not_false_eq_true, if_true, if_false, decide_True]⟩

/-- C28. On a board whose history exists, `addUndoStep` ends in `terminate` exactly when the
row or the column of the square is not below 9 or the value is not in 0..9 (a negative
value included); and the program state at the call of `terminate` is the state before the
call of `addUndoStep`: no step written, cursor, length and board unchanged. -/
theorem C28_addUndoStep_aborts_iff_invalid (board : SudokuBoard) (history : HistoryStruct)
    (square : Coord2D) (value : Int) (hh : board.history = some history) :
    ((∃ e, addUndoStep board square value = Except.error e) ↔
        (¬ square.row < 9 ∨ ¬ square.col < 9 ∨ ¬ (0 ≤ value ∧ value ≤ 9))) ∧
      ∀ message state,
        addUndoStep board square value = Except.error (message, state) → state = board := by
  obtain ⟨grown, hg, _⟩ := growHistory_some
    { history with
      steps := setStep history.steps history.currentStep
        { location := square
          newValue := value
          oldValue := board.contents square.row square.col }
      currentStep := history.currentStep + 1
      length := history.length + 1 } 1
  unfold addUndoStep
  rw [hh]
  simp only
  by_cases hsq : validateSudokuCoord2D square = true
  · by_cases hv : validateSudokuDigit value = true
    · have hsq2 := hsq
      unfold validateSudokuCoord2D validateColIndex validateRowIndex at hsq2
      simp only [Bool.and_eq_true, decide_eq_true_eq] at hsq2
      have hv2 := (validateSudokuDigit_iff value).mp hv
      rw [if_pos hsq, if_pos hv, hg]
      refine ⟨⟨fun h => ?_, fun h => ?_⟩, fun message state h => ?_⟩
      · obtain ⟨e, he⟩ := h
        exact Except.noConfusion he
      · rcases h with h | h | h
        · exact absurd hsq2.2 h
        · exact absurd hsq2.1 h
        · exact absurd hv2 h
      · exact Except.noConfusion h
    · rw [if_pos hsq, if_neg hv]
      refine ⟨⟨fun _ => Or.inr (Or.inr fun h => hv ((validateSudokuDigit_iff value).mpr h)),
        fun _ => ⟨_, rfl⟩⟩, fun message state h => ?_⟩
      injection h with h
      injection h with _ h
      exact h.symm
  · rw [if_neg hsq]
    refine ⟨⟨fun _ => ?_, fun _ => ⟨_, rfl⟩⟩, fun message state h => ?_⟩
    · unfold validateSudokuCoord2D validateColIndex validateRowIndex at hsq
      simp only [Bool.and_eq_true, decide_eq_true_eq, not_and, not_lt] at hsq
      by_cases hc : square.col < 9
      · exact Or.inl (by have := hsq hc; omega)
      · exact Or.inr (Or.inl hc)
    · injection h with h
      injection h with _ h
      exact h.symm

/-- The claim C28 at `exampleBoard`: column 9 makes `addUndoStep` abort, with the state
untouched. -/
theorem C28_addUndoStep_aborts_iff_invalid_witness :
    ((∃ e, addUndoStep exampleBoard { col := 9, row := 0 } 5 = Except.error e) ↔
        (¬ (0 < 9) ∨ ¬ (9 < 9) ∨ ¬ ((0 : Int) ≤ 5 ∧ (5 : Int) ≤ 9))) ∧
      ∀ message state,
        addUndoStep exampleBoard { col := 9, row := 0 } 5 = Except.error (message, state) →
          state = exampleBoard :=
  C28_addUndoStep_aborts_iff_invalid exampleBoard exampleHistory { col := 9, row := 0 } 5 rfl

/-! ## Committing an edit with `commandChange` -/

/-- With valid arguments on an existing history `addUndoStep` returns normally: the step is
written at the cursor, cursor and length go up by one, and the capacity stays or doubles so
that it exceeds the length whenever it was not below the length before. -/
theorem addUndoStep_ok (board : SudokuBoard) (history : HistoryStruct) (square : Coord2D)
    (value : Int) (hh : board.history = some history)
    (hsquare : validateSudokuCoord2D square = true)
    (hvalue : validateSudokuDigit value = true) :
    ∃ capacity,
      addUndoStep board square value =
        Except.ok
          { board with
            history := some
              { steps := setStep history.steps history.currentStep
                  { location := square
                    newValue := value
                    oldValue := board.contents square.row square.col }
                currentStep := history.currentStep + 1
                length := history.length + 1
                capacity := capacity } } ∧
      history.capacity ≤ capacity ∧
      (history.length < history.capacity → history.length + 1 < capacity) := by
  unfold addUndoStep growHistory
  rw [hh]
  simp only [hsquare, hvalue, if_true]
  by_cases hg : 1 > (history.capacity + 2 ^ 64 - (history.length + 1)) % 2 ^ 64
  · refine ⟨history.capacity * 2, by simp only [hg, if_true], by omega, fun h => by omega⟩
  · refine ⟨history.capacity, by simp only [hg, if_false], le_refl _, fun h => ?_⟩
    by_contra hlt
    have he : history.length + 1 = history.capacity := by omega
    rw [he] at hg
    apply hg
    have : history.capacity + 2 ^ 64 - history.capacity = 2 ^ 64 := by omega
    rw [this, Nat.mod_self]
    exact Nat.one_pos

/-- With valid arguments on an existing history `commandChange` succeeds: the step is at the
former cursor, the square is written, and cursor and length are the former cursor plus
one. -/
theorem commandChange_ok (board : SudokuBoard) (history : HistoryStruct)
    (column row value : Int) (hh : board.history = some history)
    (hcolumn : validateColIndex (toSizeT column) = true)
    (hrow : validateRowIndex (toSizeT row) = true)
    (hvalue : validateSudokuDigit value = true) :
    ∃ capacity,
      commandChange board column row value =
        Except.ok
          ({ contents := setContents board.contents (toSizeT row) (toSizeT column) value
             history := some
              { steps := setStep history.steps history.currentStep
                  { location := { col := toSizeT column, row := toSizeT row }
                    newValue := value
                    oldValue := board.contents (toSizeT row) (toSizeT column) }
                currentStep := history.currentStep + 1
                length := history.currentStep + 1
                capacity := capacity } },
            SudokuCommandResult.SUDOKU_COMMAND_SUCCESS) ∧
      history.capacity ≤ capacity ∧
      (history.length < history.capacity → history.length + 1 < capacity) := by
  have hsquare : validateSudokuCoord2D { col := toSizeT column, row := toSizeT row } = true := by
    unfold validateSudokuCoord2D
    rw [hcolumn, hrow]
    rfl
  obtain ⟨capacity, hadd, hcap, hlt⟩ := addUndoStep_ok board history _ value hh hsquare hvalue
  refine ⟨capacity, ?_, hcap, hlt⟩
  unfold commandChange
  rw [hcolumn, hrow, hvalue, hadd]
  rfl

/-- Once the length equals the cursor, `redoStep` with a step count of at least 1 returns
false and changes nothing. -/
theorem redoStep_at_top (board : SudokuBoard) (history : HistoryStruct) (n : Nat)
    (hh : board.history = some history) (htop : history.currentStep = history.length)
    (hn : 1 ≤ n) : redoStep board n = Except.ok (board, false) := by
  unfold redoStep
  rw [hh]
  have hn0 : n ≠ 0 := by omega
  simp [hn0, htop]

/-- Once the cursor is 0, `undoStep` with a step count of at least 1 returns false and
changes nothing. -/
theorem undoStep_at_bottom (board : SudokuBoard) (history : HistoryStruct) (n : Nat)
    (hh : board.history = some history) (hbottom : history.currentStep = 0)
    (hn : 1 ≤ n) : undoStep board n = Except.ok (board, false) := by
  unfold undoStep
  rw [hh]
  have hn0 : n ≠ 0 := by omega
  simp [hn0, hbottom]

/-- Once the length equals the cursor, no sequence of `redoStep` calls changes the board. -/
theorem redoSequence_at_top (board : SudokuBoard) (history : HistoryStruct)
    (hh : board.history = some history) (htop : history.currentStep = history.length)
    (counts : List Nat) : redoSequence board counts = Except.ok board := by
  induction counts with
  | nil => rfl
  | cons n rest ih =>
    unfold redoSequence
    by_cases hn : n = 0
    · subst hn
      have h0 : redoStep board 0 = Except.ok (board, true) := by
        unfold redoStep
        rw [hh]
        rfl
      rw [h0]
      exact ih
    · rw [redoStep_at_top board history n hh htop (by omega)]
      exact ih

/-- C22. Branch invalidation. After `commandChange` has committed an edit (valid column, row
and digit, on a board whose history exists, whatever was undone before), the length of the
history equals the cursor; `redoStep` with every step count of at least 1 returns false and
leaves board and history as they are; and no sequence of `redoStep` calls changes the
state, so a step undone before the edit cannot come back. -/
theorem C22_change_invalidates_redo (board : SudokuBoard) (history : HistoryStruct)
    (column row value : Int) (hh : board.history = some history)
    (hcolumn : validateColIndex (toSizeT column) = true)
    (hrow : validateRowIndex (toSizeT row) = true)
    (hvalue : validateSudokuDigit value = true) :
    ∃ after committed,
      commandChange board column row value =
        Except.ok (after, SudokuCommandResult.SUDOKU_COMMAND_SUCCESS) ∧
      after.history = some committed ∧
      committed.length = committed.currentStep ∧
      (∀ n, 1 ≤ n → redoStep after n = Except.ok (after, false)) ∧
      ∀ counts, redoSequence after counts = Except.ok after := by
  obtain ⟨capacity, hchange, _, _⟩ :=
    commandChange_ok board history column row value hh hcolumn hrow hvalue
  exact ⟨_, _, hchange, rfl, rfl, fun n hn => redoStep_at_top _ _ n rfl rfl hn,
    fun counts => redoSequence_at_top _ _ rfl rfl counts⟩

/-- The claim C22 at `exampleBoard`, where one step has been undone: the square in column 3
of row 2 is set to 4. -/
theorem C22_change_invalidates_redo_witness :
    ∃ after committed,
      commandChange exampleBoard 3 2 4 =
        Except.ok (after, SudokuCommandResult.SUDOKU_COMMAND_SUCCESS) ∧
      after.history = some committed ∧
      committed.length = committed.currentStep ∧
      (∀ n, 1 ≤ n → redoStep after n = Except.ok (after, false)) ∧
      ∀ counts, redoSequence after counts = Except.ok after :=
  C22_change_invalidates_redo exampleBoard exampleHistory 3 2 4 rfl (by decide) (by decide)
    (by decide)

/-- C23. Committing one edit the way `commandChange` does (`addUndoStep`, the write of the
square, `invalidateSubsequentRedoSteps`), with valid arguments on a history with cursor `c`:
afterwards cursor and length are both `c + 1`, the steps below `c` are unchanged, step `c`
is the new edit (the square, the new value and the value the square held before), and the
square holds the new value; the steps that stood at `c` and above are no longer within the
length. -/
theorem C23_change_appends_at_cursor (board : SudokuBoard) (history : HistoryStruct)
    (column row value : Int) (hh : board.history = some history)
    (hcolumn : validateColIndex (toSizeT column) = true)
    (hrow : validateRowIndex (toSizeT row) = true)
    (hvalue : validateSudokuDigit value = true) :
    ∃ after committed,
      commandChange board column row value =
        Except.ok (after, SudokuCommandResult.SUDOKU_COMMAND_SUCCESS) ∧
      after.history = some committed ∧
      committed.currentStep = history.currentStep + 1 ∧
      committed.length = history.currentStep + 1 ∧
      (∀ i < history.currentStep, committed.steps i = history.steps i) ∧
      committed.steps history.currentStep =
        { location := { col := toSizeT column, row := toSizeT row }
          newValue := value
          oldValue := board.contents (toSizeT row) (toSizeT column) } ∧
      after.contents = setContents board.contents (toSizeT row) (toSizeT column) value := by
  obtain ⟨capacity, hchange, _, _⟩ :=
    commandChange_ok board history column row value hh hcolumn hrow hvalue
  refine ⟨_, _, hchange, rfl, rfl, rfl, fun i hi => ?_, ?_, rfl⟩
  · show setStep history.steps history.currentStep _ i = history.steps i
    unfold setStep
    rw [if_neg (by omega)]
  · show setStep history.steps history.currentStep _ history.currentStep = _
    unfold setStep
    rw [if_pos rfl]

/-- The claim C23 on the run of the specification: from an empty history three edits give
cursor and length 3; `undoStep` with 2 gives cursor 1 and a board that shows the first
edit only; `redoStep` with 1 gives cursor 2; and a new edit then gives length 3 and
cursor 3, with the second edit kept below the cursor and the new edit at index 2. -/
theorem C23_change_appends_at_cursor_witness :
    (runCommands initialBoard threeEdits).bind cursorAndLength = some (3, 3) ∧
    (runCommands initialBoard (threeEdits ++ [Command.undo 2])).bind cursorAndLength =
      some (1, 3) ∧
    (runCommands initialBoard (threeEdits ++ [Command.undo 2])).map
        (fun board => rowsOfBoard board.contents) =
      some (rowsOfBoard (boardOfRows [[5]])) ∧
    cursorAndLength scenarioBoard = some (2, 3) ∧
    (runCommands initialBoard
        (threeEdits ++ [Command.undo 2, Command.redo 1, Command.change 4 4 9])).bind
        cursorAndLength = some (3, 3) ∧
    ∃ after committed,
      commandChange scenarioBoard 4 4 9 =
        Except.ok (after, SudokuCommandResult.SUDOKU_COMMAND_SUCCESS) ∧
      after.history = some committed ∧
      committed.currentStep = scenarioHistory.currentStep + 1 ∧
      committed.length = scenarioHistory.currentStep + 1 ∧
      (∀ i < scenarioHistory.currentStep, committed.steps i = scenarioHistory.steps i) ∧
      committed.steps scenarioHistory.currentStep =
        { location := { col := toSizeT 4, row := toSizeT 4 }
          newValue := 9
          oldValue := scenarioBoard.contents (toSizeT 4) (toSizeT 4) } ∧
      after.contents = setContents scenarioBoard.contents (toSizeT 4) (toSizeT 4) 9 :=
  ⟨by decide, by decide, by decide, by decide, by decide,
    C23_change_appends_at_cursor scenarioBoard scenarioHistory 4 4 9 rfl (by decide) (by decide)
      (by decide)⟩

/-! ## Reinitialising the board -/

/-- A board that has just been initialised has an empty history, whatever its contents. -/
theorem historyEmptied_fresh (contents : Board) :
    HistoryEmptied { contents := contents, history := some createHistory } :=
  ⟨⟨createHistory, rfl, rfl, rfl⟩, fun n hn =>
    ⟨undoStep_at_bottom _ createHistory n rfl rfl hn,
      redoStep_at_top _ createHistory n rfl rfl hn⟩⟩

/-- C29. Reinitialising the board empties the history, whatever had been recorded before.
For every preset of `boardPresets`, `commandNew` with its name succeeds and leaves a board
whose history is empty (cursor and length 0; `undoStep` and `redoStep` with a count of at
least 1 return false and change nothing) and whose squares equal those of the preset; and
`loadSudokuBoard` on a file that opens returns true and leaves a board whose history is
empty. -/
theorem C29_reinitialising_empties_history (board : SudokuBoard) :
    (∀ preset ∈ boardPresets,
      ∃ fresh,
        commandNew board (some preset.name) =
          (fresh, SudokuCommandResult.SUDOKU_COMMAND_SUCCESS) ∧
        HistoryEmptied fresh ∧ ∀ r < 9, ∀ c < 9, fresh.contents r c = preset.board r c) ∧
    ∀ text,
      ∃ fresh, loadSudokuBoard (some text) board = (fresh, true) ∧ HistoryEmptied fresh := by
  refine ⟨fun preset hp => ?_, fun text => ⟨_, rfl, historyEmptied_fresh _⟩⟩
  simp only [boardPresets, List.mem_cons, List.mem_singleton, List.not_mem_nil,
    or_false] at hp
  rcases hp with h | h | h | h <;> subst h
  all_goals
    refine ⟨_, rfl, historyEmptied_fresh _, fun r hr c hc => ?_⟩
    show copySudokuBoardContents _ _ r c = _
    unfold copySudokuBoardContents
    rw [if_pos ⟨hr, hc⟩]

/-! ## The command `undo` without an argument -/

/-- C30 fails on the code. For the input line `undo`, `readString` adds a second null
character, so the string has length 6 while the command name ends at index 4;
`IS_ANY_INPUT_REMAINING` is then true, `getUnsignedArgument` reads an empty argument and
returns true with the value 0, and `commandUndo` calls `undoStep` with 0 steps: on
`exampleBoard`, whose cursor is 1, nothing is rolled back (cursor still 1, square (0, 0)
still 5) and the command reports success. -/
theorem C30_undo_without_argument_undoes_nothing :
    ∃ input,
      getCommandInput initialInput undoLine = Except.ok ([117, 110, 100, 111], input) ∧
      input.string.length = 6 ∧ input.currentIndex = 4 ∧
      getUnsignedArgument input = Except.ok (true, 0, input) ∧
      commandUndo exampleBoard input =
        Except.ok (exampleBoard, input, SudokuCommandResult.SUDOKU_COMMAND_SUCCESS) ∧
      cursorAndLength exampleBoard = some (1, 2) ∧ exampleBoard.contents 0 0 = 5 := by
  exact ⟨_, rfl, rfl, rfl, rfl, rfl, rfl, rfl⟩

/-! ## The bounds of the history -/

/-- The result of `undoStep` on an existing history, in closed form. -/
theorem undoStep_eq (board : SudokuBoard) (history : HistoryStruct) (n : Nat)
    (hh : board.history = some history) :
    undoStep board n =
      Except.ok
        ({ contents := writeSteps board.contents HistoryStep.oldValue
              (fun i => history.steps (history.currentStep - 1 - i)) (min n history.currentStep)
           history := some
            { history with currentStep := history.currentStep - min n history.currentStep } },
          decide (n = 0 ∨ history.currentStep ≠ 0)) := by
  cases board with
  | mk contents hist =>
    simp only at hh
    subst hh
    unfold undoStep
    simp only
    by_cases hn : n = 0
    · subst hn
      rw [Nat.zero_min]
      rfl
    · by_cases hc : history.currentStep = 0
      · have h0 : min n history.currentStep = 0 := by omega
        have hs : decide (n = 0 ∨ history.currentStep ≠ 0) = false := by
          simp only [hn, hc, ne_eq, not_true_eq_false, or_self, decide_False]
        rw [h0, if_pos hn, if_pos hc, hs]
        rfl
      · have hs : decide (n = 0 ∨ history.currentStep ≠ 0) = true := by
          simp only [hc, ne_eq, not_false_eq_true, or_true, decide_True]
        rw [hs]
        simp only [hn, hc, ne_eq, not_false_eq_true, if_true, if_false, undoLoop_eq]

/-- The result of `redoStep` on an existing history whose cursor is not beyond the length,
in closed form. -/
theorem redoStep_eq (board : SudokuBoard) (history : HistoryStruct) (n : Nat)
    (hh : board.history = some history) (hle : history.currentStep ≤ history.length) :
    redoStep board n =
      Except.ok
        ({ contents := writeSteps board.contents HistoryStep.newValue
              (fun i => history.steps (history.currentStep + i))
              (min n (history.length - history.currentStep))
           history := some
            { history with
              currentStep :=
                history.currentStep + min n (history.length - history.currentStep) } },
          decide (n = 0 ∨ history.currentStep ≠ history.length)) := by
  cases board with
  | mk contents hist =>
    simp only at hh
    subst hh
    unfold redoStep
    simp only
    by_cases hn : n = 0
    · subst hn
      rw [Nat.zero_min]
      rfl
    · by_cases hc : history.currentStep = history.length
      · have h0 : min n (history.length - history.currentStep) = 0 := by omega
        have hs : decide (n = 0 ∨ history.currentStep ≠ history.length) = false := by
          simp only [hn, hc, ne_eq, not_true_eq_false, or_self, decide_False]
        rw [h0, if_pos hn, if_pos hc, hs]
        rfl
      · have hs : decide (n = 0 ∨ history.currentStep ≠ history.length) = true := by
          simp only [hc, ne_eq, not_false_eq_true, or_true, decide_True]
        rw [hs]
        simp only [hn, hc, ne_eq, not_false_eq_true, if_true, if_false,
          redoLoop_eq _ _ _ hle]

/-- One valid call on a tracked state that satisfies the invariant of the history (the
bounds `cursor ≤ length < capacity`, every cell below the cursor assigned, every assigned
step on a square of the board) either leaves such a state or is a `redoStep` that reads a
cell never assigned. -/
theorem applyHistoryCall_tracked (t : TrackedBoard) (history : HistoryStruct)
    (call : HistoryCall) (hh : t.board.history = some history) (hvalid : call.Valid)
    (hcl : history.currentStep ≤ history.length) (hlc : history.length < history.capacity)
    (hbelow : ∀ i < history.currentStep, t.assigned i = true)
    (hsquares : ∀ i, t.assigned i = true →
      validateSudokuCoord2D (history.steps i).location = true) :
    (∃ after grown, applyHistoryCall t call = Except.ok after ∧
      after.board.history = some grown ∧
      grown.currentStep ≤ grown.length ∧ grown.length < grown.capacity ∧
      (∀ i < grown.currentStep, after.assigned i = true) ∧
      (∀ i, after.assigned i = true →
        validateSudokuCoord2D (grown.steps i).location = true)) ∨
      ((∃ n, call = HistoryCall.redoStep n) ∧
        applyHistoryCall t call = Except.error HistoryFault.unassignedStep) := by
  cases call with
  | addUndoStep square value =>
    left
    obtain ⟨capacity, hadd, _, hlt⟩ :=
      addUndoStep_ok t.board history square value hh hvalid.1 hvalid.2
    simp only [applyHistoryCall, hadd, hh, Option.map_some']
    refine ⟨_, _, rfl, rfl, Nat.succ_le_succ hcl, hlt hlc, ?_, ?_⟩
    · intro i hi
      show (decide (some history.currentStep = some i) || t.assigned i) = true
      have hi2 : i < history.currentStep + 1 := hi
      by_cases he : history.currentStep = i
      · simp [he]
      · rw [hbelow i (by omega)]
        simp
    · intro i hi
      show validateSudokuCoord2D
        ((setStep history.steps history.currentStep _) i).location = true
      unfold setStep
      by_cases he : i = history.currentStep
      · rw [if_pos he]
        exact hvalid.1
      · rw [if_neg he]
        apply hsquares
        have hi2 : (decide (some history.currentStep = some i) || t.assigned i) = true := hi
        have hne : ¬ (some history.currentStep = some i) := by
          intro h
          exact he (Option.some.inj h).symm
        simpa [hne] using hi2
  | undoStep n =>
    left
    have hreads : readsFault t history (undoReads history n) = none := by
      unfold readsFault undoReads
      have h1 : ((List.range (min n history.currentStep)).map
          (fun i => history.currentStep - 1 - i)).all (fun i => t.assigned i) = true := by
        rw [List.all_eq_true]
        intro i hi
        obtain ⟨j, hj, rfl⟩ := List.mem_map.mp hi
        have := List.mem_range.mp hj
        exact hbelow _ (by omega)
      have h2 : ((List.range (min n history.currentStep)).map
          (fun i => history.currentStep - 1 - i)).all
          (fun i => validateSudokuCoord2D (history.steps i).location) = true := by
        rw [List.all_eq_true]
        intro i hi
        obtain ⟨j, hj, rfl⟩ := List.mem_map.mp hi
        have := List.mem_range.mp hj
        exact hsquares _ (hbelow _ (by omega))
      rw [if_pos h1, if_pos h2]
    have hundo := undoStep_eq t.board history n hh
    simp only [applyHistoryCall, hh, Option.some_bind, hreads, hundo]
    exact ⟨_, _, rfl, rfl, le_trans (Nat.sub_le _ _) hcl, hlc,
      fun i hi => hbelow i (lt_of_lt_of_le hi (Nat.sub_le _ _)), hsquares⟩
  | redoStep n =>
    have hcount : redoReads history n =
        List.range' history.currentStep (min n (history.length - history.currentStep)) := by
      unfold redoReads
      rw [if_pos hcl]
    by_cases hall : (redoReads history n).all (fun i => t.assigned i) = true
    · left
      have hreads : readsFault t history (redoReads history n) = none := by
        unfold readsFault
        have h2 : (redoReads history n).all
            (fun i => validateSudokuCoord2D (history.steps i).location) = true := by
          rw [List.all_eq_true]
          intro i hi
          exact hsquares i ((List.all_eq_true.mp hall) i hi)
        rw [if_pos hall, if_pos h2]
      have hredo := redoStep_eq t.board history n hh hcl
      simp only [applyHistoryCall, hh, Option.some_bind, hreads, hredo]
      refine ⟨_, _, rfl, rfl, ?_, hlc, ?_, hsquares⟩
      · show history.currentStep + min n (history.length - history.currentStep) ≤
          history.length
        omega
      · intro i hi
        have hi2 : i < history.currentStep +
            min n (history.length - history.currentStep) := hi
        by_cases hlow : i < history.currentStep
        · exact hbelow i hlow
        · apply (List.all_eq_true.mp hall) i
          rw [hcount, List.mem_range'_1]
          omega
    · right
      have hreads : readsFault t history (redoReads history n) =
          some HistoryFault.unassignedStep := by
        unfold readsFault
        rw [if_neg hall]
      refine ⟨⟨n, rfl⟩, ?_⟩
      simp only [applyHistoryCall, hh, Option.some_bind, hreads]
  | invalidateSubsequentRedoSteps =>
    left
    simp only [applyHistoryCall, invalidateSubsequentRedoSteps, hh]
    refine ⟨_, _, rfl, rfl, le_refl _, ?_, hbelow, hsquares⟩
    show history.currentStep < history.capacity
    omega

/-- Valid calls on a tracked state that satisfies the invariant of the history either
leave such a state or hold a `redoStep` and stop at the read of a cell never assigned. -/
theorem applyHistoryCalls_tracked (calls : List HistoryCall) :
    ∀ (t : TrackedBoard) (history : HistoryStruct), t.board.history = some history →
      (∀ call ∈ calls, call.Valid) → history.currentStep ≤ history.length →
      history.length < history.capacity →
      (∀ i < history.currentStep, t.assigned i = true) →
      (∀ i, t.assigned i = true →
        validateSudokuCoord2D (history.steps i).location = true) →
      (∃ after grown, applyHistoryCalls t calls = Except.ok after ∧
        after.board.history = some grown ∧ grown.currentStep ≤ grown.length ∧
        grown.length < grown.capacity) ∨
        ((∃ n, HistoryCall.redoStep n ∈ calls) ∧
          applyHistoryCalls t calls = Except.error HistoryFault.unassignedStep) := by
  induction calls with
  | nil => exact fun t history hh _ hcl hlc _ _ => Or.inl ⟨t, history, rfl, hh, hcl, hlc⟩
  | cons call rest ih =>
    intro t history hh hvalid hcl hlc hbelow hsquares
    rcases applyHistoryCall_tracked t history call hh (hvalid call (List.mem_cons_self _ _))
        hcl hlc hbelow hsquares with
      ⟨after, grown, happly, hh2, hcl2, hlc2, hbelow2, hsquares2⟩ | ⟨⟨n, hn⟩, hfault⟩
    · rcases ih after grown hh2 (fun c hc => hvalid c (List.mem_cons_of_mem _ hc)) hcl2 hlc2
          hbelow2 hsquares2 with ⟨final, h3, hrest, hh3, hcl3, hlc3⟩ | ⟨⟨n, hn⟩, hfault⟩
      · left
        refine ⟨final, h3, ?_, hh3, hcl3, hlc3⟩
        simp only [applyHistoryCalls, happly]
        exact hrest
      · right
        refine ⟨⟨n, List.mem_cons_of_mem _ hn⟩, ?_⟩
        simp only [applyHistoryCalls, happly]
        exact hfault
    · right
      refine ⟨⟨n, hn ▸ List.mem_cons_self _ _⟩, ?_⟩
      simp only [applyHistoryCalls, hfault]

/-- The run of `holeCalls` is cut off: after two steps recorded, one undone and a third
recorded without invalidation, the cursor is 2 and the length 3, and `redoStep` reads the
cell of index 2, which no call has assigned. -/
theorem holeCalls_fault :
    faultOfRun (applyHistoryCalls (freshTracked (fun _ _ => 0)) holeCalls) =
      some HistoryFault.unassignedStep ∧
    boundsOfRun (applyHistoryCalls (freshTracked (fun _ _ => 0)) (holeCalls.take 4)) =
      some (2, 3, 4) := by
  decide

/-- C24. Starting from `createHistory` (on a board of any contents), take any sequence of
calls of `addUndoStep` (with valid arguments), `undoStep`, `redoStep` and
`invalidateSubsequentRedoSteps`. Every state the sequence reaches has
`0 ≤ cursor ≤ length ≤ capacity`, the cursor being the index `currentStep - steps`. A
sequence that reaches no state holds a `redoStep` and was cut off at the read of a cell of
the array that was never assigned: no call ends in `terminate` and no write leaves the
board. -/
theorem C24_history_bounds_invariant (contents : Board) (calls : List HistoryCall)
    (hvalid : ∀ call ∈ calls, call.Valid) :
    (∀ after, applyHistoryCalls (freshTracked contents) calls = Except.ok after →
      ∃ history, after.board.history = some history ∧ 0 ≤ history.currentStep ∧
        history.currentStep ≤ history.length ∧ history.length ≤ history.capacity) ∧
    (∀ fault, applyHistoryCalls (freshTracked contents) calls = Except.error fault →
      fault = HistoryFault.unassignedStep ∧ ∃ n, HistoryCall.redoStep n ∈ calls) := by
  rcases applyHistoryCalls_tracked calls (freshTracked contents) createHistory rfl hvalid
      (le_refl _) Nat.one_pos (fun i hi => absurd hi (Nat.not_lt_zero i))
      (fun i hi => Bool.noConfusion hi) with
    ⟨final, history, hrun, hh, hcl, hlc⟩ | ⟨hredo, hfault⟩
  · rw [hrun]
    refine ⟨?_, fun fault h => Except.noConfusion h⟩
    intro after h
    injection h with h
    subst h
    exact ⟨history, hh, Nat.zero_le _, hcl, Nat.le_of_lt hlc⟩
  · rw [hfault]
    refine ⟨fun after h => Except.noConfusion h, ?_⟩
    intro fault h
    injection h with h
    exact ⟨h.symm, hredo⟩

/-- The claim C24 at `exampleCalls` on a blank board: the run reaches a state, with cursor
2, length 2 and capacity 4. -/
theorem C24_history_bounds_invariant_witness :
    (∀ call ∈ exampleCalls, call.Valid) ∧
    boundsOfRun (applyHistoryCalls (freshTracked (fun _ _ => 0)) exampleCalls) =
      some (2, 2, 4) ∧
    ((∀ after, applyHistoryCalls (freshTracked (fun _ _ => 0)) exampleCalls =
        Except.ok after →
      ∃ history, after.board.history = some history ∧ 0 ≤ history.currentStep ∧
        history.currentStep ≤ history.length ∧ history.length ≤ history.capacity) ∧
    (∀ fault, applyHistoryCalls (freshTracked (fun _ _ => 0)) exampleCalls =
        Except.error fault →
      fault = HistoryFault.unassignedStep ∧ ∃ n, HistoryCall.redoStep n ∈ exampleCalls)) :=
  ⟨by decide, by decide, C24_history_bounds_invariant (fun _ _ => 0) exampleCalls (by decide)⟩

/-! ## The history as a replayable log -/

theorem setContents_overwrite (contents : Board) (r c : Nat) (a b : Int) :
    setContents (setContents contents r c a) r c b = setContents contents r c b := by
  funext i j
  unfold setContents
  by_cases h : i = r ∧ j = c
  · rw [if_pos h, if_pos h]
  · rw [if_neg h, if_neg h, if_neg h]

theorem setContents_same (contents : Board) (r c : Nat) (v : Int) (h : contents r c = v) :
    setContents contents r c v = contents := by
  funext i j
  unfold setContents
  by_cases hij : i = r ∧ j = c
  · rw [if_pos hij, hij.1, hij.2, h]
  · rw [if_neg hij]

theorem writeSteps_zero (contents : Board) (value : HistoryStep → Int)
    (f : Nat → HistoryStep) : writeSteps contents value f 0 = contents := rfl

/-- The replay of the first `k` steps looks at the steps below `k` only. -/
theorem writeSteps_congr (contents : Board) (value : HistoryStep → Int)
    (f g : Nat → HistoryStep) (k : Nat) (h : ∀ i < k, f i = g i) :
    writeSteps contents value f k = writeSteps contents value g k := by
  induction k with
  | zero => rfl
  | succ k ih =>
    rw [writeSteps_succ, writeSteps_succ, ih (fun i hi => h i (by omega)), h k (by omega)]

/-- Replaying `a` steps and then the next `b` steps is replaying `a + b` steps. -/
theorem writeSteps_add (contents : Board) (value : HistoryStep → Int)
    (f : Nat → HistoryStep) (a b : Nat) :
    writeSteps (writeSteps contents value f a) value (fun i => f (a + i)) b =
      writeSteps contents value f (a + b) := by
  induction b with
  | zero => rfl
  | succ b ih =>
    rw [writeSteps_succ, ih, ← Nat.add_assoc, writeSteps_succ]

/-- Writing the old values of the last `k` steps below the cursor, latest first, onto the
replay of `c` steps gives the replay of `c - k` steps. -/
theorem writeSteps_undo (base : Board) (steps : Nat → HistoryStep) (c : Nat)
    (hold : ∀ i < c,
      (steps i).oldValue =
        writeSteps base HistoryStep.newValue steps i (steps i).location.row
          (steps i).location.col)
    (k : Nat) (hk : k ≤ c) :
    writeSteps (writeSteps base HistoryStep.newValue steps c) HistoryStep.oldValue
        (fun i => steps (c - 1 - i)) k =
      writeSteps base HistoryStep.newValue steps (c - k) := by
  induction k with
  | zero => rfl
  | succ k ih =>
    rw [writeSteps_succ, ih (by omega)]
    have hc : c - k = (c - 1 - k) + 1 := by omega
    have hc2 : c - (k + 1) = c - 1 - k := by omega
    rw [hc, writeSteps_succ, setContents_overwrite, hc2]
    exact setContents_same _ _ _ _ (hold (c - 1 - k) (by omega)).symm

theorem replayableWith_fresh (base : Board) : ReplayableWith base base createHistory :=
  ⟨le_refl _, rfl, fun i hi => absurd hi (Nat.not_lt_zero i)⟩

/-- Recording a step at the cursor, writing its square and cutting the length to the new
cursor keeps the log replayable. -/
theorem replayableWith_record (base contents : Board) (history : HistoryStruct)
    (h : ReplayableWith base contents history) (square : Coord2D) (value : Int)
    (capacity : Nat) :
    ReplayableWith base (setContents contents square.row square.col value)
      { steps := setStep history.steps history.currentStep
          { location := square, newValue := value, oldValue := contents square.row square.col }
        currentStep := history.currentStep + 1
        length := history.currentStep + 1
        capacity := capacity } := by
  obtain ⟨hcl, hcontents, hold⟩ := h
  have hbelow : ∀ k ≤ history.currentStep,
      writeSteps base HistoryStep.newValue
          (setStep history.steps history.currentStep
            { location := square, newValue := value
              oldValue := contents square.row square.col }) k =
        writeSteps base HistoryStep.newValue history.steps k := by
    intro k hk
    apply writeSteps_congr
    intro i hi
    unfold setStep
    rw [if_neg (by omega)]
  have hat : setStep history.steps history.currentStep
      { location := square, newValue := value, oldValue := contents square.row square.col }
      history.currentStep =
      { location := square, newValue := value, oldValue := contents square.row square.col } := by
    unfold setStep
    rw [if_pos rfl]
  unfold ReplayableWith
  dsimp only
  refine ⟨le_refl _, ?_, fun i hi => ?_⟩
  · rw [writeSteps_succ, hbelow _ (le_refl _), hat, ← hcontents]
  · by_cases hic : i = history.currentStep
    · subst hic
      rw [hbelow _ (le_refl _), hat, ← hcontents]
    · have hlt : i < history.currentStep := by omega
      have hsame : setStep history.steps history.currentStep
          { location := square, newValue := value
            oldValue := contents square.row square.col } i = history.steps i := by
        unfold setStep
        rw [if_neg hic]
      rw [hbelow _ (Nat.le_of_lt hlt), hsame]
      exact hold i (by omega)

theorem replayableWith_invalidate (base contents : Board) (history : HistoryStruct)
    (h : ReplayableWith base contents history) :
    ReplayableWith base contents { history with length := history.currentStep } :=
  ⟨le_refl _, h.2.1, fun i hi => h.2.2 i (Nat.lt_of_lt_of_le hi h.1)⟩

theorem replayableWith_undo (base contents : Board) (history : HistoryStruct)
    (h : ReplayableWith base contents history) (n : Nat) :
    ReplayableWith base
      (writeSteps contents HistoryStep.oldValue
        (fun i => history.steps (history.currentStep - 1 - i)) (min n history.currentStep))
      { history with currentStep := history.currentStep - min n history.currentStep } := by
  obtain ⟨hcl, hcontents, hold⟩ := h
  refine ⟨le_trans (Nat.sub_le _ _) hcl, ?_, hold⟩
  rw [hcontents]
  exact writeSteps_undo base history.steps history.currentStep
    (fun i hi => hold i (by omega)) _ (Nat.min_le_right _ _)

theorem replayableWith_redo (base contents : Board) (history : HistoryStruct)
    (h : ReplayableWith base contents history) (n : Nat) :
    ReplayableWith base
      (writeSteps contents HistoryStep.newValue
        (fun i => history.steps (history.currentStep + i))
        (min n (history.length - history.currentStep)))
      { history with
        currentStep := history.currentStep + min n (history.length - history.currentStep) } := by
  obtain ⟨hcl, hcontents, hold⟩ := h
  refine ⟨?_, ?_, hold⟩
  · show history.currentStep + min n (history.length - history.currentStep) ≤ history.length
    omega
  · rw [hcontents]
    exact writeSteps_add base HistoryStep.newValue history.steps _ _

/-! ## The loop of `commandSolve` -/

theorem locked_legal (board : Board) (hd : (assistantLocked board).newValue ≠ 0) :
    LegalMove board (assistantLocked board) := by
  rcases locked_cases board hd with (h | h) | (h | h)
  · exact naked_legal board _ (fun _ _ _ h => h) _ h
  · exact block_legal board _ (fun _ _ _ h => h) _ h
  · exact naked_legal board _ (reducedGrid_subset board) _ h
  · exact block_legal board _ (reducedGrid_subset board) _ h

/-- Every assistant of the table suggests legal moves only. -/
theorem assistants_legal (name : String) (assistant : SudokuAssistant)
    (h : matchAssistant name = some assistant) (board : Board)
    (hd : (assistant.assistantFunction board).newValue ≠ 0) :
    LegalMove board (assistant.assistantFunction board) := by
  have hmem := List.mem_of_find?_eq_some h
  simp only [assistants, List.mem_cons, List.mem_singleton, List.not_mem_nil, or_false] at hmem
  rcases hmem with h | h <;> subst h
  · exact crosshatch_legal board hd
  · exact locked_legal board hd

theorem countP_lt_of_mem {α : Type} (p q : α → Bool) (l : List α) (a : α) (ha : a ∈ l)
    (hp : p a = true) (hq : q a = false) (hqp : ∀ x, q x = true → p x = true) :
    l.countP q < l.countP p := by
  induction l with
  | nil => exact absurd ha (List.not_mem_nil a)
  | cons x xs ih =>
    rcases List.mem_cons.mp ha with h | h
    · subst h
      have hmono : xs.countP q ≤ xs.countP p := List.countP_mono_left (fun x _ => hqp x)
      rw [List.countP_cons, List.countP_cons, hp, hq]
      simp only [if_true, Bool.false_eq_true, if_false]
      omega
    · have h2 := ih h
      rw [List.countP_cons, List.countP_cons]
      by_cases hx : q x = true
      · rw [if_pos hx, if_pos (hqp x hx)]
        omega
      · rw [if_neg hx]
        split <;> omega

/-- Writing a digit other than 0 into a blank square of the grid lowers the number of blank
squares. -/
theorem blankCount_setContents (contents : Board) (r c : Nat) (v : Int) (hr : r < 9)
    (hc : c < 9) (hblank : contents r c = 0) (hv : v ≠ 0) :
    blankCount (setContents contents r c v) < blankCount contents := by
  unfold blankCount
  apply countP_lt_of_mem _ _ allSquares (r, c) ((mem_allSquares (r, c)).mpr ⟨hr, hc⟩)
  · simp only [hblank, decide_True]
  · simp only [setContents, and_self, if_true, hv, decide_False]
  · intro x hx
    simp only [setContents, decide_eq_true_eq] at hx ⊢
    by_cases hxy : x.1 = r ∧ x.2 = c
    · rw [if_pos hxy] at hx
      exact absurd hx hv
    · rw [if_neg hxy] at hx
      exact hx

theorem blankCount_le (contents : Board) : blankCount contents ≤ 81 := by
  unfold blankCount
  have h : allSquares.countP (fun p => decide (contents p.1 p.2 = 0)) ≤ allSquares.length :=
    List.countP_le_length _
  have hlen : allSquares.length = 81 := by decide
  omega

/-- With more fuel than blank squares, the loop of `commandSolve` run with an assistant that
suggests legal moves only comes to its end without `terminate`, and it keeps the history a
replayable log, provided the length equals the cursor whenever there is a suggestion. -/
theorem solveLoop_replayable (f : Board → HistoryStep)
    (hlegal : ∀ b, (f b).newValue ≠ 0 → LegalMove b (f b)) (base : Board) :
    ∀ (fuel : Nat) (board : SudokuBoard) (history : HistoryStruct),
      board.history = some history → ReplayableWith base board.contents history →
      ((f board.contents).newValue ≠ 0 → history.currentStep = history.length) →
      blankCount board.contents < fuel →
      ∃ solved, solveLoop f fuel board = some (Except.ok solved) ∧ Replayable base solved := by
  intro fuel
  induction fuel with
  | zero => exact fun board history _ _ _ hfuel => absurd hfuel (Nat.not_lt_zero _)
  | succ fuel ih =>
    intro board history hh hrep hcl hfuel
    unfold solveLoop
    by_cases hs : (f board.contents).newValue ≠ 0
    · obtain ⟨hrow, hcol, hd1, hd9, hblank, _⟩ := hlegal board.contents hs
      have hsquare : validateSudokuCoord2D (f board.contents).location = true := by
        unfold validateSudokuCoord2D validateColIndex validateRowIndex
        simp only [hrow, hcol, decide_True, Bool.and_self]
      have hvalue : validateSudokuDigit (f board.contents).newValue = true :=
        (validateSudokuDigit_iff _).mpr ⟨by omega, hd9⟩
      obtain ⟨capacity, hadd, _, _⟩ :=
        addUndoStep_ok board history (f board.contents).location (f board.contents).newValue
          hh hsquare hvalue
      rw [if_pos hs, hadd]
      have hrec := replayableWith_record base board.contents history hrep
        (f board.contents).location (f board.contents).newValue capacity
      rw [hcl hs]
      rw [hcl hs] at hrec
      exact ih _ _ rfl hrec (fun _ => rfl)
        (Nat.lt_of_lt_of_le (blankCount_setContents _ _ _ _ hrow hcol hblank hs)
          (Nat.le_of_lt_succ hfuel))
    · rw [if_neg hs]
      exact ⟨board, rfl, history, hh, hrep⟩

/-! ## The invariant of the command loop -/

/-- One command returns normally and keeps the history a replayable log over the contents
of the most recent reinitialisation. -/
theorem runCommand_replayable (base : Board) (board : SudokuBoard) (command : Command)
    (h : Replayable base board) :
    ∃ after, runCommand board command = some after ∧
      Replayable (baseAfter base command) after := by
  obtain ⟨history, hh, hrep⟩ := h
  cases command with
  | new presetName =>
    simp only [runCommand, baseAfter, commandNew]
    cases boardPresets.find? (fun preset => preset.name == presetName.getD "blank") with
    | none => exact ⟨board, rfl, history, hh, hrep⟩
    | some preset => exact ⟨_, rfl, createHistory, rfl, replayableWith_fresh _⟩
  | load file =>
    cases file with
    | none => exact ⟨board, rfl, history, hh, hrep⟩
    | some opened =>
      cases opened with
      | none => exact ⟨board, rfl, history, hh, hrep⟩
      | some text => exact ⟨_, rfl, createHistory, rfl, replayableWith_fresh _⟩
  | change column row value =>
    by_cases hvalid : (validateColIndex (toSizeT column) && validateRowIndex (toSizeT row) &&
        validateSudokuDigit value) = true
    · have hv := hvalid
      simp only [Bool.and_eq_true] at hv
      obtain ⟨capacity, hchange, _, _⟩ :=
        commandChange_ok board history column row value hh hv.1.1 hv.1.2 hv.2
      simp only [runCommand, hchange, baseAfter]
      exact ⟨_, rfl, _, rfl,
        replayableWith_record base board.contents history hrep
          { col := toSizeT column, row := toSizeT row } value capacity⟩
    · have hchange : commandChange board column row value =
          Except.ok (board, SudokuCommandResult.SUDOKU_COMMAND_USAGE) := by
        unfold commandChange
        rw [if_neg hvalid]
      simp only [runCommand, hchange, baseAfter]
      exact ⟨board, rfl, history, hh, hrep⟩
  | solve assistantName =>
    cases assistantName with
    | none => exact ⟨board, rfl, history, hh, hrep⟩
    | some name =>
      cases hm : matchAssistant name with
      | none =>
        simp only [runCommand, commandSolve, hm, baseAfter]
        exact ⟨board, rfl, history, hh, hrep⟩
      | some assistant =>
        have hlegal := assistants_legal name assistant hm
        have hloop : ∃ solved,
            solveLoop assistant.assistantFunction 82
              (if (assistant.assistantFunction board.contents).newValue ≠ 0 then
                invalidateSubsequentRedoSteps board
              else board) = some (Except.ok solved) ∧ Replayable base solved := by
          by_cases hs : (assistant.assistantFunction board.contents).newValue ≠ 0
          · rw [if_pos hs]
            have hinv : invalidateSubsequentRedoSteps board =
                { board with history := some { history with length := history.currentStep } } := by
              unfold invalidateSubsequentRedoSteps
              rw [hh]
            rw [hinv]
            exact solveLoop_replayable _ hlegal base 82 _ _ rfl
              (replayableWith_invalidate base board.contents history hrep) (fun _ => rfl)
              (Nat.lt_succ_of_le (blankCount_le _))
          · rw [if_neg hs]
            exact solveLoop_replayable _ hlegal base 82 board history hh hrep
              (fun h => absurd h hs) (Nat.lt_succ_of_le (blankCount_le _))
        obtain ⟨solved, hsolved, hrep2⟩ := hloop
        simp only [runCommand, commandSolve, hm, hsolved, baseAfter]
        exact ⟨solved, rfl, hrep2⟩
  | undo n =>
    simp only [runCommand, undoStep_eq board history n hh, baseAfter]
    exact ⟨_, rfl, _, rfl, replayableWith_undo base board.contents history hrep n⟩
  | redo n =>
    simp only [runCommand, redoStep_eq board history n hh hrep.1, baseAfter]
    exact ⟨_, rfl, _, rfl, replayableWith_redo base board.contents history hrep n⟩

/-- Every sequence of commands returns normally and keeps the history a replayable log over
the contents of the most recent reinitialisation. -/
theorem runCommands_replayable (commands : List Command) :
    ∀ (base : Board) (board : SudokuBoard), Replayable base board →
      ∃ after, runCommands board commands = some after ∧
        Replayable (commands.foldl baseAfter base) after := by
  induction commands with
  | nil => exact fun base board h => ⟨board, rfl, h⟩
  | cons command rest ih =>
    intro base board h
    obtain ⟨next, hnext, hrep⟩ := runCommand_replayable base board command h
    obtain ⟨after, hafter, hrep2⟩ := ih _ next hrep
    refine ⟨after, ?_, hrep2⟩
    simp only [runCommands, hnext]
    exact hafter

theorem replayable_initialBoard : Replayable (fun _ _ => 0) initialBoard :=
  ⟨createHistory, rfl, replayableWith_fresh _⟩

/-- C25, as stated, fails: after the command `new easy` the history is empty, so the replay
onto a blank grid is the blank grid, while the board holds the preset (3 in row 0,
column 2). -/
theorem C25_replay_onto_blank_counterexample :
    ∃ after history,
      runCommands initialBoard [Command.new (some "easy")] = some after ∧
      after.history = some history ∧
      writeSteps (fun _ _ => 0) HistoryStep.newValue history.steps history.currentStep ≠
        after.contents := by
  refine ⟨_, _, rfl, rfl, fun h => ?_⟩
  have h2 := congrFun (congrFun h 0) 2
  revert h2
  decide

/-- C25, amended. In every state the program reaches through its commands (`new`, `load`,
`change`, `solve`, `undo`, `redo`, with any arguments), and every sequence of them is run to
its end, writing the new value of every history step below the cursor, in order, onto the
board contents as they stood right after the most recent reinitialisation (the blank board
of the program start, the preset of the last successful `new`, the squares read by the last
successful `load`) gives the current board contents. -/
theorem C25_replay_onto_last_fresh_board (commands : List Command) :
    ∃ after history,
      runCommands initialBoard commands = some after ∧ after.history = some history ∧
      writeSteps (commands.foldl baseAfter (fun _ _ => 0)) HistoryStep.newValue history.steps
        history.currentStep = after.contents := by
  obtain ⟨after, hafter, history, hh, hrep⟩ :=
    runCommands_replayable commands _ initialBoard replayable_initialBoard
  exact ⟨after, history, hafter, hh, hrep.2.1.symm⟩

/-- C26. Redo undoes undo: in every state the program reaches through its commands, for
every `n` with `1 ≤ n ≤ cursor`, `undoStep` with `n` followed by `redoStep` with `n` both
return true and give back exactly the state from before the undo: the board contents, the
cursor, the length and the steps. -/
theorem C26_redo_undoes_undo (commands : List Command) (n : Nat) :
    ∃ state history,
      runCommands initialBoard commands = some state ∧ state.history = some history ∧
      (1 ≤ n → n ≤ history.currentStep →
        ∃ undone, undoStep state n = Except.ok (undone, true) ∧
          redoStep undone n = Except.ok (state, true)) := by
  obtain ⟨state, hstate, history, hh, hrep⟩ :=
    runCommands_replayable commands _ initialBoard replayable_initialBoard
  refine ⟨state, history, hstate, hh, fun h1 hn => ?_⟩
  have hundo := undoStep_eq state history n hh
  have hrepU := replayableWith_undo _ state.contents history hrep n
  have hredo := redoStep_eq _ _ n
    (show ({ contents := writeSteps state.contents HistoryStep.oldValue
              (fun i => history.steps (history.currentStep - 1 - i)) (min n history.currentStep)
             history := some
              { history with
                currentStep := history.currentStep - min n history.currentStep } } :
          SudokuBoard).history = some _ from rfl) hrepU.1
  have hrepV := replayableWith_redo _ _ _ hrepU n
  have hcl := hrep.1
  have hs1 : decide (n = 0 ∨ history.currentStep ≠ 0) = true := by
    rw [decide_eq_true_eq]
    exact Or.inr (by omega)
  rw [hs1] at hundo
  refine ⟨_, hundo, ?_⟩
  rw [hredo]
  have hmin : min n history.currentStep = n := by omega
  have hcursor : history.currentStep - min n history.currentStep +
      min n (history.length - (history.currentStep - min n history.currentStep)) =
      history.currentStep := by omega
  have hs2 : decide (n = 0 ∨
      history.currentStep - min n history.currentStep ≠ history.length) = true := by
    rw [decide_eq_true_eq]
    exact Or.inr (by omega)
  have hcontents := hrepV.2.1
  dsimp only at hcontents hs2 hcursor ⊢
  rw [hs2, hcursor, hcontents, hcursor, ← hrep.2.1]
  cases state with
  | mk contents hist =>
    simp only at hh
    subst hh
    rfl

/-- The claim C26 after `threeEdits`, where the cursor is 3, with `n = 2`. -/
theorem C26_redo_undoes_undo_witness :
    ∃ state history,
      runCommands initialBoard threeEdits = some state ∧ state.history = some history ∧
      history.currentStep = 3 ∧
      ∃ undone, undoStep state 2 = Except.ok (undone, true) ∧
        redoStep undone 2 = Except.ok (state, true) := by
  obtain ⟨state, history, hrun, hh, himp⟩ := C26_redo_undoes_undo threeEdits 2
  have hc : (runCommands initialBoard threeEdits).bind cursorAndLength = some (3, 3) := by
    decide
  rw [hrun] at hc
  change cursorAndLength state = some (3, 3) at hc
  unfold cursorAndLength at hc
  rw [hh] at hc
  have h3 : history.currentStep = 3 := by
    injection hc with hc
    injection hc
  exact ⟨state, history, hrun, hh, h3, himp (by decide) (by omega)⟩

/-! ## The elimination only clears bits -/

theorem and_eq_left_of_testBit (a b : Nat)
    (h : ∀ t, a.testBit t = true → b.testBit t = true) : a &&& b = a := by
  apply Nat.eq_of_testBit_eq
  intro t
  rw [Nat.testBit_and]
  cases ha : a.testBit t
  · rfl
  · rw [h t ha]
    rfl

theorem lockRows_subset (g0 : CandidateGrid) (r c t : Nat)
    (h : (lockRows g0 r c).testBit t = true) : (g0 r c).testBit t = true := by
  have key : ∀ r c t, (lockRows g0 r c).testBit t = true → (g0 r c).testBit t = true := by
    apply lockRows_invariant (fun g => ∀ r c t, (g r c).testBit t = true →
      (g0 r c).testBit t = true)
    · intro g row digit hrow _ _ hg r c t ht
      exact sub_lockRowDigit g0 g row digit hrow hg r c t ht
    · exact fun _ _ _ h => h
  exact key r c t h

theorem lockColumns_subset (g0 : CandidateGrid) (r c t : Nat)
    (h : (lockColumns g0 r c).testBit t = true) : (g0 r c).testBit t = true := by
  have key : ∀ r c t, (lockColumns g0 r c).testBit t = true → (g0 r c).testBit t = true := by
    apply lockColumns_invariant (fun g => ∀ r c t, (g r c).testBit t = true →
      (g0 r c).testBit t = true)
    · intro g column digit hcol _ _ hg r c t ht
      exact sub_lockColumnDigit g0 g column digit hcol hg r c t ht
    · exact fun _ _ _ h => h
  exact key r c t h

theorem candidateGrid_of_not_blank (board : Board) (r c : Nat) (h : board r c ≠ 0) :
    candidateGrid board r c = 0 := by
  unfold candidateGrid
  rw [initialDigitsPossible_apply, if_neg (fun hb => h hb.2)]

/-- C37. The locked-candidate elimination is monotone. For every board and every square,
the field after the row pass is bitwise contained in the field of step 1, and the field
after the column pass is bitwise contained in the field after the row pass, hence in the
field of step 1: no pass sets a bit. A square that is not blank has the field 0 in step 1,
after the row pass and after the column pass. -/
theorem C37_elimination_is_monotone (board : Board) (r c : Nat) :
    lockRows (candidateGrid board) r c &&& candidateGrid board r c =
        lockRows (candidateGrid board) r c ∧
      reducedGrid board r c &&& lockRows (candidateGrid board) r c = reducedGrid board r c ∧
      reducedGrid board r c &&& candidateGrid board r c = reducedGrid board r c ∧
      (∀ t, (reducedGrid board r c).testBit t = true →
        (candidateGrid board r c).testBit t = true) ∧
      (board r c ≠ 0 →
        candidateGrid board r c = 0 ∧ lockRows (candidateGrid board) r c = 0 ∧
          reducedGrid board r c = 0) := by
  have h1 := and_eq_left_of_testBit _ _ (lockRows_subset (candidateGrid board) r c)
  have h2 : reducedGrid board r c &&& lockRows (candidateGrid board) r c =
      reducedGrid board r c :=
    and_eq_left_of_testBit _ _ (lockColumns_subset (lockRows (candidateGrid board)) r c)
  have h3 := and_eq_left_of_testBit _ _ (reducedGrid_subset board r c)
  refine ⟨h1, h2, h3, reducedGrid_subset board r c, fun hb => ?_⟩
  have h0 := candidateGrid_of_not_blank board r c hb
  rw [h0, Nat.and_zero] at h1 h3
  exact ⟨h0, h1.symm, h3.symm⟩

/-! ## The `candidates` array of `assistantCrosshatch` -/

/-- The squares of the block at a crossing that lie outside the crossing row and outside the
crossing column are exactly four. -/
theorem block_outside_crossing (row column : Nat) (hr : row < 9) (hc : column < 9) :
    ((blockCells (SUDOKU_BLOCK_FROM_INTERSECTION row column)).filter
      (fun c => decide (c.1 ≠ row ∧ c.2 ≠ column))).length = 4 := by
  have h : ∀ row < 9, ∀ column < 9,
      ((blockCells (SUDOKU_BLOCK_FROM_INTERSECTION row column)).filter
        (fun c => decide (c.1 ≠ row ∧ c.2 ≠ column))).length = 4 := by
    decide
  exact h row hr column hc

/-- C39. For every board, every presence record and every crossing of a row and a column of
the grid, the squares that the loops of `assistantCrosshatch` write to `candidates` in the
block at the crossing are at most 4, so every index `candidateCount` written to lies within
the 4-element array; the squares of that block outside the crossing row and outside the
crossing column are exactly 4 (2 by 2). -/
theorem C39_crosshatch_candidates_fit (board : Board) (digitsPresent : DigitsPresent)
    (row column testFlag : Nat) (hr : row < 9) (hc : column < 9) :
    (crosshatchCandidates board digitsPresent row column
        (SUDOKU_BLOCK_FROM_INTERSECTION row column) testFlag).length ≤ 4 ∧
      ((blockCells (SUDOKU_BLOCK_FROM_INTERSECTION row column)).filter
        (fun c => decide (c.1 ≠ row ∧ c.2 ≠ column))).length = 4 := by
  refine ⟨?_, block_outside_crossing row column hr hc⟩
  rw [crosshatchCandidates_eq_filter, List.length_map, ← block_outside_crossing row column hr hc,
    ← List.countP_eq_length_filter, ← List.countP_eq_length_filter]
  apply List.countP_mono_left
  intro c _ hcell
  rw [decide_eq_true_eq] at hcell ⊢
  exact ⟨hcell.2.1, hcell.2.2.1⟩

/-- The claim C39 at the crossing of row 0 and column 3 of `puzzleExample`, for digit 1. -/
theorem C39_crosshatch_candidates_fit_witness :
    (crosshatchCandidates puzzleExample (evaluateDigitsPresent puzzleExample false).digitsPresent
        0 3 (SUDOKU_BLOCK_FROM_INTERSECTION 0 3) (SUDOKU_TEST_FLAG_SHIFT 1)).length ≤ 4 ∧
      ((blockCells (SUDOKU_BLOCK_FROM_INTERSECTION 0 3)).filter
        (fun c => decide (c.1 ≠ 0 ∧ c.2 ≠ 3))).length = 4 :=
  C39_crosshatch_candidates_fit puzzleExample _ 0 3 (SUDOKU_TEST_FLAG_SHIFT 1) (by decide)
    (by decide)

/-! ## The order of recording and invalidating -/

/-- C38. For every board whose history exists and every valid edit, recording first and
invalidating afterwards (`commandChange`) and invalidating first and recording afterwards
(the order of the specification) both succeed and leave the same cursor, the same length,
the same steps and the same board contents; the two results can differ in the capacity of
the step array only. -/
theorem C38_order_of_invalidation_is_invisible (board : SudokuBoard)
    (history : HistoryStruct) (column row value : Int) (hh : board.history = some history)
    (hcolumn : validateColIndex (toSizeT column) = true)
    (hrow : validateRowIndex (toSizeT row) = true)
    (hvalue : validateSudokuDigit value = true) :
    ∃ recordedFirst invalidatedFirst first second,
      commandChange board column row value =
        Except.ok (recordedFirst, SudokuCommandResult.SUDOKU_COMMAND_SUCCESS) ∧
      commandChangeInvalidateFirst board column row value =
        Except.ok (invalidatedFirst, SudokuCommandResult.SUDOKU_COMMAND_SUCCESS) ∧
      recordedFirst.history = some first ∧ invalidatedFirst.history = some second ∧
      first.currentStep = second.currentStep ∧ first.length = second.length ∧
      first.steps = second.steps ∧ recordedFirst.contents = invalidatedFirst.contents := by
  obtain ⟨capacity, hchange, _, _⟩ :=
    commandChange_ok board history column row value hh hcolumn hrow hvalue
  have hsquare : validateSudokuCoord2D { col := toSizeT column, row := toSizeT row } = true := by
    unfold validateSudokuCoord2D
    rw [hcolumn, hrow]
    rfl
  have hinv : invalidateSubsequentRedoSteps board =
      { board with history := some { history with length := history.currentStep } } := by
    unfold invalidateSubsequentRedoSteps
    rw [hh]
  obtain ⟨capacity2, hadd, _, _⟩ :=
    addUndoStep_ok { board with history := some { history with length := history.currentStep } }
      { history with length := history.currentStep } _ value rfl hsquare hvalue
  have hsecond : commandChangeInvalidateFirst board column row value =
      Except.ok
        ({ contents := setContents board.contents (toSizeT row) (toSizeT column) value
           history := some
            { steps := setStep history.steps history.currentStep
                { location := { col := toSizeT column, row := toSizeT row }
                  newValue := value
                  oldValue := board.contents (toSizeT row) (toSizeT column) }
              currentStep := history.currentStep + 1
              length := history.currentStep + 1
              capacity := capacity2 } },
          SudokuCommandResult.SUDOKU_COMMAND_SUCCESS) := by
    unfold commandChangeInvalidateFirst
    rw [hcolumn, hrow, hvalue, hinv, hadd]
    rfl
  exact ⟨_, _, _, _, hchange, hsecond, rfl, rfl, rfl, rfl, rfl, rfl⟩

/-- The claim C38 at `undoneBoard` (cursor 1, length 3, capacity 4), with 9 written to the
square in column 4 of row 4; there the capacities do differ: 8 when the step is recorded
first, 4 when the tail is invalidated first. -/
theorem C38_order_of_invalidation_is_invisible_witness :
    cursorAndLength undoneBoard = some (1, 3) ∧ capacityOf undoneBoard = 4 ∧
    (∃ recordedFirst invalidatedFirst first second,
      commandChange undoneBoard 4 4 9 =
        Except.ok (recordedFirst, SudokuCommandResult.SUDOKU_COMMAND_SUCCESS) ∧
      commandChangeInvalidateFirst undoneBoard 4 4 9 =
        Except.ok (invalidatedFirst, SudokuCommandResult.SUDOKU_COMMAND_SUCCESS) ∧
      recordedFirst.history = some first ∧ invalidatedFirst.history = some second ∧
      first.currentStep = second.currentStep ∧ first.length = second.length ∧
      first.steps = second.steps ∧ recordedFirst.contents = invalidatedFirst.contents) ∧
    (∃ recordedFirst invalidatedFirst,
      commandChange undoneBoard 4 4 9 =
        Except.ok (recordedFirst, SudokuCommandResult.SUDOKU_COMMAND_SUCCESS) ∧
      commandChangeInvalidateFirst undoneBoard 4 4 9 =
        Except.ok (invalidatedFirst, SudokuCommandResult.SUDOKU_COMMAND_SUCCESS) ∧
      capacityOf recordedFirst = 8 ∧ capacityOf invalidatedFirst = 4) :=
  ⟨by decide, by decide,
    C38_order_of_invalidation_is_invisible undoneBoard undoneHistory 4 4 9 rfl (by decide)
      (by decide) (by decide),
    ⟨_, _, rfl, rfl, by decide, by decide⟩⟩

/-! ## Loading a board from a file -/

/-- The loop of `loadSudokuBoard` from any state: square `k` receives the digit character
number `k - s.2` of the text if the state has not passed it yet and the text has that many
digit characters, and keeps its value otherwise. -/
theorem foldl_loadChar (text : List Char) :
    ∀ (s : Board × Nat) (k : Nat), k < 81 →
      (text.foldl loadChar s).1 (k / 9) (k % 9) =
        if s.2 ≤ k then
          match (text.filter Char.isDigit)[k - s.2]? with
          | some ch => (ch.toNat : Int) - 48
          | none => s.1 (k / 9) (k % 9)
        else s.1 (k / 9) (k % 9) := by
  induction text with
  | nil =>
    intro s k _
    simp only [List.foldl_nil, List.filter_nil, List.getElem?_nil, ite_self]
  | cons ch rest ih =>
    intro s k hk
    rw [List.foldl_cons, ih _ k hk]
    by_cases hd : ch.isDigit = true
    · by_cases hs : s.2 < 81
      · have hstep : loadChar s ch =
            (setContents s.1 (s.2 / 9) (s.2 % 9) ((ch.toNat : Int) - 48), s.2 + 1) := by
          unfold loadChar
          rw [if_pos ⟨hs, hd⟩]
        rw [hstep, List.filter_cons_of_pos hd]
        simp only
        by_cases hlt : s.2 + 1 ≤ k
        · have hle : s.2 ≤ k := by omega
          have hidx : k - s.2 = (k - (s.2 + 1)) + 1 := by omega
          rw [if_pos hlt, if_pos hle, hidx, List.getElem?_cons_succ]
          have hne : ¬ (k / 9 = s.2 / 9 ∧ k % 9 = s.2 % 9) := by omega
          unfold setContents
          rw [if_neg hne]
        · rw [if_neg hlt]
          by_cases heq : s.2 = k
          · have hidx : k - s.2 = 0 := by omega
            rw [if_pos (by omega), hidx, List.getElem?_cons_zero]
            unfold setContents
            rw [heq, if_pos ⟨rfl, rfl⟩]
          · have hne : ¬ (k / 9 = s.2 / 9 ∧ k % 9 = s.2 % 9) := by omega
            rw [if_neg (by omega)]
            unfold setContents
            rw [if_neg hne]
      · have hstep : loadChar s ch = s := by
          unfold loadChar
          rw [if_neg (fun h => hs h.1)]
        rw [hstep, if_neg (by omega), if_neg (by omega)]
    · have hstep : loadChar s ch = s := by
        unfold loadChar
        rw [if_neg (fun h => hd h.2)]
      rw [hstep, List.filter_cons_of_neg hd]

/-- C33. For every text read from a file that opens, `loadSudokuBoard` returns true and
fills the board in row-major order from the top-left square with the values of the digit
characters of the text, taken in order, every other character being skipped: for `k < 81`,
square `k` (row `k / 9`, column `k % 9`) holds the value of digit character number `k`, and
0 when the text has no more than `k` digit characters; digit characters after the 81st
have no effect on any square. -/
theorem C33_load_fills_row_major (text : List Char) (board : SudokuBoard) (k : Nat)
    (hk : k < 81) :
    (loadSudokuBoard (some text) board).2 = true ∧
      (loadSudokuBoard (some text) board).1.contents (k / 9) (k % 9) = digitAt text k ∧
      (loadSudokuBoard (some text) board).1.contents (k / 9) (k % 9) =
        digitAt ((text.filter Char.isDigit).take 81) k := by
  have h := foldl_loadChar text (fun _ _ => 0, 0) k hk
  simp only [Nat.zero_le, if_true, Nat.sub_zero] at h
  refine ⟨rfl, h, ?_⟩
  have htake : (((text.filter Char.isDigit).take 81).filter Char.isDigit)[k]? =
      (text.filter Char.isDigit)[k]? := by
    have hf : ((text.filter Char.isDigit).take 81).filter Char.isDigit =
        (text.filter Char.isDigit).take 81 := by
      apply List.filter_eq_self.mpr
      intro ch hch
      exact (List.mem_filter.mp (List.mem_of_mem_take hch)).2
    rw [hf, List.getElem?_take_of_lt hk]
  unfold digitAt
  rw [htake]
  exact h

/-- The claim C33 at `exampleFile` and square 2 (row 0, column 2): the third digit character
is `4`. -/
theorem C33_load_fills_row_major_witness :
    (loadSudokuBoard (some exampleFile) exampleBoard).2 = true ∧
      (loadSudokuBoard (some exampleFile) exampleBoard).1.contents (2 / 9) (2 % 9) =
        digitAt exampleFile 2 ∧
      (loadSudokuBoard (some exampleFile) exampleBoard).1.contents (2 / 9) (2 % 9) =
        digitAt ((exampleFile.filter Char.isDigit).take 81) 2 :=
  C33_load_fills_row_major exampleFile exampleBoard 2 (by decide)

/-! ## The history as a log over the board it started from -/

theorem foldl_baseAfter_edits (commands : List Command) :
    ∀ base : Board, (∀ command ∈ commands, command.isEdit = true) →
      commands.foldl baseAfter base = base := by
  induction commands with
  | nil => exact fun _ _ => rfl
  | cons command rest ih =>
    intro base h
    have hc := h command (List.mem_cons_self _ _)
    have hbase : baseAfter base command = base := by
      cases command with
      | new presetName => exact Bool.noConfusion hc
      | load file => exact Bool.noConfusion hc
      | change column row value => rfl
      | solve assistantName => rfl
      | undo n => rfl
      | redo n => rfl
    rw [List.foldl_cons, hbase]
    exact ih base (fun c hmem => h c (List.mem_cons_of_mem _ hmem))

/-- C34. The history is a faithful log relative to the board it started from. For every
board `G0` with an empty history (cursor and length 0) and every sequence of the commands
`change`, `solve`, `undo` and `redo`, the sequence runs to its end, the current contents
are `G0` with the new value of every step below the cursor written in order, and `undoStep`
with the cursor as step count restores `G0` exactly, also when a square was edited several
times. -/
theorem C34_history_is_log_over_initial_board (G0 : Board) (history0 : HistoryStruct)
    (commands : List Command)
    (hempty : history0.currentStep = 0 ∧ history0.length = 0)
    (hedits : ∀ command ∈ commands, command.isEdit = true) :
    ∃ after history,
      runCommands { contents := G0, history := some history0 } commands = some after ∧
      after.history = some history ∧
      after.contents =
        writeSteps G0 HistoryStep.newValue history.steps history.currentStep ∧
      ∃ restored status,
        undoStep after history.currentStep = Except.ok (restored, status) ∧
        restored.contents = G0 := by
  have hstart : Replayable G0 { contents := G0, history := some history0 } := by
    refine ⟨history0, rfl, ?_, ?_, fun i hi => ?_⟩
    · rw [hempty.1]
      exact Nat.zero_le _
    · show G0 = writeSteps G0 HistoryStep.newValue history0.steps history0.currentStep
      rw [hempty.1]
      rfl
    · rw [hempty.2] at hi
      exact absurd hi (Nat.not_lt_zero i)
  obtain ⟨after, hafter, history, hh, hrep⟩ :=
    runCommands_replayable commands G0 _ hstart
  rw [foldl_baseAfter_edits commands G0 hedits] at hrep
  refine ⟨after, history, hafter, hh, hrep.2.1, _, _,
    undoStep_eq after history history.currentStep hh, ?_⟩
  have hundo := (replayableWith_undo G0 after.contents history hrep history.currentStep).2.1
  have hzero : history.currentStep - min history.currentStep history.currentStep = 0 := by
    omega
  dsimp only at hundo ⊢
  rw [hundo, hzero]
  rfl

/-- The claim C34 at `puzzleExample` with a fresh history and `exampleEdits`, which write
square (0, 0) twice. -/
theorem C34_history_is_log_over_initial_board_witness :
    (createHistory.currentStep = 0 ∧ createHistory.length = 0) ∧
    (∀ command ∈ exampleEdits, command.isEdit = true) ∧
    ∃ after history,
      runCommands { contents := puzzleExample, history := some createHistory } exampleEdits =
        some after ∧
      after.history = some history ∧
      after.contents =
        writeSteps puzzleExample HistoryStep.newValue history.steps history.currentStep ∧
      ∃ restored status,
        undoStep after history.currentStep = Except.ok (restored, status) ∧
        restored.contents = puzzleExample :=
  ⟨⟨rfl, rfl⟩, by decide,
    C34_history_is_log_over_initial_board puzzleExample createHistory exampleEdits ⟨rfl, rfl⟩
      (by decide)⟩

/-! ## Termination of the loop of `commandSolve` -/

/-- More fuel does not change the result of a loop that has come to its end. -/
theorem solveLoop_mono (f : Board → HistoryStep) :
    ∀ (fuel : Nat) (board : SudokuBoard) (r : Except (String × SudokuBoard) SudokuBoard),
      solveLoop f fuel board = some r → solveLoop f (fuel + 1) board = some r := by
  intro fuel
  induction fuel with
  | zero => exact fun board r h => Option.noConfusion h
  | succ fuel ih =>
    intro board r h
    unfold solveLoop at h ⊢
    by_cases hs : (f board.contents).newValue ≠ 0
    · rw [if_pos hs] at h ⊢
      cases hadd : addUndoStep board (f board.contents).location (f board.contents).newValue with
      | ok recorded =>
        rw [hadd] at h
        exact ih _ r h
      | error e =>
        rw [hadd] at h
        exact h
    · rw [if_neg hs] at h ⊢
      exact h

theorem solveLoop_mono_add (f : Board → HistoryStep) (fuel : Nat) (board : SudokuBoard)
    (r : Except (String × SudokuBoard) SudokuBoard) (h : solveLoop f fuel board = some r)
    (k : Nat) : solveLoop f (fuel + k) board = some r := by
  induction k with
  | zero => exact h
  | succ k ih => exact solveLoop_mono f (fuel + k) board r ih

/-- With more fuel than blank squares, the loop of `commandSolve` run with an assistant that
suggests legal moves only comes to its end without `terminate`, with no suggestion left,
and it keeps every property that one round (a legal step recorded at the cursor and
written to its square) keeps. -/
theorem solveLoop_invariant (f : Board → HistoryStep)
    (hlegal : ∀ b, (f b).newValue ≠ 0 → LegalMove b (f b)) (I : SudokuBoard → Prop)
    (hstep : ∀ (board : SudokuBoard) (history : HistoryStruct) (capacity : Nat),
      board.history = some history → I board → (f board.contents).newValue ≠ 0 →
      I { contents := setContents board.contents (f board.contents).location.row
            (f board.contents).location.col (f board.contents).newValue
          history := some
            { steps := setStep history.steps history.currentStep
                { location := (f board.contents).location
                  newValue := (f board.contents).newValue
                  oldValue := board.contents (f board.contents).location.row
                    (f board.contents).location.col }
              currentStep := history.currentStep + 1
              length := history.length + 1
              capacity := capacity } }) :
    ∀ (fuel : Nat) (board : SudokuBoard) (history : HistoryStruct),
      board.history = some history → I board → blankCount board.contents < fuel →
      ∃ solved, solveLoop f fuel board = some (Except.ok solved) ∧ I solved ∧
        (f solved.contents).newValue = 0 := by
  intro fuel
  induction fuel with
  | zero => exact fun board history _ _ hfuel => absurd hfuel (Nat.not_lt_zero _)
  | succ fuel ih =>
    intro board history hh hI hfuel
    unfold solveLoop
    by_cases hs : (f board.contents).newValue ≠ 0
    · obtain ⟨hrow, hcol, hd1, hd9, hblank, _⟩ := hlegal board.contents hs
      have hsquare : validateSudokuCoord2D (f board.contents).location = true := by
        unfold validateSudokuCoord2D validateColIndex validateRowIndex
        simp only [hrow, hcol, decide_True, Bool.and_self]
      have hvalue : validateSudokuDigit (f board.contents).newValue = true :=
        (validateSudokuDigit_iff _).mpr ⟨by omega, hd9⟩
      obtain ⟨capacity, hadd, _, _⟩ :=
        addUndoStep_ok board history (f board.contents).location (f board.contents).newValue
          hh hsquare hvalue
      rw [if_pos hs, hadd]
      exact ih _ _ rfl (hstep board history capacity hh hI hs)
        (Nat.lt_of_lt_of_le (blankCount_setContents _ _ _ _ hrow hcol hblank hs)
          (Nat.le_of_lt_succ hfuel))
    · rw [if_neg hs]
      exact ⟨board, rfl, hI, not_not.mp hs⟩

/-- C36. The loop of `commandSolve` terminates, for every board whose history exists and
for either assistant of the table. There is one final board that the loop reaches for every
fuel above the number of blank squares, without `terminate` (the validation of
`addUndoStep` never fails); the rounds, counted by the advance of the cursor, are at most
the blank squares lost, so at most the blank squares of the start and at most 81; every
step recorded has old value 0 and a new value other than 0; at the end the assistant has no
suggestion; and `commandSolve` itself returns success for every fuel of at least 82. -/
theorem C36_solve_loop_terminates (board : SudokuBoard) (history : HistoryStruct)
    (name : String) (assistant : SudokuAssistant) (hh : board.history = some history)
    (hm : matchAssistant name = some assistant) :
    (∃ solved final,
      (∀ fuel, blankCount board.contents < fuel →
        solveLoop assistant.assistantFunction fuel board = some (Except.ok solved)) ∧
      solved.history = some final ∧ history.currentStep ≤ final.currentStep ∧
      (final.currentStep - history.currentStep) + blankCount solved.contents ≤
        blankCount board.contents ∧
      final.currentStep - history.currentStep ≤ 81 ∧
      (∀ i, history.currentStep ≤ i → i < final.currentStep →
        (final.steps i).oldValue = 0 ∧ (final.steps i).newValue ≠ 0) ∧
      (assistant.assistantFunction solved.contents).newValue = 0) ∧
    ∀ fuel, 82 ≤ fuel →
      ∃ after, commandSolve board (some name) fuel =
        some (Except.ok (after, SudokuCommandResult.SUDOKU_COMMAND_SUCCESS)) := by
  have hlegal := assistants_legal name assistant hm
  constructor
  · obtain ⟨solved, hsolved, ⟨final, hfinal, hle, hcount, hsteps⟩, hend⟩ :=
      solveLoop_invariant assistant.assistantFunction hlegal
        (fun b => ∃ final, b.history = some final ∧
          history.currentStep ≤ final.currentStep ∧
          (final.currentStep - history.currentStep) + blankCount b.contents ≤
            blankCount board.contents ∧
          ∀ i, history.currentStep ≤ i → i < final.currentStep →
            (final.steps i).oldValue = 0 ∧ (final.steps i).newValue ≠ 0)
        (by
          intro b h capacity hb hI hs
          obtain ⟨final, hfinal, hle, hcount, hsteps⟩ := hI
          rw [hb] at hfinal
          cases hfinal
          obtain ⟨hrow, hcol, _, _, hblank, _⟩ := hlegal b.contents hs
          have hlt := blankCount_setContents b.contents _ _ _ hrow hcol hblank hs
          refine ⟨_, rfl, ?_, ?_, ?_⟩
          · show history.currentStep ≤ h.currentStep + 1
            omega
          · show h.currentStep + 1 - history.currentStep + blankCount (setContents _ _ _ _) ≤ _
            omega
          · intro i hi1 hi2
            have hi3 : i < h.currentStep + 1 := hi2
            show (setStep h.steps h.currentStep _ i).oldValue = 0 ∧
              (setStep h.steps h.currentStep _ i).newValue ≠ 0
            unfold setStep
            by_cases hic : i = h.currentStep
            · rw [if_pos hic]
              exact ⟨hblank, hs⟩
            · rw [if_neg hic]
              exact hsteps i hi1 (by omega))
        (blankCount board.contents + 1) board history hh
        ⟨history, hh, le_refl _, by omega, fun i h1 h2 => absurd h1 (by omega)⟩
        (Nat.lt_succ_self _)
    refine ⟨solved, final, fun fuel hfuel => ?_, hfinal, hle, hcount, ?_, hsteps, hend⟩
    · have hk : fuel = blankCount board.contents + 1 + (fuel - (blankCount board.contents + 1)) := by
        omega
      rw [hk]
      exact solveLoop_mono_add _ _ _ _ hsolved _
    · have := blankCount_le board.contents
      omega
  · intro fuel hfuel
    have hinv : ∃ start startHistory,
        (if (assistant.assistantFunction board.contents).newValue ≠ 0 then
          invalidateSubsequentRedoSteps board else board) = start ∧
        start.history = some startHistory ∧ start.contents = board.contents := by
      by_cases hs : (assistant.assistantFunction board.contents).newValue ≠ 0
      · rw [if_pos hs]
        unfold invalidateSubsequentRedoSteps
        rw [hh]
        exact ⟨_, _, rfl, rfl, rfl⟩
      · rw [if_neg hs]
        exact ⟨board, history, rfl, hh, rfl⟩
    obtain ⟨start, startHistory, hstart, hsh, hsc⟩ := hinv
    obtain ⟨solved, hsolved, _, _⟩ :=
      solveLoop_invariant assistant.assistantFunction hlegal (fun _ => True)
        (fun _ _ _ _ _ _ => trivial) fuel start startHistory hsh trivial
        (by rw [hsc]; have := blankCount_le board.contents; omega)
    refine ⟨solved, ?_⟩
    simp only [commandSolve, hm, hstart, hsolved]

/-- The claim C36 at `puzzleBoard` and the assistant named `crosshatch`. -/
theorem C36_solve_loop_terminates_witness :
    (∃ solved final,
      (∀ fuel, blankCount puzzleBoard.contents < fuel →
        solveLoop assistantCrosshatch fuel puzzleBoard = some (Except.ok solved)) ∧
      solved.history = some final ∧ createHistory.currentStep ≤ final.currentStep ∧
      (final.currentStep - createHistory.currentStep) + blankCount solved.contents ≤
        blankCount puzzleBoard.contents ∧
      final.currentStep - createHistory.currentStep ≤ 81 ∧
      (∀ i, createHistory.currentStep ≤ i → i < final.currentStep →
        (final.steps i).oldValue = 0 ∧ (final.steps i).newValue ≠ 0) ∧
      (assistantCrosshatch solved.contents).newValue = 0) ∧
    ∀ fuel, 82 ≤ fuel →
      ∃ after, commandSolve puzzleBoard (some "crosshatch") fuel =
        some (Except.ok (after, SudokuCommandResult.SUDOKU_COMMAND_SUCCESS)) :=
  C36_solve_loop_terminates puzzleBoard createHistory "crosshatch"
    { name := "crosshatch", assistantFunction := assistantCrosshatch } rfl rfl

/-! ## The domain of the grid -/

theorem isDigit_range (ch : Char) (h : ch.isDigit = true) :
    0 ≤ (ch.toNat : Int) - 48 ∧ (ch.toNat : Int) - 48 ≤ 9 := by
  unfold Char.isDigit at h
  rw [Bool.and_eq_true, decide_eq_true_eq, decide_eq_true_eq] at h
  have h1 : (48 : UInt32).toNat ≤ ch.val.toNat := h.1
  have h2 : ch.val.toNat ≤ (57 : UInt32).toNat := h.2
  have h3 : (48 : UInt32).toNat = 48 := rfl
  have h4 : (57 : UInt32).toNat = 57 := rfl
  have h5 : ch.toNat = ch.val.toNat := rfl
  omega

theorem presets_inRange :
    ∀ preset ∈ boardPresets, ∀ r < 9, ∀ c < 9, 0 ≤ preset.board r c ∧ preset.board r c ≤ 9 := by
  intro preset hp
  simp only [boardPresets, List.mem_cons, List.mem_singleton, List.not_mem_nil,
    or_false] at hp
  rcases hp with h | h | h | h <;> subst h <;> decide

/-- Writing values of 0..9 keeps every square of the grid in 0..9. -/
theorem writeSteps_inRange (contents : Board) (value : HistoryStep → Int)
    (f : Nat → HistoryStep) (k : Nat)
    (hcontents : ∀ r < 9, ∀ c < 9, 0 ≤ contents r c ∧ contents r c ≤ 9)
    (hvalues : ∀ i < k, 0 ≤ value (f i) ∧ value (f i) ≤ 9) :
    ∀ r < 9, ∀ c < 9,
      0 ≤ writeSteps contents value f k r c ∧ writeSteps contents value f k r c ≤ 9 := by
  induction k with
  | zero => exact hcontents
  | succ k ih =>
    intro r hr c hc
    rw [writeSteps_succ]
    unfold setContents
    split
    · exact hvalues k (Nat.lt_succ_self k)
    · exact ih (fun i hi => hvalues i (by omega)) r hr c hc

theorem inDomain_fresh (contents : Board)
    (h : ∀ r < 9, ∀ c < 9, 0 ≤ contents r c ∧ contents r c ≤ 9) :
    InDomain { contents := contents, history := some createHistory } :=
  ⟨h, createHistory, rfl, le_refl _, fun i hi => absurd hi (Nat.not_lt_zero i)⟩

/-- Recording a step of the domain at the cursor and writing its square keeps the board in
the domain, for the length `cursor + 1`. -/
theorem inDomain_record (board : SudokuBoard) (history : HistoryStruct)
    (hh : board.history = some history) (hd : InDomain board) (square : Coord2D) (value : Int)
    (hrow : square.row < 9) (hcol : square.col < 9) (hv : 0 ≤ value ∧ value ≤ 9)
    (capacity : Nat) :
    InDomain
      { contents := setContents board.contents square.row square.col value
        history := some
          { steps := setStep history.steps history.currentStep
              { location := square, newValue := value
                oldValue := board.contents square.row square.col }
            currentStep := history.currentStep + 1
            length := history.currentStep + 1
            capacity := capacity } } := by
  obtain ⟨hcells, h2, hh2, hcl, hsteps⟩ := hd
  rw [hh] at hh2
  cases hh2
  refine ⟨fun r hr c hc => ?_, _, rfl, le_refl _, fun i hi => ?_⟩
  · show 0 ≤ setContents board.contents _ _ _ r c ∧ setContents board.contents _ _ _ r c ≤ 9
    unfold setContents
    split
    · exact hv
    · exact hcells r hr c hc
  · have hi2 : i < history.currentStep + 1 := hi
    show StepInDomain (setStep history.steps history.currentStep _ i)
    unfold setStep
    by_cases hic : i = history.currentStep
    · rw [if_pos hic]
      exact ⟨hcells _ hrow _ hcol, hv, hrow, hcol⟩
    · rw [if_neg hic]
      exact hsteps i (by omega)

/-- One command returns normally and keeps the board in the domain of the grid. -/
theorem runCommand_inDomain (board : SudokuBoard) (command : Command) (hd : InDomain board) :
    ∃ after, runCommand board command = some after ∧ InDomain after := by
  obtain ⟨hcells, history, hh, hcl, hsteps⟩ := hd
  have hd : InDomain board := ⟨hcells, history, hh, hcl, hsteps⟩
  cases command with
  | new presetName =>
    simp only [runCommand, commandNew]
    cases hfind : boardPresets.find? (fun preset => preset.name == presetName.getD "blank") with
    | none => exact ⟨board, rfl, hd⟩
    | some preset =>
      refine ⟨_, rfl, inDomain_fresh _ (fun r hr c hc => ?_)⟩
      show 0 ≤ copySudokuBoardContents _ _ r c ∧ copySudokuBoardContents _ _ r c ≤ 9
      unfold copySudokuBoardContents
      rw [if_pos ⟨hr, hc⟩]
      exact presets_inRange preset (List.mem_of_find?_eq_some hfind) r hr c hc
  | load file =>
    cases file with
    | none => exact ⟨board, rfl, hd⟩
    | some opened =>
      cases opened with
      | none => exact ⟨board, rfl, hd⟩
      | some text =>
        refine ⟨_, rfl, inDomain_fresh _ (fun r hr c hc => ?_)⟩
        have hk : r * 9 + c < 81 := by omega
        have h := foldl_loadChar text (fun _ _ => 0, 0) (r * 9 + c) hk
        have h1 : (r * 9 + c) / 9 = r := by omega
        have h2 : (r * 9 + c) % 9 = c := by omega
        rw [h1, h2] at h
        show 0 ≤ (text.foldl loadChar (fun _ _ => 0, 0)).1 r c ∧
          (text.foldl loadChar (fun _ _ => 0, 0)).1 r c ≤ 9
        rw [h]
        simp only [Nat.zero_le, if_true, Nat.sub_zero]
        cases hget : (text.filter Char.isDigit)[r * 9 + c]? with
        | none => exact ⟨le_refl _, by decide⟩
        | some ch =>
          exact isDigit_range ch (List.mem_filter.mp (List.getElem?_mem hget)).2
  | change column row value =>
    by_cases hvalid : (validateColIndex (toSizeT column) && validateRowIndex (toSizeT row) &&
        validateSudokuDigit value) = true
    · have hv := hvalid
      simp only [Bool.and_eq_true] at hv
      obtain ⟨capacity, hchange, _, _⟩ :=
        commandChange_ok board history column row value hh hv.1.1 hv.1.2 hv.2
      simp only [runCommand, hchange]
      refine ⟨_, rfl, inDomain_record board history hh hd
        { col := toSizeT column, row := toSizeT row } value ?_ ?_
        ((validateSudokuDigit_iff value).mp hv.2) capacity⟩
      · exact of_decide_eq_true hv.1.2
      · exact of_decide_eq_true hv.1.1
    · have hchange : commandChange board column row value =
          Except.ok (board, SudokuCommandResult.SUDOKU_COMMAND_USAGE) := by
        unfold commandChange
        rw [if_neg hvalid]
      simp only [runCommand, hchange]
      exact ⟨board, rfl, hd⟩
  | solve assistantName =>
    cases assistantName with
    | none => exact ⟨board, rfl, hd⟩
    | some name =>
      cases hm : matchAssistant name with
      | none =>
        simp only [runCommand, commandSolve, hm]
        exact ⟨board, rfl, hd⟩
      | some assistant =>
        have hlegal := assistants_legal name assistant hm
        have hloop : ∃ solved,
            solveLoop assistant.assistantFunction 82
              (if (assistant.assistantFunction board.contents).newValue ≠ 0 then
                invalidateSubsequentRedoSteps board
              else board) = some (Except.ok solved) ∧ InDomain solved := by
          by_cases hs : (assistant.assistantFunction board.contents).newValue ≠ 0
          · rw [if_pos hs]
            have hinv : invalidateSubsequentRedoSteps board =
                { board with history := some { history with length := history.currentStep } } := by
              unfold invalidateSubsequentRedoSteps
              rw [hh]
            rw [hinv]
            obtain ⟨solved, hsolved, hI, _⟩ :=
              solveLoop_invariant assistant.assistantFunction hlegal
                (fun b => InDomain b ∧
                  ∃ h, b.history = some h ∧ h.currentStep = h.length)
                (by
                  intro b h capacity hb hI hsug
                  obtain ⟨hbd, h2, hb2, heq⟩ := hI
                  rw [hb] at hb2
                  cases hb2
                  obtain ⟨hrow, hcol, hd1, hd9, _⟩ := hlegal b.contents hsug
                  have hrec := inDomain_record b h hb hbd
                    (assistant.assistantFunction b.contents).location
                    (assistant.assistantFunction b.contents).newValue hrow hcol
                    ⟨by omega, hd9⟩ capacity
                  rw [heq] at hrec
                  rw [heq]
                  exact ⟨hrec, _, rfl, rfl⟩)
                82 { board with history := some { history with length := history.currentStep } }
                { history with length := history.currentStep } rfl
                ⟨⟨hcells, { history with length := history.currentStep }, rfl, le_refl _,
                    fun i hi => hsteps i (Nat.lt_of_lt_of_le hi hcl)⟩,
                  { history with length := history.currentStep }, rfl, rfl⟩
                (Nat.lt_succ_of_le (blankCount_le _))
            exact ⟨solved, hsolved, hI.1⟩
          · rw [if_neg hs]
            refine ⟨board, ?_, hd⟩
            unfold solveLoop
            rw [if_neg hs]
        obtain ⟨solved, hsolved, hd2⟩ := hloop
        simp only [runCommand, commandSolve, hm, hsolved]
        exact ⟨solved, rfl, hd2⟩
  | undo n =>
    simp only [runCommand, undoStep_eq board history n hh]
    refine ⟨_, rfl, ?_, _, rfl, le_trans (Nat.sub_le _ _) hcl, hsteps⟩
    exact writeSteps_inRange _ _ _ _ hcells
      (fun i hi => (hsteps (history.currentStep - 1 - i) (by omega)).1)
  | redo n =>
    simp only [runCommand, redoStep_eq board history n hh hcl]
    refine ⟨_, rfl, ?_, _, rfl, ?_, hsteps⟩
    · exact writeSteps_inRange _ _ _ _ hcells
        (fun i hi => (hsteps (history.currentStep + i) (by omega)).2.1)
    · show history.currentStep + min n (history.length - history.currentStep) ≤ history.length
      omega

theorem runCommands_inDomain (commands : List Command) :
    ∀ board : SudokuBoard, InDomain board →
      ∃ after, runCommands board commands = some after ∧ InDomain after := by
  induction commands with
  | nil => exact fun board h => ⟨board, rfl, h⟩
  | cons command rest ih =>
    intro board h
    obtain ⟨next, hnext, hd⟩ := runCommand_inDomain board command h
    obtain ⟨after, hafter, hd2⟩ := ih next hd
    refine ⟨after, ?_, hd2⟩
    simp only [runCommands, hnext]
    exact hafter

/-- C35. The domain of the grid is an invariant of the program: every sequence of the
commands `new`, `load`, `change`, `solve`, `undo` and `redo` (with any arguments) from the
program start runs to its end, and in the state it reaches every square of the grid holds
a value in 0..9 and every step within the length of the history has old and new value in
0..9 and a location with row and column in 0..8. -/
theorem C35_grid_domain_invariant (commands : List Command) :
    ∃ after history,
      runCommands initialBoard commands = some after ∧ after.history = some history ∧
      (∀ r < 9, ∀ c < 9, 0 ≤ after.contents r c ∧ after.contents r c ≤ 9) ∧
      ∀ i < history.length,
        (0 ≤ (history.steps i).oldValue ∧ (history.steps i).oldValue ≤ 9) ∧
        (0 ≤ (history.steps i).newValue ∧ (history.steps i).newValue ≤ 9) ∧
        (history.steps i).location.row < 9 ∧ (history.steps i).location.col < 9 := by
  obtain ⟨after, hafter, hcells, history, hh, _, hsteps⟩ :=
    runCommands_inDomain commands initialBoard
      (inDomain_fresh _ (fun _ _ _ _ => ⟨le_refl _, by decide⟩))
  exact ⟨after, history, hafter, hh, hcells, hsteps⟩

/-! ## The command `new` without an argument -/

/-- C31 fails on the code. For the input line `new`, `readString` adds a second null
character, so the string has length 5 while the command name ends at index 3;
`IS_ANY_INPUT_REMAINING` is then true, `getStringArgument` returns true with an empty
preset name instead of false, the default name is never used, no preset has the empty
name, and `commandNew` fails and leaves the board as it is: on `exampleBoard`, square
(0, 0) still holds 5 and the history still has its steps. -/
theorem C31_new_without_argument_fails :
    ∃ input,
      getCommandInput initialInput newLine = Except.ok ([110, 101, 119], input) ∧
      input.string.length = 5 ∧ input.currentIndex = 3 ∧
      getStringArgument input 16 = Except.ok (true, [], input) ∧
      commandNewOnInput exampleBoard input =
        Except.ok (exampleBoard, input, SudokuCommandResult.SUDOKU_COMMAND_FAILURE) ∧
      exampleBoard.contents 0 0 = 5 ∧ cursorAndLength exampleBoard = some (1, 2) := by
  exact ⟨_, rfl, rfl, rfl, rfl, rfl, rfl, rfl⟩

/-! ## Reading a line into the input string -/

theorem takeWhile_append_stop (p : Nat → Bool) (a b : List Nat)
    (ha : ∀ x ∈ a, p x = true) (hb : ∀ x, b.head? = some x → p x = false) :
    (a ++ b).takeWhile p = a := by
  induction a with
  | nil =>
    cases b with
    | nil => rfl
    | cons x rest =>
      rw [List.nil_append, List.takeWhile_cons_of_neg]
      rw [hb x rfl]
      exact Bool.noConfusion
  | cons y rest ih =>
    rw [List.cons_append, List.takeWhile_cons_of_pos (ha y (List.mem_cons_self _ _)),
      ih (fun x hx => ha x (List.mem_cons_of_mem _ hx))]

theorem set_length_append (content : List Nat) (x ch : Nat) (tail : List Nat) :
    (content ++ x :: tail).set content.length ch = content ++ ch :: tail := by
  induction content with
  | nil => rfl
  | cons y rest ih =>
    rw [List.cons_append, List.length_cons, List.set_cons_succ, ih, List.cons_append]

theorem getD_length_append (before : List Nat) (x : Nat) (tail : List Nat) (d : Nat) :
    (before ++ x :: tail).getD before.length d = x := by
  induction before with
  | nil => rfl
  | cons y rest ih =>
    rw [List.cons_append, List.length_cons, List.getD_cons_succ, ih]

/-- After `growString` a null-terminated string has room for one more character. -/
theorem growString_room (s : StringADT) (content : List Nat) (h : Terminated s content) :
    (growString s 1).length = content.length + 1 ∧
      (growString s 1).array.length = (growString s 1).capacity ∧
      ∃ x tail, (growString s 1).array = content ++ 0 :: x :: tail := by
  obtain ⟨hlen, hcap, tail, harr⟩ := h
  have hcap2 : s.capacity = content.length + 1 + tail.length := by
    rw [← hcap, harr, List.length_append, List.length_cons]
    omega
  unfold growString
  by_cases hg : 1 > (s.capacity + 2 ^ 64 - s.length) % 2 ^ 64
  · rw [if_pos hg]
    refine ⟨hlen, ?_, ?_⟩
    · show (s.array ++ List.replicate s.capacity 0).length = s.capacity * 2
      rw [List.length_append, List.length_replicate, hcap]
      omega
    · show ∃ x tail2, s.array ++ List.replicate s.capacity 0 = content ++ 0 :: x :: tail2
      rw [harr]
      cases tail with
      | nil =>
        have hc1 : s.capacity = (s.capacity - 1) + 1 := by omega
        refine ⟨0, List.replicate (s.capacity - 1) 0, ?_⟩
        rw [List.append_assoc, List.cons_append, List.nil_append]
        conv => lhs; rw [hc1, List.replicate_succ]
      | cons x rest =>
        refine ⟨x, rest ++ List.replicate s.capacity 0, ?_⟩
        rw [List.append_assoc, List.cons_append, List.cons_append]
  · rw [if_neg hg]
    refine ⟨hlen, hcap, ?_⟩
    cases tail with
    | nil =>
      exfalso
      apply hg
      have hce : s.capacity = s.length := by
        rw [hcap2, hlen]
        rfl
      have hself : s.capacity + 2 ^ 64 - s.length = 2 ^ 64 := by omega
      rw [hself, Nat.mod_self]
      exact Nat.one_pos
    | cons x rest => exact ⟨x, rest, harr⟩

theorem terminated_addCharToString (s : StringADT) (content : List Nat) (ch : Nat)
    (h : Terminated s content) : Terminated (addCharToString s ch) (content ++ [ch]) := by
  obtain ⟨hlen, hcap, x, tail, harr⟩ := growString_room s content h
  unfold addCharToString Terminated
  dsimp only
  rw [hlen, harr]
  refine ⟨?_, ?_, tail, ?_⟩
  · rw [List.length_append, List.length_singleton]
  · rw [List.length_set, List.length_set, ← harr]
    exact hcap
  · have h1 : content.length + 1 - 1 = content.length := by omega
    rw [h1, set_length_append]
    have h2 : content ++ ch :: x :: tail = (content ++ [ch]) ++ x :: tail := by
      rw [List.append_assoc, List.singleton_append]
    have h3 : content.length + 1 = (content ++ [ch]).length := by
      rw [List.length_append, List.length_singleton]
    rw [h2, h3, set_length_append]

theorem terminated_clearString (s : StringADT) (hs : s.array.length = s.capacity)
    (hc : 0 < s.capacity) : Terminated (clearString s) [] := by
  unfold clearString Terminated
  dsimp only
  refine ⟨rfl, ?_, ?_⟩
  · rw [List.length_set]
    exact hs
  · cases harr : s.array with
    | nil =>
      rw [harr] at hs
      exact absurd hs (by simp only [List.length_nil]; omega)
    | cons x rest => exact ⟨rest, rfl⟩

theorem terminated_foldl (line : List Nat) :
    ∀ (s : StringADT) (content : List Nat), Terminated s content →
      Terminated (line.foldl addCharToString s) (content ++ line) := by
  induction line with
  | nil =>
    intro s content h
    rw [List.append_nil]
    exact h
  | cons ch rest ih =>
    intro s content h
    have h2 := ih _ _ (terminated_addCharToString s content ch h)
    rw [List.append_assoc, List.singleton_append] at h2
    exact h2

/-- What `readString` leaves in a cleared string for a line that is not empty and ends with
a newline: the characters of the line, then two null characters, with the length counting
both. -/
theorem readString_line (s : StringADT) (hs : s.array.length = s.capacity)
    (hc : 0 < s.capacity) (line more : List Nat) (hline : ∀ ch ∈ line, ch ≠ 10)
    (hne : line ≠ []) :
    Terminated (readString (clearString s) (line ++ 10 :: more)).1 (line ++ [0]) := by
  have hdrop : (line ++ 10 :: more).dropWhile (fun ch => ch == 10) = line ++ 10 :: more := by
    cases line with
    | nil => exact absurd rfl hne
    | cons x rest =>
      rw [List.cons_append, List.dropWhile_cons_of_neg]
      have := hline x (List.mem_cons_self _ _)
      simp only [beq_iff_eq, this, not_false_eq_true]
  have htake : (line ++ 10 :: more).takeWhile (fun ch => ch != 10) = line := by
    apply takeWhile_append_stop
    · intro x hx
      simp only [bne_iff_ne, ne_eq, hline x hx, not_false_eq_true]
    · intro x hx
      simp only [List.head?_cons, Option.some.injEq] at hx
      rw [← hx]
      rfl
  unfold readString
  dsimp only
  rw [hdrop, htake]
  have h := terminated_foldl line _ _ (terminated_clearString s hs hc)
  rw [List.nil_append] at h
  exact terminated_addCharToString _ _ 0 h

/-! ## The argument readers on the line that was read -/

theorem isspace_zero : isspace 0 = false := rfl

/-- After `getCommand` has read a line that starts with a command name (at most 15
characters, none of them null or whitespace), followed by whitespace and further
characters, or by nothing at all, the name has been consumed and the input stands at the
first character after the whitespace. -/
theorem getCommandInput_line (previous : SudokuCommandInput) (word ws rest more : List Nat)
    (hs : previous.string.array.length = previous.string.capacity)
    (hc : 0 < previous.string.capacity)
    (hword : ∀ ch ∈ word, ch ≠ 0 ∧ isspace ch = false) (hne : word ≠ [])
    (hlen : word.length ≤ 15)
    (hws : ∀ ch ∈ ws, isspace ch = true ∧ ch ≠ 10)
    (hrest : ∀ ch ∈ rest, ch ≠ 10)
    (hhead : ∀ x, rest.head? = some x → isspace x = false)
    (hsep : ws ≠ [] ∨ rest = []) :
    ∃ input, getCommandInput previous (word ++ ws ++ rest ++ 10 :: more) =
        Except.ok (word, input) ∧ Remaining input rest := by
  have hline : ∀ ch ∈ word ++ ws ++ rest, ch ≠ 10 := by
    intro ch hch
    rw [List.mem_append, List.mem_append] at hch
    rcases hch with (h | h) | h
    · intro h10
      have := (hword ch h).2
      rw [h10] at this
      exact Bool.noConfusion this
    · exact (hws ch h).2
    · exact hrest ch h
  have hne2 : word ++ ws ++ rest ≠ [] := by
    cases word with
    | nil => exact absurd rfl hne
    | cons x t => exact fun h => List.noConfusion h
  obtain ⟨hl, _, tail, harr⟩ :=
    readString_line previous.string hs hc (word ++ ws ++ rest) more hline hne2
  have harr2 : (readString (clearString previous.string) (word ++ ws ++ rest ++ 10 :: more)).1.array =
      word ++ (ws ++ (rest ++ 0 :: 0 :: tail)) := by
    rw [harr]
    simp only [List.append_assoc, List.singleton_append]
  have hstop : ∀ x, (ws ++ (rest ++ 0 :: 0 :: tail)).head? = some x →
      (x != 0 && !isspace x) = false := by
    intro x hx
    cases ws with
    | nil =>
      rcases hsep with h | h
      · exact absurd rfl h
      · rw [h] at hx
        simp only [List.nil_append, List.head?_cons, Option.some.injEq] at hx
        rw [← hx]
        rfl
    | cons y t =>
      simp only [List.cons_append, List.head?_cons, Option.some.injEq] at hx
      rw [← hx, (hws y (List.mem_cons_self _ _)).1]
      simp only [Bool.not_true, Bool.and_false]
  have hstop2 : ∀ x, (rest ++ 0 :: 0 :: tail).head? = some x → isspace x = false := by
    intro x hx
    cases rest with
    | nil =>
      simp only [List.nil_append, List.head?_cons, Option.some.injEq] at hx
      rw [← hx]
      rfl
    | cons y t =>
      simp only [List.cons_append, List.head?_cons, Option.some.injEq] at hx
      rw [← hx]
      exact hhead y rfl
  have hcur : currentArgument
      { string := (readString (clearString previous.string)
          (word ++ ws ++ rest ++ 10 :: more)).1, currentIndex := 0 } = word := by
    unfold currentArgument
    dsimp only
    rw [harr2, List.drop_zero]
    apply takeWhile_append_stop _ _ _ _ hstop
    intro x hx
    simp [(hword x hx).1, (hword x hx).2]
  have hskip : skipWhitespace
      { string := (readString (clearString previous.string)
          (word ++ ws ++ rest ++ 10 :: more)).1, currentIndex := 0 } =
      word.length + ws.length := by
    unfold skipWhitespace
    rw [hcur]
    dsimp only
    rw [harr2, Nat.zero_add, List.drop_left,
      takeWhile_append_stop isspace ws _ (fun x hx => (hws x hx).1) hstop2]
  refine ⟨{ string := (readString (clearString previous.string)
      (word ++ ws ++ rest ++ 10 :: more)).1, currentIndex := 0 + (word.length + ws.length) },
    ?_, word ++ ws, tail, ?_, ?_, ?_⟩
  · unfold getCommandInput getStringArgument IS_ANY_INPUT_REMAINING
    dsimp only
    rw [hcur, hskip, hl]
    have h1 : (word ++ ws ++ rest ++ [0]).length + 1 > 0 := by omega
    have h2 : 0 + 1 < (word ++ ws ++ rest ++ [0]).length + 1 := by
      rw [List.length_append, List.length_singleton]
      omega
    simp only [h1, h2, if_true, decide_True, gt_iff_lt, Nat.lt_add_one]
    rw [List.take_of_length_le (by omega)]
    rfl
  · dsimp only
    rw [harr2]
    simp only [List.append_assoc]
  · have h1 : (word ++ ws).length = word.length + ws.length := List.length_append _ _
    dsimp only
    omega
  · have h1 : (word ++ ws ++ rest ++ [0]).length = (word ++ ws).length + rest.length + 1 := by
      simp only [List.length_append, List.length_singleton]
    dsimp only
    omega

/-- The facts shared by the three one-character argument readers on an input that holds a
character, whitespace and further characters. -/
theorem remaining_character (input : SudokuCommandInput) (X : Nat) (ws rest : List Nat)
    (h : Remaining input (X :: (ws ++ rest)))
    (hws : ∀ ch ∈ ws, isspace ch = true)
    (hhead : ∀ x, rest.head? = some x → isspace x = false) :
    input.string.length > 0 ∧ IS_ANY_INPUT_REMAINING input = true ∧
      GET_CHAR_FROM_INPUT_STRING input 0 = X ∧
      skipWhitespaceAfterCharacter input = 1 + ws.length ∧
      Remaining { input with currentIndex := input.currentIndex + (1 + ws.length) } rest := by
  obtain ⟨before, tail, harr, hcur, hlen⟩ := h
  have hstop : ∀ x, (rest ++ 0 :: 0 :: tail).head? = some x → isspace x = false := by
    intro x hx
    cases rest with
    | nil =>
      simp only [List.nil_append, List.head?_cons, Option.some.injEq] at hx
      rw [← hx]
      rfl
    | cons y t =>
      simp only [List.cons_append, List.head?_cons, Option.some.injEq] at hx
      rw [← hx]
      exact hhead y rfl
  have harr2 : input.string.array = (before ++ [X]) ++ (ws ++ (rest ++ 0 :: 0 :: tail)) := by
    rw [harr]
    simp only [List.append_assoc, List.cons_append, List.nil_append]
  have hlen1 : (before ++ [X]).length = 1 + input.currentIndex := by
    rw [List.length_append, List.length_singleton, hcur]
    omega
  refine ⟨by omega, ?_, ?_, ?_, before ++ [X] ++ ws, tail, ?_, ?_, ?_⟩
  · unfold IS_ANY_INPUT_REMAINING
    rw [decide_eq_true_eq, hlen, ← hcur]
    simp only [List.length_cons]
    omega
  · unfold GET_CHAR_FROM_INPUT_STRING
    rw [harr, Nat.zero_add, ← hcur]
    exact getD_length_append before X _ 0
  · unfold skipWhitespaceAfterCharacter
    rw [harr2, ← hlen1, List.drop_left, takeWhile_append_stop isspace ws _ hws hstop]
  · dsimp only
    rw [harr2]
    simp only [List.append_assoc]
  · have e1 : (before ++ [X] ++ ws).length = before.length + 1 + ws.length := by
      simp only [List.length_append, List.length_singleton]
    show (before ++ [X] ++ ws).length = input.currentIndex + (1 + ws.length)
    omega
  · have e1 : (before ++ [X] ++ ws).length = before.length + 1 + ws.length := by
      simp only [List.length_append, List.length_singleton]
    have e2 : (X :: (ws ++ rest)).length = ws.length + rest.length + 1 := by
      simp only [List.length_cons, List.length_append]
    show input.string.length = (before ++ [X] ++ ws).length + rest.length + 2
    omega

theorem toSizeT_small (x : Int) (h : -128 ≤ x ∧ x < 128) :
    (toSizeT x < 9 ↔ 0 ≤ x ∧ x < 9) ∧ (0 ≤ x → toSizeT x = x.toNat) := by
  unfold toSizeT
  have h64 : (2 : Int) ^ 64 = 18446744073709551616 := by norm_num
  rw [h64]
  constructor
  · omega
  · intro h0
    omega

theorem column_valid_iff (L : Nat) (hL : L < 128) :
    validateColIndex (toSizeT ((toupper L : Int) - 65)) = true ↔
      (65 ≤ L ∧ L ≤ 73) ∨ (97 ≤ L ∧ L ≤ 105) := by
  unfold validateColIndex
  rw [decide_eq_true_eq]
  have hu : toupper L = if 97 ≤ L ∧ L ≤ 122 then L - 32 else L := rfl
  have hs := (toSizeT_small ((toupper L : Int) - 65) (by rw [hu]; split <;> omega)).1
  rw [hs, hu]
  split <;> omega

theorem column_index (L : Nat) (hL : (65 ≤ L ∧ L ≤ 73) ∨ (97 ≤ L ∧ L ≤ 105)) :
    toSizeT ((toupper L : Int) - 65) = toupper L - 65 := by
  have hu : toupper L = if 97 ≤ L ∧ L ≤ 122 then L - 32 else L := rfl
  have hs := (toSizeT_small ((toupper L : Int) - 65) (by rw [hu]; split <;> omega)).2
    (by rw [hu]; split <;> omega)
  rw [hs]
  omega

theorem row_valid_iff (R : Nat) (hR : R < 128) :
    validateRowIndex (toSizeT ((R : Int) - 48 - 1)) = true ↔ 49 ≤ R ∧ R ≤ 57 := by
  unfold validateRowIndex
  rw [decide_eq_true_eq, (toSizeT_small ((R : Int) - 48 - 1) (by omega)).1]
  omega

theorem row_index (R : Nat) (hR : 49 ≤ R ∧ R ≤ 57) :
    toSizeT ((R : Int) - 48 - 1) = R - 49 := by
  rw [(toSizeT_small ((R : Int) - 48 - 1) (by omega)).2 (by omega)]
  omega

theorem digit_valid_iff (D : Nat) :
    validateSudokuDigit ((D : Int) - 48) = true ↔ 48 ≤ D ∧ D ≤ 57 := by
  rw [validateSudokuDigit_iff]
  omega

/-- What a one-character argument reader finds, in the terms of `commandChangeOnInput`. -/
theorem getColumnArgument_eq (input : SudokuCommandInput) (X : Nat) (ws rest : List Nat)
    (h : Remaining input (X :: (ws ++ rest))) (hws : ∀ ch ∈ ws, isspace ch = true)
    (hhead : ∀ x, rest.head? = some x → isspace x = false) :
    getColumnArgument input =
      Except.ok (validateColIndex (toSizeT ((toupper X : Int) - 65)), (toupper X : Int) - 65,
        { input with currentIndex := input.currentIndex + (1 + ws.length) }) := by
  obtain ⟨hlen, hany, hget, hskip, _⟩ := remaining_character input X ws rest h hws hhead
  unfold getColumnArgument
  rw [if_pos hlen, hany, if_pos rfl, hget, hskip]

theorem getRowArgument_eq (input : SudokuCommandInput) (X : Nat) (ws rest : List Nat)
    (h : Remaining input (X :: (ws ++ rest))) (hws : ∀ ch ∈ ws, isspace ch = true)
    (hhead : ∀ x, rest.head? = some x → isspace x = false) :
    getRowArgument input =
      Except.ok (validateRowIndex (toSizeT ((X : Int) - 48 - 1)), (X : Int) - 48 - 1,
        { input with currentIndex := input.currentIndex + (1 + ws.length) }) := by
  obtain ⟨hlen, hany, hget, hskip, _⟩ := remaining_character input X ws rest h hws hhead
  unfold getRowArgument
  rw [if_pos hlen, hany, if_pos rfl, hget, hskip]

theorem getSudokuDigitArgument_eq (input : SudokuCommandInput) (X : Nat) (ws rest : List Nat)
    (h : Remaining input (X :: (ws ++ rest))) (hws : ∀ ch ∈ ws, isspace ch = true)
    (hhead : ∀ x, rest.head? = some x → isspace x = false) :
    getSudokuDigitArgument input =
      Except.ok (validateSudokuDigit ((X : Int) - 48), (X : Int) - 48,
        { input with currentIndex := input.currentIndex + (1 + ws.length) }) := by
  obtain ⟨hlen, hany, hget, hskip, _⟩ := remaining_character input X ws rest h hws hhead
  unfold getSudokuDigitArgument
  rw [if_pos hlen, hany, if_pos rfl, hget, hskip]

/-- C32. For an input line `change L R D` read by `getCommand` into an input string in proper
state, with whitespace after the command name and any whitespace (possibly none) between
the ASCII characters `L`, `R` and `D`: if `L` is a letter of A..I or a..i, `R` a character
of 1..9 and `D` a character of 0..9, `commandChange` succeeds and sets the square in row
`R - '1'` and column `toupper(L) - 'A'` to `D - '0'`, every other square staying as it was;
otherwise it returns the usage status and leaves board and history as they were. -/
theorem C32_change_line_sets_square (previous : SudokuCommandInput) (board : SudokuBoard)
    (history : HistoryStruct) (ws1 ws2 ws3 : List Nat) (L R D : Nat) (more : List Nat)
    (prompted : Int × Int × Int)
    (hs : previous.string.array.length = previous.string.capacity)
    (hc : 0 < previous.string.capacity) (hh : board.history = some history)
    (hws1 : ws1 ≠ []) (hws : ∀ ch ∈ ws1 ++ ws2 ++ ws3, isspace ch = true ∧ ch ≠ 10)
    (hL : isspace L = false ∧ L < 128) (hR : isspace R = false ∧ R < 128)
    (hD : isspace D = false ∧ D < 128) :
    ∃ input,
      getCommandInput previous
          (changeWord ++ ws1 ++ (L :: (ws2 ++ (R :: (ws3 ++ [D])))) ++ 10 :: more) =
        Except.ok (changeWord, input) ∧
      (((65 ≤ L ∧ L ≤ 73) ∨ (97 ≤ L ∧ L ≤ 105)) ∧ (49 ≤ R ∧ R ≤ 57) ∧ (48 ≤ D ∧ D ≤ 57) →
        ∃ after rest,
          commandChangeOnInput board input prompted =
            Except.ok (after, rest, SudokuCommandResult.SUDOKU_COMMAND_SUCCESS) ∧
          after.contents =
            setContents board.contents (R - 49) (toupper L - 65) ((D : Int) - 48)) ∧
      (¬ (((65 ≤ L ∧ L ≤ 73) ∨ (97 ≤ L ∧ L ≤ 105)) ∧ (49 ≤ R ∧ R ≤ 57) ∧
          (48 ≤ D ∧ D ≤ 57)) →
        ∃ rest,
          commandChangeOnInput board input prompted =
            Except.ok (board, rest, SudokuCommandResult.SUDOKU_COMMAND_USAGE)) := by
  have hw1 : ∀ ch ∈ ws1, isspace ch = true ∧ ch ≠ 10 := fun ch h =>
    hws ch (List.mem_append_left _ (List.mem_append_left _ h))
  have hw2 : ∀ ch ∈ ws2, isspace ch = true ∧ ch ≠ 10 := fun ch h =>
    hws ch (List.mem_append_left _ (List.mem_append_right _ h))
  have hw3 : ∀ ch ∈ ws3, isspace ch = true ∧ ch ≠ 10 := fun ch h =>
    hws ch (List.mem_append_right _ h)
  have hnl : ∀ x, isspace x = false → x ≠ 10 := by
    intro x hx h10
    rw [h10] at hx
    exact Bool.noConfusion hx
  have hrest : ∀ ch ∈ L :: (ws2 ++ (R :: (ws3 ++ [D]))), ch ≠ 10 := by
    intro ch hch
    simp only [List.mem_cons, List.mem_append, List.mem_singleton, List.not_mem_nil,
      or_false] at hch
    rcases hch with h | h | h | h | h
    · rw [h]; exact hnl L hL.1
    · exact (hw2 ch h).2
    · rw [h]; exact hnl R hR.1
    · exact (hw3 ch h).2
    · rw [h]; exact hnl D hD.1
  obtain ⟨input, hinput, hrem⟩ :=
    getCommandInput_line previous changeWord ws1 (L :: (ws2 ++ (R :: (ws3 ++ [D])))) more hs hc
      (by decide) (by decide) (by decide) hw1 hrest
      (fun x hx => by
        simp only [List.head?_cons, Option.some.injEq] at hx
        rw [← hx]
        exact hL.1)
      (Or.inl hws1)
  have hheadR : ∀ x, (R :: (ws3 ++ [D])).head? = some x → isspace x = false := by
    intro x hx
    simp only [List.head?_cons, Option.some.injEq] at hx
    rw [← hx]
    exact hR.1
  have hheadD : ∀ x, [D].head? = some x → isspace x = false := by
    intro x hx
    simp only [List.head?_cons, Option.some.injEq] at hx
    rw [← hx]
    exact hD.1
  have hheadNil : ∀ x, ([] : List Nat).head? = some x → isspace x = false :=
    fun x hx => Option.noConfusion hx
  have hany := (remaining_character input L ws2 _ hrem (fun ch h => (hw2 ch h).1) hheadR).2.1
  obtain ⟨input1, hcolumn, hrem1⟩ : ∃ input1,
      getColumnArgument input =
        Except.ok (validateColIndex (toSizeT ((toupper L : Int) - 65)),
          (toupper L : Int) - 65, input1) ∧
      Remaining input1 (R :: (ws3 ++ [D])) :=
    ⟨_, getColumnArgument_eq input L ws2 _ hrem (fun ch h => (hw2 ch h).1) hheadR,
      (remaining_character input L ws2 _ hrem (fun ch h => (hw2 ch h).1) hheadR).2.2.2.2⟩
  obtain ⟨input2, hrow, hrem2⟩ : ∃ input2,
      getRowArgument input1 =
        Except.ok (validateRowIndex (toSizeT ((R : Int) - 48 - 1)), (R : Int) - 48 - 1, input2) ∧
      Remaining input2 [D] :=
    ⟨_, getRowArgument_eq input1 R ws3 [D] hrem1 (fun ch h => (hw3 ch h).1) hheadD,
      (remaining_character input1 R ws3 [D] hrem1 (fun ch h => (hw3 ch h).1) hheadD).2.2.2.2⟩
  obtain ⟨input3, hdigit⟩ : ∃ input3,
      getSudokuDigitArgument input2 =
        Except.ok (validateSudokuDigit ((D : Int) - 48), (D : Int) - 48, input3) :=
    ⟨_, getSudokuDigitArgument_eq input2 D [] [] hrem2
      (fun ch h => absurd h (List.not_mem_nil ch)) hheadNil⟩
  refine ⟨input, hinput, fun hvalid => ?_, fun hinvalid => ?_⟩
  · obtain ⟨hvL, hvR, hvD⟩ := hvalid
    have hc1 := (column_valid_iff L hL.2).mpr hvL
    have hc2 := (row_valid_iff R hR.2).mpr hvR
    have hc3 := (digit_valid_iff D).mpr hvD
    obtain ⟨after, hchange, hcontents⟩ : ∃ after,
        commandChange board ((toupper L : Int) - 65) ((R : Int) - 48 - 1) ((D : Int) - 48) =
          Except.ok (after, SudokuCommandResult.SUDOKU_COMMAND_SUCCESS) ∧
        after.contents =
          setContents board.contents (R - 49) (toupper L - 65) ((D : Int) - 48) := by
      obtain ⟨capacity, hchange, _, _⟩ :=
        commandChange_ok board history _ _ _ hh hc1 hc2 hc3
      refine ⟨_, hchange, ?_⟩
      dsimp only
      rw [column_index L hvL, row_index R hvR]
    refine ⟨after, input3, ?_, hcontents⟩
    unfold commandChangeOnInput
    rw [hany, if_pos rfl, hcolumn, hc1]
    dsimp only
    rw [hrow, hc2]
    dsimp only
    rw [hdigit, hc3]
    dsimp only
    rw [hchange]
  · unfold commandChangeOnInput
    rw [hany, if_pos rfl, hcolumn]
    cases hc1 : validateColIndex (toSizeT ((toupper L : Int) - 65)) with
    | false => exact ⟨_, rfl⟩
    | true =>
      dsimp only
      rw [hrow]
      cases hc2 : validateRowIndex (toSizeT ((R : Int) - 48 - 1)) with
      | false => exact ⟨_, rfl⟩
      | true =>
        dsimp only
        rw [hdigit]
        cases hc3 : validateSudokuDigit ((D : Int) - 48) with
        | false => exact ⟨_, rfl⟩
        | true =>
          exact absurd ⟨(column_valid_iff L hL.2).mp hc1, (row_valid_iff R hR.2).mp hc2,
            (digit_valid_iff D).mp hc3⟩ hinvalid

/-- The claim C32 at the line `change a 1 5` (single blanks), read into the input of the
program start, on `exampleBoard`. -/
theorem C32_change_line_sets_square_witness :
    ∃ input,
      getCommandInput initialInput
          (changeWord ++ [32] ++ (97 :: ([32] ++ (49 :: ([32] ++ [53])))) ++ 10 :: []) =
        Except.ok (changeWord, input) ∧
      (((65 ≤ 97 ∧ 97 ≤ 73) ∨ (97 ≤ 97 ∧ 97 ≤ 105)) ∧ (49 ≤ 49 ∧ 49 ≤ 57) ∧
          (48 ≤ 53 ∧ 53 ≤ 57) →
        ∃ after rest,
          commandChangeOnInput exampleBoard input (0, 0, 0) =
            Except.ok (after, rest, SudokuCommandResult.SUDOKU_COMMAND_SUCCESS) ∧
          after.contents =
            setContents exampleBoard.contents (49 - 49) (toupper 97 - 65) (((53 : Nat) : Int) - 48)) ∧
      (¬ (((65 ≤ 97 ∧ 97 ≤ 73) ∨ (97 ≤ 97 ∧ 97 ≤ 105)) ∧ (49 ≤ 49 ∧ 49 ≤ 57) ∧
          (48 ≤ 53 ∧ 53 ≤ 57)) →
        ∃ rest,
          commandChangeOnInput exampleBoard input (0, 0, 0) =
            Except.ok (exampleBoard, rest, SudokuCommandResult.SUDOKU_COMMAND_USAGE)) :=
  C32_change_line_sets_square initialInput exampleBoard exampleHistory [32] [32] [32] 97 49 53
    [] (0, 0, 0) rfl (by decide) rfl (by decide) (by decide) (by decide) (by decide) (by decide)

end CDoku
